import Mathlib

/-!
Verification of the state-and-retrieval substrate of the interactive-fiction
engine: JSON documents and delta pairs (`fast-json-patch` `compare` /
`applyPatch`, as used by `WorldState`, `MemoryBank` and `StoryTree`), the
branching story tree, the memory bank and plot-card retrieval services, the
local vector store's top-K query, and the game engine's undo stack.

Documents are modelled as ordered JSON trees (`Json`): object fields keep JS
insertion order, arrays may contain `undef` entries modelling JS sparse-array
holes, numbers are rationals.  Fallible operations return `Except`.
-/

set_option maxHeartbeats 1000000

namespace NotDungeon

/-- JSON-like document values.  `obj` fields are in JS insertion order;
`undef` models a JavaScript hole / `undefined` array entry (it never occurs
as an object field value in the documents we consider). -/
inductive Json where
  | null : Json
  | bool : Bool → Json
  | num : ℚ → Json
  | str : String → Json
  | arr : List Json → Json
  | obj : List (String × Json) → Json
  | undef : Json
  deriving Repr

mutual
/-- Boolean structural equality on `Json` (JS deep value equality). -/
def jbeq : Json → Json → Bool
  | .null, .null => true
  | .bool a, .bool b => a == b
  | .num a, .num b => a == b
  | .str a, .str b => a == b
  | .arr xs, .arr ys => jbeqList xs ys
  | .obj fs, .obj gs => jbeqFields fs gs
  | .undef, .undef => true
  | _, _ => false

def jbeqList : List Json → List Json → Bool
  | [], [] => true
  | x :: xs, y :: ys => jbeq x y && jbeqList xs ys
  | _, _ => false

def jbeqFields : List (String × Json) → List (String × Json) → Bool
  | [], [] => true
  | (k, v) :: fs, (l, w) :: gs => k == l && jbeq v w && jbeqFields fs gs
  | _, _ => false
end

mutual
theorem jbeq_refl (x : Json) : jbeq x x = true := by
  cases x <;> simp [jbeq]
  case arr xs => exact jbeqList_refl xs
  case obj fs => exact jbeqFields_refl fs

theorem jbeqList_refl (xs : List Json) : jbeqList xs xs = true := by
  cases xs with
  | nil => simp [jbeqList]
  | cons x xs => simp [jbeqList]; exact ⟨jbeq_refl x, jbeqList_refl xs⟩

theorem jbeqFields_refl (fs : List (String × Json)) : jbeqFields fs fs = true := by
  cases fs with
  | nil => simp [jbeqFields]
  | cons f fs =>
    simp [jbeqFields]
    exact ⟨jbeq_refl f.2, jbeqFields_refl fs⟩
end

mutual
theorem jbeq_eq : ∀ {x y : Json}, jbeq x y = true → x = y
  | .null, .null, _ => rfl
  | .bool _, .bool _, h => by simp [jbeq] at h; simp [h]
  | .num _, .num _, h => by simp [jbeq] at h; simp [h]
  | .str _, .str _, h => by simp [jbeq] at h; simp [h]
  | .arr xs, .arr ys, h => by
    simp [jbeq] at h
    have := @jbeqList_eq xs ys h
    simp [this]
  | .obj fs, .obj gs, h => by
    simp [jbeq] at h
    have := @jbeqFields_eq fs gs h
    simp [this]
  | .undef, .undef, _ => rfl

theorem jbeqList_eq : ∀ {xs ys : List Json}, jbeqList xs ys = true → xs = ys
  | [], [], _ => rfl
  | x :: xs, y :: ys, h => by
    simp [jbeqList] at h
    have h1 := jbeq_eq h.1
    have h2 := jbeqList_eq h.2
    simp [h1, h2]

theorem jbeqFields_eq : ∀ {fs gs : List (String × Json)}, jbeqFields fs gs = true → fs = gs
  | [], [], _ => rfl
  | (k, v) :: fs, (l, w) :: gs, h => by
    simp [jbeqFields] at h
    obtain ⟨⟨hk, hv⟩, hrest⟩ := h
    have h1 := jbeq_eq hv
    have h2 := jbeqFields_eq hrest
    simp [hk, h1, h2]
end

instance : BEq Json := ⟨jbeq⟩

instance : LawfulBEq Json where
  eq_of_beq h := jbeq_eq h
  rfl := jbeq_refl _

instance : DecidableEq Json := fun x y =>
  if h : jbeq x y = true then .isTrue (jbeq_eq h)
  else .isFalse (fun hxy => h (hxy ▸ jbeq_refl x))

/-- A JSON-pointer path component.  `fast-json-patch` paths are strings; we
keep object-field components and array-index components apart (the `compare`
diff emits field components at objects and index components at arrays, and
JavaScript's `a[k]` conflates `k` and `String(k)` which `asField` mirrors). -/
inductive Key where
  | fld : String → Key
  | idx : Nat → Key
  deriving Repr, DecidableEq

/-- The field name a key denotes when applied to a JS object. -/
def Key.asField : Key → String
  | .fld s => s
  | .idx n => toString n

/-- The array index a key denotes when applied to a JS array
(non-numeric field keys are rejected, as `fast-json-patch` validation does). -/
def Key.asIndex : Key → Option Nat
  | .idx n => some n
  | .fld s => s.toNat?

/-- A JSON-patch operation as emitted by `fast-json-patch`'s `compare`
(`compare` emits only `add`, `remove` and `replace`). -/
inductive Op where
  | add : List Key → Json → Op
  | remove : List Key → Op
  | replace : List Key → Json → Op
  deriving Repr, DecidableEq

namespace JsonOps

/-- Ordered-object field lookup (first occurrence, as JS property access —
JS objects cannot hold duplicate keys). -/
def getField : List (String × Json) → String → Option Json
  | [], _ => none
  | f :: fs, k => if f.1 = k then some f.2 else getField fs k

/-- JS `obj[k] = v`: replace the existing field in place, else append. -/
def setField : List (String × Json) → String → Json → List (String × Json)
  | [], k, v => [(k, v)]
  | f :: fs, k, v =>
    if f.1 = k then (f.1, v) :: fs else f :: setField fs k v

/-- JS `delete obj[k]`: remove the field, keeping the order of the rest. -/
def removeField : List (String × Json) → String → List (String × Json)
  | [], _ => []
  | f :: fs, k => if f.1 = k then fs else f :: removeField fs k

/-- List element replacement (in-bounds only). -/
def setAt (xs : List Json) (i : Nat) (v : Json) : List Json :=
  xs.set i v

/-- JS `Array.prototype.splice(i, 0, v)`: insert before index `i`. -/
def insertAt (xs : List Json) (i : Nat) (v : Json) : List Json :=
  xs.take i ++ v :: xs.drop i

/-- JS `Array.prototype.splice(i, 1)`: delete the element at index `i`. -/
def removeAt (xs : List Json) (i : Nat) : List Json :=
  xs.take i ++ xs.drop (i + 1)

end JsonOps

open JsonOps

/-- The leaf action of a JSON-patch operation (its own path is ignored;
kind and value matter). -/
inductive OpKind where
  | addK : Json → OpKind
  | removeK : OpKind
  | replaceK : Json → OpKind
  deriving Repr, DecidableEq

def Op.kind : Op → OpKind
  | .add _ v => .addK v
  | .remove _ => .removeK
  | .replace _ v => .replaceK v

def Op.path : Op → List Key
  | .add p _ => p
  | .remove p => p
  | .replace p _ => p

/-- Walk a path and perform the op kind at the leaf, with
`fast-json-patch`'s strict validation (`applyPatch(doc, ops, true, false)`):
unresolvable paths, missing `remove`/`replace` targets and out-of-bounds
array `add`s fail. -/
def applyAt : Json → List Key → OpKind → Except String Json
  | _, [], .addK v => .ok v
  | _, [], .replaceK v => .ok v
  | _, [], .removeK => .ok .null  -- fast-json-patch: root remove nulls the document
  | .obj fs, [k], kind =>
    let name := k.asField
    match kind with
    | .addK v => .ok (.obj (setField fs name v))
    | .removeK =>
      match getField fs name with
      | some _ => .ok (.obj (removeField fs name))
      | none => .error "OPERATION_PATH_UNRESOLVABLE"
    | .replaceK v =>
      match getField fs name with
      | some _ => .ok (.obj (setField fs name v))
      | none => .error "OPERATION_PATH_UNRESOLVABLE"
  | .arr xs, [k], kind =>
    match k.asIndex with
    | none => .error "OPERATION_PATH_ILLEGAL_ARRAY_INDEX"
    | some i =>
      match kind with
      | .addK v =>
        if i ≤ xs.length then .ok (.arr (insertAt xs i v))
        else .error "OPERATION_VALUE_OUT_OF_BOUNDS"
      | .removeK =>
        if i < xs.length then
          if xs.getD i .undef = .undef then .error "OPERATION_PATH_UNRESOLVABLE"
          else .ok (.arr (removeAt xs i))
        else .error "OPERATION_PATH_UNRESOLVABLE"
      | .replaceK v =>
        if i < xs.length then
          if xs.getD i .undef = .undef then .error "OPERATION_PATH_UNRESOLVABLE"
          else .ok (.arr (setAt xs i v))
        else .error "OPERATION_PATH_UNRESOLVABLE"
  | .obj fs, k :: k' :: rest, kind =>
    let name := k.asField
    match getField fs name with
    | none => .error "OPERATION_PATH_UNRESOLVABLE"
    | some child =>
      match applyAt child (k' :: rest) kind with
      | .ok child' => .ok (.obj (setField fs name child'))
      | .error e => .error e
  | .arr xs, k :: k' :: rest, kind =>
    match k.asIndex with
    | none => .error "OPERATION_PATH_ILLEGAL_ARRAY_INDEX"
    | some i =>
      if i < xs.length then
        if xs.getD i .undef = .undef then .error "OPERATION_PATH_UNRESOLVABLE"
        else
          match applyAt (xs.getD i .undef) (k' :: rest) kind with
          | .ok child' => .ok (.arr (setAt xs i child'))
          | .error e => .error e
      else .error "OPERATION_PATH_UNRESOLVABLE"
  | _, _ :: _, _ => .error "OPERATION_PATH_UNRESOLVABLE"

theorem applyAt_nil_add (doc v : Json) :
    applyAt doc [] (.addK v) = .ok v := by cases doc <;> rfl

theorem applyAt_nil_replace (doc v : Json) :
    applyAt doc [] (.replaceK v) = .ok v := by cases doc <;> rfl

theorem applyAt_nil_remove (doc : Json) :
    applyAt doc [] .removeK = .ok .null := by cases doc <;> rfl

theorem applyAt_obj_one (fs : List (String × Json)) (k : Key) (kind : OpKind) :
    applyAt (.obj fs) [k] kind =
      (match kind with
       | .addK v => .ok (.obj (setField fs k.asField v))
       | .removeK =>
         match getField fs k.asField with
         | some _ => .ok (.obj (removeField fs k.asField))
         | none => .error "OPERATION_PATH_UNRESOLVABLE"
       | .replaceK v =>
         match getField fs k.asField with
         | some _ => .ok (.obj (setField fs k.asField v))
         | none => .error "OPERATION_PATH_UNRESOLVABLE") := rfl

theorem applyAt_arr_one (xs : List Json) (k : Key) (kind : OpKind) :
    applyAt (.arr xs) [k] kind =
      (match k.asIndex with
       | none => .error "OPERATION_PATH_ILLEGAL_ARRAY_INDEX"
       | some i =>
         match kind with
         | .addK v =>
           if i ≤ xs.length then .ok (.arr (insertAt xs i v))
           else .error "OPERATION_VALUE_OUT_OF_BOUNDS"
         | .removeK =>
           if i < xs.length then
             if xs.getD i .undef = .undef then
               .error "OPERATION_PATH_UNRESOLVABLE"
             else .ok (.arr (removeAt xs i))
           else .error "OPERATION_PATH_UNRESOLVABLE"
         | .replaceK v =>
           if i < xs.length then
             if xs.getD i .undef = .undef then
               .error "OPERATION_PATH_UNRESOLVABLE"
             else .ok (.arr (setAt xs i v))
           else .error "OPERATION_PATH_UNRESOLVABLE") := rfl

theorem applyAt_obj_cons (fs : List (String × Json)) (k k' : Key)
    (rest : List Key) (kind : OpKind) :
    applyAt (.obj fs) (k :: k' :: rest) kind =
      (match getField fs k.asField with
       | none => .error "OPERATION_PATH_UNRESOLVABLE"
       | some child =>
         match applyAt child (k' :: rest) kind with
         | .ok child' => .ok (.obj (setField fs k.asField child'))
         | .error e => .error e) := rfl

theorem applyAt_arr_cons (xs : List Json) (k k' : Key)
    (rest : List Key) (kind : OpKind) :
    applyAt (.arr xs) (k :: k' :: rest) kind =
      (match k.asIndex with
       | none => .error "OPERATION_PATH_ILLEGAL_ARRAY_INDEX"
       | some i =>
         if i < xs.length then
           if xs.getD i .undef = .undef then
             .error "OPERATION_PATH_UNRESOLVABLE"
           else
             match applyAt (xs.getD i .undef) (k' :: rest) kind with
             | .ok child' => .ok (.arr (setAt xs i child'))
             | .error e => .error e
         else .error "OPERATION_PATH_UNRESOLVABLE") := rfl

/-- Apply a single JSON-patch operation. -/
def applyOp (doc : Json) (op : Op) : Except String Json :=
  applyAt doc op.path op.kind

/-- Apply an operation sequence left to right, stopping at the first error
(`fast-json-patch` throws out of `applyPatch`). -/
def applyOps (doc : Json) (ops : List Op) : Except String Json :=
  match ops with
  | [] => .ok doc
  | op :: rest =>
    match applyOp doc op with
    | .ok doc' => applyOps doc' rest
    | .error e => .error e

/-- JS `Object.keys` membership for an array element: holes are skipped. -/
def definedAt (xs : List Json) (i : Nat) : Bool :=
  match xs.get? i with
  | some v => v != Json.undef
  | none => false

mutual
/-- Nesting depth of a document (a computable fuel bound for the
structurally-fuelled recursions below). -/
def jdepth : Json → Nat
  | .arr xs => 1 + jdepthL xs
  | .obj fs => 1 + jdepthF fs
  | _ => 1

def jdepthL : List Json → Nat
  | [] => 0
  | x :: xs => max (jdepth x) (jdepthL xs)

def jdepthF : List (String × Json) → Nat
  | [] => 0
  | f :: fs => max (jdepth f.2) (jdepthF fs)
end

/-- `fast-json-patch`'s `_deepClone` (`JSON.parse(JSON.stringify(v))`) with
structural fuel: array holes / `undefined` entries serialize as `null`.
The fuel only needs to dominate the nesting depth. -/
def jcloneF : Nat → Json → Json
  | 0, j => j
  | fuel + 1, j =>
    match j with
    | .arr xs => .arr (xs.map fun x => jcloneF fuel x)
    | .obj fs => .obj (fs.map fun f => (f.1, jcloneF fuel f.2))
    | .undef => .null
    | x => x

/-- `_deepClone` at sufficient fuel. -/
def jclone (j : Json) : Json := jcloneF (jdepth j) j

/-- Second `_generate` loop over object fields: `add` for keys of `obj`
absent from `mirror`, in `obj`'s key order. -/
def genFieldAdds (path : List Key) (gs fs : List (String × Json)) : List Op :=
  (gs.filter (fun g => ¬ (getField fs g.1).isSome)).map
    (fun g => .add (path ++ [.fld g.1]) (jclone g.2))

/-- Second `_generate` loop over array indices: `add` for defined indices of
`obj` that are not own keys of `mirror`, ascending. -/
def genArrAdds (path : List Key) (ys : List Json) (xlen : Nat) : List Op :=
  ((List.range ys.length).filter
      (fun i => decide (xlen ≤ i) && definedAt ys i)).map
    (fun i => .add (path ++ [.idx i]) (jclone (ys.getD i .undef)))

/-- `fast-json-patch` `compare(mirror, obj)` recursion (`_generate`),
with structural fuel dominating the nesting depth: walk `mirror`'s own keys
in reverse order emitting `remove`/`replace`/recursive ops, then walk
`obj`'s keys in forward order emitting `add` ops for new keys.  Values
placed in ops are deep-cloned through JSON serialization.  For two objects
the first loop recurses at keys shared with `obj` and removes the rest; for
two arrays the own keys are the non-hole indices, walked descending.  Any
other combination replaces the value unless it is (strictly) equal. -/
def genValF : Nat → List Key → Json → Json → List Op
  | 0, _, _, _ => []
  | fuel + 1, path, x, y =>
    match x, y with
    | .obj fs, .obj gs =>
      (fs.reverse.flatMap (fun f =>
        match getField gs f.1 with
        | some w => genValF fuel (path ++ [.fld f.1]) f.2 w
        | none => [.remove (path ++ [.fld f.1])]))
      ++ genFieldAdds path gs fs
    | .arr xs, .arr ys =>
      ((List.range xs.length).reverse.flatMap (fun n =>
        if definedAt xs n then
          if definedAt ys n then
            genValF fuel (path ++ [.idx n]) (xs.getD n .undef) (ys.getD n .undef)
          else [.remove (path ++ [.idx n])]
        else []))
      ++ genArrAdds path ys xs.length
    | x, y => if x = y then [] else [.replace path (jclone y)]

/-- `_generate` at sufficient fuel. -/
def genVal (path : List Key) (x y : Json) : List Op :=
  genValF (jdepth x + jdepth y) path x y

/-- `fast-json-patch` `compare(a, b)`: an operation sequence transforming
`a` into `b` (up to object-key insertion order). -/
def compare (a b : Json) : List Op := genVal [] a b

/-- Delta pair as produced by the `_createDeltaPair` helpers:
`apply = compare(old, new)`, `revert = compare(new, old)`. -/
structure DeltaPair where
  apply : List Op
  revert : List Op
  deriving Repr, DecidableEq

/-- Build the delta pair of a committed mutation `old → new`. -/
def mkDeltaPair (old new : Json) : DeltaPair :=
  ⟨compare old new, compare new old⟩

/-! ## WorldState (`src/lib/models/world_state.ts`) -/

/-- The `WorldState` private fields: `state` (a JSON tree) and `plots`
(a JS array of plot objects). -/
structure WS where
  state : Json
  plots : List Json
  deriving Repr, DecidableEq

/-- The full document `{ state, plots }` that `_createDeltaPair` and
`applyDelta` operate on. -/
def WS.doc (w : WS) : Json :=
  .obj [("state", w.state), ("plots", .arr w.plots)]

/-- JS truthiness (NaN is not modelled; tool-call values are JSON). -/
def truthy : Json → Bool
  | .null => false
  | .undef => false
  | .bool b => b
  | .num q => q != 0
  | .str s => s != ""
  | .arr _ => true
  | .obj _ => true

/-- JS property read `j[k]` (absent property reads as `undefined`). -/
def jsGet (j : Json) (k : String) : Json :=
  match j with
  | .obj fs => (getField fs k).getD .undef
  | .arr xs =>
    match k.toNat? with
    | some i => xs.getD i .undef
    | none => .undef
  | _ => (.undef)

/-- JS property write `j[k] = v`.  Object fields upsert in place; numeric
array indices set in-bounds or extend with holes.  `none` models the cases
the embedding does not represent: a write to a primitive's property (a
strict-mode `TypeError` in the source) and a string-keyed write on an
array. -/
def jsSet (j : Json) (k : String) (v : Json) : Option Json :=
  match j with
  | .obj fs => some (.obj (setField fs k v))
  | .arr xs =>
    match k.toNat? with
    | some i =>
      if i < xs.length then some (.arr (xs.set i v))
      else some (.arr (xs ++ List.replicate (i - xs.length) .undef ++ [v]))
    | none => none
  | _ => none

/-- JS `String.prototype.split` with a single-character separator
(kernel-reducible model of `path.split("/")`). -/
def splitGo (sep : Char) : List Char → List Char → List String
  | [], acc => [String.mk acc.reverse]
  | c :: rest, acc =>
    if c = sep then String.mk acc.reverse :: splitGo sep rest []
    else splitGo sep rest (c :: acc)

def splitChar (sep : Char) (s : String) : List String :=
  splitGo sep s.toList []

/-- The `deepSet` walk: `current = current[keys[i]] = current[keys[i]] || {}`
for the intermediate keys, then `current[last] = value`. -/
def dsGo (j : Json) (v : Json) : List String → Option Json
  | [] => some j
  | [k] => jsSet j k v
  | k :: rest =>
    let child := jsGet j k
    let child' := if truthy child then child else .obj []
    match dsGo child' v rest with
    | some c' => jsSet j k c'
    | none => none

/-- `WorldState.deepSet(path, value)`: mutate a draft of the document and
return the committed state together with the recorded delta pair. -/
def wsDeepSet (w : WS) (path : String) (v : Json) : Option (WS × DeltaPair) :=
  match dsGo w.state v (splitChar '/' path) with
  | some s' =>
    let w' : WS := ⟨s', w.plots⟩
    some (w', mkDeltaPair w.doc w'.doc)
  | none => none

/-- `WorldState.patchState(partialState)`.  The source calls
`deepMerge(draft.state, partialState)` and discards the result; `deepMerge`
in `src/lib/util/objects.ts` builds a fresh merged object and never mutates
its `target` argument, so the draft is left unchanged and `compare` emits no
operations. -/
def wsPatchState (w : WS) : WS × DeltaPair :=
  (w, mkDeltaPair w.doc w.doc)

/-- `WorldState.addPlot(newPlot)` with the generated uuid and creation date
supplied as arguments: pushes `{...newPlot, id, created_at}` onto `plots`
(the `Date` is modelled by its JSON serialization, a string). -/
def wsAddPlot (w : WS) (newPlot : List (String × Json)) (id dateStr : String) :
    WS × DeltaPair :=
  let plot : Json :=
    .obj (setField (setField newPlot "id" (.str id)) "created_at" (.str dateStr))
  let w' : WS := ⟨w.state, w.plots ++ [plot]⟩
  (w', mkDeltaPair w.doc w'.doc)

/-- `p.id === plotId` on a plot object. -/
def plotIdIs (p : Json) (pid : String) : Bool :=
  match p with
  | .obj fs => getField fs "id" == some (.str pid)
  | _ => false

/-- `Object.assign(target, updates)` over JSON objects. -/
def objAssign (target : Json) (updates : List (String × Json)) : Json :=
  match target with
  | .obj fs => .obj (updates.foldl (fun acc u => setField acc u.1 u.2) fs)
  | t => t

/-- `WorldState.updatePlot(plotId, updates)`: `none` when no plot matches
(the mutator reports failure and no delta is produced). -/
def wsUpdatePlot (w : WS) (pid : String) (updates : List (String × Json)) :
    Option (WS × DeltaPair) :=
  match w.plots.findIdx? (fun p => plotIdIs p pid) with
  | none => none
  | some i =>
    let plots' := w.plots.set i (objAssign (w.plots.getD i .null) updates)
    let w' : WS := ⟨w.state, plots'⟩
    some (w', mkDeltaPair w.doc w'.doc)

/-- `WorldState.removePlot(plotId)`: filters `plots`; `none` when nothing
was removed. -/
def wsRemovePlot (w : WS) (pid : String) : Option (WS × DeltaPair) :=
  let plots' := w.plots.filter (fun p => ¬ plotIdIs p pid)
  if plots'.length < w.plots.length then
    let w' : WS := ⟨w.state, plots'⟩
    some (w', mkDeltaPair w.doc w'.doc)
  else none

/-- Duplicate-free key list. -/
def nodupKeys : List String → Bool
  | [] => true
  | k :: rest => !rest.contains k && nodupKeys rest

mutual
/-- Well-formed document: every object has duplicate-free keys. -/
def wfJ : Json → Bool
  | .arr xs => wfL xs
  | .obj fs => nodupKeys (fs.map (fun f => f.1)) && wfF fs
  | _ => true

def wfL : List Json → Bool
  | [] => true
  | x :: xs => wfJ x && wfL xs

def wfF : List (String × Json) → Bool
  | [] => true
  | f :: fs => wfJ f.2 && wfF fs
end

mutual
/-- No `undefined` / array holes anywhere in the document. -/
def noU : Json → Bool
  | .undef => false
  | .arr xs => noUL xs
  | .obj fs => noUF fs
  | _ => true

def noUL : List Json → Bool
  | [] => true
  | x :: xs => noU x && noUL xs

def noUF : List (String × Json) → Bool
  | [] => true
  | f :: fs => noU f.2 && noUF fs
end

/-- Every key of `gs` occurs in `fs`. -/
def jeqKeys (gs fs : List (String × Json)) : Bool :=
  gs.all (fun g => (getField fs g.1).isSome)

instance {ε α} [DecidableEq ε] [DecidableEq α] : DecidableEq (Except ε α) :=
  fun x y =>
  match x, y with
  | .ok a, .ok b =>
    if h : a = b then .isTrue (by rw [h])
    else .isFalse (by intro hh; cases hh; exact h rfl)
  | .error a, .error b =>
    if h : a = b then .isTrue (by rw [h])
    else .isFalse (by intro hh; cases hh; exact h rfl)
  | .ok _, .error _ => .isFalse (by intro hh; cases hh)
  | .error _, .ok _ => .isFalse (by intro hh; cases hh)

/-- A `WorldState` mutator invocation (C2's "successful mutator call"),
with the non-deterministic inputs (uuid, date) as arguments. -/
inductive WSCall where
  | deepSet (path : String) (v : Json)
  | patchState
  | addPlot (newPlot : List (String × Json)) (id dateStr : String)
  | updatePlot (pid : String) (updates : List (String × Json))
  | removePlot (pid : String)
  deriving Repr, DecidableEq

/-- Dispatch a mutator call; `none` models the mutators that report
failure (and the unrepresentable `TypeError` writes in `deepSet`). -/
def runWSCall (w : WS) : WSCall → Option (WS × DeltaPair)
  | .deepSet path v => wsDeepSet w path v
  | .patchState => some (wsPatchState w)
  | .addPlot newPlot id dateStr => some (wsAddPlot w newPlot id dateStr)
  | .updatePlot pid updates => wsUpdatePlot w pid updates
  | .removePlot pid => wsRemovePlot w pid

/-- Well-formedness of the JSON arguments a tool call hands a mutator:
no duplicate keys in any object literal. -/
def WSCall.argsWf : WSCall → Bool
  | .deepSet _ v => wfJ v
  | .patchState => true
  | .addPlot newPlot _ _ =>
    nodupKeys (newPlot.map (fun f => f.1)) && wfF newPlot
  | .updatePlot _ updates => wfF updates
  | .removePlot _ => true

/-! ## StoryTree (`src/lib/models/story_tree.ts`) -/

/-- The fields of a `StoryNode` relevant to the tree structure
(`turn`/`deltas` payloads are never read by `addNode`/`deleteBranch`). -/
structure SNode where
  id : String
  parentId : Option String
  childrenIds : List String
  deriving Repr, DecidableEq

/-- `StoryTreeState`: the `nodes` JS `Map` as an insertion-ordered
association list with unique keys, plus `rootNodeId`. -/
structure TreeState where
  nodes : List (String × SNode)
  rootNodeId : Option String
  deriving Repr, DecidableEq

/-- `Map.prototype.get`. -/
def mget : List (String × SNode) → String → Option SNode
  | [], _ => none
  | p :: ps, k => if p.1 = k then some p.2 else mget ps k

/-- `Map.prototype.set`: replace in place, else append. -/
def mset : List (String × SNode) → String → SNode → List (String × SNode)
  | [], k, v => [(k, v)]
  | p :: ps, k, v => if p.1 = k then (k, v) :: ps else p :: mset ps k v

/-- `Map.prototype.delete`. -/
def mdel : List (String × SNode) → String → List (String × SNode)
  | [], _ => []
  | p :: ps, k => if p.1 = k then ps else p :: mdel ps k

/-- JS truthiness of an optional string (`undefined` and `""` are falsy). -/
def optTruthy : Option String → Bool
  | none => false
  | some s => s != ""

/-- The `if (node.parentId)` block of `addNode`: push the fresh id onto
the parent's `childrenIds` when the parent resolves and does not already
list it. -/
def addChildLink (nodes : List (String × SNode)) (node : SNode) :
    List (String × SNode) :=
  match node.parentId with
  | some pid =>
    match mget nodes pid with
    | some parent =>
      if parent.childrenIds.contains node.id then nodes
      else mset nodes pid
        ⟨parent.id, parent.parentId, parent.childrenIds ++ [node.id]⟩
    | none => nodes
  | none => nodes

/-- `StoryTree.addNode`'s mutator on the draft state: `none` when it
returns `false` (adding a second root).  Mirrors the source order: root
guard, root assignment, `nodes.set`, then the parent's `childrenIds` push
guarded by `includes`. -/
def treeAddNode (t : TreeState) (node : SNode) : Option TreeState :=
  if ¬ optTruthy node.parentId ∧ optTruthy t.rootNodeId then none
  else
    let root' := if ¬ optTruthy node.parentId ∧ ¬ optTruthy t.rootNodeId
      then some node.id else t.rootNodeId
    let nodes₁ := mset t.nodes node.id node
    let nodes₂ :=
      if optTruthy node.parentId then addChildLink nodes₁ node else nodes₁
    some ⟨nodes₂, root'⟩

/-- Size measure of the node map: one per entry plus its `childrenIds`
length (an upper bound on the deletion loop's iterations). -/
def mapW : List (String × SNode) → Nat
  | [] => 0
  | p :: ps => 1 + p.2.childrenIds.length + mapW ps

/-- `deleteBranch`'s `while (stack.length > 0)` loop, fuelled.  The JS
array stack pops from the end and `push(...children)` appends in order, so
with the top at the head a push is `childrenIds.reverse ++ rest`.  Deleted
nodes are accumulated in deletion order. -/
def delLoop : Nat → List (String × SNode) → List String → List SNode →
    List (String × SNode) × List SNode
  | 0, nodes, _, acc => (nodes, acc)
  | _ + 1, nodes, [], acc => (nodes, acc)
  | fuel + 1, nodes, cur :: rest, acc =>
    match mget nodes cur with
    | some n =>
      delLoop fuel (mdel nodes cur) (n.childrenIds.reverse ++ rest)
        (acc ++ [n])
    | none => delLoop fuel nodes rest acc

/-- The parent-detach step of `deleteBranch`: remove `nid` from its
parent's `childrenIds` (skipped when the `parentId` is falsy or does not
resolve). -/
def detachFromParent (nodes : List (String × SNode)) (node : SNode)
    (nid : String) : List (String × SNode) :=
  match node.parentId with
  | some pid =>
    if pid != "" then
      match mget nodes pid with
      | some parent =>
        mset nodes pid
          ⟨parent.id, parent.parentId,
           parent.childrenIds.filter (fun i => i != nid)⟩
      | none => nodes
    else nodes
  | none => nodes

/-- `StoryTree.deleteBranch`: guard (missing node or root), detach from
the parent's `childrenIds`, then the stack deletion loop; returns the
deleted nodes (reversed, as the source does) and the new state. -/
def treeDeleteBranch (t : TreeState) (nid : String) :
    Option (List SNode × TreeState) :=
  match mget t.nodes nid with
  | none => none
  | some node =>
    if t.rootNodeId == some node.id then none
    else
      let nodes₀ := detachFromParent t.nodes node nid
      let r := delLoop (mapW nodes₀ + 1) nodes₀ [nid] []
      some (r.2.reverse, ⟨r.1, t.rootNodeId⟩)

/-- Invariant (b)+(d'): a `childrenIds` entry resolves to a live node
whose `parentId` is the listing node's key. -/
def childOk (nodes : List (String × SNode)) (pk : String) (c : String) :
    Bool :=
  match mget nodes c with
  | some n => n.parentId == some pk
  | none => false

def invKeys (nodes : List (String × SNode)) : Bool :=
  nodupKeys (nodes.map (fun p => p.1))

def invIds (nodes : List (String × SNode)) : Bool :=
  nodes.all (fun p => p.2.id == p.1)

def invChildren (nodes : List (String × SNode)) : Bool :=
  nodes.all (fun p =>
    nodupKeys p.2.childrenIds &&
    p.2.childrenIds.all (fun c => childOk nodes p.1 c))

/-- No id is listed in two different nodes' `childrenIds`. -/
def invDisjoint (nodes : List (String × SNode)) : Bool :=
  nodes.all (fun p => nodes.all (fun q =>
    p.1 == q.1 ||
    p.2.childrenIds.all (fun c => ¬ q.2.childrenIds.contains c)))

/-- A live node with a live parent is listed in that parent's
`childrenIds`. -/
def invParentListed (nodes : List (String × SNode)) : Bool :=
  nodes.all (fun p =>
    match p.2.parentId with
    | some pid =>
      if pid == "" then true
      else
        match mget nodes pid with
        | some parent => parent.childrenIds.contains p.1
        | none => true
    | none => true)

/-- Invariant (c): every live node's truthy `parentId` resolves. -/
def invParentLive (nodes : List (String × SNode)) : Bool :=
  nodes.all (fun p =>
    match p.2.parentId with
    | some pid => pid == "" || (mget nodes pid).isSome
    | none => true)

/-- No node is keyed by the empty string (ids are uuids; a falsy id would
make `deleteBranch` skip the parent detach). -/
def invNoEmptyKey (nodes : List (String × SNode)) : Bool :=
  nodes.all (fun p => p.1 != "")

/-- The consistency invariant of a story tree. -/
def treeInv (t : TreeState) : Bool :=
  invKeys t.nodes && invIds t.nodes && invChildren t.nodes &&
  invDisjoint t.nodes && invParentListed t.nodes && invParentLive t.nodes &&
  invNoEmptyKey t.nodes

/-- Preconditions under which `addNode` preserves the invariant: fresh id,
no pre-seeded children, and a resolvable (or absent/falsy) parent. -/
def addNodePre (t : TreeState) (node : SNode) : Bool :=
  (mget t.nodes node.id).isNone &&
  node.childrenIds.isEmpty &&
  node.id != "" &&
  (match node.parentId with
   | some pid => pid == "" || (mget t.nodes pid).isSome
   | none => true)

/-- A tree operation of the kinds C5 quantifies over. -/
inductive TreeCall where
  | add (node : SNode)
  | del (nid : String)
  deriving Repr, DecidableEq

def runTreeCall (t : TreeState) : TreeCall → Option TreeState
  | .add node => treeAddNode t node
  | .del nid => (treeDeleteBranch t nid).map (fun r => r.2)

def TreeCall.pre (t : TreeState) : TreeCall → Bool
  | .add node => addNodePre t node
  | .del _ => true

/-- A sequence of tree operations; a call the source rejects (`addNode`
returning `false`, `deleteBranch` returning `null`) leaves the state
unchanged, as `produce` publishes an unmodified draft. -/
def runTreeSeq : TreeState → List TreeCall → TreeState
  | t, [] => t
  | t, c :: cs =>
    match runTreeCall t c with
    | some u => runTreeSeq u cs
    | none => runTreeSeq t cs

/-- The state after one call: a call the source rejects leaves the state
unchanged. -/
def stepTreeCall (t : TreeState) (c : TreeCall) : TreeState :=
  match runTreeCall t c with
  | some u => u
  | none => t

/-- Each call's precondition holds at the state actually reached when the
call executes. -/
def seqPreOk : TreeState → List TreeCall → Bool
  | _, [] => true
  | t, c :: cs => TreeCall.pre t c && seqPreOk (stepTreeCall t c) cs

/-! ## Vector store: binary bit packing (`packBits`, `serializeVector`) -/

/-- The bit sources `packBits` accepts: `boolean[]`, `number[]` (0/1),
`Uint8Array`, or `ArrayBuffer` (both byte sequences). -/
inductive BitInput where
  | bools (bs : List Bool)
  | nums (ns : List Int)
  | bytes (u8 : List Nat)
  | buffer (u8 : List Nat)
  deriving Repr, DecidableEq

/-- `out[j] |= v` on a JS array of bytes. -/
def orAt (out : List Nat) (j : Nat) (v : Nat) : List Nat :=
  out.set j ((out.getD j 0) ||| v)

/-- The packing loop of `packBits`:
`out[i/8] |= (input[i] ? 1 : 0) << (i % 8)`. -/
def packBitsGo : List Bool → Nat → List Nat → List Nat
  | [], _, out => out
  | b :: rest, i, out =>
    packBitsGo rest (i + 1)
      (orAt out (i / 8) ((if b then 1 else 0) <<< (i % 8)))

/-- `packBits`: `Uint8Array`/`ArrayBuffer` inputs pass through as bytes;
array inputs are packed LSB-first into `ceil(len/8)` bytes. -/
def packBits : BitInput → List Nat
  | .bytes u8 => u8
  | .buffer u8 => u8
  | .bools bs => packBitsGo bs 0 (List.replicate ((bs.length + 7) / 8) 0)
  | .nums ns =>
    packBitsGo (ns.map (fun x => x != 0)) 0
      (List.replicate ((ns.length + 7) / 8) 0)

/-- The error taxonomy entry raised by the binary `serializeVector` path
(`binary vector too short`, `DimensionMismatch` in the spec's taxonomy). -/
inductive VecErr where
  | dimensionMismatch
  deriving Repr, DecidableEq

/-- The `format === "binary"` path of `serializeVector`: pack, then fail
when the packed buffer holds fewer than `dimension` bits. -/
def serializeVectorBinary (dimension : Nat) (input : BitInput) :
    Except VecErr (List Nat) :=
  let packed := packBits input
  if packed.length * 8 < dimension then .error .dimensionMismatch
  else .ok packed

/-! ## MemoryBank.removeMemory / PlotCardManager.removePlotCard:
mirror-vs-store id sets under failure injection.  A `Bool` flag injects
the backend `delete`/`insert` throwing; a thrown delete leaves the
backend id set unchanged. -/

/-- Id sets of the vector store and of the in-memory mirror of
`MemoryBank`. -/
structure MBState where
  store : List Nat
  mirror : List Nat
  deriving Repr, DecidableEq

/-- `MemoryBank.removeMemory`: cache-existence check, then the DB delete
FIRST (a failure returns `null` with nothing mutated), then the mirror
filter.  Returns (non-null result?, new state). -/
def mbRemoveMemory (st : MBState) (id : Nat) (dbFail : Bool) :
    Bool × MBState :=
  if st.mirror.contains id then
    if dbFail then (false, st)
    else (true, ⟨st.store.filter (fun x => x != id),
                 st.mirror.filter (fun x => x != id)⟩)
  else (false, st)

/-- `MemoryBank.addMemory`: DB insert first (a throw propagates with the
mirror untouched), then the mirror push with the id the store assigned. -/
def mbAddMemory (st : MBState) (newId : Nat) (insertFail : Bool) :
    Option MBState :=
  if insertFail then none
  else some ⟨st.store ++ [newId], st.mirror ++ [newId]⟩

/-- Id sets of the backend and of the in-memory mirror of
`PlotCardManager`. -/
structure PCState where
  store : List Nat
  mirror : List Nat
  deriving Repr, DecidableEq

/-- `PlotCardManager.removePlotCard`: the mirror is filtered FIRST,
unconditionally; only when the length dropped is the backend delete
issued, and a throw returns `false` with the mirror already filtered. -/
def pcRemovePlotCard (st : PCState) (id : Nat) (dbFail : Bool) :
    Bool × PCState :=
  let mirror2 := st.mirror.filter (fun c => c != id)
  if mirror2.length < st.mirror.length then
    if dbFail then (false, ⟨st.store, mirror2⟩)
    else (true, ⟨st.store.filter (fun c => c != id), mirror2⟩)
  else (false, ⟨st.store, mirror2⟩)

/-! ## MemoryBank.search: hit stamping, recency blend, ranking -/

/-- The in-memory `Memory` mirror entry, reduced to the fields `search`
ranks by: `id` and `last_accessed_at_turn`. -/
structure Mem where
  id : Nat
  last : Nat
  deriving Repr, DecidableEq

/-- `this.memories.find(m => m.id === result.id)` followed by the
in-place `mem.last_accessed_at_turn = currentTurn`: stamp the first
entry with the given id, if any. -/
def stampFirst : List Mem → Nat → Nat → List Mem
  | [], _, _ => []
  | m :: ms, h, turn =>
    if m.id = h then ⟨m.id, turn⟩ :: ms
    else m :: stampFirst ms h turn

/-- Step 3 of `search`: stamp every semantic hit found in the mirror. -/
def stampHits (mirror : List Mem) (hits : List Nat) (turn : Nat) :
    List Mem :=
  hits.foldl (fun acc h => stampFirst acc h turn) mirror

def msetM : List (Nat × Mem) → Nat → Mem → List (Nat × Mem)
  | [], k, v => [(k, v)]
  | p :: ps, k, v => if p.1 = k then (k, v) :: ps else p :: msetM ps k v

/-- `finalMemoryMap.set(m.id, m)` over a list, in order (a JS `Map`
keeps first-insertion order and overwrites in place). -/
def mapUnion (acc : List (Nat × Mem)) (ms : List Mem) :
    List (Nat × Mem) :=
  ms.foldl (fun a m => msetM a m.id m) acc

/-- The comparator `(a, b) => b.last_accessed_at_turn -
a.last_accessed_at_turn` as a sort key: descending by `last`. -/
def memLe (a b : Mem) : Bool := decide (b.last ≤ a.last)

/-- Step 4 of `search`: the up-to-5 most recently accessed mirror
entries not already retrieved by the vector query. -/
def mbRecent (mirror : List Mem) (hits : List Nat) (turn : Nat) :
    List Mem :=
  (((stampHits mirror hits turn).filter
    (fun m => !((hits.filter
      (fun h => (mirror.map (fun m2 => m2.id)).contains h)).contains
        m.id))).mergeSort memLe).take 5

/-- Steps 5–6 of `search`: map union of the hit copies and the recency
picks, sorted by `last_accessed_at_turn` descending, truncated to
`limit`. -/
def mbCombine (hits : List Nat) (turn : Nat) (recent : List Mem)
    (limit : Nat) : List Mem :=
  (((mapUnion (mapUnion [] (hits.map (fun h => (⟨h, turn⟩ : Mem))))
    recent).map (fun p => p.2)).mergeSort memLe).take limit

/-- `MemoryBank.search` over the mirror, with the vector query abstracted
as an oracle `queryFn : k ↦ hit ids` (the store is asked for
`k = limit * 2` cosine neighbors).  Returns `(k used, result, mirror
after the call)`.  Hits found in the mirror are stamped and copied; hits
missing from the mirror are rebuilt from DB meta with
`last_accessed_at_turn = currentTurn` — either way the copied entry is
`⟨id, turn⟩` in this projection. -/
def mbSearch (queryFn : Nat → List Nat) (mirror : List Mem)
    (turn limit : Nat) : Nat × List Mem × List Mem :=
  let hits := queryFn (limit * 2)
  (limit * 2, mbCombine hits turn (mbRecent mirror hits turn) limit,
   stampHits mirror hits turn)

/-! ## PlotCardManager.search: trigger keywords and the 2.0 sentinel -/

/-- `dot(a, b)`: sum of pairwise products (equal-length vectors), exact
over ℚ. -/
def dotQ : List ℚ → List ℚ → ℚ
  | a :: as, b :: bs => a * b + dotQ as bs
  | _, _ => 0

/-- A plot card, reduced to the fields `search` branches on. -/
structure PCard where
  id : Nat
  trigger : Option String
  deriving Repr, DecidableEq

def isPrefixC : List Char → List Char → Bool
  | [], _ => true
  | _ :: _, [] => false
  | a :: as, b :: bs => (a == b) && isPrefixC as bs

def isInfixC : List Char → List Char → Bool
  | needle, [] => needle.isEmpty
  | needle, c :: rest => isPrefixC needle (c :: rest) || isInfixC needle rest

/-- `s.toLowerCase()` on the character sequence. -/
def lowerC (cs : List Char) : List Char := cs.map Char.toLower

/-- JS `hay.toLowerCase().includes(needle.toLowerCase())`: contiguous
case-insensitive substring test. -/
def jsIncludes (hay needle : String) : Bool :=
  isInfixC (lowerC needle.data) (lowerC hay.data)

/-- `card.triggerKeyword && lowerCaseQuery.includes(card.triggerKeyword
.toLowerCase())`: the keyword is truthy and a case-insensitive substring
of the query. -/
def triggered (q : String) (c : PCard) : Bool :=
  match c.trigger with
  | some kw => (kw != "") && jsIncludes q kw
  | none => false

def trigOf (cards : List PCard) (q : String) : List PCard :=
  cards.filter (fun c => triggered q c)

def trigIds (cards : List PCard) (q : String) : List Nat :=
  (trigOf cards q).map (fun c => c.id)

/-- `Map.set` keyed by card id with a score value. -/
def msetQ : List (Nat × ℚ) → Nat → ℚ → List (Nat × ℚ)
  | [], k, v => [(k, v)]
  | p :: ps, k, v => if p.1 = k then (k, v) :: ps else p :: msetQ ps k v

/-- Step 1+sentinel of `search`: each triggered card enters the result
map with the sentinel score `2.0`. -/
def pcMap0 (cards : List PCard) (q : String) : List (Nat × ℚ) :=
  (trigOf cards q).foldl (fun a c => msetQ a c.id 2) []

/-- Vector results (id, cosine score) are added unless the id is already
present. -/
def pcMap1 (cards : List PCard) (q : String) (vres : List (Nat × ℚ)) :
    List (Nat × ℚ) :=
  vres.foldl (fun a r =>
    if (a.map (fun p => p.1)).contains r.1 then a else msetQ a r.1 r.2)
    (pcMap0 cards q)

/-- The comparator `(a, b) => b.score - a.score`: descending score. -/
def qle (x y : Nat × ℚ) : Bool := decide (y.2 ≤ x.2)

def pcSorted (cards : List PCard) (q : String) (vres : List (Nat × ℚ)) :
    List (Nat × ℚ) :=
  (pcMap1 cards q vres).mergeSort qle

/-- `PlotCardManager.search` (vectordb/index.ts flavor) with the vector
query's output abstracted as `vres`; returns the ids of the returned
cards, best first. -/
def pcSearch (cards : List PCard) (q : String) (vres : List (Nat × ℚ))
    (limit : Nat) : List Nat :=
  ((pcSorted cards q vres).take limit).map (fun p => p.1)

/-! ## WorldState.getState/getPlots: `deepCopy` as fresh heap allocation.
JS aliasing is modelled by an address-indexed heap of document cells;
`deepCopy` allocates every copied node at a fresh address, so an
in-place mutation of any copy cell cannot change what the internal root
decodes to. -/

/-- A heap cell: a JSON node whose children are heap addresses. -/
inductive HCell where
  | num (q : ℚ)
  | str (s : String)
  | boolv (b : Bool)
  | nullv
  | arr (elems : List Nat)
  | obj (fields : List (String × Nat))
  deriving Repr, DecidableEq

def hget : List (Nat × HCell) → Nat → Option HCell
  | [], _ => none
  | p :: ps, a => if p.1 = a then some p.2 else hget ps a

/-- In-place mutation of the cell at an address. -/
def hset (l : List (Nat × HCell)) (a : Nat) (c : HCell) :
    List (Nat × HCell) :=
  l.map (fun p => if p.1 = a then (p.1, c) else p)

/-- Every allocated address is below the allocation counter. -/
def heapWf (mem : List (Nat × HCell)) (next : Nat) : Bool :=
  mem.all (fun p => p.1 < next)

def decodeList (f : List (Nat × HCell) → Nat → Option Json) :
    List (Nat × HCell) → List Nat → Option (List Json)
  | _, [] => some []
  | mem, a :: as =>
    match f mem a, decodeList f mem as with
    | some j, some js => some (j :: js)
    | _, _ => none

def decodeFields (f : List (Nat × HCell) → Nat → Option Json) :
    List (Nat × HCell) → List (String × Nat) →
    Option (List (String × Json))
  | _, [] => some []
  | mem, kv :: fs =>
    match f mem kv.2, decodeFields f mem fs with
    | some j, some gs => some ((kv.1, j) :: gs)
    | _, _ => none

/-- Read the JSON document rooted at an address (fuelled; `none` on a
dangling reference or a graph deeper than the fuel). -/
def decode : Nat → List (Nat × HCell) → Nat → Option Json
  | 0, _, _ => none
  | fuel + 1, mem, a =>
    match hget mem a with
    | none => none
    | some (.num q) => some (Json.num q)
    | some (.str s) => some (Json.str s)
    | some (.boolv b) => some (Json.bool b)
    | some .nullv => some Json.null
    | some (.arr as) =>
      match decodeList (decode fuel) mem as with
      | some js => some (Json.arr js)
      | none => none
    | some (.obj fs) =>
      match decodeFields (decode fuel) mem fs with
      | some gs => some (Json.obj gs)
      | none => none

def copyList (f : List (Nat × HCell) → Nat → Nat →
    Option (List (Nat × HCell) × Nat × Nat)) :
    List (Nat × HCell) → Nat → List Nat →
    Option (List (Nat × HCell) × Nat × List Nat)
  | mem, next, [] => some (mem, next, [])
  | mem, next, a :: as =>
    match f mem next a with
    | some (mem1, next1, r) =>
      match copyList f mem1 next1 as with
      | some (mem2, next2, rs) => some (mem2, next2, r :: rs)
      | none => none
    | none => none

def copyFields (f : List (Nat × HCell) → Nat → Nat →
    Option (List (Nat × HCell) × Nat × Nat)) :
    List (Nat × HCell) → Nat → List (String × Nat) →
    Option (List (Nat × HCell) × Nat × List (String × Nat))
  | mem, next, [] => some (mem, next, [])
  | mem, next, kv :: fs =>
    match f mem next kv.2 with
    | some (mem1, next1, r) =>
      match copyFields f mem1 next1 fs with
      | some (mem2, next2, rs) => some (mem2, next2, (kv.1, r) :: rs)
      | none => none
    | none => none

/-- `deepCopy` on the heap: clone the document rooted at `a`, giving
every copied node a fresh address; returns the new heap, the new
allocation counter and the copy's root. -/
def copyA : Nat → List (Nat × HCell) → Nat → Nat →
    Option (List (Nat × HCell) × Nat × Nat)
  | 0, _, _, _ => none
  | fuel + 1, mem, next, a =>
    match hget mem a with
    | none => none
    | some (.num q) => some (mem ++ [(next, .num q)], next + 1, next)
    | some (.str s) => some (mem ++ [(next, .str s)], next + 1, next)
    | some (.boolv b) => some (mem ++ [(next, .boolv b)], next + 1, next)
    | some .nullv => some (mem ++ [(next, .nullv)], next + 1, next)
    | some (.arr as) =>
      match copyList (copyA fuel) mem next as with
      | some (mem1, next1, rs) =>
        some (mem1 ++ [(next1, .arr rs)], next1 + 1, next1)
      | none => none
    | some (.obj fs) =>
      match copyFields (copyA fuel) mem next fs with
      | some (mem1, next1, rs) =>
        some (mem1 ++ [(next1, .obj rs)], next1 + 1, next1)
      | none => none

/-! ## LocalVectorDB.query: MinHeap top-K over the record scan -/

/-- JS `undefined` read of an out-of-range array index, as a default
entry (never observed on valid heap indices). -/
def dE : Nat × ℚ := (0, 0)

/-- Source swap `[items[i], items[j]] = [items[j], items[i]]`. -/
def hswap (l : List (Nat × ℚ)) (i j : Nat) : List (Nat × ℚ) :=
  (l.set i (l.getD j dE)).set j (l.getD i dE)

/-- The `bubbleUp` loop: while strictly smaller than the parent
(comparator `a.score - b.score < 0`), swap upward. -/
def bubbleUpGo : Nat → List (Nat × ℚ) → Nat → List (Nat × ℚ)
  | 0, items, _ => items
  | fuel + 1, items, idx =>
    if idx = 0 then items
    else
      if (items.getD idx dE).2 < (items.getD ((idx - 1) / 2) dE).2 then
        bubbleUpGo fuel (hswap items idx ((idx - 1) / 2)) ((idx - 1) / 2)
      else items

/-- MinHeap `push`: append, then bubble up from the last slot. -/
def heapPush (items : List (Nat × ℚ)) (e : Nat × ℚ) : List (Nat × ℚ) :=
  bubbleUpGo (items.length + 1) (items ++ [e]) items.length

/-- The `smallest` index after comparing with the left child. -/
def bdS1 (items : List (Nat × ℚ)) (idx : Nat) : Nat :=
  if 2 * idx + 1 < items.length ∧
      (items.getD (2 * idx + 1) dE).2 < (items.getD idx dE).2
  then 2 * idx + 1 else idx

/-- The `smallest` index after also comparing with the right child. -/
def bdTarget (items : List (Nat × ℚ)) (idx : Nat) : Nat :=
  if 2 * idx + 2 < items.length ∧
      (items.getD (2 * idx + 2) dE).2 < (items.getD (bdS1 items idx) dE).2
  then 2 * idx + 2 else bdS1 items idx

/-- The `bubbleDown` loop: swap with the smaller child while one is
strictly smaller. -/
def bubbleDownGo : Nat → List (Nat × ℚ) → Nat → List (Nat × ℚ)
  | 0, items, _ => items
  | fuel + 1, items, idx =>
    if bdTarget items idx = idx then items
    else bubbleDownGo fuel (hswap items idx (bdTarget items idx))
      (bdTarget items idx)

/-- MinHeap `pop`: return the root; move the last element to the root
and bubble down. -/
def heapPop (items : List (Nat × ℚ)) :
    Option (Nat × ℚ) × List (Nat × ℚ) :=
  match items with
  | [] => (none, [])
  | top :: _ =>
    let last := items.getD (items.length - 1) dE
    let items1 := items.dropLast
    if 0 < items1.length then
      (some top, bubbleDownGo items1.length (items1.set 0 last) 0)
    else (some top, items1)

/-- One record of the query scan: push when below capacity, else replace
the root when strictly better, else skip. -/
def queryStep (k : Nat) (heap : List (Nat × ℚ)) (e : Nat × ℚ) :
    List (Nat × ℚ) :=
  if heap.length < k then heapPush heap e
  else if (heap.getD 0 dE).2 < e.2 then heapPush (heapPop heap).2 e
  else heap

/-- The drain loop `while (heap.size() > 0) items.push(heap.pop())`. -/
def drainGo : Nat → List (Nat × ℚ) → List (Nat × ℚ) → List (Nat × ℚ)
  | 0, _, acc => acc
  | fuel + 1, heap, acc =>
    match heapPop heap with
    | (some top, rest) => drainGo fuel rest (acc ++ [top])
    | (none, _) => acc

inductive VDist where
  | cosine
  | euclidean
  deriving Repr, DecidableEq

def sqDistQ : List ℚ → List ℚ → ℚ
  | a :: as, b :: bs => (a - b) * (a - b) + sqDistQ as bs
  | _, _ => 0

/-- Per-record score `distance === "cosine" ? dot(q, v) :
-euclidean(q, v)`.  The euclidean branch is modelled by the negated
squared distance: the source's negated root is its image under the
strictly monotone map, so all comparisons and rankings agree. -/
def scoreOf (dist : VDist) (qv v : List ℚ) : ℚ :=
  match dist with
  | .cosine => dotQ qv v
  | .euclidean => -(sqDistQ qv v)

/-- The cache path of `LocalVectorDB.query`: fold the records through
the capped min-heap, drain ascending, reverse to best-first. -/
def queryCache (dist : VDist) (qv : List ℚ) (k : Nat)
    (recs : List (Nat × List ℚ)) : List (Nat × ℚ) :=
  let entries := recs.map (fun r => (r.1, scoreOf dist qv r.2))
  let heap := entries.foldl (queryStep k) []
  (drainGo heap.length heap []).reverse

/-- The binary min-heap shape invariant on the items array. -/
def heapInvP (l : List (Nat × ℚ)) : Prop :=
  ∀ i, 0 < i → i < l.length →
    (l.getD ((i - 1) / 2) dE).2 ≤ (l.getD i dE).2

/-- Heap-shape invariant everywhere except at the hole `idx`, with the
grandparent bounding the hole's children: the bubble-up loop invariant. -/
def UpInv (l : List (Nat × ℚ)) (idx : Nat) : Prop :=
  (∀ i, 0 < i → i < l.length → i ≠ idx →
    (l.getD ((i - 1) / 2) dE).2 ≤ (l.getD i dE).2) ∧
  (∀ c, 0 < c → c < l.length → (c - 1) / 2 = idx → 0 < idx →
    (l.getD ((idx - 1) / 2) dE).2 ≤ (l.getD c dE).2)

/-- Heap-shape invariant everywhere except on the edges out of `idx`,
with the hole's parent bounding the hole's children: the bubble-down
loop invariant. -/
def DownInv (l : List (Nat × ℚ)) (idx : Nat) : Prop :=
  (∀ i, 0 < i → i < l.length → (i - 1) / 2 ≠ idx →
    (l.getD ((i - 1) / 2) dE).2 ≤ (l.getD i dE).2) ∧
  (∀ c, 0 < c → c < l.length → (c - 1) / 2 = idx → 0 < idx →
    (l.getD ((idx - 1) / 2) dE).2 ≤ (l.getD c dE).2)

/-- JSON equivalence modulo object-key insertion order, with structural
fuel: arrays are compared pointwise, objects must carry the same key sets
with equivalent values. -/
def jeqB : Nat → Json → Json → Bool
  | 0, _, _ => false
  | fuel + 1, x, y =>
    match x, y with
    | .arr xs, .arr ys =>
      xs.length == ys.length &&
      (xs.zip ys).all (fun p => jeqB fuel p.1 p.2)
    | .obj fs, .obj gs =>
      fs.all (fun f =>
        match getField gs f.1 with
        | some w => jeqB fuel f.2 w
        | none => false) &&
      jeqKeys gs fs
    | x, y => x == y

/-- Equivalence at sufficient fuel. -/
def jeq (x y : Json) : Bool := jeqB (jdepth x + jdepth y) x y

/-! ## Support lemmas for the delta round-trip (C2) -/

theorem getField_nil {k : String} :
    getField ([] : List (String × Json)) k = none := rfl

theorem getField_cons {k' : String} {v : Json} {fs : List (String × Json)}
    {k : String} :
    getField ((k', v) :: fs) k = if k' = k then some v else getField fs k := rfl

theorem getField_mem {fs : List (String × Json)} {k : String} {w : Json}
    (h : getField fs k = some w) : (k, w) ∈ fs := by
  induction fs with
  | nil => cases h
  | cons f fs ih =>
    obtain ⟨a, b⟩ := f
    rw [getField_cons] at h
    by_cases hk : a = k
    · simp [hk] at h
      subst hk; subst h
      exact List.mem_cons_self _ _
    · simp [hk] at h
      exact List.mem_cons_of_mem _ (ih h)

theorem getField_append {fs gs : List (String × Json)} {k : String} :
    getField (fs ++ gs) k =
      match getField fs k with
      | some w => some w
      | none => getField gs k := by
  induction fs with
  | nil => simp [getField_nil]
  | cons f fs ih =>
    obtain ⟨k', v⟩ := f
    by_cases h : k' = k <;> simp [getField_cons, h, ih]

theorem getField_isSome_iff {fs : List (String × Json)} {k : String} :
    (getField fs k).isSome = true ↔ k ∈ fs.map (fun f => f.1) := by
  induction fs with
  | nil => simp [getField_nil]
  | cons f fs ih =>
    obtain ⟨k', v⟩ := f
    by_cases h : k' = k <;> simp [getField_cons, h, ih]
    exact fun hh => absurd hh.symm h

theorem getField_eq_none_iff {fs : List (String × Json)} {k : String} :
    getField fs k = none ↔ k ∉ fs.map (fun f => f.1) := by
  rw [← getField_isSome_iff]
  cases getField fs k <;> simp

theorem nodupKeys_cons {k : String} {ks : List String} :
    nodupKeys (k :: ks) = (!ks.contains k && nodupKeys ks) := rfl

theorem nodupKeys_cons_iff {a : String} {ks : List String} :
    nodupKeys (a :: ks) = true ↔ (a ∉ ks ∧ nodupKeys ks = true) := by
  rw [nodupKeys_cons]
  simp [List.elem_iff]

theorem nodupKeys_iff {ks : List String} : nodupKeys ks = true ↔ ks.Nodup := by
  induction ks with
  | nil => simp [nodupKeys]
  | cons k ks ih =>
    rw [nodupKeys_cons_iff]
    simp [ih]

theorem getField_of_mem_nodup {fs : List (String × Json)} {k : String} {v : Json}
    (hnd : nodupKeys (fs.map (fun f => f.1)) = true) (hmem : (k, v) ∈ fs) :
    getField fs k = some v := by
  induction fs with
  | nil => cases hmem
  | cons f fs ih =>
    obtain ⟨k', v'⟩ := f
    rw [List.map_cons, nodupKeys_cons_iff] at hnd
    rcases List.mem_cons.mp hmem with h | h
    · injection h with h1 h2
      subst h1; subst h2
      simp [getField_cons]
    · have hk : k' ≠ k := by
        intro he
        subst he
        exact hnd.1 (List.mem_map.mpr ⟨(k', v), h, rfl⟩)
      simp [getField_cons, hk]
      exact ih hnd.2 h

theorem getField_setField_self {fs : List (String × Json)} {k : String}
    {v : Json} : getField (setField fs k v) k = some v := by
  induction fs with
  | nil => simp [setField, getField_cons]
  | cons f fs ih =>
    by_cases h : f.1 = k
    · simp [setField, h, getField_cons]
    · simp [setField, h]
      rw [show getField (f :: setField fs k v) k
          = if f.1 = k then some f.2 else getField (setField fs k v) k from rfl]
      simp [h, ih]

theorem setField_nil {k : String} {v : Json} :
    setField [] k v = [(k, v)] := rfl

theorem setField_cons {a : String} {b : Json} {fs : List (String × Json)}
    {k : String} {v : Json} :
    setField ((a, b) :: fs) k v =
      if a = k then (a, v) :: fs else (a, b) :: setField fs k v := rfl

theorem removeField_cons {a : String} {b : Json} {fs : List (String × Json)}
    {k : String} :
    removeField ((a, b) :: fs) k =
      if a = k then fs else (a, b) :: removeField fs k := rfl

theorem getField_setField_ne {fs : List (String × Json)} {k k' : String}
    {v : Json} (h : k' ≠ k) :
    getField (setField fs k v) k' = getField fs k' := by
  induction fs with
  | nil =>
    rw [setField_nil, getField_cons, getField_nil]
    have hne : k ≠ k' := fun he => h he.symm
    simp [hne]
  | cons f fs ih =>
    obtain ⟨a, b⟩ := f
    by_cases ha : a = k
    · subst ha
      rw [setField_cons]
      have hne : a ≠ k' := fun he => h he.symm
      simp [getField_cons, hne]
    · rw [setField_cons]
      simp only [if_neg ha]
      rw [getField_cons, getField_cons]
      by_cases ha' : a = k' <;> simp [ha', ih]

theorem keys_setField {fs : List (String × Json)} {k : String} {v : Json} :
    (setField fs k v).map (fun f => f.1) =
      if (getField fs k).isSome then fs.map (fun f => f.1)
      else fs.map (fun f => f.1) ++ [k] := by
  induction fs with
  | nil => simp [setField_nil, getField_nil]
  | cons f fs ih =>
    obtain ⟨a, b⟩ := f
    by_cases h : a = k
    · rw [setField_cons, getField_cons]
      simp [h]
    · rw [setField_cons, getField_cons]
      simp only [if_neg h]
      simp [h, ih]
      by_cases hs : (getField fs k).isSome <;> simp [hs]

theorem setField_same {fs : List (String × Json)} {k : String} {c : Json}
    (hget : getField fs k = some c) : setField fs k c = fs := by
  induction fs with
  | nil => cases hget
  | cons f fs ih =>
    obtain ⟨a, b⟩ := f
    rw [getField_cons] at hget
    by_cases h : a = k
    · simp [h] at hget
      rw [setField_cons]
      simp [h, hget]
    · simp [h] at hget
      rw [setField_cons]
      simp [h, ih hget]

theorem getField_removeField_self {fs : List (String × Json)} {k : String}
    (hnd : nodupKeys (fs.map (fun f => f.1)) = true) :
    getField (removeField fs k) k = none := by
  induction fs with
  | nil => simp [removeField, getField_nil]
  | cons f fs ih =>
    obtain ⟨a, b⟩ := f
    rw [List.map_cons, nodupKeys_cons_iff] at hnd
    by_cases h : a = k
    · subst h
      rw [removeField_cons]
      simp
      rw [getField_eq_none_iff]
      exact hnd.1
    · rw [removeField_cons]
      simp only [if_neg h]
      rw [getField_cons]
      simp [h, ih hnd.2]

theorem getField_removeField_ne {fs : List (String × Json)} {k k' : String}
    (h : k' ≠ k) : getField (removeField fs k) k' = getField fs k' := by
  induction fs with
  | nil => simp [removeField]
  | cons f fs ih =>
    obtain ⟨a, b⟩ := f
    by_cases ha : a = k
    · subst ha
      rw [removeField_cons]
      simp only [if_pos rfl]
      rw [getField_cons]
      have hne : a ≠ k' := fun he => h he.symm
      simp [hne]
    · rw [removeField_cons]
      simp only [if_neg ha]
      rw [getField_cons, getField_cons]
      by_cases ha' : a = k' <;> simp [ha', ih]

theorem keys_removeField {fs : List (String × Json)} {k : String} :
    (removeField fs k).map (fun f => f.1) =
      if (getField fs k).isSome then
        (fs.map (fun f => f.1)).erase k
      else fs.map (fun f => f.1) := by
  induction fs with
  | nil => simp [removeField]
  | cons f fs ih =>
    obtain ⟨a, b⟩ := f
    by_cases h : a = k
    · subst h
      rw [removeField_cons, getField_cons]
      simp [List.erase_cons]
    · rw [removeField_cons, getField_cons]
      simp only [if_neg h]
      simp [h, ih, List.erase_cons]
      by_cases hs : (getField fs k).isSome <;> simp [hs, h]

/-! ## Depth, hole-freeness and well-formedness lemmas -/

theorem jdepth_pos (x : Json) : 1 ≤ jdepth x := by
  cases x <;> simp [jdepth]

theorem jdepth_arr {xs : List Json} : jdepth (.arr xs) = 1 + jdepthL xs := rfl
theorem jdepth_obj {fs : List (String × Json)} :
    jdepth (.obj fs) = 1 + jdepthF fs := rfl

theorem jdepthL_mem {xs : List Json} {x : Json} (h : x ∈ xs) :
    jdepth x ≤ jdepthL xs := by
  induction xs with
  | nil => cases h
  | cons a l ih =>
    rcases List.mem_cons.mp h with h | h
    · subst h; simp [jdepthL]
    · simp [jdepthL]
      exact Or.inr (ih h)

theorem jdepthF_mem {fs : List (String × Json)} {f : String × Json}
    (h : f ∈ fs) : jdepth f.2 ≤ jdepthF fs := by
  induction fs with
  | nil => cases h
  | cons a l ih =>
    rcases List.mem_cons.mp h with h | h
    · subst h; simp [jdepthF]
    · simp [jdepthF]
      exact Or.inr (ih h)

theorem jdepthF_getField {fs : List (String × Json)} {k : String} {w : Json}
    (h : getField fs k = some w) : jdepth w ≤ jdepthF fs :=
  @jdepthF_mem fs (k, w) (getField_mem h)

theorem noU_arr {xs : List Json} : noU (.arr xs) = noUL xs := rfl
theorem noU_obj {fs : List (String × Json)} : noU (.obj fs) = noUF fs := rfl

theorem noUL_mem {xs : List Json} (h : noUL xs = true) {x : Json}
    (hx : x ∈ xs) : noU x = true := by
  induction xs with
  | nil => cases hx
  | cons a l ih =>
    simp [noUL] at h
    rcases List.mem_cons.mp hx with hx | hx
    · subst hx; exact h.1
    · exact ih h.2 hx

theorem noUF_mem {fs : List (String × Json)} (h : noUF fs = true)
    {f : String × Json} (hf : f ∈ fs) : noU f.2 = true := by
  induction fs with
  | nil => cases hf
  | cons a l ih =>
    simp [noUF] at h
    rcases List.mem_cons.mp hf with hf | hf
    · subst hf; exact h.1
    · exact ih h.2 hf

theorem noUF_getField {fs : List (String × Json)} {k : String} {w : Json}
    (h : noUF fs = true) (hg : getField fs k = some w) : noU w = true :=
  noUF_mem h (getField_mem hg)

theorem noUL_iff {xs : List Json} :
    noUL xs = true ↔ ∀ x ∈ xs, noU x = true := by
  induction xs with
  | nil => simp [noUL]
  | cons a l ih => simp [noUL, ih]

theorem noUF_iff {fs : List (String × Json)} :
    noUF fs = true ↔ ∀ f ∈ fs, noU f.2 = true := by
  induction fs with
  | nil => simp [noUF]
  | cons a l ih => simp [noUF, ih]

theorem wfJ_arr {xs : List Json} : wfJ (.arr xs) = wfL xs := rfl
theorem wfJ_obj {fs : List (String × Json)} :
    wfJ (.obj fs) = (nodupKeys (fs.map (fun f => f.1)) && wfF fs) := rfl

theorem wfL_iff {xs : List Json} :
    wfL xs = true ↔ ∀ x ∈ xs, wfJ x = true := by
  induction xs with
  | nil => simp [wfL]
  | cons a l ih => simp [wfL, ih]

theorem wfF_iff {fs : List (String × Json)} :
    wfF fs = true ↔ ∀ f ∈ fs, wfJ f.2 = true := by
  induction fs with
  | nil => simp [wfF]
  | cons a l ih => simp [wfF, ih]

theorem wfF_getField {fs : List (String × Json)} {k : String} {w : Json}
    (h : wfF fs = true) (hg : getField fs k = some w) : wfJ w = true :=
  wfF_iff.mp h _ (getField_mem hg)

theorem map_jcloneF_list {fuel : Nat}
    (ih : ∀ y : Json, jdepth y ≤ fuel → noU y = true → jcloneF fuel y = y) :
    ∀ xs : List Json, jdepthL xs ≤ fuel → noUL xs = true →
      xs.map (fun x => jcloneF fuel x) = xs := by
  intro xs
  induction xs with
  | nil => intro _ _; rfl
  | cons a l ihl =>
    intro hd hn
    simp [jdepthL] at hd
    simp [noUL] at hn
    simp
    exact ⟨ih a hd.1 hn.1, ihl hd.2 hn.2⟩

theorem map_jcloneF_fields {fuel : Nat}
    (ih : ∀ y : Json, jdepth y ≤ fuel → noU y = true → jcloneF fuel y = y) :
    ∀ fs : List (String × Json), jdepthF fs ≤ fuel → noUF fs = true →
      fs.map (fun f => (f.1, jcloneF fuel f.2)) = fs := by
  intro fs
  induction fs with
  | nil => intro _ _; rfl
  | cons a l ihl =>
    intro hd hn
    simp [jdepthF] at hd
    simp [noUF] at hn
    simp
    constructor
    · obtain ⟨k, v⟩ := a
      simp
      exact ih v hd.1 hn.1
    · exact ihl hd.2 hn.2

/-- `_deepClone` is the identity on hole-free documents. -/
theorem jcloneF_noU : ∀ (fuel : Nat) (y : Json), jdepth y ≤ fuel →
    noU y = true → jcloneF fuel y = y := by
  intro fuel
  induction fuel with
  | zero =>
    intro y hd _
    have := jdepth_pos y
    omega
  | succ fuel ih =>
    intro y hd hn
    cases y with
    | arr xs =>
      rw [jdepth_arr] at hd
      rw [noU_arr] at hn
      show Json.arr (xs.map fun x => jcloneF fuel x) = Json.arr xs
      rw [map_jcloneF_list ih xs (by omega) hn]
    | obj fs =>
      rw [jdepth_obj] at hd
      rw [noU_obj] at hn
      show Json.obj (fs.map fun f => (f.1, jcloneF fuel f.2)) = Json.obj fs
      rw [map_jcloneF_fields ih fs (by omega) hn]
    | undef => simp [noU] at hn
    | null => rfl
    | bool b => rfl
    | num q => rfl
    | str s => rfl

theorem jclone_noU {y : Json} (hn : noU y = true) : jclone y = y :=
  jcloneF_noU (jdepth y) y (Nat.le_refl _) hn

/-! ## Operation plumbing: prefixes, safety, preservation -/

/-- Prepend a path prefix to an operation (used to relate `compare`'s
recursive calls at `path ++ [k]` to child-level operations). -/
def Op.prefixWith (p : List Key) : Op → Op
  | .add q v => .add (p ++ q) v
  | .remove q => .remove (p ++ q)
  | .replace q v => .replace (p ++ q) v

theorem Op.path_prefixWith {p : List Key} {op : Op} :
    (op.prefixWith p).path = p ++ op.path := by
  cases op <;> rfl

theorem Op.kind_prefixWith {p : List Key} {op : Op} :
    (op.prefixWith p).kind = op.kind := by
  cases op <;> rfl

theorem Op.prefixWith_append {p q : List Key} {op : Op} :
    op.prefixWith (p ++ q) = (op.prefixWith q).prefixWith p := by
  cases op <;> simp [Op.prefixWith]

theorem Op.prefixWith_nil {op : Op} : op.prefixWith [] = op := by
  cases op <;> simp [Op.prefixWith]

/-- `compare` never emits a root-level `add` or `remove`; such operations
are the only ones a path-prefix framing cannot relocate. -/
def Op.rootSafe : Op → Bool
  | .add [] _ => false
  | .remove [] => false
  | _ => true

/-- The value carried by an operation is hole-free. -/
def Op.valNoU : Op → Bool
  | .add _ v => noU v
  | .replace _ v => noU v
  | .remove _ => true

/-- The value carried by an operation is well-formed. -/
def Op.valWf : Op → Bool
  | .add _ v => wfJ v
  | .replace _ v => wfJ v
  | .remove _ => true

def OpKind.valNoU : OpKind → Bool
  | .addK v => noU v
  | .replaceK v => noU v
  | .removeK => true

def OpKind.valWf : OpKind → Bool
  | .addK v => wfJ v
  | .replaceK v => wfJ v
  | .removeK => true

theorem applyOps_cons {doc : Json} {op : Op} {ops : List Op} :
    applyOps doc (op :: ops) =
      match applyOp doc op with
      | .ok d => applyOps d ops
      | .error e => .error e := rfl

theorem applyOps_append {doc : Json} {l₁ l₂ : List Op} :
    applyOps doc (l₁ ++ l₂) =
      match applyOps doc l₁ with
      | .ok d => applyOps d l₂
      | .error e => .error e := by
  induction l₁ generalizing doc with
  | nil => simp [applyOps]
  | cons op ops ih =>
    rw [List.cons_append, applyOps_cons, applyOps_cons]
    cases h : applyOp doc op with
    | ok d => exact ih
    | error e => rfl

theorem setField_setField {fs : List (String × Json)} {k : String}
    {v w : Json} : setField (setField fs k v) k w = setField fs k w := by
  induction fs with
  | nil => simp [setField_nil, setField_cons]
  | cons f fs ih =>
    obtain ⟨a, b⟩ := f
    by_cases h : a = k
    · simp [setField_cons, h]
    · simp [setField_cons, h, ih]

theorem list_set_eq_of_lookup {xs : List Json} {i : Nat} {c : Json}
    (h : xs.get? i = some c) : xs.set i c = xs := by
  induction xs generalizing i with
  | nil => cases h
  | cons a l ih =>
    cases i with
    | zero => simp at h; simp [h]
    | succ n =>
      simp at h
      simp [List.set]
      exact ih (by simpa using h)

theorem noUF_setField {fs : List (String × Json)} {k : String} {v : Json}
    (h : noUF fs = true) (hv : noU v = true) :
    noUF (setField fs k v) = true := by
  induction fs with
  | nil => simp [setField_nil, noUF, hv]
  | cons f fs ih =>
    obtain ⟨a, b⟩ := f
    simp [noUF] at h
    by_cases ha : a = k
    · simp [setField_cons, ha, noUF, hv, h.2]
    · simp [setField_cons, ha, noUF, h.1, ih h.2]

theorem noUF_removeField {fs : List (String × Json)} {k : String}
    (h : noUF fs = true) : noUF (removeField fs k) = true := by
  induction fs with
  | nil => exact h
  | cons f fs ih =>
    obtain ⟨a, b⟩ := f
    simp [noUF] at h
    by_cases ha : a = k
    · rw [removeField_cons, if_pos ha]
      rw [noUF_iff]
      intro g hg
      exact noUF_mem h.2 hg
    · rw [removeField_cons, if_neg ha]
      simp [noUF, h.1, ih h.2]

theorem noUL_insertAt {xs : List Json} {i : Nat} {v : Json}
    (h : noUL xs = true) (hv : noU v = true) :
    noUL (insertAt xs i v) = true := by
  rw [noUL_iff]
  intro x hx
  unfold insertAt at hx
  rcases List.mem_append.mp hx with hx | hx
  · exact noUL_mem h (List.mem_of_mem_take hx)
  · rcases List.mem_cons.mp hx with hx | hx
    · subst hx; exact hv
    · exact noUL_mem h (List.mem_of_mem_drop hx)

theorem noUL_removeAt {xs : List Json} {i : Nat}
    (h : noUL xs = true) : noUL (removeAt xs i) = true := by
  rw [noUL_iff]
  intro x hx
  unfold removeAt at hx
  rcases List.mem_append.mp hx with hx | hx
  · exact noUL_mem h (List.mem_of_mem_take hx)
  · exact noUL_mem h (List.mem_of_mem_drop hx)

theorem noUL_set {xs : List Json} {i : Nat} {v : Json}
    (h : noUL xs = true) (hv : noU v = true) :
    noUL (xs.set i v) = true := by
  rw [noUL_iff]
  intro x hx
  rcases List.mem_or_eq_of_mem_set hx with hx | hx
  · exact noUL_mem h hx
  · subst hx; exact hv

theorem wfF_setField {fs : List (String × Json)} {k : String} {v : Json}
    (h : wfF fs = true) (hv : wfJ v = true) :
    wfF (setField fs k v) = true := by
  induction fs with
  | nil => simp [setField_nil, wfF, hv]
  | cons f fs ih =>
    obtain ⟨a, b⟩ := f
    simp [wfF] at h
    by_cases ha : a = k
    · simp [setField_cons, ha, wfF, hv, h.2]
    · simp [setField_cons, ha, wfF, h.1, ih h.2]

theorem wfF_removeField {fs : List (String × Json)} {k : String}
    (h : wfF fs = true) : wfF (removeField fs k) = true := by
  induction fs with
  | nil => exact h
  | cons f fs ih =>
    obtain ⟨a, b⟩ := f
    simp [wfF] at h
    by_cases ha : a = k
    · rw [removeField_cons, if_pos ha]
      exact h.2
    · rw [removeField_cons, if_neg ha]
      simp [wfF, h.1, ih h.2]

theorem nodupKeys_setField {fs : List (String × Json)} {k : String} {v : Json}
    (h : nodupKeys (fs.map (fun f => f.1)) = true) :
    nodupKeys ((setField fs k v).map (fun f => f.1)) = true := by
  rw [keys_setField]
  by_cases hs : (getField fs k).isSome
  · simp [hs, h]
  · simp [hs]
    rw [nodupKeys_iff] at h ⊢
    have hk : k ∉ fs.map (fun f => f.1) := by
      rw [← getField_isSome_iff] at *
      simpa using hs
    simp [List.nodup_append, h, hk]

theorem nodupKeys_removeField {fs : List (String × Json)} {k : String}
    (h : nodupKeys (fs.map (fun f => f.1)) = true) :
    nodupKeys ((removeField fs k).map (fun f => f.1)) = true := by
  rw [keys_removeField]
  by_cases hs : (getField fs k).isSome
  · simp [hs]
    rw [nodupKeys_iff] at h ⊢
    exact h.erase _
  · simp [hs, h]

theorem wfL_insertAt {xs : List Json} {i : Nat} {v : Json}
    (h : wfL xs = true) (hv : wfJ v = true) :
    wfL (insertAt xs i v) = true := by
  rw [wfL_iff]
  intro x hx
  unfold insertAt at hx
  rcases List.mem_append.mp hx with hx | hx
  · exact wfL_iff.mp h _ (List.mem_of_mem_take hx)
  · rcases List.mem_cons.mp hx with hx | hx
    · subst hx; exact hv
    · exact wfL_iff.mp h _ (List.mem_of_mem_drop hx)

theorem wfL_removeAt {xs : List Json} {i : Nat}
    (h : wfL xs = true) : wfL (removeAt xs i) = true := by
  rw [wfL_iff]
  intro x hx
  unfold removeAt at hx
  rcases List.mem_append.mp hx with hx | hx
  · exact wfL_iff.mp h _ (List.mem_of_mem_take hx)
  · exact wfL_iff.mp h _ (List.mem_of_mem_drop hx)

theorem wfL_set {xs : List Json} {i : Nat} {v : Json}
    (h : wfL xs = true) (hv : wfJ v = true) :
    wfL (xs.set i v) = true := by
  rw [wfL_iff]
  intro x hx
  rcases List.mem_or_eq_of_mem_set hx with hx | hx
  · exact wfL_iff.mp h _ hx
  · subst hx; exact hv

/-- Strict patch application preserves hole-freeness (given the op value is
hole-free). -/
theorem applyAt_noU : ∀ (path : List Key) (doc : Json) (kind : OpKind)
    (doc' : Json), noU doc = true → kind.valNoU = true →
    applyAt doc path kind = .ok doc' → noU doc' = true := by
  intro path
  induction path with
  | nil =>
    intro doc kind doc' hd hv h
    cases kind with
    | addK v =>
      rw [applyAt_nil_add] at h
      have := Except.ok.inj h; subst this; exact hv
    | replaceK v =>
      rw [applyAt_nil_replace] at h
      have := Except.ok.inj h; subst this; exact hv
    | removeK =>
      rw [applyAt_nil_remove] at h
      have := Except.ok.inj h; subst this; rfl
  | cons k rest ih =>
    intro doc kind doc' hd hv h
    cases rest with
    | nil =>
      cases doc with
      | obj fs =>
        rw [applyAt_obj_one] at h
        cases kind with
        | addK v =>
          dsimp only at h
          have := Except.ok.inj h; subst this
          rw [noU_obj]
          exact noUF_setField (by rwa [noU_obj] at hd) hv
        | removeK =>
          dsimp only at h
          cases hg : getField fs k.asField with
          | none => rw [hg] at h; dsimp only at h; exact Except.noConfusion h
          | some c =>
            rw [hg] at h; dsimp only at h
            have := Except.ok.inj h; subst this
            rw [noU_obj]
            exact noUF_removeField (by rwa [noU_obj] at hd)
        | replaceK v =>
          dsimp only at h
          cases hg : getField fs k.asField with
          | none => rw [hg] at h; dsimp only at h; exact Except.noConfusion h
          | some c =>
            rw [hg] at h; dsimp only at h
            have := Except.ok.inj h; subst this
            rw [noU_obj]
            exact noUF_setField (by rwa [noU_obj] at hd) hv
      | arr xs =>
        rw [applyAt_arr_one] at h
        cases hidx : k.asIndex with
        | none => rw [hidx] at h; dsimp only at h; exact Except.noConfusion h
        | some i =>
          rw [hidx] at h; dsimp only at h
          cases kind with
          | addK v =>
            dsimp only at h
            by_cases hle : i ≤ xs.length
            · rw [if_pos hle] at h
              have := Except.ok.inj h; subst this
              rw [noU_arr]
              exact noUL_insertAt (by rwa [noU_arr] at hd) hv
            · rw [if_neg hle] at h; exact Except.noConfusion h
          | removeK =>
            dsimp only at h
            by_cases hlt : i < xs.length
            · rw [if_pos hlt] at h
              by_cases hu : xs.getD i .undef = .undef
              · rw [if_pos hu] at h; exact Except.noConfusion h
              · rw [if_neg hu] at h
                have := Except.ok.inj h; subst this
                rw [noU_arr]
                exact noUL_removeAt (by rwa [noU_arr] at hd)
            · rw [if_neg hlt] at h; exact Except.noConfusion h
          | replaceK v =>
            dsimp only at h
            by_cases hlt : i < xs.length
            · rw [if_pos hlt] at h
              by_cases hu : xs.getD i .undef = .undef
              · rw [if_pos hu] at h; exact Except.noConfusion h
              · rw [if_neg hu] at h
                have := Except.ok.inj h; subst this
                rw [noU_arr]
                exact noUL_set (by rwa [noU_arr] at hd) hv
            · rw [if_neg hlt] at h; exact Except.noConfusion h
      | null => exact Except.noConfusion h
      | bool b => exact Except.noConfusion h
      | num q => exact Except.noConfusion h
      | str ss => exact Except.noConfusion h
      | undef => exact Except.noConfusion h
    | cons k' rest' =>
      cases doc with
      | obj fs =>
        rw [applyAt_obj_cons] at h
        cases hg : getField fs k.asField with
        | none => rw [hg] at h; dsimp only at h; exact Except.noConfusion h
        | some child =>
          rw [hg] at h; dsimp only at h
          cases hc : applyAt child (k' :: rest') kind with
          | error e => rw [hc] at h; dsimp only at h; exact Except.noConfusion h
          | ok child' =>
            rw [hc] at h; dsimp only at h
            have := Except.ok.inj h; subst this
            rw [noU_obj]
            have hchild : noU child = true :=
              noUF_getField (by rwa [noU_obj] at hd) hg
            exact noUF_setField (by rwa [noU_obj] at hd)
              (ih child kind child' hchild hv hc)
      | arr xs =>
        rw [applyAt_arr_cons] at h
        cases hidx : k.asIndex with
        | none => rw [hidx] at h; dsimp only at h; exact Except.noConfusion h
        | some i =>
          rw [hidx] at h; dsimp only at h
          by_cases hlt : i < xs.length
          · rw [if_pos hlt] at h
            by_cases hu : xs.getD i .undef = .undef
            · rw [if_pos hu] at h; exact Except.noConfusion h
            · rw [if_neg hu] at h
              have hchild : noU (xs.getD i .undef) = true := by
                have hm : xs.getD i .undef ∈ xs := by
                  rw [List.getD_eq_getElem?_getD,
                      List.getElem?_eq_getElem hlt]
                  exact List.getElem_mem hlt
                exact noUL_mem (by rwa [noU_arr] at hd) hm
              cases hc : applyAt (xs.getD i .undef) (k' :: rest') kind with
              | error e =>
                rw [hc] at h; dsimp only at h; exact Except.noConfusion h
              | ok child' =>
                rw [hc] at h; dsimp only at h
                have := Except.ok.inj h; subst this
                rw [noU_arr]
                exact noUL_set (by rwa [noU_arr] at hd)
                  (ih _ kind child' hchild hv hc)
          · rw [if_neg hlt] at h; exact Except.noConfusion h
      | null => exact Except.noConfusion h
      | bool b => exact Except.noConfusion h
      | num q => exact Except.noConfusion h
      | str ss => exact Except.noConfusion h
      | undef => exact Except.noConfusion h

/-- Strict patch application preserves well-formedness (no duplicate object
keys anywhere), given the op value is well-formed. -/
theorem applyAt_wf : ∀ (path : List Key) (doc : Json) (kind : OpKind)
    (doc' : Json), wfJ doc = true → kind.valWf = true →
    applyAt doc path kind = .ok doc' → wfJ doc' = true := by
  intro path
  induction path with
  | nil =>
    intro doc kind doc' hd hv h
    cases kind with
    | addK v =>
      rw [applyAt_nil_add] at h
      have := Except.ok.inj h; subst this; exact hv
    | replaceK v =>
      rw [applyAt_nil_replace] at h
      have := Except.ok.inj h; subst this; exact hv
    | removeK =>
      rw [applyAt_nil_remove] at h
      have := Except.ok.inj h; subst this; rfl
  | cons k rest ih =>
    intro doc kind doc' hd hv h
    cases rest with
    | nil =>
      cases doc with
      | obj fs =>
        rw [wfJ_obj, Bool.and_eq_true] at hd
        obtain ⟨hnd, hwf⟩ := hd
        rw [applyAt_obj_one] at h
        cases kind with
        | addK v =>
          dsimp only at h
          have := Except.ok.inj h; subst this
          rw [wfJ_obj, Bool.and_eq_true]
          exact ⟨nodupKeys_setField hnd, wfF_setField hwf hv⟩
        | removeK =>
          dsimp only at h
          cases hg : getField fs k.asField with
          | none => rw [hg] at h; dsimp only at h; exact Except.noConfusion h
          | some c =>
            rw [hg] at h; dsimp only at h
            have := Except.ok.inj h; subst this
            rw [wfJ_obj, Bool.and_eq_true]
            exact ⟨nodupKeys_removeField hnd, wfF_removeField hwf⟩
        | replaceK v =>
          dsimp only at h
          cases hg : getField fs k.asField with
          | none => rw [hg] at h; dsimp only at h; exact Except.noConfusion h
          | some c =>
            rw [hg] at h; dsimp only at h
            have := Except.ok.inj h; subst this
            rw [wfJ_obj, Bool.and_eq_true]
            exact ⟨nodupKeys_setField hnd, wfF_setField hwf hv⟩
      | arr xs =>
        rw [wfJ_arr] at hd
        rw [applyAt_arr_one] at h
        cases hidx : k.asIndex with
        | none => rw [hidx] at h; dsimp only at h; exact Except.noConfusion h
        | some i =>
          rw [hidx] at h; dsimp only at h
          cases kind with
          | addK v =>
            dsimp only at h
            by_cases hle : i ≤ xs.length
            · rw [if_pos hle] at h
              have := Except.ok.inj h; subst this
              rw [wfJ_arr]
              exact wfL_insertAt hd hv
            · rw [if_neg hle] at h; exact Except.noConfusion h
          | removeK =>
            dsimp only at h
            by_cases hlt : i < xs.length
            · rw [if_pos hlt] at h
              by_cases hu : xs.getD i .undef = .undef
              · rw [if_pos hu] at h; exact Except.noConfusion h
              · rw [if_neg hu] at h
                have := Except.ok.inj h; subst this
                rw [wfJ_arr]
                exact wfL_removeAt hd
            · rw [if_neg hlt] at h; exact Except.noConfusion h
          | replaceK v =>
            dsimp only at h
            by_cases hlt : i < xs.length
            · rw [if_pos hlt] at h
              by_cases hu : xs.getD i .undef = .undef
              · rw [if_pos hu] at h; exact Except.noConfusion h
              · rw [if_neg hu] at h
                have := Except.ok.inj h; subst this
                rw [wfJ_arr]
                exact wfL_set hd hv
            · rw [if_neg hlt] at h; exact Except.noConfusion h
      | null => exact Except.noConfusion h
      | bool b => exact Except.noConfusion h
      | num q => exact Except.noConfusion h
      | str ss => exact Except.noConfusion h
      | undef => exact Except.noConfusion h
    | cons k' rest' =>
      cases doc with
      | obj fs =>
        rw [wfJ_obj, Bool.and_eq_true] at hd
        obtain ⟨hnd, hwf⟩ := hd
        rw [applyAt_obj_cons] at h
        cases hg : getField fs k.asField with
        | none => rw [hg] at h; dsimp only at h; exact Except.noConfusion h
        | some child =>
          rw [hg] at h; dsimp only at h
          cases hc : applyAt child (k' :: rest') kind with
          | error e => rw [hc] at h; dsimp only at h; exact Except.noConfusion h
          | ok child' =>
            rw [hc] at h; dsimp only at h
            have := Except.ok.inj h; subst this
            rw [wfJ_obj, Bool.and_eq_true]
            have hchild : wfJ child = true := wfF_getField hwf hg
            exact ⟨nodupKeys_setField hnd,
                   wfF_setField hwf (ih child kind child' hchild hv hc)⟩
      | arr xs =>
        rw [wfJ_arr] at hd
        rw [applyAt_arr_cons] at h
        cases hidx : k.asIndex with
        | none => rw [hidx] at h; dsimp only at h; exact Except.noConfusion h
        | some i =>
          rw [hidx] at h; dsimp only at h
          by_cases hlt : i < xs.length
          · rw [if_pos hlt] at h
            by_cases hu : xs.getD i .undef = .undef
            · rw [if_pos hu] at h; exact Except.noConfusion h
            · rw [if_neg hu] at h
              have hchild : wfJ (xs.getD i .undef) = true := by
                have hm : xs.getD i .undef ∈ xs := by
                  rw [List.getD_eq_getElem?_getD,
                      List.getElem?_eq_getElem hlt]
                  exact List.getElem_mem hlt
                exact wfL_iff.mp hd _ hm
              cases hc : applyAt (xs.getD i .undef) (k' :: rest') kind with
              | error e =>
                rw [hc] at h; dsimp only at h; exact Except.noConfusion h
              | ok child' =>
                rw [hc] at h; dsimp only at h
                have := Except.ok.inj h; subst this
                rw [wfJ_arr]
                exact wfL_set hd (ih _ kind child' hchild hv hc)
          · rw [if_neg hlt] at h; exact Except.noConfusion h
      | null => exact Except.noConfusion h
      | bool b => exact Except.noConfusion h
      | num q => exact Except.noConfusion h
      | str ss => exact Except.noConfusion h
      | undef => exact Except.noConfusion h

/-- Framing: an operation under an object field relocates to the child
document (the field must resolve, and a leaf `remove` is excluded since it
deletes the field rather than rewriting it). -/
theorem applyAt_obj_fld {fs : List (String × Json)} {k : String} {c : Json}
    (path : List Key) (kind : OpKind)
    (hget : getField fs k = some c)
    (hsafe : path = [] → kind ≠ .removeK) :
    applyAt (.obj fs) (.fld k :: path) kind =
      (match applyAt c path kind with
       | .ok c' => .ok (.obj (setField fs k c'))
       | .error e => .error e) := by
  cases path with
  | nil =>
    cases kind with
    | addK v =>
      rw [applyAt_obj_one, applyAt_nil_add]
      rfl
    | removeK => exact absurd rfl (hsafe rfl)
    | replaceK v =>
      rw [applyAt_obj_one, applyAt_nil_replace]
      dsimp only [Key.asField]
      rw [hget]
  | cons k' rest =>
    rw [applyAt_obj_cons]
    dsimp only [Key.asField]
    rw [hget]

/-- Framing: an operation under an array index relocates to the element
(the index must be in bounds and hold a defined element; at the leaf only
`replace` keeps the set-shape, since `add` splices and `remove` shifts). -/
theorem applyAt_arr_idx {xs : List Json} {i : Nat} {c : Json}
    (path : List Key) (kind : OpKind)
    (hlt : i < xs.length)
    (hget : xs.getD i .undef = c)
    (hc : c ≠ .undef)
    (hsafe : path = [] → ∃ v, kind = .replaceK v) :
    applyAt (.arr xs) (.idx i :: path) kind =
      (match applyAt c path kind with
       | .ok c' => .ok (.arr (xs.set i c'))
       | .error e => .error e) := by
  cases path with
  | nil =>
    obtain ⟨v, hk⟩ := hsafe rfl
    subst hk
    rw [applyAt_arr_one, applyAt_nil_replace]
    dsimp only [Key.asIndex]
    rw [if_pos hlt, hget, if_neg hc]
    rfl
  | cons k' rest =>
    rw [applyAt_arr_cons]
    dsimp only [Key.asIndex]
    rw [if_pos hlt, hget, if_neg hc]
    rfl

/-- Framing for an operation sequence under an object field: applying the
prefixed ops to the object equals applying them to the field's value and
writing the result back (no op touches the relocated root with `add`, and
`remove` at the relocated root is excluded by `rootSafe`). -/
theorem applyOps_prefix_fld : ∀ (ops : List Op) (fs : List (String × Json))
    (k : String) (c : Json), getField fs k = some c →
    (∀ op ∈ ops, op.rootSafe = true) →
    applyOps (.obj fs) (ops.map (Op.prefixWith [.fld k])) =
      (match applyOps c ops with
       | .ok c' => .ok (.obj (setField fs k c'))
       | .error e => .error e) := by
  intro ops
  induction ops with
  | nil =>
    intro fs k c hget _
    dsimp only [List.map, applyOps]
    rw [setField_same hget]
  | cons op rest ih =>
    intro fs k c hget hsafe
    rw [List.map_cons, applyOps_cons, applyOps_cons]
    have hrs := hsafe op (List.mem_cons_self op rest)
    have hsafe1 : op.path = [] → op.kind ≠ OpKind.removeK := by
      intro hp hk
      cases op with
      | add p v => exact OpKind.noConfusion hk
      | replace p v => exact OpKind.noConfusion hk
      | remove p =>
        have hp' : p = [] := hp
        subst hp'
        exact Bool.noConfusion hrs
    have hpw : applyOp (.obj fs) (op.prefixWith [Key.fld k]) =
        applyAt (.obj fs) (Key.fld k :: op.path) op.kind := by
      rw [applyOp, Op.path_prefixWith, Op.kind_prefixWith]
      rfl
    rw [hpw, applyAt_obj_fld op.path op.kind hget hsafe1]
    have hop : applyAt c op.path op.kind = applyOp c op := rfl
    rw [hop]
    cases hc1 : applyOp c op with
    | error e => rfl
    | ok c' =>
      dsimp only
      rw [ih (setField fs k c') k c' getField_setField_self
            (fun o ho => hsafe o (List.mem_cons_of_mem _ ho))]
      cases h2 : applyOps c' rest with
      | error e => rfl
      | ok c2 =>
        dsimp only
        rw [setField_setField]

/-- Framing for an operation sequence under an array index: applying the
prefixed ops to the array equals applying them to the element and setting
the result back (the element and all op values are hole-free so every
intermediate element stays defined; `rootSafe` rules out relocated-root
`add`/`remove`). -/
theorem applyOps_prefix_idx : ∀ (ops : List Op) (xs : List Json) (i : Nat)
    (c : Json), i < xs.length → xs.getD i .undef = c → noU c = true →
    (∀ op ∈ ops, op.rootSafe = true ∧ op.valNoU = true) →
    applyOps (.arr xs) (ops.map (Op.prefixWith [.idx i])) =
      (match applyOps c ops with
       | .ok c' => .ok (.arr (xs.set i c'))
       | .error e => .error e) := by
  intro ops
  induction ops with
  | nil =>
    intro xs i c hlt hget hnu _
    dsimp only [List.map, applyOps]
    have hg2 : xs.get? i = some c := by
      rw [List.get?_eq_getElem?, List.getElem?_eq_getElem hlt]
      rw [← hget, List.getD_eq_getElem?_getD, List.getElem?_eq_getElem hlt]
      rfl
    rw [list_set_eq_of_lookup hg2]
  | cons op rest ih =>
    intro xs i c hlt hget hnu hsafe
    rw [List.map_cons, applyOps_cons, applyOps_cons]
    obtain ⟨hrs, hvnu⟩ := hsafe op (List.mem_cons_self op rest)
    have hcund : c ≠ .undef := by
      intro he
      rw [he] at hnu
      exact Bool.noConfusion hnu
    have hsafe1 : op.path = [] → ∃ v, op.kind = OpKind.replaceK v := by
      intro hp
      cases op with
      | add p v =>
        have hp' : p = [] := hp
        subst hp'
        exact Bool.noConfusion hrs
      | remove p =>
        have hp' : p = [] := hp
        subst hp'
        exact Bool.noConfusion hrs
      | replace p v => exact ⟨v, rfl⟩
    have hpw : applyOp (.arr xs) (op.prefixWith [Key.idx i]) =
        applyAt (.arr xs) (Key.idx i :: op.path) op.kind := by
      rw [applyOp, Op.path_prefixWith, Op.kind_prefixWith]
      rfl
    rw [hpw, applyAt_arr_idx op.path op.kind hlt hget hcund hsafe1]
    have hop : applyAt c op.path op.kind = applyOp c op := rfl
    rw [hop]
    cases hc1 : applyOp c op with
    | error e => rfl
    | ok c' =>
      dsimp only
      have hnu' : noU c' = true := by
        have hkv : op.kind.valNoU = true := by
          cases op with
          | add p v => exact hvnu
          | remove p => rfl
          | replace p v => exact hvnu
        exact applyAt_noU op.path c op.kind c' hnu hkv hc1
      have hlt' : i < (xs.set i c').length := by
        rw [List.length_set]
        exact hlt
      have hget' : (xs.set i c').getD i .undef = c' := by
        rw [List.getD_eq_getElem?_getD, List.getElem?_set_self]
        · rfl
        · exact hlt
      rw [ih (xs.set i c') i c' hlt' hget' hnu'
            (fun o ho => hsafe o (List.mem_cons_of_mem _ ho))]
      cases h2 : applyOps c' rest with
      | error e => rfl
      | ok c2 =>
        dsimp only
        rw [List.set_set]

theorem genValF_succ_obj (fuel : Nat) (path : List Key)
    (fs gs : List (String × Json)) :
    genValF (fuel + 1) path (.obj fs) (.obj gs) =
      (fs.reverse.flatMap (fun f =>
        match getField gs f.1 with
        | some w => genValF fuel (path ++ [.fld f.1]) f.2 w
        | none => [.remove (path ++ [.fld f.1])]))
      ++ genFieldAdds path gs fs := rfl

theorem genValF_succ_arr (fuel : Nat) (path : List Key) (xs ys : List Json) :
    genValF (fuel + 1) path (.arr xs) (.arr ys) =
      ((List.range xs.length).reverse.flatMap (fun n =>
        if definedAt xs n then
          if definedAt ys n then
            genValF fuel (path ++ [.idx n]) (xs.getD n .undef) (ys.getD n .undef)
          else [.remove (path ++ [.idx n])]
        else []))
      ++ genArrAdds path ys xs.length := rfl

theorem flatMap_map_of_eq {α : Type} {l : List α} {F G : α → List Op}
    {g : Op → Op} (h : ∀ a ∈ l, F a = (G a).map g) :
    l.flatMap F = (l.flatMap G).map g := by
  induction l with
  | nil => rfl
  | cons a l ihl =>
    rw [List.flatMap_cons, List.flatMap_cons, List.map_append,
        h a (List.mem_cons_self a l),
        ihl (fun b hb => h b (List.mem_cons_of_mem _ hb))]

theorem map_prefixWith_append (l : List Op) (p q : List Key) :
    l.map (Op.prefixWith (p ++ q)) =
      (l.map (Op.prefixWith q)).map (Op.prefixWith p) := by
  rw [List.map_map]
  refine List.map_congr_left ?_
  intro op _
  exact Op.prefixWith_append

theorem genFieldAdds_prefix (path : List Key) (gs fs : List (String × Json)) :
    genFieldAdds path gs fs =
      (genFieldAdds [] gs fs).map (Op.prefixWith path) := by
  unfold genFieldAdds
  rw [List.map_map]
  refine List.map_congr_left ?_
  intro g _
  rfl

theorem genArrAdds_prefix (path : List Key) (ys : List Json) (xlen : Nat) :
    genArrAdds path ys xlen =
      (genArrAdds [] ys xlen).map (Op.prefixWith path) := by
  unfold genArrAdds
  rw [List.map_map]
  refine List.map_congr_left ?_
  intro i _
  rfl

theorem genValF_prefix_rep (path : List Key) (x y : Json) :
    (if x = y then ([] : List Op) else [.replace path (jclone y)]) =
      (if x = y then ([] : List Op)
       else [.replace [] (jclone y)]).map (Op.prefixWith path) := by
  by_cases h : x = y
  · rw [if_pos h, if_pos h]
    rfl
  · rw [if_neg h, if_neg h]
    simp [Op.prefixWith]

/-- `_generate` at path `p` emits exactly the root-relative operations
prefixed with `p`. -/
theorem genValF_prefix : ∀ (fuel : Nat) (path : List Key) (x y : Json),
    genValF fuel path x y = (genValF fuel [] x y).map (Op.prefixWith path) := by
  intro fuel
  induction fuel with
  | zero => intro path x y; rfl
  | succ fuel ih =>
    intro path x y
    cases x with
    | null => exact genValF_prefix_rep path Json.null y
    | bool b => exact genValF_prefix_rep path (Json.bool b) y
    | num q => exact genValF_prefix_rep path (Json.num q) y
    | str s => exact genValF_prefix_rep path (Json.str s) y
    | undef => exact genValF_prefix_rep path Json.undef y
    | obj fs =>
      cases y with
      | null => exact genValF_prefix_rep path (Json.obj fs) Json.null
      | bool b => exact genValF_prefix_rep path (Json.obj fs) (Json.bool b)
      | num q => exact genValF_prefix_rep path (Json.obj fs) (Json.num q)
      | str s => exact genValF_prefix_rep path (Json.obj fs) (Json.str s)
      | undef => exact genValF_prefix_rep path (Json.obj fs) Json.undef
      | arr ys => exact genValF_prefix_rep path (Json.obj fs) (Json.arr ys)
      | obj gs =>
        rw [genValF_succ_obj, genValF_succ_obj, List.map_append,
            genFieldAdds_prefix]
        refine congrArg
          (fun l => l ++ (genFieldAdds [] gs fs).map (Op.prefixWith path)) ?_
        refine flatMap_map_of_eq ?_
        intro f hf
        dsimp only
        cases hg : getField gs f.1 with
        | some w =>
          dsimp only
          rw [List.nil_append, ih (path ++ [Key.fld f.1]) f.2 w,
              ih [Key.fld f.1] f.2 w]
          exact map_prefixWith_append _ _ _
        | none => rfl
    | arr xs =>
      cases y with
      | null => exact genValF_prefix_rep path (Json.arr xs) Json.null
      | bool b => exact genValF_prefix_rep path (Json.arr xs) (Json.bool b)
      | num q => exact genValF_prefix_rep path (Json.arr xs) (Json.num q)
      | str s => exact genValF_prefix_rep path (Json.arr xs) (Json.str s)
      | undef => exact genValF_prefix_rep path (Json.arr xs) Json.undef
      | obj gs => exact genValF_prefix_rep path (Json.arr xs) (Json.obj gs)
      | arr ys =>
        rw [genValF_succ_arr, genValF_succ_arr, List.map_append,
            genArrAdds_prefix]
        refine congrArg
          (fun l => l ++ (genArrAdds [] ys xs.length).map (Op.prefixWith path)) ?_
        refine flatMap_map_of_eq ?_
        intro n hn
        dsimp only
        by_cases hdx : definedAt xs n
        · rw [if_pos hdx, if_pos hdx]
          by_cases hdy : definedAt ys n
          · rw [if_pos hdy, if_pos hdy]
            rw [List.nil_append, ih (path ++ [Key.idx n]) _ _,
                ih [Key.idx n] _ _]
            exact map_prefixWith_append _ _ _
          · rw [if_neg hdy, if_neg hdy]
            rfl
        · rw [if_neg hdx, if_neg hdx]
          rfl

/-- Deep-cloning with dominating fuel erases every hole. -/
theorem jcloneF_out_noU : ∀ (fuel : Nat) (y : Json), jdepth y ≤ fuel →
    noU (jcloneF fuel y) = true := by
  intro fuel
  induction fuel with
  | zero =>
    intro y hy
    exact absurd (Nat.le_trans (jdepth_pos y) hy) (by omega)
  | succ fuel ih =>
    intro y hy
    cases y with
    | null => rfl
    | bool b => rfl
    | num q => rfl
    | str ss => rfl
    | undef => rfl
    | arr xs =>
      show noU (.arr (xs.map fun x => jcloneF fuel x)) = true
      rw [noU_arr, noUL_iff]
      intro z hz
      obtain ⟨x, hx, hxz⟩ := List.mem_map.mp hz
      subst hxz
      refine ih x ?_
      have h1 : jdepth x ≤ jdepthL xs := jdepthL_mem hx
      rw [jdepth_arr] at hy
      omega
    | obj fs =>
      show noU (.obj (fs.map fun f => (f.1, jcloneF fuel f.2))) = true
      rw [noU_obj, noUF_iff]
      intro g hg
      obtain ⟨f, hf, hfg⟩ := List.mem_map.mp hg
      subst hfg
      refine ih f.2 ?_
      have h1 : jdepth f.2 ≤ jdepthF fs := jdepthF_mem hf
      rw [jdepth_obj] at hy
      omega

/-- `_deepClone` output is hole-free. -/
theorem jclone_out_noU {y : Json} : noU (jclone y) = true :=
  jcloneF_out_noU (jdepth y) y (Nat.le_refl _)

/-- Deep-cloning preserves well-formedness (keys are unchanged). -/
theorem jcloneF_wf : ∀ (fuel : Nat) (y : Json), wfJ y = true →
    wfJ (jcloneF fuel y) = true := by
  intro fuel
  induction fuel with
  | zero => intro y hy; exact hy
  | succ fuel ih =>
    intro y hy
    cases y with
    | null => rfl
    | bool b => rfl
    | num q => rfl
    | str ss => rfl
    | undef => rfl
    | arr xs =>
      show wfJ (.arr (xs.map fun x => jcloneF fuel x)) = true
      rw [wfJ_arr, wfL_iff]
      intro z hz
      obtain ⟨x, hx, hxz⟩ := List.mem_map.mp hz
      subst hxz
      exact ih x (wfL_iff.mp (by rwa [wfJ_arr] at hy) x hx)
    | obj fs =>
      show wfJ (.obj (fs.map fun f => (f.1, jcloneF fuel f.2))) = true
      rw [wfJ_obj] at hy ⊢
      rw [Bool.and_eq_true] at hy ⊢
      obtain ⟨hnd, hwf⟩ := hy
      constructor
      · have hkeys : (fs.map (fun f => (f.1, jcloneF fuel f.2))).map
            (fun f => f.1) = fs.map (fun f => f.1) := by
          rw [List.map_map]
          exact List.map_congr_left (fun f _ => rfl)
        rw [hkeys]
        exact hnd
      · rw [wfF_iff]
        intro g hg
        obtain ⟨f, hf, hfg⟩ := List.mem_map.mp hg
        subst hfg
        exact ih f.2 (wfF_iff.mp hwf f hf)

/-- `_deepClone` preserves well-formedness. -/
theorem jclone_wf (y : Json) (hy : wfJ y = true) : wfJ (jclone y) = true :=
  jcloneF_wf (jdepth y) y hy

theorem rootSafe_remove_append (p : List Key) (k : Key) :
    (Op.remove (p ++ [k])).rootSafe = true := by
  cases hp : p ++ [k] with
  | nil => exact absurd hp (by simp)
  | cons a q => rfl

theorem rootSafe_add_append (p : List Key) (k : Key) (v : Json) :
    (Op.add (p ++ [k]) v).rootSafe = true := by
  cases hp : p ++ [k] with
  | nil => exact absurd hp (by simp)
  | cons a q => rfl

/-- An array element read with `undefined` default is well-formed whenever
the array is. -/
theorem wfJ_getD {ys : List Json} {n : Nat} (h : wfJ (.arr ys) = true) :
    wfJ (ys.getD n .undef) = true := by
  by_cases hn : n < ys.length
  · have hm : ys.getD n .undef ∈ ys := by
      rw [List.getD_eq_getElem?_getD, List.getElem?_eq_getElem hn]
      exact List.getElem_mem hn
    exact wfL_iff.mp (by rwa [wfJ_arr] at h) _ hm
  · rw [List.getD_eq_getElem?_getD, List.getElem?_eq_none (by omega)]
    rfl

theorem genValF_ops_rep (path : List Key) (x y : Json) (op : Op)
    (hop : op ∈ (if x = y then ([] : List Op)
                 else [.replace path (jclone y)])) :
    op.rootSafe = true ∧ op.valNoU = true ∧
      (wfJ y = true → op.valWf = true) := by
  by_cases h : x = y
  · rw [if_pos h] at hop
    cases hop
  · rw [if_neg h] at hop
    have he : op = .replace path (jclone y) := List.mem_singleton.mp hop
    subst he
    exact ⟨rfl, jclone_out_noU, fun hw => jclone_wf _ hw⟩

/-- Every operation `_generate` emits is root-safe (no root-level
`add`/`remove`), carries a hole-free value, and, when the target document is
well-formed, a well-formed value. -/
theorem genValF_ops : ∀ (fuel : Nat) (path : List Key) (x y : Json) (op : Op),
    op ∈ genValF fuel path x y →
    op.rootSafe = true ∧ op.valNoU = true ∧
      (wfJ y = true → op.valWf = true) := by
  intro fuel
  induction fuel with
  | zero => intro path x y op hop; cases hop
  | succ fuel ih =>
    intro path x y op hop
    cases x with
    | null => exact genValF_ops_rep path Json.null y op hop
    | bool b => exact genValF_ops_rep path (Json.bool b) y op hop
    | num q => exact genValF_ops_rep path (Json.num q) y op hop
    | str ss => exact genValF_ops_rep path (Json.str ss) y op hop
    | undef => exact genValF_ops_rep path Json.undef y op hop
    | obj fs =>
      cases y with
      | null => exact genValF_ops_rep path (Json.obj fs) Json.null op hop
      | bool b => exact genValF_ops_rep path (Json.obj fs) (Json.bool b) op hop
      | num q => exact genValF_ops_rep path (Json.obj fs) (Json.num q) op hop
      | str ss => exact genValF_ops_rep path (Json.obj fs) (Json.str ss) op hop
      | undef => exact genValF_ops_rep path (Json.obj fs) Json.undef op hop
      | arr ys => exact genValF_ops_rep path (Json.obj fs) (Json.arr ys) op hop
      | obj gs =>
        rw [genValF_succ_obj] at hop
        rcases List.mem_append.mp hop with hA | hB
        · obtain ⟨f, hf, hmem⟩ := List.mem_flatMap.mp hA
          cases hg : getField gs f.1 with
          | some w =>
            rw [hg] at hmem
            dsimp only at hmem
            obtain ⟨rs, nu, wfi⟩ := ih (path ++ [Key.fld f.1]) f.2 w op hmem
            refine ⟨rs, nu, fun hw => wfi ?_⟩
            rw [wfJ_obj, Bool.and_eq_true] at hw
            exact wfF_getField hw.2 hg
          | none =>
            rw [hg] at hmem
            dsimp only at hmem
            have he : op = .remove (path ++ [Key.fld f.1]) :=
              List.mem_singleton.mp hmem
            subst he
            exact ⟨rootSafe_remove_append _ _, rfl, fun _ => rfl⟩
        · obtain ⟨g, hgf, hge⟩ := List.mem_map.mp hB
          subst hge
          have hgs : g ∈ gs := (List.mem_filter.mp hgf).1
          refine ⟨rootSafe_add_append _ _ _, jclone_out_noU, fun hw => ?_⟩
          rw [wfJ_obj, Bool.and_eq_true] at hw
          exact jclone_wf _ (wfF_iff.mp hw.2 g hgs)
    | arr xs =>
      cases y with
      | null => exact genValF_ops_rep path (Json.arr xs) Json.null op hop
      | bool b => exact genValF_ops_rep path (Json.arr xs) (Json.bool b) op hop
      | num q => exact genValF_ops_rep path (Json.arr xs) (Json.num q) op hop
      | str ss => exact genValF_ops_rep path (Json.arr xs) (Json.str ss) op hop
      | undef => exact genValF_ops_rep path (Json.arr xs) Json.undef op hop
      | obj gs => exact genValF_ops_rep path (Json.arr xs) (Json.obj gs) op hop
      | arr ys =>
        rw [genValF_succ_arr] at hop
        rcases List.mem_append.mp hop with hA | hB
        · obtain ⟨n, hn, hmem⟩ := List.mem_flatMap.mp hA
          by_cases hdx : definedAt xs n
          · rw [if_pos hdx] at hmem
            by_cases hdy : definedAt ys n
            · rw [if_pos hdy] at hmem
              obtain ⟨rs, nu, wfi⟩ :=
                ih (path ++ [Key.idx n]) (xs.getD n .undef)
                  (ys.getD n .undef) op hmem
              exact ⟨rs, nu, fun hw => wfi (wfJ_getD hw)⟩
            · rw [if_neg hdy] at hmem
              have he : op = .remove (path ++ [Key.idx n]) :=
                List.mem_singleton.mp hmem
              subst he
              exact ⟨rootSafe_remove_append _ _, rfl, fun _ => rfl⟩
          · rw [if_neg hdx] at hmem
            cases hmem
        · obtain ⟨i, hif, hie⟩ := List.mem_map.mp hB
          subst hie
          exact ⟨rootSafe_add_append _ _ _, jclone_out_noU,
                 fun hw => jclone_wf _ (wfJ_getD hw)⟩

theorem jeqB_succ_obj (fuel : Nat) (fs gs : List (String × Json)) :
    jeqB (fuel + 1) (.obj fs) (.obj gs) =
      (fs.all (fun f =>
        match getField gs f.1 with
        | some w => jeqB fuel f.2 w
        | none => false) &&
      jeqKeys gs fs) := rfl

theorem jeqB_succ_arr (fuel : Nat) (xs ys : List Json) :
    jeqB (fuel + 1) (.arr xs) (.arr ys) =
      (xs.length == ys.length &&
       (xs.zip ys).all (fun p => jeqB fuel p.1 p.2)) := rfl

theorem zip_all_getD {xs ys : List Json} {p : Json × Json → Bool} :
    (xs.zip ys).all p = true ↔
      (∀ i, i < xs.length → i < ys.length →
        p (xs.getD i .undef, ys.getD i .undef) = true) := by
  induction xs generalizing ys with
  | nil =>
    constructor
    · intro _ i h1 _
      exact absurd h1 (by simp)
    · intro _
      rfl
  | cons a as ihx =>
    cases ys with
    | nil =>
      constructor
      · intro _ i _ h2
        exact absurd h2 (by simp)
      · intro _
        rw [List.zip_nil_right]
        rfl
    | cons b bs =>
      rw [List.zip_cons_cons, List.all_cons, Bool.and_eq_true, ihx]
      constructor
      · rintro ⟨hp, hrest⟩ i h1 h2
        cases i with
        | zero => exact hp
        | succ i =>
          rw [List.getD_cons_succ, List.getD_cons_succ]
          exact hrest i (by simpa using h1) (by simpa using h2)
      · intro hfa
        refine ⟨hfa 0 (by simp) (by simp), ?_⟩
        intro i h1 h2
        have := hfa (i + 1) (by simpa using h1) (by simpa using h2)
        rw [List.getD_cons_succ, List.getD_cons_succ] at this
        exact this

/-- Key-order-insensitive equality is monotone in the fuel. -/
theorem jeqB_mono : ∀ (fuel fuel' : Nat) (x y : Json), fuel ≤ fuel' →
    jeqB fuel x y = true → jeqB fuel' x y = true := by
  intro fuel
  induction fuel with
  | zero =>
    intro fuel' x y _ h
    exact Bool.noConfusion h
  | succ fuel ih =>
    intro fuel' x y hle h
    obtain ⟨fuel'', rfl⟩ : ∃ m, fuel' = m + 1 := by
      cases fuel' with
      | zero => omega
      | succ m => exact ⟨m, rfl⟩
    have hle'' : fuel ≤ fuel'' := by omega
    cases x with
    | null => exact h
    | bool b => exact h
    | num q => exact h
    | str ss => exact h
    | undef => exact h
    | obj fs =>
      cases y with
      | null => exact h
      | bool b => exact h
      | num q => exact h
      | str ss => exact h
      | undef => exact h
      | arr ys => exact h
      | obj gs =>
        rw [jeqB_succ_obj, Bool.and_eq_true] at h ⊢
        obtain ⟨hall, hkeys⟩ := h
        refine ⟨?_, hkeys⟩
        rw [List.all_eq_true] at hall ⊢
        intro f hf
        have hp := hall f hf
        cases hg : getField gs f.1 with
        | some w =>
          rw [hg] at hp
          dsimp only at hp ⊢
          exact ih fuel'' f.2 w hle'' hp
        | none =>
          rw [hg] at hp
          dsimp only at hp
          exact Bool.noConfusion hp
    | arr xs =>
      cases y with
      | null => exact h
      | bool b => exact h
      | num q => exact h
      | str ss => exact h
      | undef => exact h
      | obj gs => exact h
      | arr ys =>
        rw [jeqB_succ_arr, Bool.and_eq_true] at h ⊢
        obtain ⟨hlen, hall⟩ := h
        refine ⟨hlen, ?_⟩
        rw [List.all_eq_true] at hall ⊢
        intro p hp
        exact ih fuel'' p.1 p.2 hle'' (hall p hp)

/-- Key-order-insensitive equality only needs fuel covering the left
document's depth. -/
theorem jeqB_canon : ∀ (fuel : Nat) (x y : Json), jeqB fuel x y = true →
    jeqB (jdepth x) x y = true := by
  intro fuel
  induction fuel with
  | zero =>
    intro x y h
    exact Bool.noConfusion h
  | succ fuel ih =>
    intro x y h
    cases x with
    | null => exact h
    | bool b => exact h
    | num q => exact h
    | str ss => exact h
    | undef => exact h
    | obj fs =>
      cases y with
      | null => exact Bool.noConfusion h
      | bool b => exact Bool.noConfusion h
      | num q => exact Bool.noConfusion h
      | str ss => exact Bool.noConfusion h
      | undef => exact Bool.noConfusion h
      | arr ys => exact Bool.noConfusion h
      | obj gs =>
        rw [jdepth_obj, Nat.add_comm]
        rw [jeqB_succ_obj, Bool.and_eq_true] at h ⊢
        obtain ⟨hall, hkeys⟩ := h
        refine ⟨?_, hkeys⟩
        rw [List.all_eq_true] at hall ⊢
        intro f hf
        have hp := hall f hf
        cases hg : getField gs f.1 with
        | some w =>
          rw [hg] at hp
          dsimp only at hp ⊢
          exact jeqB_mono _ _ _ _ (jdepthF_mem hf) (ih f.2 w hp)
        | none =>
          rw [hg] at hp
          dsimp only at hp
          exact Bool.noConfusion hp
    | arr xs =>
      cases y with
      | null => exact Bool.noConfusion h
      | bool b => exact Bool.noConfusion h
      | num q => exact Bool.noConfusion h
      | str ss => exact Bool.noConfusion h
      | undef => exact Bool.noConfusion h
      | obj gs => exact Bool.noConfusion h
      | arr ys =>
        rw [jdepth_arr, Nat.add_comm]
        rw [jeqB_succ_arr, Bool.and_eq_true] at h ⊢
        obtain ⟨hlen, hall⟩ := h
        refine ⟨hlen, ?_⟩
        rw [List.all_eq_true] at hall ⊢
        intro p hp
        exact jeqB_mono _ _ _ _ (jdepthL_mem (List.mem_zip hp).1)
          (ih p.1 p.2 (hall p hp))

theorem getField_self_of_mem_nodup {fs : List (String × Json)}
    {f : String × Json} (hnd : nodupKeys (fs.map (fun f => f.1)) = true)
    (hf : f ∈ fs) : getField fs f.1 = some f.2 := by
  obtain ⟨a, b⟩ := f
  exact getField_of_mem_nodup hnd hf

theorem jeqKeys_iff {gs fs : List (String × Json)} :
    jeqKeys gs fs = true ↔ ∀ g ∈ gs, (getField fs g.1).isSome = true := by
  unfold jeqKeys
  exact List.all_eq_true

/-- On a well-formed document, key-order-insensitive equality is reflexive
at any fuel covering the depth. -/
theorem jeqB_refl : ∀ (fuel : Nat) (x : Json), wfJ x = true →
    jdepth x ≤ fuel → jeqB fuel x x = true := by
  intro fuel
  induction fuel with
  | zero =>
    intro x _ hd
    exact absurd (Nat.le_trans (jdepth_pos x) hd) (by omega)
  | succ fuel ih =>
    intro x hw hd
    cases x with
    | null => rfl
    | bool b => exact beq_self_eq_true _
    | num q => exact beq_self_eq_true _
    | str ss => exact beq_self_eq_true _
    | undef => rfl
    | obj fs =>
      rw [wfJ_obj, Bool.and_eq_true] at hw
      obtain ⟨hnd, hwf⟩ := hw
      rw [jdepth_obj] at hd
      rw [jeqB_succ_obj, Bool.and_eq_true]
      constructor
      · rw [List.all_eq_true]
        intro f hf
        rw [getField_self_of_mem_nodup hnd hf]
        dsimp only
        exact ih f.2 (wfF_iff.mp hwf f hf)
          (Nat.le_trans (jdepthF_mem hf) (by omega))
      · rw [jeqKeys_iff]
        intro g hg
        rw [getField_self_of_mem_nodup hnd hg]
        rfl
    | arr xs =>
      rw [wfJ_arr] at hw
      rw [jdepth_arr] at hd
      rw [jeqB_succ_arr, Bool.and_eq_true]
      constructor
      · exact beq_self_eq_true _
      · rw [zip_all_getD]
        intro i h1 _
        have hm : xs.getD i .undef ∈ xs := by
          rw [List.getD_eq_getElem?_getD, List.getElem?_eq_getElem h1]
          exact List.getElem_mem h1
        exact ih _ (wfL_iff.mp hw _ hm)
          (Nat.le_trans (jdepthL_mem hm) (by omega))

/-- A primitive is `jeqB`-related only to itself. -/
theorem jeqB_prim_eq : ∀ (fuel : Nat) (x y : Json),
    (match x with
     | .obj _ => False
     | .arr _ => False
     | _ => True) →
    jeqB fuel x y = true → x = y := by
  intro fuel
  cases fuel with
  | zero =>
    intro x y _ h
    exact Bool.noConfusion h
  | succ fuel =>
    intro x y hprim h
    cases x with
    | null => exact eq_of_beq h
    | bool b => exact eq_of_beq h
    | num q => exact eq_of_beq h
    | str ss => exact eq_of_beq h
    | undef => exact eq_of_beq h
    | obj fs => cases hprim
    | arr xs => cases hprim

/-- Key-order-insensitive equality is transitive (keeping the left fuel). -/
theorem jeqB_trans : ∀ (f1 f2 : Nat) (x y z : Json),
    jeqB f1 x y = true → jeqB f2 y z = true → jeqB f1 x z = true := by
  intro f1
  induction f1 with
  | zero =>
    intro f2 x y z h1 _
    exact Bool.noConfusion h1
  | succ f1 ih =>
    intro f2 x y z h1 h2
    cases x with
    | null =>
      have := jeqB_prim_eq _ _ _ trivial h1
      subst this
      have := jeqB_prim_eq _ _ _ trivial h2
      subst this
      exact h1
    | bool b =>
      have := jeqB_prim_eq _ _ _ trivial h1
      subst this
      have := jeqB_prim_eq _ _ _ trivial h2
      subst this
      exact h1
    | num q =>
      have := jeqB_prim_eq _ _ _ trivial h1
      subst this
      have := jeqB_prim_eq _ _ _ trivial h2
      subst this
      exact h1
    | str ss =>
      have := jeqB_prim_eq _ _ _ trivial h1
      subst this
      have := jeqB_prim_eq _ _ _ trivial h2
      subst this
      exact h1
    | undef =>
      have := jeqB_prim_eq _ _ _ trivial h1
      subst this
      have := jeqB_prim_eq _ _ _ trivial h2
      subst this
      exact h1
    | obj fs =>
      cases y with
      | null => exact Bool.noConfusion h1
      | bool b => exact Bool.noConfusion h1
      | num q => exact Bool.noConfusion h1
      | str ss => exact Bool.noConfusion h1
      | undef => exact Bool.noConfusion h1
      | arr ys => exact Bool.noConfusion h1
      | obj gs =>
        cases z with
        | null => cases f2 with
          | zero => exact Bool.noConfusion h2
          | succ m => exact Bool.noConfusion h2
        | bool b => cases f2 with
          | zero => exact Bool.noConfusion h2
          | succ m => exact Bool.noConfusion h2
        | num q => cases f2 with
          | zero => exact Bool.noConfusion h2
          | succ m => exact Bool.noConfusion h2
        | str ss => cases f2 with
          | zero => exact Bool.noConfusion h2
          | succ m => exact Bool.noConfusion h2
        | undef => cases f2 with
          | zero => exact Bool.noConfusion h2
          | succ m => exact Bool.noConfusion h2
        | arr zs => cases f2 with
          | zero => exact Bool.noConfusion h2
          | succ m => exact Bool.noConfusion h2
        | obj hs =>
          obtain ⟨f2', rfl⟩ : ∃ m, f2 = m + 1 := by
            cases f2 with
            | zero => exact Bool.noConfusion h2
            | succ m => exact ⟨m, rfl⟩
          rw [jeqB_succ_obj, Bool.and_eq_true] at h1 h2 ⊢
          obtain ⟨hall1, hkeys1⟩ := h1
          obtain ⟨hall2, hkeys2⟩ := h2
          rw [List.all_eq_true] at hall1 hall2
          constructor
          · rw [List.all_eq_true]
            intro f hf
            have hp1 := hall1 f hf
            cases hg : getField gs f.1 with
            | none =>
              rw [hg] at hp1
              dsimp only at hp1
              exact Bool.noConfusion hp1
            | some w =>
              rw [hg] at hp1
              dsimp only at hp1
              have hwgs : (f.1, w) ∈ gs := getField_mem hg
              have hp2 := hall2 (f.1, w) hwgs
              cases hh : getField hs f.1 with
              | none =>
                rw [show getField hs (f.1, w).1 = none from hh] at hp2
                dsimp only at hp2
                exact Bool.noConfusion hp2
              | some u =>
                rw [show getField hs (f.1, w).1 = some u from hh] at hp2
                dsimp only at hp2 ⊢
                exact ih f2' f.2 w u hp1 hp2
          · rw [jeqKeys_iff]
            intro t ht
            have h1k := jeqKeys_iff.mp hkeys2 t ht
            obtain ⟨w', hg⟩ := Option.isSome_iff_exists.mp h1k
            have hmem : (t.1, w') ∈ gs := getField_mem hg
            exact jeqKeys_iff.mp hkeys1 (t.1, w') hmem
    | arr xs =>
      cases y with
      | null => exact Bool.noConfusion h1
      | bool b => exact Bool.noConfusion h1
      | num q => exact Bool.noConfusion h1
      | str ss => exact Bool.noConfusion h1
      | undef => exact Bool.noConfusion h1
      | obj gs => exact Bool.noConfusion h1
      | arr ys =>
        cases z with
        | null => cases f2 with
          | zero => exact Bool.noConfusion h2
          | succ m => exact Bool.noConfusion h2
        | bool b => cases f2 with
          | zero => exact Bool.noConfusion h2
          | succ m => exact Bool.noConfusion h2
        | num q => cases f2 with
          | zero => exact Bool.noConfusion h2
          | succ m => exact Bool.noConfusion h2
        | str ss => cases f2 with
          | zero => exact Bool.noConfusion h2
          | succ m => exact Bool.noConfusion h2
        | undef => cases f2 with
          | zero => exact Bool.noConfusion h2
          | succ m => exact Bool.noConfusion h2
        | obj hs => cases f2 with
          | zero => exact Bool.noConfusion h2
          | succ m => exact Bool.noConfusion h2
        | arr zs =>
          obtain ⟨f2', rfl⟩ : ∃ m, f2 = m + 1 := by
            cases f2 with
            | zero => exact Bool.noConfusion h2
            | succ m => exact ⟨m, rfl⟩
          rw [jeqB_succ_arr, Bool.and_eq_true] at h1 h2 ⊢
          obtain ⟨hlen1, hall1⟩ := h1
          obtain ⟨hlen2, hall2⟩ := h2
          have hlen1' : xs.length = ys.length := eq_of_beq hlen1
          have hlen2' : ys.length = zs.length := eq_of_beq hlen2
          constructor
          · have : xs.length = zs.length := by omega
            rw [this]
            exact beq_self_eq_true _
          · rw [zip_all_getD] at hall1 hall2 ⊢
            intro i hi1 hi3
            have hi2 : i < ys.length := by omega
            exact ih f2' _ _ _ (hall1 i hi1 hi2) (hall2 i hi2 hi3)

/-- Any fuel establishing the relation establishes it at the canonical
fuel of `jeq`. -/
theorem jeq_of_jeqB {fuel : Nat} {x y : Json} (h : jeqB fuel x y = true) :
    jeq x y = true :=
  jeqB_mono _ _ _ _ (Nat.le_add_right _ _) (jeqB_canon fuel x y h)

theorem jeq_refl {x : Json} (h : wfJ x = true) : jeq x x = true :=
  jeqB_refl _ _ h (Nat.le_add_right _ _)

theorem jeq_trans {x y z : Json} (h1 : jeq x y = true)
    (h2 : jeq y z = true) : jeq x z = true :=
  jeq_of_jeqB (jeqB_trans _ _ _ _ _ h1 h2)

theorem flatMap_congr_mem {α β : Type} {l : List α} {F G : α → List β}
    (h : ∀ a ∈ l, F a = G a) : l.flatMap F = l.flatMap G := by
  induction l with
  | nil => rfl
  | cons a l ihl =>
    rw [List.flatMap_cons, List.flatMap_cons,
        h a (List.mem_cons_self a l),
        ihl (fun b hb => h b (List.mem_cons_of_mem _ hb))]

theorem setField_of_absent {fs : List (String × Json)} {k : String} {v : Json}
    (h : getField fs k = none) : setField fs k v = fs ++ [(k, v)] := by
  induction fs with
  | nil => rfl
  | cons f fs ih =>
    obtain ⟨a, b⟩ := f
    rw [getField_cons] at h
    by_cases ha : a = k
    · rw [if_pos ha] at h
      exact Option.noConfusion h
    · rw [if_neg ha] at h
      rw [setField_cons, if_neg ha, ih h, List.cons_append]

theorem isSome_setField_iff {fs : List (String × Json)} {k k' : String}
    {v : Json} (hg : (getField fs k).isSome = true) :
    (getField (setField fs k v) k').isSome = true ↔
      (getField fs k').isSome = true := by
  rw [getField_isSome_iff, getField_isSome_iff, keys_setField, if_pos hg]

theorem isSome_removeField {fs : List (String × Json)} {k k' : String}
    (hnd : nodupKeys (fs.map (fun f => f.1)) = true)
    (h : (getField (removeField fs k) k').isSome = true) :
    (getField fs k').isSome = true := by
  by_cases he : k' = k
  · subst he
    rw [getField_removeField_self hnd] at h
    exact Bool.noConfusion h
  · rwa [getField_removeField_ne he] at h

theorem nodupKeys_append_singleton {fs : List (String × Json)} {k : String}
    {v : Json} (hnd : nodupKeys (fs.map (fun f => f.1)) = true)
    (habs : getField fs k = none) :
    nodupKeys ((fs ++ [(k, v)]).map (fun f => f.1)) = true := by
  rw [nodupKeys_iff] at hnd ⊢
  rw [List.map_append]
  refine List.Nodup.append hnd (by simp) ?_
  intro a ha hb
  have hk : a = k := by simpa using hb
  subst hk
  exact (getField_eq_none_iff.mp habs) ha

theorem wfF_append {fs gs : List (String × Json)} (h1 : wfF fs = true)
    (h2 : wfF gs = true) : wfF (fs ++ gs) = true := by
  rw [wfF_iff] at h1 h2 ⊢
  intro f hf
  rcases List.mem_append.mp hf with h | h
  · exact h1 f h
  · exact h2 f h

theorem noUF_append {fs gs : List (String × Json)} (h1 : noUF fs = true)
    (h2 : noUF gs = true) : noUF (fs ++ gs) = true := by
  rw [noUF_iff] at h1 h2 ⊢
  intro f hf
  rcases List.mem_append.mp hf with h | h
  · exact h1 f h
  · exact h2 f h

theorem nodupKeys_reverse {fs : List (String × Json)}
    (h : nodupKeys (fs.map (fun f => f.1)) = true) :
    nodupKeys (fs.reverse.map (fun f => f.1)) = true := by
  rw [nodupKeys_iff] at h ⊢
  rw [List.map_reverse]
  exact List.nodup_reverse.mpr h

theorem definedAt_of_noU {xs : List Json} {n : Nat} (hnu : noUL xs = true)
    (hn : n < xs.length) : definedAt xs n = true := by
  unfold definedAt
  rw [List.get?_eq_getElem?, List.getElem?_eq_getElem hn]
  have hmem : xs.getD n .undef ∈ xs := by
    rw [List.getD_eq_getElem?_getD, List.getElem?_eq_getElem hn]
    exact List.getElem_mem hn
  have hne : xs.getD n .undef ≠ .undef := by
    intro he
    have := noUL_mem hnu hmem
    rw [he] at this
    exact Bool.noConfusion this
  have hx : xs.getD n .undef = xs[n] := by
    rw [List.getD_eq_getElem?_getD, List.getElem?_eq_getElem hn]
    rfl
  rw [hx] at hne
  exact bne_iff_ne.mpr hne

theorem definedAt_lt {xs : List Json} {n : Nat}
    (h : definedAt xs n = true) : n < xs.length := by
  unfold definedAt at h
  by_cases hn : n < xs.length
  · exact hn
  · rw [List.get?_eq_getElem?, List.getElem?_eq_none (by omega)] at h
    exact Bool.noConfusion h

theorem insertAt_length_self {xs : List Json} {v : Json} :
    insertAt xs xs.length v = xs ++ [v] := by
  unfold insertAt
  rw [List.take_length, List.drop_length]

/-- The reverse `_generate` loop over a mirror object's own fields:
processing fields `rfs` (each still present in the current document with
its recorded value, keys distinct) rewrites each key shared with the
target `gs` to an equivalent value and removes the rest, leaving every
other key untouched. -/
theorem objLoop (fuel : Nat) (gs : List (String × Json))
    (IH : ∀ x y : Json, wfJ x = true → wfJ y = true → noU x = true →
      noU y = true → jdepth x + jdepth y ≤ fuel →
      ∃ z, applyOps x (genValF fuel [] x y) = .ok z ∧ jeq z y = true ∧
        wfJ z = true ∧ noU z = true)
    (hgwf : wfF gs = true) (hgnu : noUF gs = true) :
    ∀ (rfs cur : List (String × Json)),
      nodupKeys (rfs.map (fun f => f.1)) = true →
      (∀ f ∈ rfs, getField cur f.1 = some f.2) →
      (∀ f ∈ rfs, wfJ f.2 = true ∧ noU f.2 = true ∧
        jdepth f.2 + jdepthF gs ≤ fuel) →
      nodupKeys (cur.map (fun f => f.1)) = true →
      wfF cur = true → noUF cur = true →
      ∃ cur',
        applyOps (.obj cur) (rfs.flatMap (fun f =>
          match getField gs f.1 with
          | some w => (genValF fuel [] f.2 w).map (Op.prefixWith [.fld f.1])
          | none => [.remove [.fld f.1]])) = .ok (.obj cur') ∧
        nodupKeys (cur'.map (fun f => f.1)) = true ∧
        wfF cur' = true ∧ noUF cur' = true ∧
        (∀ k, (getField cur' k).isSome = true →
          (getField cur k).isSome = true) ∧
        (∀ k, (∀ f ∈ rfs, f.1 ≠ k) → getField cur' k = getField cur k) ∧
        (∀ f ∈ rfs,
          (∀ w, getField gs f.1 = some w →
            ∃ zf, getField cur' f.1 = some zf ∧ jeq zf w = true) ∧
          (getField gs f.1 = none → getField cur' f.1 = none)) := by
  intro rfs
  induction rfs with
  | nil =>
    intro cur _ _ _ hnd hwf hnu
    exact ⟨cur, rfl, hnd, hwf, hnu, fun k h => h, fun k _ => rfl,
           fun f hf => absurd hf (List.not_mem_nil f)⟩
  | cons f rfs ihr =>
    intro cur hndr hget hrec hnd hwf hnu
    rw [List.map_cons, nodupKeys_cons_iff] at hndr
    obtain ⟨hfk, hndr'⟩ := hndr
    have hcurf : getField cur f.1 = some f.2 :=
      hget f (List.mem_cons_self f rfs)
    obtain ⟨hfwf, hfnu, hfd⟩ := hrec f (List.mem_cons_self f rfs)
    rw [List.flatMap_cons, applyOps_append]
    cases hg : getField gs f.1 with
    | some w =>
      dsimp only
      have hwwf : wfJ w = true := wfF_getField hgwf hg
      have hwnu : noU w = true := noUF_getField hgnu hg
      have hdep : jdepth f.2 + jdepth w ≤ fuel := by
        have := jdepthF_getField hg
        omega
      obtain ⟨z, hz, hjz, hzwf, hznu⟩ := IH f.2 w hfwf hwwf hfnu hwnu hdep
      have hframe := applyOps_prefix_fld (genValF fuel [] f.2 w) cur f.1 f.2
        hcurf (fun op hop => (genValF_ops fuel [] f.2 w op hop).1)
      rw [hframe, hz]
      dsimp only
      have hiso : (getField cur f.1).isSome = true := by
        rw [hcurf]
        rfl
      have hnd₁ : nodupKeys ((setField cur f.1 z).map (fun t => t.1))
          = true := by
        rw [keys_setField, if_pos hiso]
        exact hnd
      have hget₁ : ∀ t ∈ rfs, getField (setField cur f.1 z) t.1
          = some t.2 := by
        intro t ht
        have hne : t.1 ≠ f.1 := by
          intro he
          exact hfk (he ▸ List.mem_map.mpr ⟨t, ht, rfl⟩)
        rw [getField_setField_ne hne]
        exact hget t (List.mem_cons_of_mem _ ht)
      obtain ⟨cur', hrun, hnd', hwf', hnu', hmono, hfr, hcl⟩ :=
        ihr (setField cur f.1 z) hndr' hget₁
          (fun t ht => hrec t (List.mem_cons_of_mem _ ht)) hnd₁
          (wfF_setField hwf hzwf) (noUF_setField hnu hznu)
      refine ⟨cur', hrun, hnd', hwf', hnu', ?_, ?_, ?_⟩
      · intro k hk
        exact (isSome_setField_iff hiso).mp (hmono k hk)
      · intro k hkall
        have hne : f.1 ≠ k := hkall f (List.mem_cons_self f rfs)
        rw [hfr k (fun t ht => hkall t (List.mem_cons_of_mem _ ht)),
            getField_setField_ne (fun he => hne he.symm)]
      · intro t ht
        rcases List.mem_cons.mp ht with heq | ht'
        · subst heq
          constructor
          · intro w' hw'
            rw [hg] at hw'
            have hww : w' = w := (Option.some.inj hw').symm
            subst hww
            refine ⟨z, ?_, hjz⟩
            rw [hfr t.1 (fun t' ht' he =>
                  hfk (he ▸ List.mem_map.mpr ⟨t', ht', rfl⟩)),
                getField_setField_self]
          · intro hnone
            rw [hg] at hnone
            exact Option.noConfusion hnone
        · exact hcl t ht'
    | none =>
      dsimp only
      have happ : applyOps (.obj cur) [Op.remove [Key.fld f.1]] =
          .ok (.obj (removeField cur f.1)) := by
        rw [applyOps_cons,
            show applyOp (Json.obj cur) (Op.remove [Key.fld f.1]) =
              applyAt (Json.obj cur) [Key.fld f.1] OpKind.removeK from rfl,
            applyAt_obj_one]
        dsimp only [Key.asField]
        rw [hcurf]
        rfl
      rw [happ]
      dsimp only
      have hnd₁ : nodupKeys ((removeField cur f.1).map (fun t => t.1))
          = true := nodupKeys_removeField hnd
      have hget₁ : ∀ t ∈ rfs, getField (removeField cur f.1) t.1
          = some t.2 := by
        intro t ht
        have hne : t.1 ≠ f.1 := by
          intro he
          exact hfk (he ▸ List.mem_map.mpr ⟨t, ht, rfl⟩)
        rw [getField_removeField_ne hne]
        exact hget t (List.mem_cons_of_mem _ ht)
      obtain ⟨cur', hrun, hnd', hwf', hnu', hmono, hfr, hcl⟩ :=
        ihr (removeField cur f.1) hndr' hget₁
          (fun t ht => hrec t (List.mem_cons_of_mem _ ht)) hnd₁
          (wfF_removeField hwf) (noUF_removeField hnu)
      refine ⟨cur', hrun, hnd', hwf', hnu', ?_, ?_, ?_⟩
      · intro k hk
        exact isSome_removeField hnd (hmono k hk)
      · intro k hkall
        have hne : f.1 ≠ k := hkall f (List.mem_cons_self f rfs)
        rw [hfr k (fun t ht => hkall t (List.mem_cons_of_mem _ ht)),
            getField_removeField_ne (fun he => hne he.symm)]
      · intro t ht
        rcases List.mem_cons.mp ht with heq | ht'
        · subst heq
          constructor
          · intro w' hw'
            rw [hg] at hw'
            exact Option.noConfusion hw'
          · intro _
            rw [hfr t.1 (fun t' ht' he =>
                  hfk (he ▸ List.mem_map.mpr ⟨t', ht', rfl⟩)),
                getField_removeField_self hnd]
        · exact hcl t ht'

/-- The forward `_generate` loop over an object's new fields: `add`
operations for keys absent from the current document append the fields in
order. -/
theorem objAdds : ∀ (adds cur : List (String × Json)),
    nodupKeys (adds.map (fun g => g.1)) = true →
    (∀ g ∈ adds, getField cur g.1 = none) →
    applyOps (.obj cur) (adds.map (fun g => .add [.fld g.1] g.2)) =
      .ok (.obj (cur ++ adds)) := by
  intro adds
  induction adds with
  | nil =>
    intro cur _ _
    rw [List.append_nil]
    rfl
  | cons g adds ih =>
    intro cur hnd habs
    rw [List.map_cons, applyOps_cons,
        show applyOp (Json.obj cur) (Op.add [Key.fld g.1] g.2) =
          Except.ok (Json.obj (setField cur g.1 g.2)) from rfl]
    dsimp only
    rw [setField_of_absent (habs g (List.mem_cons_self g adds))]
    rw [List.map_cons, nodupKeys_cons_iff] at hnd
    obtain ⟨hgk, hnd'⟩ := hnd
    have habs' : ∀ g' ∈ adds, getField (cur ++ [(g.1, g.2)]) g'.1 = none := by
      intro g' hg'
      rw [getField_append, habs g' (List.mem_cons_of_mem _ hg')]
      dsimp only
      rw [getField_cons]
      have hne : g.1 ≠ g'.1 := by
        intro he
        exact hgk (he ▸ List.mem_map.mpr ⟨g', hg', rfl⟩)
      rw [if_neg hne, getField_nil]
    rw [ih (cur ++ [(g.1, g.2)]) hnd' habs', List.append_assoc]
    rfl

/-- Round trip at a pair handled by `_generate`'s replace branch. -/
theorem roundtrip_rep (x y : Json) (hxwf : wfJ x = true)
    (hywf : wfJ y = true) (hxnu : noU x = true) (hynu : noU y = true) :
    ∃ z, applyOps x
        (if x = y then ([] : List Op) else [.replace [] (jclone y)])
      = .ok z ∧ jeq z y = true ∧ wfJ z = true ∧ noU z = true := by
  by_cases h : x = y
  · subst h
    rw [if_pos rfl]
    exact ⟨x, rfl, jeq_refl hxwf, hxwf, hxnu⟩
  · rw [if_neg h, jclone_noU hynu]
    refine ⟨y, ?_, jeq_refl hywf, hywf, hynu⟩
    rw [applyOps_cons,
        show applyOp x (Op.replace [] y) = applyAt x [] (OpKind.replaceK y)
          from rfl,
        applyAt_nil_replace]
    rfl

theorem range'_map_getD : ∀ (m s t : Nat) (f : Nat → Json) (d : Json),
    t < m → ((List.range' s m).map f).getD t d = f (s + t) := by
  intro m
  induction m with
  | zero =>
    intro s t f d ht
    omega
  | succ m ih =>
    intro s t f d ht
    rw [List.range'_succ s m 1, List.map_cons]
    cases t with
    | zero => rfl
    | succ t =>
      rw [List.getD_cons_succ, ih (s + 1) t f d (by omega)]
      congr 1
      omega

theorem getD_mem_of_lt {xs : List Json} {n : Nat} (h : n < xs.length) :
    xs.getD n .undef ∈ xs := by
  rw [List.getD_eq_getElem?_getD, List.getElem?_eq_getElem h]
  exact List.getElem_mem h

theorem take_append_set {xs ts : List Json} {n : Nat} {z : Json}
    (h : n < xs.length) :
    (xs.take (n + 1) ++ ts).set n z = xs.take n ++ z :: ts := by
  have htk : xs.take (n + 1) = xs.take n ++ [xs.getD n .undef] := by
    rw [List.take_succ, List.getElem?_eq_getElem h,
        List.getD_eq_getElem?_getD, List.getElem?_eq_getElem h]
    rfl
  have hlen : (xs.take n).length = n := by
    rw [List.length_take]
    omega
  rw [htk, List.append_assoc, List.set_append_right _ _ (by rw [hlen])]
  simp [hlen]

theorem take_append_getD {xs ts : List Json} {n : Nat} (h : n < xs.length) :
    (xs.take (n + 1) ++ ts).getD n .undef = xs.getD n .undef := by
  rw [List.getD_eq_getElem?_getD, List.getD_eq_getElem?_getD,
      List.getElem?_append, if_pos (by simp [List.length_take]; omega),
      List.getElem?_take, if_pos (by omega)]

theorem removeAt_take {xs : List Json} {n : Nat} (h : n < xs.length) :
    removeAt (xs.take (n + 1)) n = xs.take n := by
  unfold removeAt
  rw [List.take_take]
  have hmin : min n (n + 1) = n := by omega
  rw [hmin, List.drop_eq_nil_of_le (by rw [List.length_take]; omega),
      List.append_nil]

theorem take_append_length {xs ts : List Json} {n : Nat}
    (h : n ≤ xs.length) : (xs.take n ++ ts).length = n + ts.length := by
  rw [List.length_append, List.length_take]
  omega

/-- The descending `_generate` loop over a mirror array's indices: indices
shared with the target are rewritten to equivalent values, surplus indices
are removed from the tail down. -/
theorem arrLoop (fuel : Nat) (xs ys : List Json)
    (IH : ∀ x y : Json, wfJ x = true → wfJ y = true → noU x = true →
      noU y = true → jdepth x + jdepth y ≤ fuel →
      ∃ z, applyOps x (genValF fuel [] x y) = .ok z ∧ jeq z y = true ∧
        wfJ z = true ∧ noU z = true)
    (hxwf : wfL xs = true) (hxnu : noUL xs = true)
    (hywf : wfL ys = true) (hynu : noUL ys = true)
    (hdep : jdepthL xs + jdepthL ys ≤ fuel) :
    ∀ (n : Nat) (ts : List Json),
      n ≤ xs.length →
      ts.length = min xs.length ys.length - n →
      (∀ j, j < ts.length →
        jeq (ts.getD j .undef) (ys.getD (n + j) .undef) = true) →
      wfL ts = true → noUL ts = true →
      ∃ ts',
        applyOps (.arr (xs.take n ++ ts))
          ((List.range n).reverse.flatMap (fun i =>
            if definedAt xs i then
              if definedAt ys i then
                (genValF fuel [] (xs.getD i .undef) (ys.getD i .undef)).map
                  (Op.prefixWith [.idx i])
              else [.remove [.idx i]]
            else [])) = .ok (.arr ts') ∧
        ts'.length = min xs.length ys.length ∧
        (∀ j, j < ts'.length →
          jeq (ts'.getD j .undef) (ys.getD j .undef) = true) ∧
        wfL ts' = true ∧ noUL ts' = true := by
  intro n
  induction n with
  | zero =>
    intro ts _ hlen hjeq hwf hnu
    refine ⟨ts, rfl, by omega, fun j hj => by simpa using hjeq j hj,
            hwf, hnu⟩
  | succ n ihn =>
    intro ts hn hlen hjeq hwf hnu
    have hnx : n < xs.length := by omega
    rw [show (List.range (n + 1)).reverse = n :: (List.range n).reverse from
          by rw [List.range_succ n, List.reverse_append]; rfl,
        List.flatMap_cons, applyOps_append]
    rw [if_pos (definedAt_of_noU hxnu hnx)]
    by_cases hny : n < ys.length
    · rw [if_pos (definedAt_of_noU hynu hny)]
      have hxg : noU (xs.getD n .undef) = true :=
        noUL_mem hxnu (getD_mem_of_lt hnx)
      have hyg : noU (ys.getD n .undef) = true :=
        noUL_mem hynu (getD_mem_of_lt hny)
      have hxgw : wfJ (xs.getD n .undef) = true :=
        wfL_iff.mp hxwf _ (getD_mem_of_lt hnx)
      have hygw : wfJ (ys.getD n .undef) = true :=
        wfL_iff.mp hywf _ (getD_mem_of_lt hny)
      have hdep' : jdepth (xs.getD n .undef) + jdepth (ys.getD n .undef)
          ≤ fuel := by
        have h1 := jdepthL_mem (getD_mem_of_lt hnx)
        have h2 := jdepthL_mem (getD_mem_of_lt hny)
        omega
      obtain ⟨z, hz, hjz, hzwf, hznu⟩ := IH _ _ hxgw hygw hxg hyg hdep'
      have hcurlen : n < (xs.take (n + 1) ++ ts).length := by
        rw [take_append_length (by omega)]
        omega
      have hframe := applyOps_prefix_idx
        (genValF fuel [] (xs.getD n .undef) (ys.getD n .undef))
        (xs.take (n + 1) ++ ts) n (xs.getD n .undef) hcurlen
        (take_append_getD hnx) hxg
        (fun op hop => ⟨(genValF_ops fuel [] _ _ op hop).1,
                        (genValF_ops fuel [] _ _ op hop).2.1⟩)
      rw [hframe, hz]
      dsimp only
      rw [take_append_set hnx]
      obtain ⟨ts', hrun, hlen', hjeq', hwf', hnu'⟩ :=
        ihn (z :: ts) (by omega)
          (by rw [List.length_cons]; omega)
          (fun j hj => by
            cases j with
            | zero => exact hjz
            | succ j =>
              rw [List.getD_cons_succ]
              have hjj := hjeq j (by rw [List.length_cons] at hj; omega)
              rw [show n + (j + 1) = n + 1 + j from by omega]
              exact hjj)
          (by
            rw [wfL_iff]
            intro t ht
            rcases List.mem_cons.mp ht with heq | ht'
            · subst heq
              exact hzwf
            · exact wfL_iff.mp hwf t ht')
          (by
            rw [noUL_iff]
            intro t ht
            rcases List.mem_cons.mp ht with heq | ht'
            · subst heq
              exact hznu
            · exact noUL_iff.mp hnu t ht')
      exact ⟨ts', hrun, hlen', hjeq', hwf', hnu'⟩
    · rw [if_neg (show ¬ definedAt ys n = true from
            fun hc => hny (definedAt_lt hc))]
      have hts : ts = [] := by
        have h0 : ts.length = 0 := by omega
        exact List.length_eq_zero.mp h0
      subst hts
      rw [List.append_nil]
      have happ : applyOps (.arr (xs.take (n + 1))) [Op.remove [Key.idx n]]
          = .ok (.arr (xs.take n)) := by
        rw [applyOps_cons,
            show applyOp (Json.arr (xs.take (n + 1)))
                (Op.remove [Key.idx n]) =
              applyAt (Json.arr (xs.take (n + 1))) [Key.idx n]
                OpKind.removeK from rfl,
            applyAt_arr_one]
        dsimp only [Key.asIndex]
        have hlt : n < (xs.take (n + 1)).length := by
          rw [List.length_take]
          omega
        rw [if_pos hlt]
        have hgd : (xs.take (n + 1)).getD n .undef = xs.getD n .undef := by
          rw [List.getD_eq_getElem?_getD, List.getD_eq_getElem?_getD,
              List.getElem?_take, if_pos (by omega)]
        rw [hgd]
        have hne : xs.getD n .undef ≠ .undef := by
          intro he
          have hm := noUL_mem hxnu (getD_mem_of_lt hnx)
          rw [he] at hm
          exact Bool.noConfusion hm
        rw [if_neg hne, removeAt_take hnx]
        rfl
      rw [happ]
      dsimp only
      obtain ⟨ts', hrun, hlen', hjeq', hwf', hnu'⟩ :=
        ihn [] (by omega) (by simp; omega)
          (fun j hj => absurd hj (by simp)) rfl rfl
      rw [List.append_nil] at hrun
      exact ⟨ts', hrun, hlen', hjeq', hwf', hnu'⟩

/-- The forward `_generate` loop over new array indices: consecutive `add`
operations starting at the current length append the values in order. -/
theorem arrAdds (f : Nat → Json) : ∀ (m : Nat) (cur : List Json),
    applyOps (.arr cur) ((List.range' cur.length m).map (fun i =>
      Op.add [.idx i] (f i))) =
      .ok (.arr (cur ++ (List.range' cur.length m).map f)) := by
  intro m
  induction m with
  | zero =>
    intro cur
    rw [show List.range' cur.length 0 = [] from rfl, List.map_nil,
        List.map_nil, List.append_nil]
    rfl
  | succ m ih =>
    intro cur
    rw [List.range'_succ cur.length m 1, List.map_cons, List.map_cons,
        applyOps_cons,
        show applyOp (Json.arr cur)
            (Op.add [Key.idx cur.length] (f cur.length)) =
          applyAt (Json.arr cur) [Key.idx cur.length]
            (OpKind.addK (f cur.length)) from rfl,
        applyAt_arr_one]
    dsimp only [Key.asIndex]
    rw [if_pos (Nat.le_refl _), insertAt_length_self]
    dsimp only
    have hlen : cur.length + 1 = (cur ++ [f cur.length]).length := by
      rw [List.length_append]
      rfl
    rw [hlen, ih (cur ++ [f cur.length]), List.append_assoc]
    rfl

theorem range_filter_le (xlen : Nat) : ∀ n : Nat,
    (List.range n).filter (fun i => decide (xlen ≤ i)) =
      List.range' xlen (n - xlen) := by
  intro n
  induction n with
  | zero =>
    rw [show 0 - xlen = 0 from by omega]
    rfl
  | succ n ih =>
    rw [List.range_succ n, List.filter_append, ih]
    by_cases h : xlen ≤ n
    · rw [show List.filter (fun i => decide (xlen ≤ i)) [n] = [n] from by
            simp [List.filter_singleton, h]]
      have h1 : n + 1 - xlen = (n - xlen) + 1 := by omega
      rw [h1, List.range'_1_concat xlen (n - xlen)]
      have h2 : xlen + (n - xlen) = n := by omega
      rw [h2]
    · have h1 : n + 1 - xlen = n - xlen := by omega
      rw [h1, show List.filter (fun i => decide (xlen ≤ i)) [n] = [] from by
            simp [List.filter_singleton, h],
          List.append_nil]

theorem obj_final_jeq {zf gs : List (String × Json)}
    (hall : ∀ t ∈ zf, ∃ w, getField gs t.1 = some w ∧ jeq t.2 w = true)
    (hkeys : ∀ g ∈ gs, (getField zf g.1).isSome = true) :
    jeq (.obj zf) (.obj gs) = true := by
  refine jeq_of_jeqB (show jeqB (jdepthF zf + 1) (.obj zf) (.obj gs) = true
    from ?_)
  rw [jeqB_succ_obj, Bool.and_eq_true]
  constructor
  · rw [List.all_eq_true]
    intro t ht
    obtain ⟨w, hw, hj⟩ := hall t ht
    rw [hw]
    dsimp only
    exact jeqB_mono _ _ _ _ (jdepthF_mem ht) (jeqB_canon _ _ _ hj)
  · rw [jeqKeys_iff]
    exact hkeys

theorem arr_final_jeq {zl ys : List Json} (hlen : zl.length = ys.length)
    (helem : ∀ j, j < zl.length →
      jeq (zl.getD j .undef) (ys.getD j .undef) = true) :
    jeq (.arr zl) (.arr ys) = true := by
  refine jeq_of_jeqB (show jeqB (jdepthL zl + 1) (.arr zl) (.arr ys) = true
    from ?_)
  rw [jeqB_succ_arr, Bool.and_eq_true]
  constructor
  · rw [hlen]
    exact beq_self_eq_true _
  · rw [zip_all_getD]
    intro i h1 _
    exact jeqB_mono _ _ _ _ (jdepthL_mem (getD_mem_of_lt h1))
      (jeqB_canon _ _ _ (helem i h1))

theorem wfL_append {xs ys : List Json} (h1 : wfL xs = true)
    (h2 : wfL ys = true) : wfL (xs ++ ys) = true := by
  rw [wfL_iff]
  intro x hx
  rcases List.mem_append.mp hx with h | h
  · exact wfL_iff.mp h1 x h
  · exact wfL_iff.mp h2 x h

theorem noUL_append {xs ys : List Json} (h1 : noUL xs = true)
    (h2 : noUL ys = true) : noUL (xs ++ ys) = true := by
  rw [noUL_iff]
  intro x hx
  rcases List.mem_append.mp hx with h | h
  · exact noUL_iff.mp h1 x h
  · exact noUL_iff.mp h2 x h

/-- Main round-trip lemma: the operations `_generate` emits for `x → y`,
applied strictly to `x`, succeed and produce a document equal to `y` up to
object-key insertion order, preserving well-formedness and hole-freeness. -/
theorem genValF_roundtrip : ∀ (fuel : Nat) (x y : Json),
    wfJ x = true → wfJ y = true → noU x = true → noU y = true →
    jdepth x + jdepth y ≤ fuel →
    ∃ z, applyOps x (genValF fuel [] x y) = .ok z ∧ jeq z y = true ∧
      wfJ z = true ∧ noU z = true := by
  intro fuel
  induction fuel with
  | zero =>
    intro x y _ _ _ _ hdd
    have h1 := jdepth_pos x
    have h2 := jdepth_pos y
    omega
  | succ fuel IH =>
    intro x y hxwf hywf hxnu hynu hdd
    cases x with
    | null => exact roundtrip_rep Json.null y hxwf hywf hxnu hynu
    | bool b => exact roundtrip_rep (Json.bool b) y hxwf hywf hxnu hynu
    | num q => exact roundtrip_rep (Json.num q) y hxwf hywf hxnu hynu
    | str ss => exact roundtrip_rep (Json.str ss) y hxwf hywf hxnu hynu
    | undef => exact roundtrip_rep Json.undef y hxwf hywf hxnu hynu
    | obj fs =>
      cases y with
      | null =>
        exact roundtrip_rep (Json.obj fs) Json.null hxwf hywf hxnu hynu
      | bool b =>
        exact roundtrip_rep (Json.obj fs) (Json.bool b) hxwf hywf hxnu hynu
      | num q =>
        exact roundtrip_rep (Json.obj fs) (Json.num q) hxwf hywf hxnu hynu
      | str ss =>
        exact roundtrip_rep (Json.obj fs) (Json.str ss) hxwf hywf hxnu hynu
      | undef =>
        exact roundtrip_rep (Json.obj fs) Json.undef hxwf hywf hxnu hynu
      | arr ys =>
        exact roundtrip_rep (Json.obj fs) (Json.arr ys) hxwf hywf hxnu hynu
      | obj gs =>
        rw [genValF_succ_obj, applyOps_append]
        rw [wfJ_obj, Bool.and_eq_true] at hxwf hywf
        obtain ⟨hfnd, hfwf⟩ := hxwf
        obtain ⟨hgnd, hgwf⟩ := hywf
        rw [noU_obj] at hxnu hynu
        rw [jdepth_obj, jdepth_obj] at hdd
        have hbody : fs.reverse.flatMap (fun f =>
            match getField gs f.1 with
            | some w => genValF fuel ([] ++ [Key.fld f.1]) f.2 w
            | none => [Op.remove ([] ++ [Key.fld f.1])]) =
          fs.reverse.flatMap (fun f =>
            match getField gs f.1 with
            | some w =>
              (genValF fuel [] f.2 w).map (Op.prefixWith [Key.fld f.1])
            | none => [Op.remove [Key.fld f.1]]) := by
          refine flatMap_congr_mem ?_
          intro f hf
          cases hg : getField gs f.1 with
          | some w =>
            dsimp only
            rw [List.nil_append]
            exact genValF_prefix fuel [Key.fld f.1] f.2 w
          | none => rfl
        rw [hbody]
        obtain ⟨cur', hrun, hnd', hwf', hnu', hmono, hfr, hcl⟩ :=
          objLoop fuel gs IH hgwf hynu fs.reverse fs
            (nodupKeys_reverse hfnd)
            (fun f hf =>
              getField_self_of_mem_nodup hfnd (List.mem_reverse.mp hf))
            (fun f hf =>
              ⟨wfF_iff.mp hfwf f (List.mem_reverse.mp hf),
               noUF_iff.mp hxnu f (List.mem_reverse.mp hf),
               by
                 have h1 := jdepthF_mem (List.mem_reverse.mp hf)
                 omega⟩)
            hfnd hfwf hxnu
        rw [hrun]
        dsimp only
        have hadds : genFieldAdds [] gs fs =
            (gs.filter (fun g => ¬ (getField fs g.1).isSome)).map
              (fun g => Op.add [Key.fld g.1] g.2) := by
          unfold genFieldAdds
          refine List.map_congr_left ?_
          intro g hg
          dsimp only
          rw [List.nil_append,
              jclone_noU (noUF_iff.mp hynu g (List.mem_of_mem_filter hg))]
        have hadds_nd : nodupKeys
            ((gs.filter (fun g => ¬ (getField fs g.1).isSome)).map
              (fun g => g.1)) = true := by
          rw [nodupKeys_iff] at hgnd ⊢
          exact List.Nodup.sublist ((List.filter_sublist _).map _) hgnd
        have hadds_abs :
            ∀ g ∈ gs.filter (fun g => ¬ (getField fs g.1).isSome),
              getField cur' g.1 = none := by
          intro g hg
          have hnot : ¬ (getField fs g.1).isSome = true := by
            have := List.of_mem_filter hg
            simpa using this
          cases hc : getField cur' g.1 with
          | none => rfl
          | some v =>
            have hs : (getField cur' g.1).isSome = true := by
              rw [hc]
              rfl
            exact absurd (hmono g.1 hs) hnot
        rw [hadds, objAdds _ cur' hadds_nd hadds_abs]
        refine ⟨_, rfl, ?_, ?_, ?_⟩
        · refine obj_final_jeq ?_ ?_
          · intro t ht
            rcases List.mem_append.mp ht with htc | hta
            · have htv : getField cur' t.1 = some t.2 :=
                getField_self_of_mem_nodup hnd' htc
              have hts : (getField cur' t.1).isSome = true := by
                rw [htv]
                rfl
              obtain ⟨v, hv⟩ := Option.isSome_iff_exists.mp (hmono t.1 hts)
              have hclt := hcl (t.1, v) (List.mem_reverse.mpr (getField_mem hv))
              cases hg : getField gs t.1 with
              | none =>
                have h0 := hclt.2 hg
                rw [h0] at htv
                exact Option.noConfusion htv
              | some w =>
                obtain ⟨zf, hzf, hjzf⟩ := hclt.1 w hg
                have hzt : zf = t.2 := by
                  rw [htv] at hzf
                  exact (Option.some.inj hzf).symm
                subst hzt
                exact ⟨w, rfl, hjzf⟩
            · have htgs : t ∈ gs := List.mem_of_mem_filter hta
              exact ⟨t.2, getField_self_of_mem_nodup hgnd htgs,
                     jeq_refl (wfF_iff.mp hgwf t htgs)⟩
          · intro g hgmem
            by_cases hin : (getField fs g.1).isSome = true
            · obtain ⟨v, hv⟩ := Option.isSome_iff_exists.mp hin
              have hclg := hcl (g.1, v) (List.mem_reverse.mpr (getField_mem hv))
              obtain ⟨zf, hzf, _⟩ :=
                hclg.1 g.2 (getField_self_of_mem_nodup hgnd hgmem)
              rw [getField_append, hzf]
              rfl
            · have hgf : g ∈ gs.filter (fun g => ¬ (getField fs g.1).isSome) :=
                List.mem_filter.mpr ⟨hgmem, by simpa using hin⟩
              rw [getField_append, hadds_abs g hgf]
              dsimp only
              rw [getField_isSome_iff]
              exact List.mem_map.mpr ⟨g, hgf, rfl⟩
        · rw [wfJ_obj, Bool.and_eq_true]
          constructor
          · rw [nodupKeys_iff, List.map_append]
            refine List.Nodup.append (nodupKeys_iff.mp hnd')
              (nodupKeys_iff.mp hadds_nd) ?_
            intro a ha hb
            have h1 : (getField cur' a).isSome = true :=
              getField_isSome_iff.mpr ha
            have h2 := hmono a h1
            obtain ⟨g, hgf, hge⟩ := List.mem_map.mp hb
            have hnot : ¬ (getField fs g.1).isSome = true := by
              have := List.of_mem_filter hgf
              simpa using this
            have hge' : g.1 = a := hge
            rw [hge'] at hnot
            exact hnot h2
          · refine wfF_append hwf' ?_
            rw [wfF_iff]
            intro g hg
            exact wfF_iff.mp hgwf g (List.mem_of_mem_filter hg)
        · rw [noU_obj]
          refine noUF_append hnu' ?_
          rw [noUF_iff]
          intro g hg
          exact noUF_iff.mp hynu g (List.mem_of_mem_filter hg)
    | arr xs =>
      cases y with
      | null =>
        exact roundtrip_rep (Json.arr xs) Json.null hxwf hywf hxnu hynu
      | bool b =>
        exact roundtrip_rep (Json.arr xs) (Json.bool b) hxwf hywf hxnu hynu
      | num q =>
        exact roundtrip_rep (Json.arr xs) (Json.num q) hxwf hywf hxnu hynu
      | str ss =>
        exact roundtrip_rep (Json.arr xs) (Json.str ss) hxwf hywf hxnu hynu
      | undef =>
        exact roundtrip_rep (Json.arr xs) Json.undef hxwf hywf hxnu hynu
      | obj gs =>
        exact roundtrip_rep (Json.arr xs) (Json.obj gs) hxwf hywf hxnu hynu
      | arr ys =>
        rw [genValF_succ_arr, applyOps_append]
        rw [wfJ_arr] at hxwf hywf
        rw [noU_arr] at hxnu hynu
        rw [jdepth_arr, jdepth_arr] at hdd
        have hbody : (List.range xs.length).reverse.flatMap (fun n =>
            if definedAt xs n then
              if definedAt ys n then
                genValF fuel ([] ++ [Key.idx n]) (xs.getD n .undef)
                  (ys.getD n .undef)
              else [Op.remove ([] ++ [Key.idx n])]
            else []) =
          (List.range xs.length).reverse.flatMap (fun n =>
            if definedAt xs n then
              if definedAt ys n then
                (genValF fuel [] (xs.getD n .undef) (ys.getD n .undef)).map
                  (Op.prefixWith [Key.idx n])
              else [Op.remove [Key.idx n]]
            else []) := by
          refine flatMap_congr_mem ?_
          intro i hi
          by_cases h1 : definedAt xs i
          · rw [if_pos h1, if_pos h1]
            by_cases h2 : definedAt ys i
            · rw [if_pos h2, if_pos h2, List.nil_append]
              exact genValF_prefix fuel [Key.idx i] _ _
            · rw [if_neg h2, if_neg h2]
              rfl
          · rw [if_neg h1, if_neg h1]
        rw [hbody]
        obtain ⟨ts', hrun, hlen', hjeq', hwf', hnu'⟩ :=
          arrLoop fuel xs ys IH hxwf hxnu hywf hynu (by omega) xs.length []
            (Nat.le_refl _) (by simp only [List.length_nil]; omega)
            (fun j hj => absurd hj (by simp)) rfl rfl
        rw [List.take_length, List.append_nil] at hrun
        rw [hrun]
        dsimp only
        have haddseq : genArrAdds [] ys xs.length =
            (List.range' xs.length (ys.length - xs.length)).map
              (fun i => Op.add [Key.idx i] (ys.getD i .undef)) := by
          unfold genArrAdds
          have hfeq : (List.range ys.length).filter
              (fun i => decide (xs.length ≤ i) && definedAt ys i) =
            (List.range ys.length).filter (fun i => decide (xs.length ≤ i))
              := by
            refine List.filter_congr ?_
            intro i hi
            rw [definedAt_of_noU hynu (List.mem_range.mp hi), Bool.and_true]
          rw [hfeq, range_filter_le]
          refine List.map_congr_left ?_
          intro i hi
          have hiy : i < ys.length := by
            have := List.mem_range'_1.mp hi
            omega
          rw [List.nil_append,
              jclone_noU (noUL_mem hynu (getD_mem_of_lt hiy))]
        rw [haddseq]
        by_cases hxy : xs.length ≤ ys.length
        · have hts'len : xs.length = ts'.length := by omega
          rw [hts'len,
              arrAdds (fun i => ys.getD i .undef) (ys.length - ts'.length)
                ts']
          refine ⟨_, rfl, ?_, ?_, ?_⟩
          · refine arr_final_jeq ?_ ?_
            · rw [List.length_append, List.length_map, List.length_range']
              omega
            · intro j hj
              rw [List.length_append, List.length_map,
                  List.length_range'] at hj
              by_cases hjt : j < ts'.length
              · rw [List.getD_append _ _ _ _ hjt]
                exact hjeq' j hjt
              · have hge : ts'.length ≤ j := by omega
                rw [List.getD_append_right _ _ _ _ hge,
                    range'_map_getD (ys.length - ts'.length) ts'.length
                      (j - ts'.length) _ _ (by omega)]
                rw [show ts'.length + (j - ts'.length) = j from by omega]
                exact jeq_refl (wfL_iff.mp hywf _ (getD_mem_of_lt (by omega)))
          · rw [wfJ_arr]
            refine wfL_append hwf' ?_
            rw [wfL_iff]
            intro t ht
            obtain ⟨i, hi, hie⟩ := List.mem_map.mp ht
            have hiy : i < ys.length := by
              have := List.mem_range'_1.mp hi
              omega
            rw [← hie]
            exact wfL_iff.mp hywf _ (getD_mem_of_lt hiy)
          · rw [noU_arr]
            refine noUL_append hnu' ?_
            rw [noUL_iff]
            intro t ht
            obtain ⟨i, hi, hie⟩ := List.mem_map.mp ht
            have hiy : i < ys.length := by
              have := List.mem_range'_1.mp hi
              omega
            rw [← hie]
            exact noUL_mem hynu (getD_mem_of_lt hiy)
        · have hm : ys.length - xs.length = 0 := by omega
          rw [hm, show List.range' xs.length 0 = [] from rfl, List.map_nil]
          refine ⟨.arr ts', rfl, ?_, by rw [wfJ_arr]; exact hwf',
                  by rw [noU_arr]; exact hnu'⟩
          exact arr_final_jeq (by omega) (fun j hj => hjeq' j hj)

theorem jeq_obj_elim {fs gs : List (String × Json)}
    (h : jeq (.obj fs) (.obj gs) = true) :
    (∀ t ∈ fs, ∃ w, getField gs t.1 = some w ∧ jeq t.2 w = true) ∧
    (∀ g ∈ gs, (getField fs g.1).isSome = true) := by
  unfold jeq at h
  cases hn : jdepth (Json.obj fs) + jdepth (Json.obj gs) with
  | zero =>
    exfalso
    have h1 := jdepth_pos (Json.obj fs)
    have h2 := jdepth_pos (Json.obj gs)
    omega
  | succ m =>
    rw [hn, jeqB_succ_obj, Bool.and_eq_true] at h
    obtain ⟨hall, hkeys⟩ := h
    constructor
    · intro t ht
      have hp := List.all_eq_true.mp hall t ht
      cases hg : getField gs t.1 with
      | none =>
        rw [hg] at hp
        dsimp only at hp
        exact Bool.noConfusion hp
      | some w =>
        rw [hg] at hp
        dsimp only at hp
        exact ⟨w, rfl, jeq_of_jeqB hp⟩
    · exact jeqKeys_iff.mp hkeys

theorem jeq_arr_elim {xs ys : List Json}
    (h : jeq (.arr xs) (.arr ys) = true) :
    xs.length = ys.length ∧
    (∀ j, j < xs.length →
      jeq (xs.getD j .undef) (ys.getD j .undef) = true) := by
  unfold jeq at h
  cases hn : jdepth (Json.arr xs) + jdepth (Json.arr ys) with
  | zero =>
    exfalso
    have h1 := jdepth_pos (Json.arr xs)
    have h2 := jdepth_pos (Json.arr ys)
    omega
  | succ m =>
    rw [hn, jeqB_succ_arr, Bool.and_eq_true] at h
    obtain ⟨hlen, hall⟩ := h
    have hlen' : xs.length = ys.length := eq_of_beq hlen
    refine ⟨hlen', ?_⟩
    intro j hj
    rw [zip_all_getD] at hall
    exact jeq_of_jeqB (hall j hj (by omega))

theorem mem_setField : ∀ {fs : List (String × Json)} {k : String}
    {v : Json} {t : String × Json}, t ∈ setField fs k v →
    t = (k, v) ∨ t ∈ fs := by
  intro fs
  induction fs with
  | nil =>
    intro k v t ht
    rw [setField_nil] at ht
    exact Or.inl (List.mem_singleton.mp ht)
  | cons f fs ih =>
    intro k v t ht
    rw [setField_cons] at ht
    by_cases h : f.1 = k
    · rw [if_pos h] at ht
      rcases List.mem_cons.mp ht with heq | hmem
      · subst h
        exact Or.inl (heq.trans rfl)
      · exact Or.inr (List.mem_cons_of_mem _ hmem)
    · rw [if_neg h] at ht
      rcases List.mem_cons.mp ht with heq | hmem
      · exact Or.inr (heq ▸ List.mem_cons_self f fs)
      · rcases ih hmem with h1 | h1
        · exact Or.inl h1
        · exact Or.inr (List.mem_cons_of_mem _ h1)

theorem mem_setField_nodup : ∀ {fs : List (String × Json)} {k : String}
    {v : Json} {t : String × Json},
    nodupKeys (fs.map (fun f => f.1)) = true → t ∈ setField fs k v →
    (t.1 = k ∧ t.2 = v) ∨ (t ∈ fs ∧ t.1 ≠ k) := by
  intro fs
  induction fs with
  | nil =>
    intro k v t _ ht
    rw [setField_nil] at ht
    have := List.mem_singleton.mp ht
    subst this
    exact Or.inl ⟨rfl, rfl⟩
  | cons f fs ih =>
    intro k v t hnd ht
    rw [List.map_cons, nodupKeys_cons_iff] at hnd
    obtain ⟨hfk, hnd'⟩ := hnd
    rw [setField_cons] at ht
    by_cases h : f.1 = k
    · rw [if_pos h] at ht
      rcases List.mem_cons.mp ht with heq | hmem
      · subst heq
        exact Or.inl ⟨h, rfl⟩
      · refine Or.inr ⟨List.mem_cons_of_mem _ hmem, ?_⟩
        intro he
        rw [← h] at he
        exact hfk (he ▸ List.mem_map.mpr ⟨t, hmem, rfl⟩)
    · rw [if_neg h] at ht
      rcases List.mem_cons.mp ht with heq | hmem
      · refine Or.inr ⟨List.mem_cons.mpr (Or.inl heq), ?_⟩
        rw [heq]
        exact h
      · rcases ih hnd' hmem with h1 | h1
        · exact Or.inl h1
        · exact Or.inr ⟨List.mem_cons_of_mem _ h1.1, h1.2⟩

theorem mem_removeField : ∀ {fs : List (String × Json)} {k : String}
    {t : String × Json}, t ∈ removeField fs k → t ∈ fs := by
  intro fs
  induction fs with
  | nil =>
    intro k t ht
    exact absurd ht (List.not_mem_nil t)
  | cons f fs ih =>
    intro k t ht
    rw [removeField_cons] at ht
    by_cases h : f.1 = k
    · rw [if_pos h] at ht
      exact List.mem_cons_of_mem _ ht
    · rw [if_neg h] at ht
      rcases List.mem_cons.mp ht with heq | hmem
      · exact heq ▸ List.mem_cons_self f fs
      · exact List.mem_cons_of_mem _ (ih hmem)

theorem mem_removeField_nodup : ∀ {fs : List (String × Json)} {k : String}
    {t : String × Json},
    nodupKeys (fs.map (fun f => f.1)) = true → t ∈ removeField fs k →
    t ∈ fs ∧ t.1 ≠ k := by
  intro fs
  induction fs with
  | nil =>
    intro k t _ ht
    exact absurd ht (List.not_mem_nil t)
  | cons f fs ih =>
    intro k t hnd ht
    rw [List.map_cons, nodupKeys_cons_iff] at hnd
    obtain ⟨hfk, hnd'⟩ := hnd
    rw [removeField_cons] at ht
    by_cases h : f.1 = k
    · rw [if_pos h] at ht
      refine ⟨List.mem_cons_of_mem _ ht, ?_⟩
      intro he
      rw [← h] at he
      exact hfk (he ▸ List.mem_map.mpr ⟨t, ht, rfl⟩)
    · rw [if_neg h] at ht
      rcases List.mem_cons.mp ht with heq | hmem
      · refine ⟨List.mem_cons.mpr (Or.inl heq), ?_⟩
        rw [heq]
        exact h
      · obtain ⟨h1, h2⟩ := ih hnd' hmem
        exact ⟨List.mem_cons_of_mem _ h1, h2⟩

/-- Writing equivalent values at the same key preserves object
equivalence. -/
theorem jeq_setField {fs gs : List (String × Json)} {a : String}
    {v₂ v : Json} (hfnd : nodupKeys (fs.map (fun f => f.1)) = true)
    (h : jeq (.obj fs) (.obj gs) = true) (hv : jeq v₂ v = true) :
    jeq (.obj (setField fs a v₂)) (.obj (setField gs a v)) = true := by
  obtain ⟨hall, hkeys⟩ := jeq_obj_elim h
  refine obj_final_jeq ?_ ?_
  · intro t ht
    rcases mem_setField_nodup hfnd ht with ⟨h1, h2⟩ | ⟨h1, h2⟩
    · subst h2
      rw [h1, getField_setField_self]
      exact ⟨v, rfl, hv⟩
    · obtain ⟨w, hw, hj⟩ := hall t h1
      rw [getField_setField_ne h2, hw]
      exact ⟨w, rfl, hj⟩
  · intro g hg
    rcases mem_setField hg with heq | hmem
    · rw [heq]
      dsimp only
      rw [getField_setField_self]
      rfl
    · have h1 := hkeys g hmem
      by_cases he : g.1 = a
      · rw [he, getField_setField_self]
        rfl
      · rw [getField_setField_ne he]
        exact h1

/-- Removing the same key preserves object equivalence (both objects
well-formed). -/
theorem jeq_removeField {fs gs : List (String × Json)} {a : String}
    (hfnd : nodupKeys (fs.map (fun f => f.1)) = true)
    (hgnd : nodupKeys (gs.map (fun g => g.1)) = true)
    (h : jeq (.obj fs) (.obj gs) = true) :
    jeq (.obj (removeField fs a)) (.obj (removeField gs a)) = true := by
  obtain ⟨hall, hkeys⟩ := jeq_obj_elim h
  refine obj_final_jeq ?_ ?_
  · intro t ht
    obtain ⟨h1, h2⟩ := mem_removeField_nodup hfnd ht
    obtain ⟨w, hw, hj⟩ := hall t h1
    rw [getField_removeField_ne h2, hw]
    exact ⟨w, rfl, hj⟩
  · intro g hg
    obtain ⟨h1, h2⟩ := mem_removeField_nodup hgnd hg
    rw [getField_removeField_ne h2]
    exact hkeys g h1

theorem set_getD_self {xs : List Json} {i : Nat} {v d : Json}
    (h : i < xs.length) : (xs.set i v).getD i d = v := by
  rw [List.getD_eq_getElem?_getD, List.getElem?_set_self h]
  rfl

theorem set_getD_ne {xs : List Json} {i j : Nat} {v d : Json}
    (h : i ≠ j) : (xs.set i v).getD j d = xs.getD j d := by
  rw [List.getD_eq_getElem?_getD, List.getD_eq_getElem?_getD,
      List.getElem?_set_ne h]

theorem insertAt_length {xs : List Json} {i : Nat} {v : Json}
    (h : i ≤ xs.length) : (insertAt xs i v).length = xs.length + 1 := by
  unfold insertAt
  rw [List.length_append, List.length_take, List.length_cons,
      List.length_drop]
  omega

theorem insertAt_getD_lt {xs : List Json} {i j : Nat} {v d : Json}
    (hij : j < i) (hi : i ≤ xs.length) :
    (insertAt xs i v).getD j d = xs.getD j d := by
  unfold insertAt
  rw [List.getD_eq_getElem?_getD, List.getD_eq_getElem?_getD,
      List.getElem?_append, if_pos (by rw [List.length_take]; omega),
      List.getElem?_take, if_pos hij]

theorem insertAt_getD_self {xs : List Json} {i : Nat} {v d : Json}
    (hi : i ≤ xs.length) : (insertAt xs i v).getD i d = v := by
  unfold insertAt
  rw [List.getD_eq_getElem?_getD, List.getElem?_append,
      if_neg (by rw [List.length_take]; omega)]
  rw [show i - (xs.take i).length = 0 from by rw [List.length_take]; omega]
  rw [List.getElem?_cons_zero]
  rfl

theorem insertAt_getD_gt {xs : List Json} {i j : Nat} {v d : Json}
    (hij : i < j) (hi : i ≤ xs.length) :
    (insertAt xs i v).getD j d = xs.getD (j - 1) d := by
  unfold insertAt
  rw [List.getD_eq_getElem?_getD, List.getD_eq_getElem?_getD,
      List.getElem?_append, if_neg (by rw [List.length_take]; omega)]
  rw [show j - (xs.take i).length = (j - i - 1) + 1 from by
        rw [List.length_take]; omega]
  rw [List.getElem?_cons_succ, List.getElem?_drop]
  rw [show i + (j - i - 1) = j - 1 from by omega]

theorem removeAt_length {xs : List Json} {i : Nat} (h : i < xs.length) :
    (removeAt xs i).length = xs.length - 1 := by
  unfold removeAt
  rw [List.length_append, List.length_take, List.length_drop]
  omega

theorem removeAt_getD_lt {xs : List Json} {i j : Nat} {d : Json}
    (hij : j < i) (hi : i ≤ xs.length) :
    (removeAt xs i).getD j d = xs.getD j d := by
  unfold removeAt
  rw [List.getD_eq_getElem?_getD, List.getD_eq_getElem?_getD,
      List.getElem?_append, if_pos (by rw [List.length_take]; omega),
      List.getElem?_take, if_pos hij]

theorem removeAt_getD_ge {xs : List Json} {i j : Nat} {d : Json}
    (hij : i ≤ j) (hi : i ≤ xs.length) :
    (removeAt xs i).getD j d = xs.getD (j + 1) d := by
  unfold removeAt
  rw [List.getD_eq_getElem?_getD, List.getD_eq_getElem?_getD,
      List.getElem?_append, if_neg (by rw [List.length_take]; omega),
      List.getElem?_drop]
  rw [show i + 1 + (j - (xs.take i).length) = j + 1 from by
        rw [List.length_take]; omega]

/-- Setting equivalent values at the same index preserves array
equivalence. -/
theorem jeq_set_arr {xs ys : List Json} {i : Nat} {v₂ v : Json}
    (h : jeq (.arr xs) (.arr ys) = true) (hv : jeq v₂ v = true) :
    jeq (.arr (xs.set i v₂)) (.arr (ys.set i v)) = true := by
  obtain ⟨hlen, hel⟩ := jeq_arr_elim h
  refine arr_final_jeq ?_ ?_
  · rw [List.length_set, List.length_set]
    exact hlen
  · intro j hj
    rw [List.length_set] at hj
    by_cases he : i = j
    · subst he
      rw [set_getD_self hj, set_getD_self (by omega)]
      exact hv
    · rw [set_getD_ne he, set_getD_ne he]
      exact hel j hj

/-- Inserting equivalent values at the same index preserves array
equivalence. -/
theorem jeq_insertAt {xs ys : List Json} {i : Nat} {v₂ v : Json}
    (h : jeq (.arr xs) (.arr ys) = true) (hv : jeq v₂ v = true)
    (hi : i ≤ xs.length) :
    jeq (.arr (insertAt xs i v₂)) (.arr (insertAt ys i v)) = true := by
  obtain ⟨hlen, hel⟩ := jeq_arr_elim h
  have hi' : i ≤ ys.length := by omega
  refine arr_final_jeq ?_ ?_
  · rw [insertAt_length hi, insertAt_length hi']
    omega
  · intro j hj
    rw [insertAt_length hi] at hj
    by_cases h1 : j < i
    · rw [insertAt_getD_lt h1 hi, insertAt_getD_lt h1 hi']
      exact hel j (by omega)
    · by_cases h2 : j = i
      · subst h2
        rw [insertAt_getD_self hi, insertAt_getD_self hi']
        exact hv
      · have h3 : i < j := by omega
        rw [insertAt_getD_gt h3 hi, insertAt_getD_gt h3 hi']
        exact hel (j - 1) (by omega)

/-- Removing the same index preserves array equivalence. -/
theorem jeq_removeAt {xs ys : List Json} {i : Nat}
    (h : jeq (.arr xs) (.arr ys) = true) (hi : i < xs.length) :
    jeq (.arr (removeAt xs i)) (.arr (removeAt ys i)) = true := by
  obtain ⟨hlen, hel⟩ := jeq_arr_elim h
  have hi' : i < ys.length := by omega
  refine arr_final_jeq ?_ ?_
  · rw [removeAt_length hi, removeAt_length hi']
    omega
  · intro j hj
    rw [removeAt_length hi] at hj
    by_cases h1 : j < i
    · rw [removeAt_getD_lt h1 (by omega), removeAt_getD_lt h1 (by omega)]
      exact hel j (by omega)
    · have h2 : i ≤ j := by omega
      rw [removeAt_getD_ge h2 (by omega), removeAt_getD_ge h2 (by omega)]
      exact hel (j + 1) (by omega)

theorem jeq_obj_right {z : Json} {gs : List (String × Json)}
    (h : jeq z (.obj gs) = true) : ∃ fs, z = .obj fs := by
  unfold jeq at h
  cases hn : jdepth z + jdepth (Json.obj gs) with
  | zero =>
    exfalso
    have := jdepth_pos z
    have := jdepth_pos (Json.obj gs)
    omega
  | succ m =>
    rw [hn] at h
    cases z with
    | obj fs => exact ⟨fs, rfl⟩
    | null => exact Bool.noConfusion h
    | bool b => exact Bool.noConfusion h
    | num q => exact Bool.noConfusion h
    | str ss => exact Bool.noConfusion h
    | undef => exact Bool.noConfusion h
    | arr xs => exact Bool.noConfusion h

theorem jeq_arr_right {z : Json} {ys : List Json}
    (h : jeq z (.arr ys) = true) : ∃ xs, z = .arr xs := by
  unfold jeq at h
  cases hn : jdepth z + jdepth (Json.arr ys) with
  | zero =>
    exfalso
    have := jdepth_pos z
    have := jdepth_pos (Json.arr ys)
    omega
  | succ m =>
    rw [hn] at h
    cases z with
    | arr xs => exact ⟨xs, rfl⟩
    | null => exact Bool.noConfusion h
    | bool b => exact Bool.noConfusion h
    | num q => exact Bool.noConfusion h
    | str ss => exact Bool.noConfusion h
    | undef => exact Bool.noConfusion h
    | obj fs => exact Bool.noConfusion h

theorem jeq_getField_of_jeq {fs gs : List (String × Json)} {a : String}
    {c : Json} (h : jeq (.obj fs) (.obj gs) = true)
    (hg : getField gs a = some c) :
    ∃ c₂, getField fs a = some c₂ ∧ jeq c₂ c = true := by
  obtain ⟨hall, hkeys⟩ := jeq_obj_elim h
  have h1 := hkeys (a, c) (getField_mem hg)
  obtain ⟨c₂, hc₂⟩ := Option.isSome_iff_exists.mp h1
  obtain ⟨w, hw, hj⟩ := hall (a, c₂) (getField_mem hc₂)
  have hw' : getField gs a = some w := hw
  rw [hg] at hw'
  have hwc : w = c := (Option.some.inj hw').symm
  subst hwc
  exact ⟨c₂, hc₂, hj⟩

/-- Transfer: an operation that succeeds on a document also succeeds on any
equivalent well-formed hole-free document, with an equivalent result. -/
theorem applyAt_jeq : ∀ (path : List Key) (z y : Json) (kind : OpKind)
    (y' : Json), wfJ z = true → wfJ y = true → noU z = true → noU y = true →
    kind.valWf = true → jeq z y = true → applyAt y path kind = .ok y' →
    ∃ z', applyAt z path kind = .ok z' ∧ jeq z' y' = true := by
  intro path
  induction path with
  | nil =>
    intro z y kind y' hzwf hywf hznu hynu hkwf hjeq h
    cases kind with
    | addK v =>
      rw [applyAt_nil_add] at h
      have := Except.ok.inj h
      subst this
      exact ⟨v, applyAt_nil_add z v, jeq_refl hkwf⟩
    | replaceK v =>
      rw [applyAt_nil_replace] at h
      have := Except.ok.inj h
      subst this
      exact ⟨v, applyAt_nil_replace z v, jeq_refl hkwf⟩
    | removeK =>
      rw [applyAt_nil_remove] at h
      have := Except.ok.inj h
      subst this
      exact ⟨.null, applyAt_nil_remove z, rfl⟩
  | cons k rest ih =>
    intro z y kind y' hzwf hywf hznu hynu hkwf hjeq h
    cases rest with
    | nil =>
      cases y with
      | obj gs =>
        obtain ⟨fs, hz⟩ := jeq_obj_right hjeq
        subst hz
        rw [wfJ_obj, Bool.and_eq_true] at hzwf hywf
        obtain ⟨hfnd, hfwf⟩ := hzwf
        obtain ⟨hgnd, hgwf⟩ := hywf
        rw [applyAt_obj_one] at h
        cases kind with
        | addK v =>
          dsimp only at h
          have := Except.ok.inj h
          subst this
          refine ⟨.obj (setField fs k.asField v), by rw [applyAt_obj_one], ?_⟩
          exact jeq_setField hfnd hjeq (jeq_refl hkwf)
        | removeK =>
          dsimp only at h
          cases hg : getField gs k.asField with
          | none =>
            rw [hg] at h
            dsimp only at h
            exact Except.noConfusion h
          | some c =>
            rw [hg] at h
            dsimp only at h
            have := Except.ok.inj h
            subst this
            obtain ⟨c₂, hc₂, _⟩ := jeq_getField_of_jeq hjeq hg
            refine ⟨.obj (removeField fs k.asField), ?_, ?_⟩
            · rw [applyAt_obj_one]
              dsimp only
              rw [hc₂]
            · exact jeq_removeField hfnd hgnd hjeq
        | replaceK v =>
          dsimp only at h
          cases hg : getField gs k.asField with
          | none =>
            rw [hg] at h
            dsimp only at h
            exact Except.noConfusion h
          | some c =>
            rw [hg] at h
            dsimp only at h
            have := Except.ok.inj h
            subst this
            obtain ⟨c₂, hc₂, _⟩ := jeq_getField_of_jeq hjeq hg
            refine ⟨.obj (setField fs k.asField v), ?_, ?_⟩
            · rw [applyAt_obj_one]
              dsimp only
              rw [hc₂]
            · exact jeq_setField hfnd hjeq (jeq_refl hkwf)
      | arr ys =>
        obtain ⟨xs, hz⟩ := jeq_arr_right hjeq
        subst hz
        obtain ⟨hlen, hel⟩ := jeq_arr_elim hjeq
        rw [noU_arr] at hznu hynu
        rw [applyAt_arr_one] at h
        cases hidx : k.asIndex with
        | none =>
          rw [hidx] at h
          dsimp only at h
          exact Except.noConfusion h
        | some i =>
          rw [hidx] at h
          dsimp only at h
          cases kind with
          | addK v =>
            dsimp only at h
            by_cases hle : i ≤ ys.length
            · rw [if_pos hle] at h
              have := Except.ok.inj h
              subst this
              refine ⟨.arr (insertAt xs i v), ?_, ?_⟩
              · rw [applyAt_arr_one]
                dsimp only
                rw [hidx]
                dsimp only
                rw [if_pos (by omega)]
              · exact jeq_insertAt hjeq (jeq_refl hkwf) (by omega)
            · rw [if_neg hle] at h
              exact Except.noConfusion h
          | removeK =>
            dsimp only at h
            by_cases hlt : i < ys.length
            · rw [if_pos hlt] at h
              by_cases hu : ys.getD i .undef = .undef
              · rw [if_pos hu] at h
                exact Except.noConfusion h
              · rw [if_neg hu] at h
                have := Except.ok.inj h
                subst this
                have hxu : xs.getD i .undef ≠ .undef := by
                  intro he
                  have hm := noUL_mem hznu (getD_mem_of_lt
                    (show i < xs.length from by omega))
                  rw [he] at hm
                  exact Bool.noConfusion hm
                refine ⟨.arr (removeAt xs i), ?_, ?_⟩
                · rw [applyAt_arr_one]
                  dsimp only
                  rw [hidx]
                  dsimp only
                  rw [if_pos (by omega), if_neg hxu]
                · exact jeq_removeAt hjeq (by omega)
            · rw [if_neg hlt] at h
              exact Except.noConfusion h
          | replaceK v =>
            dsimp only at h
            by_cases hlt : i < ys.length
            · rw [if_pos hlt] at h
              by_cases hu : ys.getD i .undef = .undef
              · rw [if_pos hu] at h
                exact Except.noConfusion h
              · rw [if_neg hu] at h
                have := Except.ok.inj h
                subst this
                have hxu : xs.getD i .undef ≠ .undef := by
                  intro he
                  have hm := noUL_mem hznu (getD_mem_of_lt
                    (show i < xs.length from by omega))
                  rw [he] at hm
                  exact Bool.noConfusion hm
                refine ⟨.arr (xs.set i v), ?_, ?_⟩
                · rw [applyAt_arr_one]
                  dsimp only
                  rw [hidx]
                  dsimp only
                  rw [if_pos (by omega), if_neg hxu]
                  rfl
                · exact jeq_set_arr hjeq (jeq_refl hkwf)
            · rw [if_neg hlt] at h
              exact Except.noConfusion h
      | null => exact Except.noConfusion h
      | bool b => exact Except.noConfusion h
      | num q => exact Except.noConfusion h
      | str ss => exact Except.noConfusion h
      | undef => exact Except.noConfusion h
    | cons k' rest' =>
      cases y with
      | obj gs =>
        obtain ⟨fs, hz⟩ := jeq_obj_right hjeq
        subst hz
        rw [applyAt_obj_cons] at h
        cases hg : getField gs k.asField with
        | none =>
          rw [hg] at h
          dsimp only at h
          exact Except.noConfusion h
        | some c =>
          rw [hg] at h
          dsimp only at h
          cases hc : applyAt c (k' :: rest') kind with
          | error e =>
            rw [hc] at h
            dsimp only at h
            exact Except.noConfusion h
          | ok c' =>
            rw [hc] at h
            dsimp only at h
            have := Except.ok.inj h
            subst this
            rw [wfJ_obj, Bool.and_eq_true] at hzwf hywf
            obtain ⟨hfnd, hfwf⟩ := hzwf
            obtain ⟨hgnd, hgwf⟩ := hywf
            rw [noU_obj] at hznu hynu
            obtain ⟨c₂, hc₂, hjc⟩ := jeq_getField_of_jeq hjeq hg
            obtain ⟨z'', hz'', hjz''⟩ := ih c₂ c kind c'
              (wfF_getField hfwf hc₂) (wfF_getField hgwf hg)
              (noUF_getField hznu hc₂) (noUF_getField hynu hg)
              hkwf hjc hc
            refine ⟨.obj (setField fs k.asField z''), ?_, ?_⟩
            · rw [applyAt_obj_cons]
              rw [hc₂]
              dsimp only
              rw [hz'']
            · exact jeq_setField hfnd hjeq hjz''
      | arr ys =>
        obtain ⟨xs, hz⟩ := jeq_arr_right hjeq
        subst hz
        obtain ⟨hlen, hel⟩ := jeq_arr_elim hjeq
        rw [wfJ_arr] at hzwf hywf
        rw [noU_arr] at hznu hynu
        rw [applyAt_arr_cons] at h
        cases hidx : k.asIndex with
        | none =>
          rw [hidx] at h
          dsimp only at h
          exact Except.noConfusion h
        | some i =>
          rw [hidx] at h
          dsimp only at h
          by_cases hlt : i < ys.length
          · rw [if_pos hlt] at h
            by_cases hu : ys.getD i .undef = .undef
            · rw [if_pos hu] at h
              exact Except.noConfusion h
            · rw [if_neg hu] at h
              have hxlt : i < xs.length := by omega
              have hxu : xs.getD i .undef ≠ .undef := by
                intro he
                have hm := noUL_mem hznu (getD_mem_of_lt hxlt)
                rw [he] at hm
                exact Bool.noConfusion hm
              cases hc : applyAt (ys.getD i .undef) (k' :: rest') kind with
              | error e =>
                rw [hc] at h
                dsimp only at h
                exact Except.noConfusion h
              | ok c' =>
                rw [hc] at h
                dsimp only at h
                have := Except.ok.inj h
                subst this
                obtain ⟨z'', hz'', hjz''⟩ := ih (xs.getD i .undef)
                  (ys.getD i .undef) kind c'
                  (wfL_iff.mp hzwf _ (getD_mem_of_lt hxlt))
                  (wfL_iff.mp hywf _ (getD_mem_of_lt hlt))
                  (noUL_mem hznu (getD_mem_of_lt hxlt))
                  (noUL_mem hynu (getD_mem_of_lt hlt))
                  hkwf (hel i hxlt) hc
                refine ⟨.arr (xs.set i z''), ?_, ?_⟩
                · rw [applyAt_arr_cons]
                  rw [hidx]
                  dsimp only
                  rw [if_pos hxlt, if_neg hxu, hz'']
                  rfl
                · exact jeq_set_arr hjeq hjz''
          · rw [if_neg hlt] at h
            exact Except.noConfusion h
      | null => exact Except.noConfusion h
      | bool b => exact Except.noConfusion h
      | num q => exact Except.noConfusion h
      | str ss => exact Except.noConfusion h
      | undef => exact Except.noConfusion h

/-- Multi-operation transfer: a patch that succeeds on a document also
succeeds on any equivalent well-formed hole-free document, with an
equivalent well-formed hole-free result. -/
theorem applyOps_jeq : ∀ (ops : List Op) (z y : Json),
    wfJ z = true → wfJ y = true → noU z = true → noU y = true →
    (∀ op ∈ ops, op.valWf = true ∧ op.valNoU = true) →
    jeq z y = true → ∀ y', applyOps y ops = .ok y' →
    ∃ z', applyOps z ops = .ok z' ∧ jeq z' y' = true ∧
      wfJ z' = true ∧ noU z' = true := by
  intro ops
  induction ops with
  | nil =>
    intro z y hzwf hywf hznu hynu _ hjeq y' h
    have := Except.ok.inj h
    subst this
    exact ⟨z, rfl, hjeq, hzwf, hznu⟩
  | cons op rest ihs =>
    intro z y hzwf hywf hznu hynu hval hjeq y' h
    rw [applyOps_cons] at h ⊢
    obtain ⟨hvwf, hvnu⟩ := hval op (List.mem_cons_self op rest)
    have hkwf : op.kind.valWf = true := by
      cases op with
      | add p v => exact hvwf
      | remove p => rfl
      | replace p v => exact hvwf
    have hknu : op.kind.valNoU = true := by
      cases op with
      | add p v => exact hvnu
      | remove p => rfl
      | replace p v => exact hvnu
    cases hy1 : applyOp y op with
    | error e =>
      rw [hy1] at h
      dsimp only at h
      exact Except.noConfusion h
    | ok y₁ =>
      rw [hy1] at h
      dsimp only at h
      have hop : applyAt y op.path op.kind = .ok y₁ := hy1
      obtain ⟨z₁, hz1, hjz1⟩ := applyAt_jeq op.path z y op.kind y₁
        hzwf hywf hznu hynu hkwf hjeq hop
      have hy1wf : wfJ y₁ = true :=
        applyAt_wf op.path y op.kind y₁ hywf hkwf hop
      have hy1nu : noU y₁ = true :=
        applyAt_noU op.path y op.kind y₁ hynu hknu hop
      have hz1wf : wfJ z₁ = true :=
        applyAt_wf op.path z op.kind z₁ hzwf hkwf hz1
      have hz1nu : noU z₁ = true :=
        applyAt_noU op.path z op.kind z₁ hznu hknu hz1
      have hz1' : applyOp z op = .ok z₁ := hz1
      rw [hz1']
      dsimp only
      exact ihs z₁ y₁ hz1wf hy1wf hz1nu hy1nu
        (fun o ho => hval o (List.mem_cons_of_mem _ ho)) hjz1 y' h

/-- Round trip of a committed mutation's delta pair: `apply` transforms the
old document into the new one (up to key order), and `revert` transforms
that result back into the old one (up to key order). -/
theorem mkDeltaPair_roundtrip {old new : Json}
    (howf : wfJ old = true) (hnwf : wfJ new = true)
    (honu : noU old = true) (hnnu : noU new = true) :
    ∃ X Z, applyOps old (mkDeltaPair old new).apply = .ok X ∧
      jeq X new = true ∧
      applyOps X (mkDeltaPair old new).revert = .ok Z ∧
      jeq Z old = true := by
  obtain ⟨X, hX, hjX, hXwf, hXnu⟩ :=
    genValF_roundtrip (jdepth old + jdepth new) old new howf hnwf honu hnnu
      (Nat.le_refl _)
  obtain ⟨Z₀, hZ₀, hjZ₀, hZ₀wf, hZ₀nu⟩ :=
    genValF_roundtrip (jdepth new + jdepth old) new old hnwf howf hnnu honu
      (Nat.le_refl _)
  obtain ⟨Z, hZ, hjZ, hZwf, hZnu⟩ :=
    applyOps_jeq (genValF (jdepth new + jdepth old) [] new old) X new
      hXwf hnwf hXnu hnnu
      (fun op hop =>
        ⟨(genValF_ops _ [] new old op hop).2.2 howf,
         (genValF_ops _ [] new old op hop).2.1⟩)
      hjX Z₀ hZ₀
  exact ⟨X, Z, hX, hjX, hZ, jeq_trans hjZ hjZ₀⟩

theorem nodupKeys_setField_any {fs : List (String × Json)} {k : String}
    {v : Json} (h : nodupKeys (fs.map (fun f => f.1)) = true) :
    nodupKeys ((setField fs k v).map (fun f => f.1)) = true := by
  rw [keys_setField]
  by_cases hs : (getField fs k).isSome = true
  · rw [if_pos hs]
    exact h
  · rw [if_neg hs]
    have habs : getField fs k = none := by
      cases hg : getField fs k with
      | none => rfl
      | some w => exact absurd (by rw [hg]; rfl) hs
    rw [nodupKeys_iff] at h ⊢
    refine List.Nodup.append h (by simp) ?_
    intro a ha hb
    have hk : a = k := by simpa using hb
    subst hk
    exact (getField_eq_none_iff.mp habs) ha

theorem wsdoc_wf {s : Json} {ps : List Json} :
    wfJ (Json.obj [("state", s), ("plots", .arr ps)]) = true ↔
      (wfJ s = true ∧ wfL ps = true) := by
  rw [wfJ_obj, Bool.and_eq_true]
  constructor
  · intro ⟨_, hf⟩
    rw [wfF_iff] at hf
    refine ⟨hf ("state", s) (by simp), ?_⟩
    have := hf ("plots", .arr ps) (by simp)
    rwa [wfJ_arr] at this
  · intro ⟨h1, h2⟩
    constructor
    · rfl
    · rw [wfF_iff]
      intro f hf
      rcases List.mem_cons.mp hf with heq | hf2
      · rw [heq]
        exact h1
      · have : f = ("plots", Json.arr ps) := List.mem_singleton.mp hf2
        rw [this]
        rw [show (("plots", Json.arr ps) : String × Json).2 = Json.arr ps
              from rfl, wfJ_arr]
        exact h2

theorem wsdoc_noU {s : Json} {ps : List Json} :
    noU (Json.obj [("state", s), ("plots", .arr ps)]) = true ↔
      (noU s = true ∧ noUL ps = true) := by
  rw [noU_obj]
  constructor
  · intro hf
    rw [noUF_iff] at hf
    refine ⟨hf ("state", s) (by simp), ?_⟩
    have := hf ("plots", .arr ps) (by simp)
    rwa [noU_arr] at this
  · intro ⟨h1, h2⟩
    rw [noUF_iff]
    intro f hf
    rcases List.mem_cons.mp hf with heq | hf2
    · rw [heq]
      exact h1
    · have : f = ("plots", Json.arr ps) := List.mem_singleton.mp hf2
      rw [this]
      rw [show (("plots", Json.arr ps) : String × Json).2 = Json.arr ps
            from rfl, noU_arr]
      exact h2

theorem jsGet_wf {j : Json} {k : String} (h : wfJ j = true) :
    wfJ (jsGet j k) = true := by
  cases j with
  | obj fs =>
    show wfJ ((getField fs k).getD .undef) = true
    cases hg : getField fs k with
    | none => rfl
    | some w =>
      rw [wfJ_obj, Bool.and_eq_true] at h
      exact wfF_getField h.2 hg
  | arr xs =>
    show wfJ (match k.toNat? with
              | some i => xs.getD i .undef
              | none => .undef) = true
    cases k.toNat? with
    | none => rfl
    | some i =>
      dsimp only
      exact wfJ_getD h
  | null => rfl
  | bool b => rfl
  | num q => rfl
  | str ss => rfl
  | undef => rfl

theorem jsSet_wf {j v r : Json} {k : String} (hj : wfJ j = true)
    (hv : wfJ v = true) (h : jsSet j k v = some r) : wfJ r = true := by
  cases j with
  | obj fs =>
    have := Option.some.inj h
    subst this
    rw [wfJ_obj, Bool.and_eq_true] at hj
    rw [wfJ_obj, Bool.and_eq_true]
    exact ⟨nodupKeys_setField_any hj.1, wfF_setField hj.2 hv⟩
  | arr xs =>
    rw [wfJ_arr] at hj
    rw [show jsSet (Json.arr xs) k v =
          (match k.toNat? with
           | some i =>
             if i < xs.length then some (.arr (xs.set i v))
             else some (.arr (xs ++ List.replicate (i - xs.length) .undef
               ++ [v]))
           | none => none) from rfl] at h
    cases hn : k.toNat? with
    | none =>
      rw [hn] at h
      exact Option.noConfusion h
    | some i =>
      rw [hn] at h
      dsimp only at h
      by_cases hlt : i < xs.length
      · rw [if_pos hlt] at h
        have := Option.some.inj h
        subst this
        rw [wfJ_arr]
        exact wfL_set hj hv
      · rw [if_neg hlt] at h
        have := Option.some.inj h
        subst this
        rw [wfJ_arr]
        refine wfL_append (wfL_append hj ?_) ?_
        · rw [wfL_iff]
          intro x hx
          rw [List.eq_of_mem_replicate hx]
          rfl
        · rw [wfL_iff]
          intro x hx
          rw [List.mem_singleton.mp hx]
          exact hv
  | null => exact Option.noConfusion h
  | bool b => exact Option.noConfusion h
  | num q => exact Option.noConfusion h
  | str ss => exact Option.noConfusion h
  | undef => exact Option.noConfusion h

theorem dsGo_wf : ∀ (keys : List String) (j v r : Json), wfJ j = true →
    wfJ v = true → dsGo j v keys = some r → wfJ r = true := by
  intro keys
  induction keys with
  | nil =>
    intro j v r hj _ h
    have := Option.some.inj h
    subst this
    exact hj
  | cons k rest ih =>
    intro j v r hj hv h
    cases rest with
    | nil =>
      exact jsSet_wf hj hv h
    | cons k' rest' =>
      rw [show dsGo j v (k :: k' :: rest') =
            (match dsGo (if truthy (jsGet j k) then jsGet j k else .obj [])
                v (k' :: rest') with
             | some c' => jsSet j k c'
             | none => none) from rfl] at h
      cases hc : dsGo (if truthy (jsGet j k) then jsGet j k else .obj [])
          v (k' :: rest') with
      | none =>
        rw [hc] at h
        exact Option.noConfusion h
      | some c' =>
        rw [hc] at h
        dsimp only at h
        have hcwf : wfJ (if truthy (jsGet j k) then jsGet j k else .obj [])
            = true := by
          by_cases ht : truthy (jsGet j k)
          · rw [if_pos ht]
            exact jsGet_wf hj
          · rw [if_neg ht]
            rfl
        exact jsSet_wf hj (ih _ v c' hcwf hv hc) h

theorem foldl_setField_wf : ∀ (updates fs : List (String × Json)),
    nodupKeys (fs.map (fun f => f.1)) = true → wfF fs = true →
    (∀ u ∈ updates, wfJ u.2 = true) →
    nodupKeys ((updates.foldl (fun acc u => setField acc u.1 u.2) fs).map
      (fun f => f.1)) = true ∧
    wfF (updates.foldl (fun acc u => setField acc u.1 u.2) fs) = true := by
  intro updates
  induction updates with
  | nil =>
    intro fs hnd hwf _
    exact ⟨hnd, hwf⟩
  | cons u us ihu =>
    intro fs hnd hwf hu
    rw [List.foldl_cons]
    exact ihu (setField fs u.1 u.2) (nodupKeys_setField_any hnd)
      (wfF_setField hwf (hu u (List.mem_cons_self u us)))
      (fun x hx => hu x (List.mem_cons_of_mem _ hx))

theorem objAssign_wf {target : Json} {updates : List (String × Json)}
    (ht : wfJ target = true) (hu : wfF updates = true) :
    wfJ (objAssign target updates) = true := by
  cases target with
  | obj fs =>
    show wfJ (.obj (updates.foldl (fun acc u => setField acc u.1 u.2) fs))
      = true
    rw [wfJ_obj, Bool.and_eq_true] at ht
    obtain ⟨hnd, hwf⟩ := ht
    obtain ⟨h1, h2⟩ := foldl_setField_wf updates fs hnd hwf
      (fun u hm => wfF_iff.mp hu u hm)
    rw [wfJ_obj, Bool.and_eq_true]
    exact ⟨h1, h2⟩
  | null => exact ht
  | bool b => exact ht
  | num q => exact ht
  | str ss => exact ht
  | arr xs => exact ht
  | undef => exact ht

theorem wfL_filter {xs : List Json} {p : Json → Bool}
    (h : wfL xs = true) : wfL (xs.filter p) = true := by
  rw [wfL_iff]
  intro x hx
  exact wfL_iff.mp h x (List.mem_of_mem_filter hx)

theorem WSdoc_wf_iff {w : WS} :
    wfJ w.doc = true ↔ (wfJ w.state = true ∧ wfL w.plots = true) := wsdoc_wf

theorem WSdoc_noU_iff {w : WS} :
    noU w.doc = true ↔ (noU w.state = true ∧ noUL w.plots = true) :=
  wsdoc_noU

theorem wf_getD_null {xs : List Json} {i : Nat} (h : wfL xs = true) :
    wfJ (xs.getD i .null) = true := by
  by_cases hi : i < xs.length
  · have hm : xs.getD i .null ∈ xs := by
      rw [List.getD_eq_getElem?_getD, List.getElem?_eq_getElem hi]
      exact List.getElem_mem hi
    exact wfL_iff.mp h _ hm
  · rw [List.getD_eq_getElem?_getD, List.getElem?_eq_none (by omega)]
    rfl

/-- C2 (amended): a successful mutator call on a well-formed, hole-free
world document, with well-formed tool-call arguments and a hole-free
result (no sparse-array `deepSet`), produces a delta pair whose `apply`
turns the old document into the new one and whose `revert` turns that back
into the old one — both up to object-key insertion order, not bit-for-bit. -/
theorem c2_mutator_roundtrip (w : WS) (c : WSCall) (w' : WS)
    (pair : DeltaPair)
    (hwf : wfJ w.doc = true) (hnu : noU w.doc = true)
    (hargs : c.argsWf = true)
    (hrun : runWSCall w c = some (w', pair))
    (hnu' : noU w'.doc = true) :
    ∃ X Z, applyOps w.doc pair.apply = .ok X ∧ jeq X w'.doc = true ∧
      applyOps X pair.revert = .ok Z ∧ jeq Z w.doc = true := by
  obtain ⟨hwfs, hwfp⟩ := WSdoc_wf_iff.mp hwf
  cases c with
  | patchState =>
    have h := Option.some.inj hrun
    injection h with h1 h2
    subst h1
    subst h2
    exact mkDeltaPair_roundtrip hwf hwf hnu hnu
  | addPlot newPlot id dateStr =>
    have h := Option.some.inj hrun
    injection h with h1 h2
    subst h1
    subst h2
    have hargs2 : nodupKeys (newPlot.map (fun f => f.1)) = true ∧
        wfF newPlot = true := by
      have h' : (nodupKeys (newPlot.map (fun f => f.1)) && wfF newPlot)
          = true := hargs
      rw [Bool.and_eq_true] at h'
      exact h'
    refine mkDeltaPair_roundtrip hwf ?_ hnu hnu'
    rw [WSdoc_wf_iff]
    refine ⟨hwfs, ?_⟩
    refine wfL_append hwfp ?_
    rw [wfL_iff]
    intro t ht
    rw [List.mem_singleton.mp ht]
    rw [wfJ_obj, Bool.and_eq_true]
    exact ⟨nodupKeys_setField_any (nodupKeys_setField_any hargs2.1),
           wfF_setField (wfF_setField hargs2.2 rfl) rfl⟩
  | deepSet path v =>
    rw [show runWSCall w (.deepSet path v) =
          (match dsGo w.state v (splitChar '/' path) with
           | some s' =>
             some ((⟨s', w.plots⟩ : WS),
                   mkDeltaPair w.doc (WS.doc ⟨s', w.plots⟩))
           | none => none) from rfl] at hrun
    cases hds : dsGo w.state v (splitChar '/' path) with
    | none =>
      rw [hds] at hrun
      exact Option.noConfusion hrun
    | some s' =>
      rw [hds] at hrun
      dsimp only at hrun
      have h := Option.some.inj hrun
      injection h with h1 h2
      subst h1
      subst h2
      refine mkDeltaPair_roundtrip hwf ?_ hnu hnu'
      rw [WSdoc_wf_iff]
      exact ⟨dsGo_wf _ w.state v s' hwfs hargs hds, hwfp⟩
  | updatePlot pid updates =>
    rw [show runWSCall w (.updatePlot pid updates) =
          (match w.plots.findIdx? (fun p => plotIdIs p pid) with
           | none => none
           | some i =>
             some ((⟨w.state,
                     w.plots.set i
                       (objAssign (w.plots.getD i .null) updates)⟩ : WS),
                   mkDeltaPair w.doc
                     (WS.doc ⟨w.state,
                       w.plots.set i
                         (objAssign (w.plots.getD i .null) updates)⟩)))
          from rfl] at hrun
    cases hfi : w.plots.findIdx? (fun p => plotIdIs p pid) with
    | none =>
      rw [hfi] at hrun
      exact Option.noConfusion hrun
    | some i =>
      rw [hfi] at hrun
      dsimp only at hrun
      have h := Option.some.inj hrun
      injection h with h1 h2
      subst h1
      subst h2
      refine mkDeltaPair_roundtrip hwf ?_ hnu hnu'
      rw [WSdoc_wf_iff]
      refine ⟨hwfs, ?_⟩
      exact wfL_set hwfp (objAssign_wf (wf_getD_null hwfp) hargs)
  | removePlot pid =>
    rw [show runWSCall w (.removePlot pid) =
          (if (w.plots.filter (fun p => ¬ plotIdIs p pid)).length
              < w.plots.length then
             some ((⟨w.state,
                     w.plots.filter (fun p => ¬ plotIdIs p pid)⟩ : WS),
                   mkDeltaPair w.doc
                     (WS.doc ⟨w.state,
                       w.plots.filter (fun p => ¬ plotIdIs p pid)⟩))
           else none) from rfl] at hrun
    by_cases hlt : (w.plots.filter (fun p => ¬ plotIdIs p pid)).length
        < w.plots.length
    · rw [if_pos hlt] at hrun
      have h := Option.some.inj hrun
      injection h with h1 h2
      subst h1
      subst h2
      refine mkDeltaPair_roundtrip hwf ?_ hnu hnu'
      rw [WSdoc_wf_iff]
      exact ⟨hwfs, wfL_filter hwfp⟩
    · rw [if_neg hlt] at hrun
      exact Option.noConfusion hrun

/-- Witness for the amended C2 round trip: `deepSet "a" 2` on an empty
world state. -/
theorem c2_mutator_roundtrip_witness :
    (wfJ (WS.doc ⟨Json.obj [], []⟩) = true ∧
     noU (WS.doc ⟨Json.obj [], []⟩) = true ∧
     (WSCall.deepSet "a" (Json.num 2)).argsWf = true ∧
     runWSCall ⟨Json.obj [], []⟩ (WSCall.deepSet "a" (Json.num 2)) =
       some (⟨Json.obj [("a", Json.num 2)], []⟩,
             mkDeltaPair (WS.doc ⟨Json.obj [], []⟩)
               (WS.doc ⟨Json.obj [("a", Json.num 2)], []⟩)) ∧
     noU (WS.doc ⟨Json.obj [("a", Json.num 2)], []⟩) = true) ∧
    (∃ X Z, applyOps (WS.doc ⟨Json.obj [], []⟩)
        (mkDeltaPair (WS.doc ⟨Json.obj [], []⟩)
          (WS.doc ⟨Json.obj [("a", Json.num 2)], []⟩)).apply = .ok X ∧
      jeq X (WS.doc ⟨Json.obj [("a", Json.num 2)], []⟩) = true ∧
      applyOps X (mkDeltaPair (WS.doc ⟨Json.obj [], []⟩)
          (WS.doc ⟨Json.obj [("a", Json.num 2)], []⟩)).revert = .ok Z ∧
      jeq Z (WS.doc ⟨Json.obj [], []⟩) = true) :=
  ⟨⟨by decide, by decide, by decide, by decide, by decide⟩,
   c2_mutator_roundtrip ⟨Json.obj [], []⟩ (WSCall.deepSet "a" (Json.num 2))
     ⟨Json.obj [("a", Json.num 2)], []⟩ _ (by decide) (by decide)
     (by decide) (by decide) (by decide)⟩

/-! ## Association-list lemmas for the story-tree node map -/

theorem mget_cons {p : String × SNode} {ps : List (String × SNode)}
    {k : String} :
    mget (p :: ps) k = if p.1 = k then some p.2 else mget ps k := rfl

theorem mget_mem : ∀ {ns : List (String × SNode)} {k : String} {n : SNode},
    mget ns k = some n → (k, n) ∈ ns := by
  intro ns
  induction ns with
  | nil => intro k n h; exact Option.noConfusion h
  | cons p ps ih =>
    intro k n h
    rw [mget_cons] at h
    by_cases he : p.1 = k
    · rw [if_pos he] at h
      have := Option.some.inj h
      subst this
      subst he
      exact List.mem_cons.mpr (Or.inl rfl)
    · rw [if_neg he] at h
      exact List.mem_cons_of_mem _ (ih h)

theorem mget_of_mem_nodup : ∀ {ns : List (String × SNode)} {k : String}
    {n : SNode}, invKeys ns = true → (k, n) ∈ ns → mget ns k = some n := by
  intro ns
  induction ns with
  | nil => intro k n _ h; exact absurd h (List.not_mem_nil _)
  | cons p ps ih =>
    intro k n hnd h
    unfold invKeys at hnd
    rw [List.map_cons, nodupKeys_cons_iff] at hnd
    obtain ⟨hk, hnd'⟩ := hnd
    rw [mget_cons]
    rcases List.mem_cons.mp h with heq | hm
    · rw [← heq]
      rw [if_pos rfl]
    · by_cases he : p.1 = k
      · exfalso
        rw [he] at hk
        exact hk (List.mem_map.mpr ⟨(k, n), hm, rfl⟩)
      · rw [if_neg he]
        exact ih hnd' hm

theorem mget_mset_self {ns : List (String × SNode)} {k : String}
    {v : SNode} : mget (mset ns k v) k = some v := by
  induction ns with
  | nil => rw [show mset [] k v = [(k, v)] from rfl, mget_cons, if_pos rfl]
  | cons p ps ih =>
    rw [show mset (p :: ps) k v =
          (if p.1 = k then (k, v) :: ps else p :: mset ps k v) from rfl]
    by_cases he : p.1 = k
    · rw [if_pos he, mget_cons, if_pos rfl]
    · rw [if_neg he, mget_cons, if_neg he]
      exact ih

theorem mget_mset_ne {ns : List (String × SNode)} {k k' : String}
    {v : SNode} (h : k' ≠ k) : mget (mset ns k v) k' = mget ns k' := by
  induction ns with
  | nil =>
    rw [show mset [] k v = [(k, v)] from rfl, mget_cons,
        if_neg (show ¬ ((k, v) : String × SNode).1 = k' from
          fun hx => h hx.symm)]
  | cons p ps ih =>
    rw [show mset (p :: ps) k v =
          (if p.1 = k then (k, v) :: ps else p :: mset ps k v) from rfl]
    by_cases he : p.1 = k
    · rw [if_pos he, mget_cons, mget_cons,
          if_neg (show ¬ ((k, v) : String × SNode).1 = k' from
            fun hx => h hx.symm),
          if_neg (show ¬ p.1 = k' from by
            rw [he]; exact fun hx => h hx.symm)]
    · rw [if_neg he, mget_cons, mget_cons, ih]

theorem keys_mset {ns : List (String × SNode)} {k : String} {v : SNode} :
    (mset ns k v).map (fun p => p.1) =
      if (mget ns k).isSome then ns.map (fun p => p.1)
      else ns.map (fun p => p.1) ++ [k] := by
  induction ns with
  | nil =>
    rw [show mset [] k v = [(k, v)] from rfl]
    rfl
  | cons p ps ih =>
    rw [show mset (p :: ps) k v =
          (if p.1 = k then (k, v) :: ps else p :: mset ps k v) from rfl,
        mget_cons]
    by_cases he : p.1 = k
    · rw [if_pos he, if_pos he]
      rw [show ((some p.2).isSome) = true from rfl, if_pos rfl]
      rw [List.map_cons, List.map_cons, he]
    · rw [if_neg he, if_neg he, List.map_cons, List.map_cons, ih]
      by_cases hs : (mget ps k).isSome = true
      · rw [if_pos hs, if_pos hs]
      · rw [if_neg hs, if_neg hs, List.cons_append]

theorem mset_of_absent {ns : List (String × SNode)} {k : String} {v : SNode}
    (h : mget ns k = none) : mset ns k v = ns ++ [(k, v)] := by
  induction ns with
  | nil => rfl
  | cons p ps ih =>
    rw [mget_cons] at h
    by_cases he : p.1 = k
    · rw [if_pos he] at h
      exact Option.noConfusion h
    · rw [if_neg he] at h
      rw [show mset (p :: ps) k v =
            (if p.1 = k then (k, v) :: ps else p :: mset ps k v) from rfl,
          if_neg he, ih h, List.cons_append]

theorem mem_mset : ∀ {ns : List (String × SNode)} {k : String} {v : SNode}
    {t : String × SNode}, t ∈ mset ns k v → t = (k, v) ∨ t ∈ ns := by
  intro ns
  induction ns with
  | nil =>
    intro k v t ht
    exact Or.inl (List.mem_singleton.mp ht)
  | cons p ps ih =>
    intro k v t ht
    rw [show mset (p :: ps) k v =
          (if p.1 = k then (k, v) :: ps else p :: mset ps k v) from rfl] at ht
    by_cases he : p.1 = k
    · rw [if_pos he] at ht
      rcases List.mem_cons.mp ht with heq | hm
      · exact Or.inl heq
      · exact Or.inr (List.mem_cons_of_mem _ hm)
    · rw [if_neg he] at ht
      rcases List.mem_cons.mp ht with heq | hm
      · exact Or.inr (List.mem_cons.mpr (Or.inl heq))
      · rcases ih hm with h1 | h1
        · exact Or.inl h1
        · exact Or.inr (List.mem_cons_of_mem _ h1)

theorem mget_mdel_ne : ∀ {ns : List (String × SNode)} {k k' : String},
    k' ≠ k → mget (mdel ns k) k' = mget ns k' := by
  intro ns
  induction ns with
  | nil => intro k k' _; rfl
  | cons p ps ih =>
    intro k k' h
    rw [show mdel (p :: ps) k = (if p.1 = k then ps else p :: mdel ps k)
          from rfl]
    by_cases he : p.1 = k
    · rw [if_pos he, mget_cons, if_neg (by rw [he]; exact fun hx => h hx.symm)]
    · rw [if_neg he, mget_cons, mget_cons, ih h]

theorem mget_mdel_self : ∀ {ns : List (String × SNode)} {k : String},
    invKeys ns = true → mget (mdel ns k) k = none := by
  intro ns
  induction ns with
  | nil => intro k _; rfl
  | cons p ps ih =>
    intro k hnd
    unfold invKeys at hnd
    rw [List.map_cons, nodupKeys_cons_iff] at hnd
    obtain ⟨hk, hnd'⟩ := hnd
    rw [show mdel (p :: ps) k = (if p.1 = k then ps else p :: mdel ps k)
          from rfl]
    by_cases he : p.1 = k
    · rw [if_pos he]
      subst he
      cases hg : mget ps p.1 with
      | none => rfl
      | some n => exact absurd (List.mem_map.mpr ⟨_, mget_mem hg, rfl⟩) hk
    · rw [if_neg he, mget_cons, if_neg he]
      exact ih hnd'

theorem mem_mdel : ∀ {ns : List (String × SNode)} {k : String}
    {t : String × SNode}, t ∈ mdel ns k → t ∈ ns := by
  intro ns
  induction ns with
  | nil => intro k t ht; exact absurd ht (List.not_mem_nil _)
  | cons p ps ih =>
    intro k t ht
    rw [show mdel (p :: ps) k = (if p.1 = k then ps else p :: mdel ps k)
          from rfl] at ht
    by_cases he : p.1 = k
    · rw [if_pos he] at ht
      exact List.mem_cons_of_mem _ ht
    · rw [if_neg he] at ht
      rcases List.mem_cons.mp ht with heq | hm
      · exact List.mem_cons.mpr (Or.inl heq)
      · exact List.mem_cons_of_mem _ (ih hm)

theorem mem_mdel_of_ne : ∀ {ns : List (String × SNode)} {k : String}
    {t : String × SNode}, t ∈ ns → t.1 ≠ k → t ∈ mdel ns k := by
  intro ns
  induction ns with
  | nil => intro k t ht _; exact absurd ht (List.not_mem_nil _)
  | cons p ps ih =>
    intro k t ht hne
    rw [show mdel (p :: ps) k = (if p.1 = k then ps else p :: mdel ps k)
          from rfl]
    by_cases he : p.1 = k
    · rw [if_pos he]
      rcases List.mem_cons.mp ht with heq | hm
      · exact absurd (heq ▸ he) hne
      · exact hm
    · rw [if_neg he]
      rcases List.mem_cons.mp ht with heq | hm
      · exact List.mem_cons.mpr (Or.inl heq)
      · exact List.mem_cons_of_mem _ (ih hm hne)

theorem nodupKeys_mdel : ∀ {ns : List (String × SNode)} {k : String},
    invKeys ns = true → invKeys (mdel ns k) = true := by
  intro ns
  induction ns with
  | nil => intro k h; exact h
  | cons p ps ih =>
    intro k hnd
    unfold invKeys at hnd ⊢
    rw [List.map_cons, nodupKeys_cons_iff] at hnd
    obtain ⟨hk, hnd'⟩ := hnd
    rw [show mdel (p :: ps) k = (if p.1 = k then ps else p :: mdel ps k)
          from rfl]
    by_cases he : p.1 = k
    · rw [if_pos he]
      exact hnd'
    · rw [if_neg he, List.map_cons, nodupKeys_cons_iff]
      refine ⟨?_, ih hnd'⟩
      intro hm
      obtain ⟨t, htm, hte⟩ := List.mem_map.mp hm
      exact hk (List.mem_map.mpr ⟨t, mem_mdel htm, hte⟩)

theorem mapW_mdel : ∀ {ns : List (String × SNode)} {k : String} {n : SNode},
    mget ns k = some n →
    mapW (mdel ns k) + 1 + n.childrenIds.length = mapW ns := by
  intro ns
  induction ns with
  | nil => intro k n h; exact Option.noConfusion h
  | cons p ps ih =>
    intro k n h
    rw [mget_cons] at h
    rw [show mdel (p :: ps) k = (if p.1 = k then ps else p :: mdel ps k)
          from rfl]
    by_cases he : p.1 = k
    · rw [if_pos he] at h ⊢
      have := Option.some.inj h
      subst this
      rw [show mapW (p :: ps) = 1 + p.2.childrenIds.length + mapW ps
            from rfl]
      omega
    · rw [if_neg he] at h ⊢
      rw [show mapW (p :: (mdel ps k)) =
            1 + p.2.childrenIds.length + mapW (mdel ps k) from rfl,
          show mapW (p :: ps) = 1 + p.2.childrenIds.length + mapW ps
            from rfl]
      have := ih h
      omega

theorem childOk_iff {ns : List (String × SNode)} {pk c : String} :
    childOk ns pk c = true ↔
      ∃ n, mget ns c = some n ∧ n.parentId = some pk := by
  unfold childOk
  cases hg : mget ns c with
  | none =>
    constructor
    · intro h
      exact Bool.noConfusion h
    · intro ⟨n, hn, _⟩
      exact Option.noConfusion hn
  | some n =>
    constructor
    · intro h
      exact ⟨n, rfl, eq_of_beq h⟩
    · intro ⟨n', hn, hp⟩
      have := Option.some.inj hn
      subst this
      dsimp only
      rw [hp]
      exact beq_self_eq_true _

theorem invIds_iff {ns : List (String × SNode)} :
    invIds ns = true ↔ ∀ p ∈ ns, p.2.id = p.1 := by
  unfold invIds
  rw [List.all_eq_true]
  constructor
  · intro h p hp
    exact eq_of_beq (h p hp)
  · intro h p hp
    rw [h p hp]
    exact beq_self_eq_true _

theorem invChildren_iff {ns : List (String × SNode)} :
    invChildren ns = true ↔
      ∀ p ∈ ns, nodupKeys p.2.childrenIds = true ∧
        ∀ c ∈ p.2.childrenIds, childOk ns p.1 c = true := by
  unfold invChildren
  rw [List.all_eq_true]
  constructor
  · intro h p hp
    have := h p hp
    rw [Bool.and_eq_true, List.all_eq_true] at this
    exact this
  · intro h p hp
    rw [Bool.and_eq_true, List.all_eq_true]
    exact h p hp

theorem invDisjoint_iff {ns : List (String × SNode)} :
    invDisjoint ns = true ↔
      ∀ p ∈ ns, ∀ q ∈ ns, p.1 = q.1 ∨
        ∀ c ∈ p.2.childrenIds, c ∉ q.2.childrenIds := by
  unfold invDisjoint
  rw [List.all_eq_true]
  constructor
  · intro h p hp q hq
    have h1 := List.all_eq_true.mp (h p hp) q hq
    rw [Bool.or_eq_true] at h1
    rcases h1 with h1 | h1
    · exact Or.inl (eq_of_beq h1)
    · refine Or.inr ?_
      intro c hc hmem
      have h2 := of_decide_eq_true (List.all_eq_true.mp h1 c hc)
      exact h2 (List.elem_iff.mpr hmem)
  · intro h p hp
    rw [List.all_eq_true]
    intro q hq
    rw [Bool.or_eq_true]
    rcases h p hp q hq with h1 | h1
    · exact Or.inl (by rw [h1]; exact beq_self_eq_true _)
    · refine Or.inr ?_
      rw [List.all_eq_true]
      intro c hc
      have h2 := h1 c hc
      exact decide_eq_true (fun hcon => h2 (List.elem_iff.mp hcon))

theorem invParentListed_iff {ns : List (String × SNode)} :
    invParentListed ns = true ↔
      ∀ p ∈ ns, ∀ pid, p.2.parentId = some pid → pid ≠ "" →
        ∀ parent, mget ns pid = some parent →
          p.1 ∈ parent.childrenIds := by
  unfold invParentListed
  rw [List.all_eq_true]
  constructor
  · intro h p hp pid hpid hne parent hparent
    have h1 := h p hp
    rw [hpid] at h1
    dsimp only at h1
    rw [if_neg (by simpa using hne)] at h1
    rw [hparent] at h1
    dsimp only at h1
    exact List.elem_iff.mp h1
  · intro h p hp
    cases hpid : p.2.parentId with
    | none => rfl
    | some pid =>
      dsimp only
      by_cases hne : pid == ""
      · rw [if_pos hne]
      · rw [if_neg hne]
        cases hparent : mget ns pid with
        | none => rfl
        | some parent =>
          dsimp only
          exact List.elem_iff.mpr
            (h p hp pid hpid (by simpa using hne) parent hparent)

theorem invParentLive_iff {ns : List (String × SNode)} :
    invParentLive ns = true ↔
      ∀ p ∈ ns, ∀ pid, p.2.parentId = some pid →
        pid = "" ∨ (mget ns pid).isSome = true := by
  unfold invParentLive
  rw [List.all_eq_true]
  constructor
  · intro h p hp pid hpid
    have h1 := h p hp
    rw [hpid] at h1
    dsimp only at h1
    rw [Bool.or_eq_true] at h1
    rcases h1 with h1 | h1
    · exact Or.inl (eq_of_beq h1)
    · exact Or.inr h1
  · intro h p hp
    cases hpid : p.2.parentId with
    | none => rfl
    | some pid =>
      dsimp only
      rw [Bool.or_eq_true]
      rcases h p hp pid hpid with h1 | h1
      · exact Or.inl (by rw [h1]; exact beq_self_eq_true _)
      · exact Or.inr h1

theorem invNoEmptyKey_iff {ns : List (String × SNode)} :
    invNoEmptyKey ns = true ↔ ∀ p ∈ ns, p.1 ≠ "" := by
  unfold invNoEmptyKey
  rw [List.all_eq_true]
  constructor
  · intro h p hp
    exact bne_iff_ne.mp (h p hp)
  · intro h p hp
    exact bne_iff_ne.mpr (h p hp)

theorem treeInv_iff {t : TreeState} :
    treeInv t = true ↔
      invKeys t.nodes = true ∧ invIds t.nodes = true ∧
      invChildren t.nodes = true ∧ invDisjoint t.nodes = true ∧
      invParentListed t.nodes = true ∧ invParentLive t.nodes = true ∧
      invNoEmptyKey t.nodes = true := by
  unfold treeInv
  rw [Bool.and_eq_true, Bool.and_eq_true, Bool.and_eq_true,
      Bool.and_eq_true, Bool.and_eq_true, Bool.and_eq_true]
  constructor
  · intro ⟨⟨⟨⟨⟨⟨h1, h2⟩, h3⟩, h4⟩, h5⟩, h6⟩, h7⟩
    exact ⟨h1, h2, h3, h4, h5, h6, h7⟩
  · intro ⟨h1, h2, h3, h4, h5, h6, h7⟩
    exact ⟨⟨⟨⟨⟨⟨h1, h2⟩, h3⟩, h4⟩, h5⟩, h6⟩, h7⟩

theorem mapW_eq_zero {ns : List (String × SNode)} (h : mapW ns = 0) :
    ns = [] := by
  cases ns with
  | nil => rfl
  | cons p ps =>
    rw [show mapW (p :: ps) = 1 + p.2.childrenIds.length + mapW ps from rfl]
      at h
    omega

/-- Invariant preservation through `deleteBranch`'s stack loop: as long as
every stack entry is unreferenced and every dangling or unlisted parent
pointer belongs to a scheduled node, the loop ends with a consistent map
whose parent pointers all resolve. -/
theorem delLoop_inv : ∀ (fuel : Nat) (nodes : List (String × SNode))
    (stack : List String) (acc : List SNode),
    mapW nodes + stack.length ≤ fuel →
    invKeys nodes = true → invIds nodes = true →
    invChildren nodes = true → invDisjoint nodes = true →
    invNoEmptyKey nodes = true →
    (∀ p ∈ nodes, ∀ pid, p.2.parentId = some pid → pid ≠ "" →
      ∀ parent, mget nodes pid = some parent →
        p.1 ∈ parent.childrenIds ∨ p.1 ∈ stack) →
    (∀ p ∈ nodes, ∀ pid, p.2.parentId = some pid → pid ≠ "" →
      (mget nodes pid).isSome = true ∨ p.1 ∈ stack) →
    (∀ s ∈ stack, ∀ p ∈ nodes, s ∉ p.2.childrenIds) →
    invKeys (delLoop fuel nodes stack acc).1 = true ∧
    invIds (delLoop fuel nodes stack acc).1 = true ∧
    invChildren (delLoop fuel nodes stack acc).1 = true ∧
    invDisjoint (delLoop fuel nodes stack acc).1 = true ∧
    invParentListed (delLoop fuel nodes stack acc).1 = true ∧
    invParentLive (delLoop fuel nodes stack acc).1 = true ∧
    invNoEmptyKey (delLoop fuel nodes stack acc).1 = true := by
  intro fuel
  induction fuel with
  | zero =>
    intro nodes stack acc hfuel h1 h2 h3 h4 h6 hlst hdang hunref
    have hz : mapW nodes = 0 := by omega
    have hnil := mapW_eq_zero hz
    subst hnil
    exact ⟨h1, h2, h3, h4, rfl, rfl, rfl⟩
  | succ fuel ihn =>
    intro nodes stack acc hfuel h1 h2 h3 h4 h6 hlst hdang hunref
    cases stack with
    | nil =>
      refine ⟨h1, h2, h3, h4, ?_, ?_, h6⟩
      · rw [invParentListed_iff]
        intro p hp pid hpid hne parent hparent
        rcases hlst p hp pid hpid hne parent hparent with h | h
        · exact h
        · exact absurd h (List.not_mem_nil _)
      · rw [invParentLive_iff]
        intro p hp pid hpid
        by_cases he : pid = ""
        · exact Or.inl he
        · rcases hdang p hp pid hpid he with hs | hs
          · exact Or.inr hs
          · exact absurd hs (List.not_mem_nil _)
    | cons cur rest =>
      cases hg : mget nodes cur with
      | none =>
        have heq : delLoop (fuel + 1) nodes (cur :: rest) acc =
            delLoop fuel nodes rest acc := by
          rw [show delLoop (fuel + 1) nodes (cur :: rest) acc =
                (match mget nodes cur with
                 | some n =>
                   delLoop fuel (mdel nodes cur)
                     (n.childrenIds.reverse ++ rest) (acc ++ [n])
                 | none => delLoop fuel nodes rest acc) from rfl, hg]
        rw [heq]
        have hlive : ∀ p ∈ nodes, p.1 ≠ cur := by
          intro p hp he
          have hm : mget nodes p.1 = some p.2 := by
            refine mget_of_mem_nodup h1 ?_
            cases p
            exact hp
          rw [he, hg] at hm
          exact Option.noConfusion hm
        refine ihn nodes rest acc ?_ h1 h2 h3 h4 h6 ?_ ?_ ?_
        · rw [List.length_cons] at hfuel
          omega
        · intro p hp pid hpid hne parent hparent
          rcases hlst p hp pid hpid hne parent hparent with h | h
          · exact Or.inl h
          · rcases List.mem_cons.mp h with heq2 | hs2
            · exact absurd heq2 (hlive p hp)
            · exact Or.inr hs2
        · intro p hp pid hpid hne
          rcases hdang p hp pid hpid hne with hs | hs
          · exact Or.inl hs
          · rcases List.mem_cons.mp hs with heq2 | hs2
            · exact absurd heq2 (hlive p hp)
            · exact Or.inr hs2
        · intro s hs p hp
          exact hunref s (List.mem_cons_of_mem _ hs) p hp
      | some n =>
        have hcurmem : (cur, n) ∈ nodes := mget_mem hg
        have heq : delLoop (fuel + 1) nodes (cur :: rest) acc =
            delLoop fuel (mdel nodes cur)
              (n.childrenIds.reverse ++ rest) (acc ++ [n]) := by
          rw [show delLoop (fuel + 1) nodes (cur :: rest) acc =
                (match mget nodes cur with
                 | some n =>
                   delLoop fuel (mdel nodes cur)
                     (n.childrenIds.reverse ++ rest) (acc ++ [n])
                 | none => delLoop fuel nodes rest acc) from rfl, hg]
        rw [heq]
        have hnotcur : ∀ p ∈ mdel nodes cur, p.1 ≠ cur := by
          intro p hp he
          have hm : mget (mdel nodes cur) p.1 = some p.2 := by
            refine mget_of_mem_nodup (nodupKeys_mdel h1) ?_
            cases p
            exact hp
          rw [he, mget_mdel_self h1] at hm
          exact Option.noConfusion hm
        refine ihn (mdel nodes cur) (n.childrenIds.reverse ++ rest)
          (acc ++ [n]) ?_ (nodupKeys_mdel h1) ?_ ?_ ?_ ?_ ?_ ?_ ?_
        · have hW := mapW_mdel hg
          rw [List.length_append, List.length_reverse]
          rw [List.length_cons] at hfuel
          omega
        · rw [invIds_iff] at h2 ⊢
          intro p hp
          exact h2 p (mem_mdel hp)
        · rw [invChildren_iff] at h3 ⊢
          intro p hp
          obtain ⟨hnd, hco⟩ := h3 p (mem_mdel hp)
          refine ⟨hnd, ?_⟩
          intro c hc
          have hcne : c ≠ cur := by
            intro he
            subst he
            exact hunref c (List.mem_cons_self c rest) p (mem_mdel hp) hc
          obtain ⟨m, hm, hmp⟩ := childOk_iff.mp (hco c hc)
          rw [childOk_iff]
          exact ⟨m, by rw [mget_mdel_ne hcne]; exact hm, hmp⟩
        · rw [invDisjoint_iff] at h4 ⊢
          intro p hp q hq
          exact h4 p (mem_mdel hp) q (mem_mdel hq)
        · rw [invNoEmptyKey_iff] at h6 ⊢
          intro p hp
          exact h6 p (mem_mdel hp)
        · intro p hp pid hpid hne parent hparent
          have hpidne : pid ≠ cur := by
            intro he
            rw [he, mget_mdel_self h1] at hparent
            exact Option.noConfusion hparent
          rw [mget_mdel_ne hpidne] at hparent
          rcases hlst p (mem_mdel hp) pid hpid hne parent hparent with
            h | h
          · exact Or.inl h
          · rcases List.mem_cons.mp h with heq2 | hs2
            · exact absurd heq2 (hnotcur p hp)
            · exact Or.inr (List.mem_append.mpr (Or.inr hs2))
        · intro p hp pid hpid hne
          rcases hdang p (mem_mdel hp) pid hpid hne with hs | hs
          · by_cases hpc : pid = cur
            · subst hpc
              rcases hlst p (mem_mdel hp) pid hpid hne n hg with
                hin | hstk
              · exact Or.inr (List.mem_append.mpr
                  (Or.inl (List.mem_reverse.mpr hin)))
              · rcases List.mem_cons.mp hstk with heq2 | hs2
                · exact absurd heq2 (hnotcur p hp)
                · exact Or.inr (List.mem_append.mpr (Or.inr hs2))
            · refine Or.inl ?_
              rw [mget_mdel_ne hpc]
              exact hs
          · rcases List.mem_cons.mp hs with heq2 | hs2
            · exact absurd heq2 (hnotcur p hp)
            · exact Or.inr (List.mem_append.mpr (Or.inr hs2))
        · intro s hs p hp hcin
          rcases List.mem_append.mp hs with hsc | hsr
          · have hsn : s ∈ n.childrenIds := List.mem_reverse.mp hsc
            rw [invDisjoint_iff] at h4
            rcases h4 p (mem_mdel hp) (cur, n) hcurmem with heqk | hdisj
            · exact hnotcur p hp heqk
            · exact hdisj s hcin hsn
          · exact hunref s (List.mem_cons_of_mem _ hsr) p (mem_mdel hp)
              hcin

theorem nodupKeys_append_one {ks : List String} {k : String}
    (h : nodupKeys ks = true) (hk : k ∉ ks) :
    nodupKeys (ks ++ [k]) = true := by
  induction ks with
  | nil => rfl
  | cons a as ih =>
    rw [nodupKeys_cons_iff] at h
    rw [List.cons_append, nodupKeys_cons_iff]
    refine ⟨?_, ih h.2 (fun hm => hk (List.mem_cons_of_mem _ hm))⟩
    intro hm
    rcases List.mem_append.mp hm with h1 | h1
    · exact h.1 h1
    · exact hk (List.mem_cons.mpr (Or.inl (List.mem_singleton.mp h1).symm))

theorem nodupKeys_filter {ks : List String} {p : String → Bool}
    (h : nodupKeys ks = true) : nodupKeys (ks.filter p) = true := by
  induction ks with
  | nil => exact h
  | cons a as ih =>
    rw [nodupKeys_cons_iff] at h
    rw [List.filter_cons]
    by_cases hp : p a = true
    · rw [if_pos hp, nodupKeys_cons_iff]
      exact ⟨fun hm => h.1 (List.mem_filter.mp hm).1, ih h.2⟩
    · rw [if_neg hp]
      exact ih h.2

theorem mem_mset_nodup : ∀ {ns : List (String × SNode)} {k : String}
    {v : SNode} {q : String × SNode}, invKeys ns = true → q ∈ mset ns k v →
    q = (k, v) ∨ (q ∈ ns ∧ q.1 ≠ k) := by
  intro ns
  induction ns with
  | nil =>
    intro k v q _ hq
    exact Or.inl (List.mem_singleton.mp hq)
  | cons p ps ih =>
    intro k v q hnd hq
    unfold invKeys at hnd
    rw [List.map_cons, nodupKeys_cons_iff] at hnd
    obtain ⟨hk, hnd2⟩ := hnd
    rw [show mset (p :: ps) k v =
          (if p.1 = k then (k, v) :: ps else p :: mset ps k v) from rfl] at hq
    by_cases he : p.1 = k
    · rw [if_pos he] at hq
      rcases List.mem_cons.mp hq with heq | hm
      · exact Or.inl heq
      · refine Or.inr ⟨List.mem_cons_of_mem _ hm, ?_⟩
        intro hek
        exact hk (List.mem_map.mpr ⟨q, hm, hek.trans he.symm⟩)
    · rw [if_neg he] at hq
      rcases List.mem_cons.mp hq with heq | hm
      · refine Or.inr ⟨List.mem_cons.mpr (Or.inl heq), ?_⟩
        rw [heq]
        exact he
      · rcases ih hnd2 hm with h1 | h1
        · exact Or.inl h1
        · exact Or.inr ⟨List.mem_cons_of_mem _ h1.1, h1.2⟩

theorem invKeys_mset_fresh {ns : List (String × SNode)} {k : String}
    {v : SNode} (h1 : invKeys ns = true) (hfresh : mget ns k = none) :
    invKeys (mset ns k v) = true := by
  unfold invKeys at h1 ⊢
  rw [keys_mset, hfresh]
  rw [if_neg (fun h => Bool.noConfusion h)]
  refine nodupKeys_append_one h1 ?_
  intro hm
  obtain ⟨p, hpm, hpe⟩ := List.mem_map.mp hm
  obtain ⟨a, b⟩ := p
  have hab : a = k := hpe
  subst hab
  have := mget_of_mem_nodup h1 hpm
  rw [hfresh] at this
  exact Option.noConfusion this

theorem invKeys_mset_present {ns : List (String × SNode)} {k : String}
    {v w : SNode} (h1 : invKeys ns = true) (hg : mget ns k = some w) :
    invKeys (mset ns k v) = true := by
  unfold invKeys at h1 ⊢
  rw [keys_mset, hg]
  rw [if_pos (show (some w).isSome = true from rfl)]
  exact h1

theorem addChildLink_eq_parent {nodes : List (String × SNode)}
    {node : SNode} {pid : String} {parent : SNode}
    (hp : node.parentId = some pid) (hq : mget nodes pid = some parent)
    (hnotin : parent.childrenIds.contains node.id = false) :
    addChildLink nodes node = mset nodes pid
      ⟨parent.id, parent.parentId, parent.childrenIds ++ [node.id]⟩ := by
  unfold addChildLink
  rw [hp]
  dsimp only
  rw [hq]
  dsimp only
  rw [if_neg (by intro h; rw [hnotin] at h; exact Bool.noConfusion h)]

theorem detachFromParent_eq_none {nodes : List (String × SNode)}
    {node : SNode} {nid : String} (hp : node.parentId = none) :
    detachFromParent nodes node nid = nodes := by
  unfold detachFromParent
  rw [hp]

theorem detachFromParent_eq_empty {nodes : List (String × SNode)}
    {node : SNode} {nid : String} (hp : node.parentId = some "") :
    detachFromParent nodes node nid = nodes := by
  unfold detachFromParent
  rw [hp]
  dsimp only
  rw [if_neg (fun h => Bool.noConfusion h)]

theorem detachFromParent_eq_noparent {nodes : List (String × SNode)}
    {node : SNode} {nid : String} {pid : String}
    (hp : node.parentId = some pid) (hne : pid ≠ "")
    (hq : mget nodes pid = none) :
    detachFromParent nodes node nid = nodes := by
  unfold detachFromParent
  rw [hp]
  dsimp only
  rw [if_pos (bne_iff_ne.mpr hne), hq]

theorem detachFromParent_eq_parent {nodes : List (String × SNode)}
    {node : SNode} {nid : String} {pid : String} {parent : SNode}
    (hp : node.parentId = some pid) (hne : pid ≠ "")
    (hq : mget nodes pid = some parent) :
    detachFromParent nodes node nid = mset nodes pid
      ⟨parent.id, parent.parentId,
       parent.childrenIds.filter (fun i => i != nid)⟩ := by
  unfold detachFromParent
  rw [hp]
  dsimp only
  rw [if_pos (bne_iff_ne.mpr hne), hq]

/-- `addNode` with a falsy `parentId` preserves the invariant: the fresh
node is appended with no children and no live parent pointer. -/
theorem treeInv_mset_fresh {ns : List (String × SNode)} {node : SNode}
    {r : Option String}
    (h1 : invKeys ns = true) (h2 : invIds ns = true)
    (h3 : invChildren ns = true) (h4 : invDisjoint ns = true)
    (h5 : invParentListed ns = true) (h6 : invParentLive ns = true)
    (h7 : invNoEmptyKey ns = true)
    (hfresh : mget ns node.id = none) (hch : node.childrenIds = [])
    (hidne : node.id ≠ "")
    (hfalsy : optTruthy node.parentId = false) :
    treeInv ⟨mset ns node.id node, r⟩ = true := by
  have hpid : node.parentId = none ∨ node.parentId = some "" := by
    cases hp : node.parentId with
    | none => exact Or.inl rfl
    | some s =>
      rw [hp] at hfalsy
      have hfs : (s != "") = false := hfalsy
      refine Or.inr ?_
      have hs : s = "" := by
        by_contra hne
        have hni : (s != "") = true := bne_iff_ne.mpr hne
        rw [hni] at hfs
        exact Bool.noConfusion hfs
      rw [hs]
  have hme : ∀ {p : String × SNode}, p ∈ mset ns node.id node →
      p = (node.id, node) ∨ (p ∈ ns ∧ p.1 ≠ node.id) :=
    fun hp => mem_mset_nodup h1 hp
  have hgetne : ∀ {k : String}, k ≠ node.id →
      mget (mset ns node.id node) k = mget ns k :=
    fun h => mget_mset_ne h
  have hcne : ∀ {c : String} {m : SNode}, mget ns c = some m →
      c ≠ node.id := by
    intro c m hm he
    rw [he, hfresh] at hm
    exact Option.noConfusion hm
  refine treeInv_iff.mpr ⟨?_, ?_, ?_, ?_, ?_, ?_, ?_⟩
  · exact invKeys_mset_fresh h1 hfresh
  · rw [invIds_iff]
    intro p hp
    rcases hme hp with he | ⟨hm, _⟩
    · rw [he]
    · exact invIds_iff.mp h2 p hm
  · rw [invChildren_iff]
    intro p hp
    rcases hme hp with he | ⟨hm, _⟩
    · rw [he]
      dsimp only
      rw [hch]
      exact ⟨rfl, fun c hc => absurd hc (List.not_mem_nil c)⟩
    · obtain ⟨hnd, hco⟩ := invChildren_iff.mp h3 p hm
      refine ⟨hnd, ?_⟩
      intro c hc
      obtain ⟨m, hmg, hmp⟩ := childOk_iff.mp (hco c hc)
      rw [childOk_iff]
      exact ⟨m, by rw [hgetne (hcne hmg)]; exact hmg, hmp⟩
  · rw [invDisjoint_iff]
    intro p hp q hq
    rcases hme hp with hpe | ⟨hpm, _⟩
    · refine Or.inr ?_
      intro c hc hcq
      rw [hpe, show ((node.id, node) : String × SNode).2.childrenIds =
        node.childrenIds from rfl, hch] at hc
      exact absurd hc (List.not_mem_nil c)
    · rcases hme hq with hqe | ⟨hqm, _⟩
      · refine Or.inr ?_
        intro c hc hcq
        rw [hqe, show ((node.id, node) : String × SNode).2.childrenIds =
          node.childrenIds from rfl, hch] at hcq
        exact absurd hcq (List.not_mem_nil c)
      · exact invDisjoint_iff.mp h4 p hpm q hqm
  · rw [invParentListed_iff]
    intro p hp pid hppid hne parent hparent
    rcases hme hp with hpe | ⟨hpm, _⟩
    · rw [hpe] at hppid
      have hppid2 : node.parentId = some pid := hppid
      rcases hpid with hn | hn
      · rw [hn] at hppid2
        exact Option.noConfusion hppid2
      · rw [hn] at hppid2
        exact absurd (Option.some.inj hppid2).symm hne
    · have hpidne : pid ≠ node.id := by
        intro he
        rcases invParentLive_iff.mp h6 p hpm pid hppid with h | h
        · exact hne h
        · rw [he, hfresh] at h
          exact Bool.noConfusion h
      rw [hgetne hpidne] at hparent
      exact invParentListed_iff.mp h5 p hpm pid hppid hne parent hparent
  · rw [invParentLive_iff]
    intro p hp pid hppid
    rcases hme hp with hpe | ⟨hpm, _⟩
    · rw [hpe] at hppid
      have hppid2 : node.parentId = some pid := hppid
      rcases hpid with hn | hn
      · rw [hn] at hppid2
        exact Option.noConfusion hppid2
      · rw [hn] at hppid2
        exact Or.inl (Option.some.inj hppid2).symm
    · rcases invParentLive_iff.mp h6 p hpm pid hppid with h | h
      · exact Or.inl h
      · refine Or.inr ?_
        by_cases he : pid = node.id
        · rw [he, mget_mset_self]
          rfl
        · rw [hgetne he]
          exact h
  · rw [invNoEmptyKey_iff]
    intro p hp
    rcases hme hp with hpe | ⟨hpm, _⟩
    · rw [hpe]
      exact hidne
    · exact invNoEmptyKey_iff.mp h7 p hpm

/-- `addNode` with a truthy, resolvable `parentId` preserves the
invariant: the fresh node is inserted and appended to its parent's
`childrenIds`. -/
theorem treeInv_addNode_parent {ns N2 : List (String × SNode)}
    {node parent₀ P : SNode} {pid : String} {r : Option String}
    (h1 : invKeys ns = true) (h2 : invIds ns = true)
    (h3 : invChildren ns = true) (h4 : invDisjoint ns = true)
    (h5 : invParentListed ns = true) (h6 : invParentLive ns = true)
    (h7 : invNoEmptyKey ns = true)
    (hfresh : mget ns node.id = none) (hch : node.childrenIds = [])
    (hidne : node.id ≠ "")
    (hppid : node.parentId = some pid) (hpne : pid ≠ "")
    (hq : mget ns pid = some parent₀)
    (hP : P = ⟨parent₀.id, parent₀.parentId,
      parent₀.childrenIds ++ [node.id]⟩)
    (hN2 : N2 = mset (mset ns node.id node) pid P)
    (hnotin : node.id ∉ parent₀.childrenIds) :
    treeInv ⟨N2, r⟩ = true := by
  have hpidni : pid ≠ node.id := by
    intro he
    rw [he, hfresh] at hq
    exact Option.noConfusion hq
  have hK1 : invKeys (mset ns node.id node) = true :=
    invKeys_mset_fresh h1 hfresh
  have hg1p : mget (mset ns node.id node) pid = some parent₀ := by
    rw [mget_mset_ne hpidni]
    exact hq
  have hK2 : invKeys N2 = true := by
    rw [hN2]
    exact invKeys_mset_present hK1 hg1p
  have hdec : ∀ {p : String × SNode}, p ∈ N2 →
      p = (pid, P) ∨ p = (node.id, node) ∨
      (p ∈ ns ∧ p.1 ≠ pid ∧ p.1 ≠ node.id) := by
    intro p hp
    rw [hN2] at hp
    rcases mem_mset_nodup hK1 hp with he | ⟨hm1, hnp⟩
    · exact Or.inl he
    · rcases mem_mset_nodup h1 hm1 with he | ⟨hm0, hnn⟩
      · exact Or.inr (Or.inl he)
      · exact Or.inr (Or.inr ⟨hm0, hnp, hnn⟩)
  have hg2p : mget N2 pid = some P := by
    rw [hN2]
    exact mget_mset_self
  have hg2n : mget N2 node.id = some node := by
    rw [hN2, mget_mset_ne (fun he => hpidni he.symm)]
    exact mget_mset_self
  have hg2o : ∀ {k : String}, k ≠ pid → k ≠ node.id →
      mget N2 k = mget ns k := by
    intro k hkp hkn
    rw [hN2, mget_mset_ne hkp, mget_mset_ne hkn]
  have hPid : parent₀.id = pid := invIds_iff.mp h2 (pid, parent₀) (mget_mem hq)
  have hndP : nodupKeys parent₀.childrenIds = true :=
    (invChildren_iff.mp h3 (pid, parent₀) (mget_mem hq)).1
  have hcoP : ∀ c ∈ parent₀.childrenIds, childOk ns pid c = true :=
    (invChildren_iff.mp h3 (pid, parent₀) (mget_mem hq)).2
  have hcne : ∀ {c : String} {m : SNode}, mget ns c = some m →
      c ≠ node.id := by
    intro c m hm he
    rw [he, hfresh] at hm
    exact Option.noConfusion hm
  have hsome2 : ∀ {k : String}, (mget ns k).isSome = true →
      (mget N2 k).isSome = true := by
    intro k hk
    by_cases hkp : k = pid
    · rw [hkp, hg2p]
      rfl
    · by_cases hkn : k = node.id
      · rw [hkn, hg2n]
        rfl
      · rw [hg2o hkp hkn]
        exact hk
  refine treeInv_iff.mpr ⟨hK2, ?_, ?_, ?_, ?_, ?_, ?_⟩
  · rw [invIds_iff]
    intro p hp
    rcases hdec hp with he | he | ⟨hm, _, _⟩
    · rw [he]
      dsimp only
      rw [hP]
      exact hPid
    · rw [he]
    · exact invIds_iff.mp h2 p hm
  · rw [invChildren_iff]
    intro p hp
    rcases hdec hp with he | he | ⟨hm, hmp, hmn⟩
    · rw [he]
      dsimp only
      rw [hP]
      dsimp only
      constructor
      · exact nodupKeys_append_one hndP hnotin
      · intro c hc
        rcases List.mem_append.mp hc with hcold | hcnew
        · obtain ⟨m, hmg, hmpid⟩ := childOk_iff.mp (hcoP c hcold)
          by_cases hcp : c = pid
          · rw [childOk_iff]
            refine ⟨P, ?_, ?_⟩
            · rw [hcp]
              exact hg2p
            · rw [hP]
              dsimp only
              rw [hcp, hq] at hmg
              have hm0 : parent₀ = m := Option.some.inj hmg
              rw [hm0]
              exact hmpid
          · have hcn : c ≠ node.id := hcne hmg
            rw [childOk_iff]
            exact ⟨m, by rw [hg2o hcp hcn]; exact hmg, hmpid⟩
        · rw [List.mem_singleton.mp hcnew, childOk_iff]
          exact ⟨node, hg2n, by rw [hppid]⟩
    · rw [he]
      dsimp only
      rw [hch]
      exact ⟨rfl, fun c hc => absurd hc (List.not_mem_nil c)⟩
    · obtain ⟨hnd, hco⟩ := invChildren_iff.mp h3 p hm
      refine ⟨hnd, ?_⟩
      intro c hc
      obtain ⟨m, hmg, hmpid⟩ := childOk_iff.mp (hco c hc)
      by_cases hcp : c = pid
      · rw [childOk_iff]
        refine ⟨P, ?_, ?_⟩
        · rw [hcp]
          exact hg2p
        · rw [hP]
          dsimp only
          rw [hcp, hq] at hmg
          have hm0 : parent₀ = m := Option.some.inj hmg
          rw [hm0]
          exact hmpid
      · have hcn : c ≠ node.id := hcne hmg
        rw [childOk_iff]
        exact ⟨m, by rw [hg2o hcp hcn]; exact hmg, hmpid⟩
  · rw [invDisjoint_iff]
    intro p hp q hq2
    rcases hdec hp with hpe | hpe | ⟨hpm, hpp, hpn⟩
    · rcases hdec hq2 with hqe | hqe | ⟨hqm, hqp, hqn⟩
      · exact Or.inl (by rw [hpe, hqe])
      · refine Or.inr ?_
        intro c hc hcq
        rw [hqe] at hcq
        dsimp only at hcq
        rw [hch] at hcq
        exact absurd hcq (List.not_mem_nil c)
      · refine Or.inr ?_
        intro c hc hcq
        rw [hpe] at hc
        dsimp only at hc
        rw [hP] at hc
        dsimp only at hc
        rcases List.mem_append.mp hc with hcold | hcnew
        · rcases invDisjoint_iff.mp h4 (pid, parent₀) (mget_mem hq) q hqm
            with hk | hdisj
          · exact hqp hk.symm
          · exact hdisj c hcold hcq
        · obtain ⟨m, hmg, _⟩ := childOk_iff.mp
            ((invChildren_iff.mp h3 q hqm).2 c hcq)
          rw [List.mem_singleton.mp hcnew, hfresh] at hmg
          exact Option.noConfusion hmg
    · refine Or.inr ?_
      intro c hc hcq
      rw [hpe] at hc
      dsimp only at hc
      rw [hch] at hc
      exact absurd hc (List.not_mem_nil c)
    · rcases hdec hq2 with hqe | hqe | ⟨hqm, hqp, hqn⟩
      · refine Or.inr ?_
        intro c hc hcq
        rw [hqe] at hcq
        dsimp only at hcq
        rw [hP] at hcq
        dsimp only at hcq
        rcases List.mem_append.mp hcq with hcold | hcnew
        · rcases invDisjoint_iff.mp h4 p hpm (pid, parent₀) (mget_mem hq)
            with hk | hdisj
          · exact hpp hk
          · exact hdisj c hc hcold
        · obtain ⟨m, hmg, _⟩ := childOk_iff.mp
            ((invChildren_iff.mp h3 p hpm).2 c hc)
          rw [List.mem_singleton.mp hcnew, hfresh] at hmg
          exact Option.noConfusion hmg
      · refine Or.inr ?_
        intro c hc hcq
        rw [hqe] at hcq
        dsimp only at hcq
        rw [hch] at hcq
        exact absurd hcq (List.not_mem_nil c)
      · exact invDisjoint_iff.mp h4 p hpm q hqm
  · rw [invParentListed_iff]
    intro p hp pid2 hpp2 hne2 parent2 hpar2
    rcases hdec hp with hpe | hpe | ⟨hpm, hpp, hpn⟩
    · rw [hpe] at hpp2
      dsimp only at hpp2
      rw [hP] at hpp2
      dsimp only at hpp2
      by_cases hc1 : pid2 = pid
      · subst hc1
        rw [hg2p] at hpar2
        have hpar2e := Option.some.inj hpar2
        rw [hpe, ← hpar2e, hP]
        dsimp only
        refine List.mem_append.mpr (Or.inl ?_)
        exact invParentListed_iff.mp h5 (pid2, parent₀) (mget_mem hq) pid2
          hpp2 hne2 parent₀ hq
      · by_cases hc2 : pid2 = node.id
        · exfalso
          rcases invParentLive_iff.mp h6 (pid, parent₀) (mget_mem hq) pid2
            hpp2 with h | h
          · exact hne2 h
          · rw [hc2, hfresh] at h
            exact Bool.noConfusion h
        · rw [hg2o hc1 hc2] at hpar2
          rw [hpe]
          exact invParentListed_iff.mp h5 (pid, parent₀) (mget_mem hq) pid2
            hpp2 hne2 parent2 hpar2
    · rw [hpe] at hpp2
      dsimp only at hpp2
      rw [hppid] at hpp2
      have hc1 : pid = pid2 := Option.some.inj hpp2
      rw [← hc1, hg2p] at hpar2
      have hpar2e := Option.some.inj hpar2
      rw [hpe, ← hpar2e, hP]
      dsimp only
      exact List.mem_append.mpr (Or.inr (List.mem_singleton.mpr rfl))
    · by_cases hc1 : pid2 = pid
      · subst hc1
        rw [hg2p] at hpar2
        have hpar2e := Option.some.inj hpar2
        rw [← hpar2e, hP]
        dsimp only
        refine List.mem_append.mpr (Or.inl ?_)
        exact invParentListed_iff.mp h5 p hpm pid2 hpp2 hne2 parent₀ hq
      · by_cases hc2 : pid2 = node.id
        · exfalso
          rcases invParentLive_iff.mp h6 p hpm pid2 hpp2 with h | h
          · exact hne2 h
          · rw [hc2, hfresh] at h
            exact Bool.noConfusion h
        · rw [hg2o hc1 hc2] at hpar2
          exact invParentListed_iff.mp h5 p hpm pid2 hpp2 hne2 parent2 hpar2
  · rw [invParentLive_iff]
    intro p hp pid2 hpp2
    rcases hdec hp with hpe | hpe | ⟨hpm, _, _⟩
    · rw [hpe] at hpp2
      dsimp only at hpp2
      rw [hP] at hpp2
      dsimp only at hpp2
      rcases invParentLive_iff.mp h6 (pid, parent₀) (mget_mem hq) pid2 hpp2
        with h | h
      · exact Or.inl h
      · exact Or.inr (hsome2 h)
    · rw [hpe] at hpp2
      dsimp only at hpp2
      rw [hppid] at hpp2
      have hc1 : pid = pid2 := Option.some.inj hpp2
      refine Or.inr ?_
      rw [← hc1, hg2p]
      rfl
    · rcases invParentLive_iff.mp h6 p hpm pid2 hpp2 with h | h
      · exact Or.inl h
      · exact Or.inr (hsome2 h)
  · rw [invNoEmptyKey_iff]
    intro p hp
    rcases hdec hp with hpe | hpe | ⟨hpm, _, _⟩
    · rw [hpe]
      exact hpne
    · rw [hpe]
      exact hidne
    · exact invNoEmptyKey_iff.mp h7 p hpm

/-- The parent-detach step establishes the preconditions of the deletion
loop with the target node as the only stack entry: the map stays
consistent except that the target may be unlisted, the target is no
longer referenced by any `childrenIds`, and every parent pointer still
resolves. -/
theorem detachFromParent_inv {ns : List (String × SNode)} {node : SNode}
    {nid : String}
    (h1 : invKeys ns = true) (h2 : invIds ns = true)
    (h3 : invChildren ns = true) (h4 : invDisjoint ns = true)
    (h5 : invParentListed ns = true) (h6 : invParentLive ns = true)
    (h7 : invNoEmptyKey ns = true)
    (hnode : mget ns nid = some node) :
    invKeys (detachFromParent ns node nid) = true ∧
    invIds (detachFromParent ns node nid) = true ∧
    invChildren (detachFromParent ns node nid) = true ∧
    invDisjoint (detachFromParent ns node nid) = true ∧
    invNoEmptyKey (detachFromParent ns node nid) = true ∧
    (∀ p ∈ detachFromParent ns node nid, ∀ pid, p.2.parentId = some pid →
      pid ≠ "" → ∀ parent,
      mget (detachFromParent ns node nid) pid = some parent →
      p.1 ∈ parent.childrenIds ∨ p.1 ∈ [nid]) ∧
    (∀ p ∈ detachFromParent ns node nid, ∀ pid, p.2.parentId = some pid →
      pid ≠ "" →
      (mget (detachFromParent ns node nid) pid).isSome = true ∨
      p.1 ∈ [nid]) ∧
    (∀ s ∈ [nid], ∀ p ∈ detachFromParent ns node nid,
      s ∉ p.2.childrenIds) := by
  have hself : ∀ {p : String × SNode}, p ∈ ns → nid ∈ p.2.childrenIds →
      node.parentId = some p.1 := by
    intro p hpm hin
    obtain ⟨m, hm, hmp⟩ := childOk_iff.mp
      ((invChildren_iff.mp h3 p hpm).2 nid hin)
    rw [hnode] at hm
    have hmn : node = m := Option.some.inj hm
    rw [hmn]
    exact hmp
  cases hp : node.parentId with
  | none =>
    rw [detachFromParent_eq_none hp]
    refine ⟨h1, h2, h3, h4, h7, ?_, ?_, ?_⟩
    · intro p hpm pid hppid hne parent hparent
      exact Or.inl
        (invParentListed_iff.mp h5 p hpm pid hppid hne parent hparent)
    · intro p hpm pid hppid hne
      rcases invParentLive_iff.mp h6 p hpm pid hppid with h | h
      · exact absurd h hne
      · exact Or.inl h
    · intro s hs p hpm hin
      rw [List.mem_singleton.mp hs] at hin
      have := hself hpm hin
      rw [hp] at this
      exact Option.noConfusion this
  | some pid₀ =>
    by_cases hpe : pid₀ = ""
    · rw [detachFromParent_eq_empty (by rw [hp, hpe])]
      refine ⟨h1, h2, h3, h4, h7, ?_, ?_, ?_⟩
      · intro p hpm pid hppid hne parent hparent
        exact Or.inl
          (invParentListed_iff.mp h5 p hpm pid hppid hne parent hparent)
      · intro p hpm pid hppid hne
        rcases invParentLive_iff.mp h6 p hpm pid hppid with h | h
        · exact absurd h hne
        · exact Or.inl h
      · intro s hs p hpm hin
        rw [List.mem_singleton.mp hs] at hin
        have hsp := hself hpm hin
        rw [hp] at hsp
        have : pid₀ = p.1 := Option.some.inj hsp
        exact invNoEmptyKey_iff.mp h7 p hpm (by rw [← this, hpe])
    · cases hq : mget ns pid₀ with
      | none =>
        exfalso
        rcases invParentLive_iff.mp h6 (nid, node) (mget_mem hnode) pid₀ hp
          with h | h
        · exact hpe h
        · rw [hq] at h
          exact Bool.noConfusion h
      | some parent₀ =>
        rw [detachFromParent_eq_parent hp hpe hq]
        have hdecD : ∀ {p : String × SNode},
            p ∈ mset ns pid₀ ⟨parent₀.id, parent₀.parentId,
              parent₀.childrenIds.filter (fun i => i != nid)⟩ →
            p = (pid₀, ⟨parent₀.id, parent₀.parentId,
              parent₀.childrenIds.filter (fun i => i != nid)⟩) ∨
            (p ∈ ns ∧ p.1 ≠ pid₀) :=
          fun hp2 => mem_mset_nodup h1 hp2
        have hgDp : mget (mset ns pid₀ ⟨parent₀.id, parent₀.parentId,
            parent₀.childrenIds.filter (fun i => i != nid)⟩) pid₀ =
            some ⟨parent₀.id, parent₀.parentId,
              parent₀.childrenIds.filter (fun i => i != nid)⟩ :=
          mget_mset_self
        have hgDo : ∀ {k : String}, k ≠ pid₀ →
            mget (mset ns pid₀ ⟨parent₀.id, parent₀.parentId,
              parent₀.childrenIds.filter (fun i => i != nid)⟩) k =
            mget ns k := fun hk => mget_mset_ne hk
        have hP₀id : parent₀.id = pid₀ :=
          invIds_iff.mp h2 (pid₀, parent₀) (mget_mem hq)
        have hnd₀ : nodupKeys parent₀.childrenIds = true :=
          (invChildren_iff.mp h3 (pid₀, parent₀) (mget_mem hq)).1
        have hco₀ : ∀ c ∈ parent₀.childrenIds, childOk ns pid₀ c = true :=
          (invChildren_iff.mp h3 (pid₀, parent₀) (mget_mem hq)).2
        have hfsub : ∀ {c : String},
            c ∈ parent₀.childrenIds.filter (fun i => i != nid) →
            c ∈ parent₀.childrenIds := fun hc => (List.mem_filter.mp hc).1
        have hfmem : ∀ {c : String}, c ∈ parent₀.childrenIds → c ≠ nid →
            c ∈ parent₀.childrenIds.filter (fun i => i != nid) :=
          fun hc hcn => List.mem_filter.mpr ⟨hc, bne_iff_ne.mpr hcn⟩
        have hnidf : nid ∉ parent₀.childrenIds.filter (fun i => i != nid) := by
          intro hc
          exact absurd rfl (bne_iff_ne.mp (List.mem_filter.mp hc).2)
        have hsomeD : ∀ {k : String}, (mget ns k).isSome = true →
            (mget (mset ns pid₀ ⟨parent₀.id, parent₀.parentId,
              parent₀.childrenIds.filter (fun i => i != nid)⟩) k).isSome =
            true := by
          intro k hk
          by_cases hkp : k = pid₀
          · rw [hkp, hgDp]
            rfl
          · rw [hgDo hkp]
            exact hk
        refine ⟨invKeys_mset_present h1 hq, ?_, ?_, ?_, ?_, ?_, ?_, ?_⟩
        · rw [invIds_iff]
          intro p hp2
          rcases hdecD hp2 with he | ⟨hm, _⟩
          · rw [he]
            dsimp only
            exact hP₀id
          · exact invIds_iff.mp h2 p hm
        · rw [invChildren_iff]
          intro p hp2
          rcases hdecD hp2 with he | ⟨hm, hmn⟩
          · rw [he]
            dsimp only
            constructor
            · exact nodupKeys_filter hnd₀
            · intro c hc
              obtain ⟨m, hmg, hmpid⟩ := childOk_iff.mp (hco₀ c (hfsub hc))
              by_cases hcp : c = pid₀
              · rw [childOk_iff]
                refine ⟨⟨parent₀.id, parent₀.parentId,
                  parent₀.childrenIds.filter (fun i => i != nid)⟩, ?_, ?_⟩
                · rw [hcp]
                  exact hgDp
                · dsimp only
                  rw [hcp, hq] at hmg
                  have hm0 : parent₀ = m := Option.some.inj hmg
                  rw [hm0]
                  exact hmpid
              · rw [childOk_iff]
                exact ⟨m, by rw [hgDo hcp]; exact hmg, hmpid⟩
          · obtain ⟨hnd, hco⟩ := invChildren_iff.mp h3 p hm
            refine ⟨hnd, ?_⟩
            intro c hc
            obtain ⟨m, hmg, hmpid⟩ := childOk_iff.mp (hco c hc)
            by_cases hcp : c = pid₀
            · rw [childOk_iff]
              refine ⟨⟨parent₀.id, parent₀.parentId,
                parent₀.childrenIds.filter (fun i => i != nid)⟩, ?_, ?_⟩
              · rw [hcp]
                exact hgDp
              · dsimp only
                rw [hcp, hq] at hmg
                have hm0 : parent₀ = m := Option.some.inj hmg
                rw [hm0]
                exact hmpid
            · rw [childOk_iff]
              exact ⟨m, by rw [hgDo hcp]; exact hmg, hmpid⟩
        · rw [invDisjoint_iff]
          intro p hp2 q hq2
          rcases hdecD hp2 with hpex | ⟨hpm, hpp⟩
          · rcases hdecD hq2 with hqex | ⟨hqm, hqp⟩
            · exact Or.inl (by rw [hpex, hqex])
            · refine Or.inr ?_
              intro c hc hcq
              rw [hpex] at hc
              dsimp only at hc
              rcases invDisjoint_iff.mp h4 (pid₀, parent₀) (mget_mem hq) q
                hqm with hk | hdisj
              · exact hqp hk.symm
              · exact hdisj c (hfsub hc) hcq
          · rcases hdecD hq2 with hqex | ⟨hqm, hqp⟩
            · refine Or.inr ?_
              intro c hc hcq
              rw [hqex] at hcq
              dsimp only at hcq
              rcases invDisjoint_iff.mp h4 p hpm (pid₀, parent₀)
                (mget_mem hq) with hk | hdisj
              · exact hpp hk
              · exact hdisj c hc (hfsub hcq)
            · exact invDisjoint_iff.mp h4 p hpm q hqm
        · rw [invNoEmptyKey_iff]
          intro p hp2
          rcases hdecD hp2 with he | ⟨hm, _⟩
          · rw [he]
            exact hpe
          · exact invNoEmptyKey_iff.mp h7 p hm
        · intro p hp2 pid hppid hne parent hparent
          by_cases hpn : p.1 = nid
          · exact Or.inr (List.mem_singleton.mpr hpn)
          · refine Or.inl ?_
            rcases hdecD hp2 with hpex | ⟨hpm, hpp⟩
            · rw [hpex] at hppid hpn ⊢
              dsimp only at hppid hpn ⊢
              by_cases hc1 : pid = pid₀
              · rw [hc1, hgDp] at hparent
                have hpar2 := Option.some.inj hparent
                rw [← hpar2]
                dsimp only
                refine hfmem ?_ hpn
                rw [hc1] at hppid
                exact invParentListed_iff.mp h5 (pid₀, parent₀)
                  (mget_mem hq) pid₀ hppid (fun h => hpe h) parent₀ hq
              · rw [hgDo hc1] at hparent
                exact invParentListed_iff.mp h5 (pid₀, parent₀)
                  (mget_mem hq) pid hppid hne parent hparent
            · by_cases hc1 : pid = pid₀
              · rw [hc1, hgDp] at hparent
                have hpar2 := Option.some.inj hparent
                rw [← hpar2]
                dsimp only
                refine hfmem ?_ hpn
                rw [hc1] at hppid
                exact invParentListed_iff.mp h5 p hpm pid₀ hppid
                  (fun h => hpe h) parent₀ hq
              · rw [hgDo hc1] at hparent
                exact invParentListed_iff.mp h5 p hpm pid hppid hne parent
                  hparent
        · intro p hp2 pid hppid hne
          refine Or.inl ?_
          rcases hdecD hp2 with hpex | ⟨hpm, hpp⟩
          · rw [hpex] at hppid
            dsimp only at hppid
            rcases invParentLive_iff.mp h6 (pid₀, parent₀) (mget_mem hq)
              pid hppid with h | h
            · exact absurd h hne
            · exact hsomeD h
          · rcases invParentLive_iff.mp h6 p hpm pid hppid with h | h
            · exact absurd h hne
            · exact hsomeD h
        · intro s hs p hp2 hin
          rw [List.mem_singleton.mp hs] at hin
          rcases hdecD hp2 with hpex | ⟨hpm, hpp⟩
          · rw [hpex] at hin
            dsimp only at hin
            exact hnidf hin
          · have hsp := hself hpm hin
            rw [hp] at hsp
            exact hpp (Option.some.inj hsp).symm

/-- `addNode` preserves the tree invariant under its precondition. -/
theorem treeAddNode_inv {t : TreeState} {node : SNode} {t2 : TreeState}
    (hinv : treeInv t = true) (hpre : addNodePre t node = true)
    (hrun : treeAddNode t node = some t2) : treeInv t2 = true := by
  obtain ⟨h1, h2, h3, h4, h5, h6, h7⟩ := treeInv_iff.mp hinv
  unfold addNodePre at hpre
  rw [Bool.and_eq_true, Bool.and_eq_true, Bool.and_eq_true] at hpre
  obtain ⟨⟨⟨hfo, hce⟩, hne0⟩, hpok⟩ := hpre
  have hfresh : mget t.nodes node.id = none := by
    cases hg : mget t.nodes node.id with
    | none => rfl
    | some m =>
      rw [hg] at hfo
      exact Bool.noConfusion hfo
  have hch : node.childrenIds = [] := by
    cases hcc : node.childrenIds with
    | nil => rfl
    | cons a as =>
      rw [hcc] at hce
      exact Bool.noConfusion hce
  have hidne : node.id ≠ "" := bne_iff_ne.mp hne0
  unfold treeAddNode at hrun
  by_cases hguard : ¬ optTruthy node.parentId ∧ optTruthy t.rootNodeId
  · rw [if_pos hguard] at hrun
    exact Option.noConfusion hrun
  · rw [if_neg hguard] at hrun
    have ht2 : t2 = ⟨(if optTruthy node.parentId then
        addChildLink (mset t.nodes node.id node) node
      else mset t.nodes node.id node),
      (if ¬ optTruthy node.parentId ∧ ¬ optTruthy t.rootNodeId
        then some node.id else t.rootNodeId)⟩ :=
      (Option.some.inj hrun).symm
    subst ht2
    by_cases hT : optTruthy node.parentId = true
    · rw [if_pos hT]
      cases hp : node.parentId with
      | none =>
        rw [hp] at hT
        exact Bool.noConfusion hT
      | some pid =>
        rw [hp] at hT
        have hpne : pid ≠ "" := bne_iff_ne.mp hT
        rw [hp] at hpok
        dsimp only at hpok
        rw [Bool.or_eq_true] at hpok
        rcases hpok with hp1 | hp1
        · exact absurd (eq_of_beq hp1) hpne
        · cases hq : mget t.nodes pid with
          | none =>
            rw [hq] at hp1
            exact Bool.noConfusion hp1
          | some parent₀ =>
            have hpidni : pid ≠ node.id := by
              intro he
              rw [he, hfresh] at hq
              exact Option.noConfusion hq
            have hq1 : mget (mset t.nodes node.id node) pid =
                some parent₀ := by
              rw [mget_mset_ne hpidni]
              exact hq
            have hnotin : node.id ∉ parent₀.childrenIds := by
              intro hin
              obtain ⟨m, hm, _⟩ := childOk_iff.mp
                ((invChildren_iff.mp h3 (pid, parent₀) (mget_mem hq)).2
                  node.id hin)
              rw [hfresh] at hm
              exact Option.noConfusion hm
            have hcontains : parent₀.childrenIds.contains node.id =
                false := by
              cases hcc : parent₀.childrenIds.contains node.id with
              | false => rfl
              | true => exact absurd (List.elem_iff.mp hcc) hnotin
            rw [addChildLink_eq_parent hp hq1 hcontains]
            exact treeInv_addNode_parent h1 h2 h3 h4 h5 h6 h7 hfresh hch
              hidne hp hpne hq rfl rfl hnotin
    · rw [if_neg hT]
      have hfalsy : optTruthy node.parentId = false := by
        cases hb : optTruthy node.parentId with
        | false => rfl
        | true => exact absurd hb hT
      exact treeInv_mset_fresh h1 h2 h3 h4 h5 h6 h7 hfresh hch hidne hfalsy

/-- `deleteBranch` preserves the tree invariant unconditionally. -/
theorem treeDeleteBranch_inv {t : TreeState} {nid : String}
    {ds : List SNode} {t2 : TreeState}
    (hinv : treeInv t = true)
    (hrun : treeDeleteBranch t nid = some (ds, t2)) : treeInv t2 = true := by
  obtain ⟨h1, h2, h3, h4, h5, h6, h7⟩ := treeInv_iff.mp hinv
  unfold treeDeleteBranch at hrun
  cases hg : mget t.nodes nid with
  | none =>
    rw [hg] at hrun
    exact Option.noConfusion hrun
  | some node =>
    rw [hg] at hrun
    dsimp only at hrun
    by_cases hroot : (t.rootNodeId == some node.id) = true
    · rw [if_pos hroot] at hrun
      exact Option.noConfusion hrun
    · rw [if_neg hroot] at hrun
      have ht2 : t2 =
          ⟨(delLoop (mapW (detachFromParent t.nodes node nid) + 1)
            (detachFromParent t.nodes node nid) [nid] []).1,
           t.rootNodeId⟩ :=
        (congrArg Prod.snd (Option.some.inj hrun)).symm
      subst ht2
      obtain ⟨hK, hI, hC, hD, hE, hlst, hdang, hunref⟩ :=
        detachFromParent_inv h1 h2 h3 h4 h5 h6 h7 hg
      have hmain := delLoop_inv
        (mapW (detachFromParent t.nodes node nid) + 1)
        (detachFromParent t.nodes node nid) [nid] []
        (Nat.le_refl _) hK hI hC hD hE hlst hdang hunref
      exact treeInv_iff.mpr ⟨hmain.1, hmain.2.1, hmain.2.2.1,
        hmain.2.2.2.1, hmain.2.2.2.2.1, hmain.2.2.2.2.2.1,
        hmain.2.2.2.2.2.2⟩

/-- C5 (amended): after any sequence of `addNode` and `deleteBranch`
operations starting from a consistent (e.g. empty) tree — provided each
`addNode` call satisfies the documented usage precondition at the state
it executes in (fresh non-empty id, no pre-seeded `childrenIds`, and a
`parentId` that is falsy or resolves) — the tree stays consistent: every
live node's truthy `parentId` resolves to a live node (`invParentLive`)
and every id in any node's `childrenIds` resolves to a live node whose
`parentId` points back (`invChildren`), both contained in `treeInv`.
Without the `addNode` precondition the claim is false (see the
counterexample): `addNode` accepts a node whose `parentId` resolves to
nothing. -/
theorem c5_tree_invariant : ∀ (cs : List TreeCall) (t : TreeState),
    treeInv t = true → seqPreOk t cs = true →
    treeInv (runTreeSeq t cs) = true := by
  intro cs
  induction cs with
  | nil =>
    intro t h _
    exact h
  | cons c cs ih =>
    intro t hinv hpre
    rw [show seqPreOk t (c :: cs) =
      (TreeCall.pre t c && seqPreOk (stepTreeCall t c) cs) from rfl,
      Bool.and_eq_true] at hpre
    obtain ⟨hp1, hp2⟩ := hpre
    have hstep : runTreeSeq t (c :: cs) =
        runTreeSeq (stepTreeCall t c) cs := by
      rw [show runTreeSeq t (c :: cs) = (match runTreeCall t c with
        | some u => runTreeSeq u cs
        | none => runTreeSeq t cs) from rfl]
      unfold stepTreeCall
      cases runTreeCall t c with
      | some u => rfl
      | none => rfl
    rw [hstep]
    refine ih (stepTreeCall t c) ?_ hp2
    unfold stepTreeCall
    cases hr : runTreeCall t c with
    | none => exact hinv
    | some u =>
      cases c with
      | add node =>
        exact treeAddNode_inv hinv hp1 hr
      | del nid =>
        cases hd : treeDeleteBranch t nid with
        | none =>
          rw [show runTreeCall t (.del nid) =
            (treeDeleteBranch t nid).map (fun r => r.2) from rfl, hd]
            at hr
          exact Option.noConfusion hr
        | some r =>
          obtain ⟨ds2, t3⟩ := r
          have hu2 : u = t3 := by
            rw [show runTreeCall t (.del nid) =
              (treeDeleteBranch t nid).map (fun r => r.2) from rfl, hd]
              at hr
            exact (Option.some.inj hr).symm
          subst hu2
          exact treeDeleteBranch_inv hinv hd

/-- C5 witness: from the empty tree, adding a root node, adding a child
under it, then deleting the child keeps the tree consistent; every
call's precondition holds at the state it executes in. -/
theorem c5_tree_invariant_witness :
    treeInv ⟨[], none⟩ = true ∧
    seqPreOk ⟨[], none⟩
      [TreeCall.add ⟨"r", none, []⟩, TreeCall.add ⟨"a", some "r", []⟩,
       TreeCall.del "a"] = true ∧
    treeInv (runTreeSeq ⟨[], none⟩
      [TreeCall.add ⟨"r", none, []⟩, TreeCall.add ⟨"a", some "r", []⟩,
       TreeCall.del "a"]) = true :=
  ⟨by decide, by decide,
    c5_tree_invariant
      [TreeCall.add ⟨"r", none, []⟩, TreeCall.add ⟨"a", some "r", []⟩,
       TreeCall.del "a"]
      ⟨[], none⟩ (by decide) (by decide)⟩

/-- C5 counterexample to the unconditional claim: on a consistent
one-root tree, `addNode` succeeds for a node whose `parentId` `"ghost"`
resolves to no live node (the source only guards the second-root case
and silently skips the `childrenIds` push when the parent is missing),
leaving a live non-root node whose `parent_id` does not resolve:
`invParentLive` is false afterwards. -/
theorem c5_counterexample_orphan_parent :
    treeInv ⟨[("r", ⟨"r", none, []⟩)], some "r"⟩ = true ∧
    treeAddNode ⟨[("r", ⟨"r", none, []⟩)], some "r"⟩
        ⟨"x", some "ghost", []⟩ =
      some ⟨[("r", ⟨"r", none, []⟩), ("x", ⟨"x", some "ghost", []⟩)],
        some "r"⟩ ∧
    invParentLive [("r", ⟨"r", none, []⟩), ("x", ⟨"x", some "ghost", []⟩)]
      = false := by
  refine ⟨by decide, by decide, by decide⟩

theorem getD_set_self : ∀ {l : List Nat} {i a : Nat}, i < l.length →
    (l.set i a).getD i 0 = a := by
  intro l
  induction l with
  | nil => intro i a h; simp at h
  | cons x xs ih =>
    intro i a h
    cases i with
    | zero => rfl
    | succ i =>
      rw [show (x :: xs).set (i + 1) a = x :: xs.set i a from rfl,
          show (x :: xs.set i a).getD (i + 1) 0 = (xs.set i a).getD i 0
            from rfl]
      exact ih (Nat.lt_of_succ_lt_succ h)

theorem getD_set_ne : ∀ {l : List Nat} {i j a : Nat}, j ≠ i →
    (l.set i a).getD j 0 = l.getD j 0 := by
  intro l
  induction l with
  | nil => intro i j a _; rfl
  | cons x xs ih =>
    intro i j a h
    cases i with
    | zero =>
      cases j with
      | zero => exact absurd rfl h
      | succ j => rfl
    | succ i =>
      cases j with
      | zero => rfl
      | succ j =>
        rw [show (x :: xs).set (i + 1) a = x :: xs.set i a from rfl,
            show (x :: xs.set i a).getD (j + 1) 0 = (xs.set i a).getD j 0
              from rfl,
            show (x :: xs).getD (j + 1) 0 = xs.getD j 0 from rfl]
        exact ih (fun he => h (by rw [he]))

theorem getD_replicate_zero : ∀ (n m : Nat),
    (List.replicate n (0 : Nat)).getD m 0 = 0 := by
  intro n
  induction n with
  | zero => intro m; rfl
  | succ n ih =>
    intro m
    rw [List.replicate_succ]
    cases m with
    | zero => rfl
    | succ m => exact ih m

theorem orAt_length {out : List Nat} {j v : Nat} :
    (orAt out j v).length = out.length := by
  unfold orAt
  exact List.length_set out j _

theorem getD_orAt_self {out : List Nat} {j v : Nat} (h : j < out.length) :
    (orAt out j v).getD j 0 = (out.getD j 0) ||| v := by
  unfold orAt
  exact getD_set_self h

theorem getD_orAt_ne {out : List Nat} {j j2 v : Nat} (h : j2 ≠ j) :
    (orAt out j v).getD j2 0 = out.getD j2 0 := by
  unfold orAt
  exact getD_set_ne h

theorem packBitsGo_length : ∀ (bs : List Bool) (i0 : Nat) (out : List Nat),
    (packBitsGo bs i0 out).length = out.length := by
  intro bs
  induction bs with
  | nil => intro i0 out; rfl
  | cons b rest ih =>
    intro i0 out
    rw [show packBitsGo (b :: rest) i0 out = packBitsGo rest (i0 + 1)
        (orAt out (i0 / 8) ((if b then 1 else 0) <<< (i0 % 8))) from rfl,
      ih, orAt_length]

/-- Pointwise characterization of the packing loop: bit `k` of byte `j`
of the result is the original bit ORed with the input bit that lands
there (input index `j*8+k - i0`), when in range. -/
theorem packBitsGo_testBit : ∀ (bs : List Bool) (i0 : Nat) (out : List Nat)
    (j k : Nat), k < 8 →
    Nat.testBit ((packBitsGo bs i0 out).getD j 0) k =
      ((out.getD j 0).testBit k ||
       (if i0 ≤ j * 8 + k ∧ j * 8 + k < i0 + bs.length ∧ j < out.length
        then bs.getD (j * 8 + k - i0) false else false)) := by
  intro bs
  induction bs with
  | nil =>
    intro i0 out j k hk
    rw [show packBitsGo [] i0 out = out from rfl]
    rw [if_neg (by
      intro hcon
      obtain ⟨hc1, hc2, _⟩ := hcon
      rw [List.length_nil] at hc2
      omega)]
    rw [Bool.or_false]
  | cons b rest ih =>
    intro i0 out j k hk
    rw [show packBitsGo (b :: rest) i0 out = packBitsGo rest (i0 + 1)
        (orAt out (i0 / 8) ((if b then 1 else 0) <<< (i0 % 8))) from rfl]
    rw [ih (i0 + 1) (orAt out (i0 / 8) ((if b then 1 else 0) <<< (i0 % 8)))
        j k hk]
    rw [orAt_length]
    by_cases hx : j * 8 + k = i0
    · rw [if_neg (show ¬(i0 + 1 ≤ j * 8 + k ∧
        j * 8 + k < i0 + 1 + rest.length ∧ j < out.length) from by
          intro hcon
          omega)]
      rw [Bool.or_false]
      by_cases hj : j < out.length
      · rw [if_pos (show i0 ≤ j * 8 + k ∧
          j * 8 + k < i0 + (b :: rest).length ∧ j < out.length from
            ⟨by omega, by rw [List.length_cons]; omega, hj⟩)]
        rw [show j * 8 + k - i0 = 0 from by omega]
        rw [show (b :: rest).getD 0 false = b from rfl]
        have hj8 : j = i0 / 8 := by omega
        have hk8 : k = i0 % 8 := by omega
        subst hj8
        subst hk8
        rw [getD_orAt_self hj]
        rw [Nat.testBit_or]
        rw [Nat.testBit_shiftLeft]
        rw [decide_eq_true (Nat.le_refl (i0 % 8))]
        rw [Nat.sub_self]
        cases b <;> simp
      · rw [if_neg (show ¬(i0 ≤ j * 8 + k ∧
          j * 8 + k < i0 + (b :: rest).length ∧ j < out.length) from
            fun hcon => hj hcon.2.2)]
        rw [Bool.or_false]
        rw [List.getD_eq_default _ _ (by rw [orAt_length]; omega),
            List.getD_eq_default _ _ (by omega)]
    · have hsame : Nat.testBit ((orAt out (i0 / 8)
          ((if b then 1 else 0) <<< (i0 % 8))).getD j 0) k =
          Nat.testBit (out.getD j 0) k := by
        by_cases hj8 : j = i0 / 8
        · subst hj8
          by_cases hjl : i0 / 8 < out.length
          · rw [getD_orAt_self hjl, Nat.testBit_or, Nat.testBit_shiftLeft]
            have hkne : k ≠ i0 % 8 := by omega
            by_cases hge : k ≥ i0 % 8
            · have hpos : k - i0 % 8 ≠ 0 := by omega
              cases hkk : k - i0 % 8 with
              | zero => exact absurd hkk hpos
              | succ m =>
                cases b <;> simp [Nat.testBit_succ]
            · rw [decide_eq_false hge]
              simp
          · rw [List.getD_eq_default _ _ (by rw [orAt_length]; omega),
                List.getD_eq_default _ _ (by omega)]
        · rw [getD_orAt_ne hj8]
      rw [hsame]
      by_cases hcond : i0 + 1 ≤ j * 8 + k ∧
          j * 8 + k < i0 + 1 + rest.length ∧ j < out.length
      · rw [if_pos hcond,
            if_pos (show i0 ≤ j * 8 + k ∧
              j * 8 + k < i0 + (b :: rest).length ∧ j < out.length from
                ⟨by omega, by rw [List.length_cons]; omega, hcond.2.2⟩)]
        rw [show j * 8 + k - i0 = (j * 8 + k - (i0 + 1)) + 1 from by omega]
        rw [show (b :: rest).getD ((j * 8 + k - (i0 + 1)) + 1) false =
            rest.getD (j * 8 + k - (i0 + 1)) false from rfl]
      · rw [if_neg hcond]
        rw [if_neg (show ¬(i0 ≤ j * 8 + k ∧
          j * 8 + k < i0 + (b :: rest).length ∧ j < out.length) from
            fun hcon => hcond ⟨by omega, by
              have := hcon.2.1
              rw [List.length_cons] at this
              omega, hcon.2.2⟩)]

theorem getD_map_truthy : ∀ (ns : List Int) (i : Nat), i < ns.length →
    (ns.map (fun x => x != 0)).getD i false = (ns.getD i 0 != 0) := by
  intro ns
  induction ns with
  | nil => intro i hi; simp at hi
  | cons x xs ih =>
    intro i hi
    cases i with
    | zero => rfl
    | succ i =>
      rw [List.length_cons] at hi
      exact ih i (by omega)

/-- C7: a Binary-format store accepts bit sources (booleans, 0/1 ints, or
pre-packed bytes); array sources are packed LSB-first, bit `i` landing in
byte `i/8` at bit index `i % 8`, into `ceil(len/8)` bytes; and inserting a
pre-packed byte sequence of length `len` with `8·len < dimension` fails
with the dimension error (`binary vector too short`, `DimensionMismatch`
in the spec's taxonomy), while any source providing at least `dimension`
bits is accepted. -/
theorem c7_binary_packing :
    (∀ (bs : List Bool) (i : Nat), i < bs.length →
      Nat.testBit ((packBits (BitInput.bools bs)).getD (i / 8) 0) (i % 8) =
        bs.getD i false) ∧
    (∀ bs : List Bool,
      (packBits (BitInput.bools bs)).length = (bs.length + 7) / 8) ∧
    (∀ (ns : List Int) (i : Nat), i < ns.length →
      Nat.testBit ((packBits (BitInput.nums ns)).getD (i / 8) 0) (i % 8) =
        (ns.getD i 0 != 0)) ∧
    (∀ (dim : Nat) (u8 : List Nat), u8.length * 8 < dim →
      serializeVectorBinary dim (BitInput.bytes u8) =
        Except.error VecErr.dimensionMismatch) ∧
    (∀ (dim : Nat) (input : BitInput), dim ≤ (packBits input).length * 8 →
      serializeVectorBinary dim input = Except.ok (packBits input)) := by
  refine ⟨?_, ?_, ?_, ?_, ?_⟩
  · intro bs i hi
    rw [show packBits (BitInput.bools bs) =
        packBitsGo bs 0 (List.replicate ((bs.length + 7) / 8) 0) from rfl]
    rw [packBitsGo_testBit bs 0 _ (i / 8) (i % 8)
        (Nat.mod_lt _ (by omega))]
    rw [getD_replicate_zero, Nat.zero_testBit, Bool.false_or]
    rw [if_pos (show 0 ≤ i / 8 * 8 + i % 8 ∧
        i / 8 * 8 + i % 8 < 0 + bs.length ∧
        i / 8 < (List.replicate ((bs.length + 7) / 8) (0 : Nat)).length from
      ⟨Nat.zero_le _, by omega, by rw [List.length_replicate]; omega⟩)]
    rw [show i / 8 * 8 + i % 8 - 0 = i from by omega]
  · intro bs
    rw [show packBits (BitInput.bools bs) =
        packBitsGo bs 0 (List.replicate ((bs.length + 7) / 8) 0) from rfl]
    rw [packBitsGo_length, List.length_replicate]
  · intro ns i hi
    rw [show packBits (BitInput.nums ns) =
        packBitsGo (ns.map (fun x => x != 0)) 0
          (List.replicate ((ns.length + 7) / 8) 0) from rfl]
    rw [packBitsGo_testBit (ns.map (fun x => x != 0)) 0 _ (i / 8) (i % 8)
        (Nat.mod_lt _ (by omega))]
    rw [getD_replicate_zero, Nat.zero_testBit, Bool.false_or]
    rw [if_pos (show 0 ≤ i / 8 * 8 + i % 8 ∧
        i / 8 * 8 + i % 8 < 0 + (ns.map (fun x => x != 0)).length ∧
        i / 8 < (List.replicate ((ns.length + 7) / 8) (0 : Nat)).length from
      ⟨Nat.zero_le _, by rw [List.length_map]; omega,
       by rw [List.length_replicate]; omega⟩)]
    rw [show i / 8 * 8 + i % 8 - 0 = i from by omega]
    exact getD_map_truthy ns i hi
  · intro dim u8 h
    unfold serializeVectorBinary
    have h2 : (packBits (BitInput.bytes u8)).length * 8 < dim := h
    rw [if_pos h2]
  · intro dim input h
    unfold serializeVectorBinary
    rw [if_neg (Nat.not_lt.mpr h)]

/-- C7 witness: `[true, false, true]` packs to the byte `0b101 = 5`; a
one-byte pre-packed input fails for dimension 9 and passes for
dimension 8. -/
theorem c7_binary_packing_witness :
    (Nat.testBit
      ((packBits (BitInput.bools [true, false, true])).getD (2 / 8) 0)
      (2 % 8) = [true, false, true].getD 2 false) ∧
    serializeVectorBinary 9 (BitInput.bytes [42]) =
      Except.error VecErr.dimensionMismatch ∧
    serializeVectorBinary 8 (BitInput.bytes [42]) = Except.ok [42] :=
  ⟨c7_binary_packing.1 [true, false, true] 2 (by decide),
   c7_binary_packing.2.2.2.1 9 [42] (by decide),
   c7_binary_packing.2.2.2.2 8 (BitInput.bytes [42]) (by decide)⟩

theorem mem_filter_ne {l : List Nat} {x id : Nat} :
    x ∈ l.filter (fun y => y != id) ↔ (x ∈ l ∧ x ≠ id) := by
  rw [List.mem_filter]
  constructor
  · intro ⟨h1, h2⟩
    exact ⟨h1, bne_iff_ne.mp h2⟩
  · intro ⟨h1, h2⟩
    exact ⟨h1, bne_iff_ne.mpr h2⟩

theorem length_filter_lt_of_mem {l : List Nat} {id : Nat} (h : id ∈ l) :
    (l.filter (fun y => y != id)).length < l.length := by
  induction l with
  | nil => exact absurd h (List.not_mem_nil _)
  | cons a as ih =>
    rw [List.filter_cons]
    by_cases ha : a = id
    · rw [if_neg (show ¬((a != id) = true) from by
        rw [bne_iff_ne]
        exact fun hc => hc ha)]
      rw [List.length_cons]
      exact Nat.lt_succ_of_le (List.length_filter_le _ _)
    · rw [if_pos (bne_iff_ne.mpr ha)]
      rw [List.length_cons, List.length_cons]
      have hm : id ∈ as := by
        rcases List.mem_cons.mp h with he | hm
        · exact absurd he.symm ha
        · exact hm
      exact Nat.succ_lt_succ (ih hm)

/-- C8: `removeMemory` deletes from the vector store before touching the
mirror: a failed store delete returns `null` with the whole state (mirror
included) unchanged; a missing id returns `null` unchanged; and both
`removeMemory` and `addMemory` preserve the invariant that the mirror
and the store hold the same id set (a successful remove filters the id
out of both, a successful add appends the store-assigned id to both, and
a thrown insert propagates with the mirror untouched). -/
theorem c8_remove_memory_store_first :
    (∀ (st : MBState) (id : Nat),
      (mbRemoveMemory st id true).1 = false ∧
      (mbRemoveMemory st id true).2 = st) ∧
    (∀ (st : MBState) (id : Nat) (f : Bool),
      (mbRemoveMemory st id f).2.mirror ≠ st.mirror → f = false) ∧
    (∀ (st : MBState) (id : Nat) (f : Bool),
      (∀ x, x ∈ st.store ↔ x ∈ st.mirror) →
      ∀ x, x ∈ (mbRemoveMemory st id f).2.store ↔
        x ∈ (mbRemoveMemory st id f).2.mirror) ∧
    (∀ (st : MBState) (newId : Nat) (f : Bool) (st2 : MBState),
      (∀ x, x ∈ st.store ↔ x ∈ st.mirror) →
      mbAddMemory st newId f = some st2 →
      ∀ x, x ∈ st2.store ↔ x ∈ st2.mirror) := by
  refine ⟨?_, ?_, ?_, ?_⟩
  · intro st id
    unfold mbRemoveMemory
    by_cases hc : st.mirror.contains id = true
    · rw [if_pos hc, if_pos rfl]
      exact ⟨rfl, rfl⟩
    · rw [if_neg hc]
      exact ⟨rfl, rfl⟩
  · intro st id f hne
    cases f with
    | false => rfl
    | true =>
      exfalso
      apply hne
      unfold mbRemoveMemory
      by_cases hc : st.mirror.contains id = true
      · rw [if_pos hc, if_pos rfl]
      · rw [if_neg hc]
  · intro st id f hiff x
    unfold mbRemoveMemory
    by_cases hc : st.mirror.contains id = true
    · rw [if_pos hc]
      cases f with
      | true => exact hiff x
      | false =>
        rw [if_neg (fun h => Bool.noConfusion h)]
        dsimp only
        rw [mem_filter_ne, mem_filter_ne]
        constructor
        · intro ⟨h1, h2⟩
          exact ⟨(hiff x).mp h1, h2⟩
        · intro ⟨h1, h2⟩
          exact ⟨(hiff x).mpr h1, h2⟩
    · rw [if_neg hc]
      exact hiff x
  · intro st newId f st2 hiff hrun
    unfold mbAddMemory at hrun
    cases f with
    | true =>
      rw [if_pos rfl] at hrun
      exact Option.noConfusion hrun
    | false =>
      rw [if_neg (fun h => Bool.noConfusion h)] at hrun
      have h2 := Option.some.inj hrun
      subst h2
      intro x
      rw [show (⟨st.store ++ [newId], st.mirror ++ [newId]⟩ :
            MBState).store = st.store ++ [newId] from rfl,
          show (⟨st.store ++ [newId], st.mirror ++ [newId]⟩ :
            MBState).mirror = st.mirror ++ [newId] from rfl]
      rw [List.mem_append, List.mem_append]
      constructor
      · intro h
        rcases h with h | h
        · exact Or.inl ((hiff x).mp h)
        · exact Or.inr h
      · intro h
        rcases h with h | h
        · exact Or.inl ((hiff x).mpr h)
        · exact Or.inr h

/-- C8 witness: removing id 3 with the store delete throwing returns
`null` and leaves the state untouched; the id-set invariant transfers
through a successful remove. -/
theorem c8_remove_memory_store_first_witness :
    ((mbRemoveMemory ⟨[3], [3]⟩ 3 true).1 = false ∧
     (mbRemoveMemory ⟨[3], [3]⟩ 3 true).2 = ⟨[3], [3]⟩) ∧
    (∀ x, x ∈ (mbRemoveMemory ⟨[3], [3]⟩ 3 false).2.store ↔
      x ∈ (mbRemoveMemory ⟨[3], [3]⟩ 3 false).2.mirror) :=
  ⟨c8_remove_memory_store_first.1 ⟨[3], [3]⟩ 3,
   c8_remove_memory_store_first.2.2.1 ⟨[3], [3]⟩ 3 false
     (fun _ => Iff.rfl)⟩

/-- C10: `removePlotCard` filters the mirror before issuing the backend
delete; when the backend delete throws, the call returns `false`, the
mirror no longer holds the card, and the backend still does — the two id
sets diverge. -/
theorem c10_remove_plot_card_divergence :
    ∀ (st : PCState) (id : Nat), id ∈ st.mirror →
      (pcRemovePlotCard st id true).1 = false ∧
      id ∉ (pcRemovePlotCard st id true).2.mirror ∧
      (pcRemovePlotCard st id true).2.store = st.store ∧
      (id ∈ st.store →
        ¬(∀ x, x ∈ (pcRemovePlotCard st id true).2.store ↔
          x ∈ (pcRemovePlotCard st id true).2.mirror)) := by
  intro st id hm
  unfold pcRemovePlotCard
  rw [if_pos (length_filter_lt_of_mem hm)]
  rw [if_pos rfl]
  refine ⟨rfl, ?_, rfl, ?_⟩
  · intro hin
    exact (mem_filter_ne.mp hin).2 rfl
  · intro hs hiff
    exact (mem_filter_ne.mp ((hiff id).mp hs)).2 rfl

/-- C10 witness: card 7 present in both; a throwing delete leaves the
backend with 7 and the mirror without it. -/
theorem c10_remove_plot_card_divergence_witness :
    (pcRemovePlotCard ⟨[7], [7]⟩ 7 true).1 = false ∧
    7 ∉ (pcRemovePlotCard ⟨[7], [7]⟩ 7 true).2.mirror ∧
    (pcRemovePlotCard ⟨[7], [7]⟩ 7 true).2.store = [7] ∧
    (7 ∈ ([7] : List Nat) →
      ¬(∀ x, x ∈ (pcRemovePlotCard ⟨[7], [7]⟩ 7 true).2.store ↔
        x ∈ (pcRemovePlotCard ⟨[7], [7]⟩ 7 true).2.mirror)) :=
  c10_remove_plot_card_divergence ⟨[7], [7]⟩ 7 (by decide)

theorem stampFirst_ids : ∀ (ms : List Mem) (h turn : Nat),
    (stampFirst ms h turn).map (fun m => m.id) =
      ms.map (fun m => m.id) := by
  intro ms
  induction ms with
  | nil => intro h turn; rfl
  | cons m0 ms ih =>
    intro h turn
    rw [show stampFirst (m0 :: ms) h turn =
        (if m0.id = h then ⟨m0.id, turn⟩ :: ms
         else m0 :: stampFirst ms h turn) from rfl]
    by_cases he : m0.id = h
    · rw [if_pos he]
      rfl
    · rw [if_neg he, List.map_cons, List.map_cons, ih]

theorem stampFirst_mem : ∀ {ms : List Mem} {h turn : Nat} {m : Mem},
    m ∈ stampFirst ms h turn → m = ⟨h, turn⟩ ∨ m ∈ ms := by
  intro ms
  induction ms with
  | nil => intro h turn m hm; exact absurd hm (List.not_mem_nil _)
  | cons m0 ms ih =>
    intro h turn m hm
    rw [show stampFirst (m0 :: ms) h turn =
        (if m0.id = h then ⟨m0.id, turn⟩ :: ms
         else m0 :: stampFirst ms h turn) from rfl] at hm
    by_cases he : m0.id = h
    · rw [if_pos he] at hm
      rcases List.mem_cons.mp hm with h1 | h1
      · exact Or.inl (by rw [h1, he])
      · exact Or.inr (List.mem_cons_of_mem _ h1)
    · rw [if_neg he] at hm
      rcases List.mem_cons.mp hm with h1 | h1
      · exact Or.inr (List.mem_cons.mpr (Or.inl h1))
      · rcases ih h1 with h2 | h2
        · exact Or.inl h2
        · exact Or.inr (List.mem_cons_of_mem _ h2)

theorem stampFirst_stamped : ∀ {ms : List Mem} {h turn : Nat} {m : Mem},
    (ms.map (fun m2 => m2.id)).Nodup → m ∈ stampFirst ms h turn →
    m.id = h → m.last = turn := by
  intro ms
  induction ms with
  | nil => intro h turn m _ hm _; exact absurd hm (List.not_mem_nil _)
  | cons m0 ms ih =>
    intro h turn m hnd hm hid
    rw [List.map_cons, List.nodup_cons] at hnd
    obtain ⟨hk, hnd2⟩ := hnd
    rw [show stampFirst (m0 :: ms) h turn =
        (if m0.id = h then ⟨m0.id, turn⟩ :: ms
         else m0 :: stampFirst ms h turn) from rfl] at hm
    by_cases he : m0.id = h
    · rw [if_pos he] at hm
      rcases List.mem_cons.mp hm with h1 | h1
      · rw [h1]
      · exfalso
        apply hk
        rw [he]
        rw [← hid]
        exact List.mem_map.mpr ⟨m, h1, rfl⟩
    · rw [if_neg he] at hm
      rcases List.mem_cons.mp hm with h1 | h1
      · exact absurd (h1 ▸ hid) he
      · exact ih hnd2 h1 hid

theorem stampHits_spec : ∀ (hits : List Nat) (mirror : List Mem)
    (turn : Nat), (mirror.map (fun m2 => m2.id)).Nodup →
    ∀ m ∈ stampHits mirror hits turn,
      (m.id ∈ hits → m.last = turn) ∧ (m.id ∉ hits → m ∈ mirror) := by
  intro hits
  induction hits with
  | nil =>
    intro mirror turn _ m hm
    exact ⟨fun hc => absurd hc (List.not_mem_nil _), fun _ => hm⟩
  | cons h hs ih =>
    intro mirror turn hnd m hm
    rw [show stampHits mirror (h :: hs) turn =
      stampHits (stampFirst mirror h turn) hs turn from rfl] at hm
    have hnd2 : ((stampFirst mirror h turn).map (fun m2 => m2.id)).Nodup :=
      by rw [stampFirst_ids]; exact hnd
    obtain ⟨ha, hb⟩ := ih (stampFirst mirror h turn) turn hnd2 m hm
    constructor
    · intro hin
      rcases List.mem_cons.mp hin with he | hin2
      · by_cases hin3 : m.id ∈ hs
        · exact ha hin3
        · exact stampFirst_stamped hnd (hb hin3) he
      · exact ha hin2
    · intro hnin
      have hid_ne : m.id ≠ h := fun he => hnin (List.mem_cons.mpr (Or.inl he))
      have hnin2 : m.id ∉ hs := fun hc => hnin (List.mem_cons_of_mem _ hc)
      rcases stampFirst_mem (hb hnin2) with he | hm3
      · exact absurd (by rw [he]) hid_ne
      · exact hm3

theorem mem_msetM : ∀ {ps : List (Nat × Mem)} {k : Nat} {v : Mem}
    {q : Nat × Mem}, q ∈ msetM ps k v → q = (k, v) ∨ q ∈ ps := by
  intro ps
  induction ps with
  | nil => intro k v q hq; exact Or.inl (List.mem_singleton.mp hq)
  | cons p ps ih =>
    intro k v q hq
    rw [show msetM (p :: ps) k v =
        (if p.1 = k then (k, v) :: ps else p :: msetM ps k v) from rfl]
      at hq
    by_cases he : p.1 = k
    · rw [if_pos he] at hq
      rcases List.mem_cons.mp hq with h1 | h1
      · exact Or.inl h1
      · exact Or.inr (List.mem_cons_of_mem _ h1)
    · rw [if_neg he] at hq
      rcases List.mem_cons.mp hq with h1 | h1
      · exact Or.inr (List.mem_cons.mpr (Or.inl h1))
      · rcases ih h1 with h2 | h2
        · exact Or.inl h2
        · exact Or.inr (List.mem_cons_of_mem _ h2)

theorem mem_mapUnion : ∀ {ms : List Mem} {acc : List (Nat × Mem)}
    {q : Nat × Mem}, q ∈ mapUnion acc ms →
    q ∈ acc ∨ ∃ m ∈ ms, q = (m.id, m) := by
  intro ms
  induction ms with
  | nil => intro acc q hq; exact Or.inl hq
  | cons m ms ih =>
    intro acc q hq
    rw [show mapUnion acc (m :: ms) = mapUnion (msetM acc m.id m) ms
      from rfl] at hq
    rcases ih hq with h1 | ⟨m2, hm2, he⟩
    · rcases mem_msetM h1 with he | h2
      · exact Or.inr ⟨m, List.mem_cons_self _ _, he⟩
      · exact Or.inl h2
    · exact Or.inr ⟨m2, List.mem_cons_of_mem _ hm2, he⟩

theorem memLe_trans : ∀ (a b c : Mem), memLe a b = true →
    memLe b c = true → memLe a c = true := by
  intro a b c h1 h2
  unfold memLe at h1 h2 ⊢
  exact decide_eq_true
    (Nat.le_trans (of_decide_eq_true h2) (of_decide_eq_true h1))

theorem memLe_total : ∀ (a b : Mem), (memLe a b || memLe b a) = true := by
  intro a b
  unfold memLe
  rcases Nat.le_total b.last a.last with h | h
  · rw [decide_eq_true h]
    rfl
  · rw [decide_eq_true h]
    rw [Bool.or_true]

theorem mbCombine_mem {hits : List Nat} {turn : Nat} {recent : List Mem}
    {limit : Nat} {m : Mem} (hm : m ∈ mbCombine hits turn recent limit) :
    (m.id ∈ hits ∧ m.last = turn) ∨ m ∈ recent := by
  unfold mbCombine at hm
  have hm1 := (List.mergeSort_perm _ memLe).subset
    ((List.take_sublist _ _).subset hm)
  obtain ⟨p, hp, hpe⟩ := List.mem_map.mp hm1
  rcases mem_mapUnion hp with h1 | ⟨r, hr, he⟩
  · rcases mem_mapUnion h1 with h2 | ⟨d, hd, he⟩
    · exact absurd h2 (List.not_mem_nil _)
    · obtain ⟨h, hh, hde⟩ := List.mem_map.mp hd
      refine Or.inl ?_
      rw [← hpe, he, ← hde]
      exact ⟨hh, rfl⟩
  · refine Or.inr ?_
    rw [← hpe, he]
    exact hr

/-- C4: `MemoryBank.search(query, current_turn, limit)` asks the vector
store for `k = limit * 2` cosine neighbors; afterwards every mirror
entry whose id is in that semantic hit set has
`last_accessed_at_turn = current_turn`; the result holds at most `limit`
entries, is sorted by `last_accessed_at_turn` descending, and every
entry is either a hit copy (stamped with `current_turn`) or one of at
most 5 recency picks. -/
theorem c4_memory_search (queryFn : Nat → List Nat) (mirror : List Mem)
    (turn limit : Nat)
    (hnd : (mirror.map (fun m => m.id)).Nodup) :
    (mbSearch queryFn mirror turn limit).1 = limit * 2 ∧
    (∀ m ∈ (mbSearch queryFn mirror turn limit).2.2,
      m.id ∈ queryFn (limit * 2) → m.last = turn) ∧
    (mbSearch queryFn mirror turn limit).2.1.length ≤ limit ∧
    List.Pairwise (fun a b => b.last ≤ a.last)
      (mbSearch queryFn mirror turn limit).2.1 ∧
    (∃ picks : List Mem, picks.length ≤ 5 ∧
      ∀ m ∈ (mbSearch queryFn mirror turn limit).2.1,
        (m.id ∈ queryFn (limit * 2) ∧ m.last = turn) ∨ m ∈ picks) := by
  refine ⟨rfl, ?_, ?_, ?_, ?_⟩
  · intro m hm hin
    exact (stampHits_spec (queryFn (limit * 2)) mirror turn hnd m hm).1 hin
  · exact List.length_take_le _ _
  · refine List.Pairwise.imp ?_
      (List.Pairwise.sublist (List.take_sublist _ _)
        (List.sorted_mergeSort memLe_trans memLe_total _))
    intro a b h
    exact of_decide_eq_true h
  · refine ⟨mbRecent mirror (queryFn (limit * 2)) turn, ?_, ?_⟩
    · exact List.length_take_le _ _
    · intro m hm
      exact mbCombine_mem hm

/-- C4 witness: mirror `[⟨1,0⟩, ⟨2,5⟩]`, hits `[1]`, turn 7, limit 3. -/
theorem c4_memory_search_witness :
    (mbSearch (fun _ => [1]) [⟨1, 0⟩, ⟨2, 5⟩] 7 3).1 = 3 * 2 ∧
    (∀ m ∈ (mbSearch (fun _ => [1]) [⟨1, 0⟩, ⟨2, 5⟩] 7 3).2.2,
      m.id ∈ (fun _ : Nat => [1]) (3 * 2) → m.last = 7) ∧
    (mbSearch (fun _ => [1]) [⟨1, 0⟩, ⟨2, 5⟩] 7 3).2.1.length ≤ 3 ∧
    List.Pairwise (fun a b => b.last ≤ a.last)
      (mbSearch (fun _ => [1]) [⟨1, 0⟩, ⟨2, 5⟩] 7 3).2.1 ∧
    (∃ picks : List Mem, picks.length ≤ 5 ∧
      ∀ m ∈ (mbSearch (fun _ => [1]) [⟨1, 0⟩, ⟨2, 5⟩] 7 3).2.1,
        (m.id ∈ (fun _ : Nat => [1]) (3 * 2) ∧ m.last = 7) ∨ m ∈ picks) :=
  c4_memory_search (fun _ => [1]) [⟨1, 0⟩, ⟨2, 5⟩] 7 3 (by decide)

theorem dotQ_self_nonneg : ∀ (a : List ℚ), 0 ≤ dotQ a a := by
  intro a
  induction a with
  | nil => exact le_refl 0
  | cons x xs ih =>
    rw [show dotQ (x :: xs) (x :: xs) = x * x + dotQ xs xs from rfl]
    have := mul_self_nonneg x
    linarith

theorem two_dotQ_le : ∀ (a b : List ℚ), 2 * dotQ a b ≤ dotQ a a + dotQ b b := by
  intro a
  induction a with
  | nil =>
    intro b
    rw [show dotQ ([] : List ℚ) b = 0 from rfl,
        show dotQ ([] : List ℚ) ([] : List ℚ) = 0 from rfl]
    have := dotQ_self_nonneg b
    linarith
  | cons x xs ih =>
    intro b
    cases b with
    | nil =>
      rw [show dotQ (x :: xs) ([] : List ℚ) = 0 from rfl,
          show dotQ ([] : List ℚ) ([] : List ℚ) = 0 from rfl]
      have := dotQ_self_nonneg (x :: xs)
      linarith
    | cons y ys =>
      rw [show dotQ (x :: xs) (y :: ys) = x * y + dotQ xs ys from rfl,
          show dotQ (x :: xs) (x :: xs) = x * x + dotQ xs xs from rfl,
          show dotQ (y :: ys) (y :: ys) = y * y + dotQ ys ys from rfl]
      have h1 := ih ys
      have h2 : 2 * (x * y) ≤ x * x + y * y := by
        nlinarith [sq_nonneg (x - y)]
      linarith

/-- On unit vectors, a cosine score is at most 1, strictly below the
sentinel 2.0. -/
theorem dotQ_lt_two {a b : List ℚ} (ha : dotQ a a = 1)
    (hb : dotQ b b = 1) : dotQ a b < 2 := by
  have := two_dotQ_le a b
  rw [ha, hb] at this
  linarith

theorem mem_msetQ : ∀ {ps : List (Nat × ℚ)} {k : Nat} {v : ℚ}
    {r : Nat × ℚ}, r ∈ msetQ ps k v → r = (k, v) ∨ r ∈ ps := by
  intro ps
  induction ps with
  | nil => intro k v r hr; exact Or.inl (List.mem_singleton.mp hr)
  | cons p ps ih =>
    intro k v r hr
    rw [show msetQ (p :: ps) k v =
        (if p.1 = k then (k, v) :: ps else p :: msetQ ps k v) from rfl]
      at hr
    by_cases he : p.1 = k
    · rw [if_pos he] at hr
      rcases List.mem_cons.mp hr with h1 | h1
      · exact Or.inl h1
      · exact Or.inr (List.mem_cons_of_mem _ h1)
    · rw [if_neg he] at hr
      rcases List.mem_cons.mp hr with h1 | h1
      · exact Or.inr (List.mem_cons.mpr (Or.inl h1))
      · rcases ih h1 with h2 | h2
        · exact Or.inl h2
        · exact Or.inr (List.mem_cons_of_mem _ h2)

theorem msetQ_pres_self : ∀ (ps : List (Nat × ℚ)) (k : Nat) (v : ℚ),
    ∃ w, (k, w) ∈ msetQ ps k v := by
  intro ps
  induction ps with
  | nil => intro k v; exact ⟨v, List.mem_singleton.mpr rfl⟩
  | cons p ps ih =>
    intro k v
    rw [show msetQ (p :: ps) k v =
        (if p.1 = k then (k, v) :: ps else p :: msetQ ps k v) from rfl]
    by_cases he : p.1 = k
    · rw [if_pos he]
      exact ⟨v, List.mem_cons.mpr (Or.inl rfl)⟩
    · rw [if_neg he]
      obtain ⟨w, hw⟩ := ih k v
      exact ⟨w, List.mem_cons_of_mem _ hw⟩

theorem msetQ_pres_mono : ∀ {ps : List (Nat × ℚ)} {k : Nat} {v : ℚ}
    {k2 : Nat} {w : ℚ}, (k2, w) ∈ ps → ∃ w2, (k2, w2) ∈ msetQ ps k v := by
  intro ps
  induction ps with
  | nil => intro k v k2 w hw; exact absurd hw (List.not_mem_nil _)
  | cons p ps ih =>
    intro k v k2 w hw
    rw [show msetQ (p :: ps) k v =
        (if p.1 = k then (k, v) :: ps else p :: msetQ ps k v) from rfl]
    by_cases he : p.1 = k
    · rw [if_pos he]
      rcases List.mem_cons.mp hw with h1 | h1
      · by_cases hk : k2 = k
        · exact ⟨v, List.mem_cons.mpr (Or.inl (by rw [hk]))⟩
        · exfalso
          apply hk
          rw [← he]
          rw [← h1]
      · exact ⟨w, List.mem_cons_of_mem _ h1⟩
    · rw [if_neg he]
      rcases List.mem_cons.mp hw with h1 | h1
      · exact ⟨w, List.mem_cons.mpr (Or.inl h1)⟩
      · obtain ⟨w2, hw2⟩ := ih h1
        exact ⟨w2, List.mem_cons_of_mem _ hw2⟩

theorem msetQ_of_absent : ∀ {ps : List (Nat × ℚ)} {k : Nat} {v : ℚ},
    (¬ ∃ w, (k, w) ∈ ps) → msetQ ps k v = ps ++ [(k, v)] := by
  intro ps
  induction ps with
  | nil => intro k v _; rfl
  | cons p ps ih =>
    intro k v habs
    rw [show msetQ (p :: ps) k v =
        (if p.1 = k then (k, v) :: ps else p :: msetQ ps k v) from rfl]
    by_cases he : p.1 = k
    · exfalso
      apply habs
      refine ⟨p.2, ?_⟩
      rw [← he]
      exact List.mem_cons.mpr (Or.inl rfl)
    · rw [if_neg he, List.cons_append]
      rw [ih (fun ⟨w, hw⟩ => habs ⟨w, List.mem_cons_of_mem _ hw⟩)]

theorem msetQ_keys_sub : ∀ {ps : List (Nat × ℚ)} {k : Nat} {v : ℚ}
    {x : Nat}, x ∈ (msetQ ps k v).map (fun p => p.1) →
    x ∈ ps.map (fun p => p.1) ∨ x = k := by
  intro ps k v x hx
  obtain ⟨r, hr, hre⟩ := List.mem_map.mp hx
  rcases mem_msetQ hr with h1 | h1
  · refine Or.inr ?_
    rw [← hre, h1]
  · exact Or.inl (List.mem_map.mpr ⟨r, h1, hre⟩)

theorem msetQ_keys_nodup : ∀ {ps : List (Nat × ℚ)} {k : Nat} {v : ℚ},
    (ps.map (fun p => p.1)).Nodup →
    ((msetQ ps k v).map (fun p => p.1)).Nodup := by
  intro ps
  induction ps with
  | nil => intro k v _; exact List.nodup_singleton k
  | cons p ps ih =>
    intro k v hnd
    rw [List.map_cons, List.nodup_cons] at hnd
    obtain ⟨hk, hnd2⟩ := hnd
    rw [show msetQ (p :: ps) k v =
        (if p.1 = k then (k, v) :: ps else p :: msetQ ps k v) from rfl]
    by_cases he : p.1 = k
    · rw [if_pos he, List.map_cons, List.nodup_cons]
      refine ⟨?_, hnd2⟩
      rw [← he]
      exact hk
    · rw [if_neg he, List.map_cons, List.nodup_cons]
      refine ⟨?_, ih hnd2⟩
      intro hmem
      rcases msetQ_keys_sub hmem with h1 | h1
      · exact hk h1
      · exact he h1

theorem keys_contains_iff {ps : List (Nat × ℚ)} {k : Nat} :
    (ps.map (fun p => p.1)).contains k = true ↔ ∃ w, (k, w) ∈ ps := by
  constructor
  · intro h
    obtain ⟨r, hr, hre⟩ := List.mem_map.mp (List.elem_iff.mp h)
    obtain ⟨a, b⟩ := r
    have ha : a = k := hre
    subst ha
    exact ⟨b, hr⟩
  · intro ⟨w, hw⟩
    exact List.elem_iff.mpr (List.mem_map.mpr ⟨(k, w), hw, rfl⟩)

theorem pc0_fold_val : ∀ (l : List PCard) (acc : List (Nat × ℚ))
    (T : List Nat),
    (∀ p ∈ acc, p.2 = 2 ∧ p.1 ∈ T) → (∀ c ∈ l, c.id ∈ T) →
    ∀ p ∈ l.foldl (fun a c => msetQ a c.id 2) acc, p.2 = 2 ∧ p.1 ∈ T := by
  intro l
  induction l with
  | nil => intro acc T hacc _ p hp; exact hacc p hp
  | cons c l ih =>
    intro acc T hacc hl p hp
    rw [show (c :: l).foldl (fun a c2 => msetQ a c2.id 2) acc =
      l.foldl (fun a c2 => msetQ a c2.id 2) (msetQ acc c.id 2) from rfl]
      at hp
    refine ih (msetQ acc c.id 2) T ?_
      (fun c2 hc2 => hl c2 (List.mem_cons_of_mem _ hc2)) p hp
    intro p2 hp2
    rcases mem_msetQ hp2 with h1 | h1
    · rw [h1]
      exact ⟨rfl, hl c (List.mem_cons_self _ _)⟩
    · exact hacc p2 h1

theorem pc0_fold_pres : ∀ (l : List PCard) (acc : List (Nat × ℚ))
    (c : PCard), (c ∈ l ∨ ∃ w, (c.id, w) ∈ acc) →
    ∃ w, (c.id, w) ∈ l.foldl (fun a c2 => msetQ a c2.id 2) acc := by
  intro l
  induction l with
  | nil =>
    intro acc c h
    rcases h with h | h
    · exact absurd h (List.not_mem_nil _)
    · exact h
  | cons c0 l ih =>
    intro acc c h
    rw [show (c0 :: l).foldl (fun a c2 => msetQ a c2.id 2) acc =
      l.foldl (fun a c2 => msetQ a c2.id 2) (msetQ acc c0.id 2) from rfl]
    rcases h with h | h
    · rcases List.mem_cons.mp h with he | hm
      · refine ih _ c (Or.inr ?_)
        rw [he]
        exact msetQ_pres_self acc c0.id 2
      · exact ih _ c (Or.inl hm)
    · obtain ⟨w, hw⟩ := h
      exact ih _ c (Or.inr (msetQ_pres_mono hw))

theorem pc0_fold_nodup : ∀ (l : List PCard) (acc : List (Nat × ℚ)),
    (acc.map (fun p => p.1)).Nodup →
    ((l.foldl (fun a c2 => msetQ a c2.id 2) acc).map
      (fun p => p.1)).Nodup := by
  intro l
  induction l with
  | nil => intro acc h; exact h
  | cons c0 l ih =>
    intro acc h
    rw [show (c0 :: l).foldl (fun a c2 => msetQ a c2.id 2) acc =
      l.foldl (fun a c2 => msetQ a c2.id 2) (msetQ acc c0.id 2) from rfl]
    exact ih _ (msetQ_keys_nodup h)

theorem pcMap0_val {cards : List PCard} {q : String} :
    ∀ p ∈ pcMap0 cards q, p.2 = 2 ∧ p.1 ∈ trigIds cards q :=
  pc0_fold_val (trigOf cards q) [] (trigIds cards q)
    (fun _ hp => absurd hp (List.not_mem_nil _))
    (fun c hc => List.mem_map.mpr ⟨c, hc, rfl⟩)

theorem pcMap0_pres {cards : List PCard} {q : String} {c : PCard}
    (hc : c ∈ trigOf cards q) : (c.id, 2) ∈ pcMap0 cards q := by
  obtain ⟨w, hw⟩ := pc0_fold_pres (trigOf cards q) [] c (Or.inl hc)
  have hw2 : w = 2 := (pcMap0_val _ hw).1
  rw [← hw2]
  exact hw

theorem pcMap0_nodup {cards : List PCard} {q : String} :
    ((pcMap0 cards q).map (fun p => p.1)).Nodup :=
  pc0_fold_nodup _ [] List.nodup_nil

theorem pc1_fold_pres : ∀ (l acc : List (Nat × ℚ)) (p : Nat × ℚ),
    p ∈ acc →
    p ∈ l.foldl (fun a r => if (a.map (fun p2 => p2.1)).contains r.1
      then a else msetQ a r.1 r.2) acc := by
  intro l
  induction l with
  | nil => intro acc p hp; exact hp
  | cons r l ih =>
    intro acc p hp
    rw [show (r :: l).foldl (fun a r2 =>
        if (a.map (fun p2 => p2.1)).contains r2.1 then a
        else msetQ a r2.1 r2.2) acc =
      l.foldl (fun a r2 =>
        if (a.map (fun p2 => p2.1)).contains r2.1 then a
        else msetQ a r2.1 r2.2)
      (if (acc.map (fun p2 => p2.1)).contains r.1 then acc
       else msetQ acc r.1 r.2) from rfl]
    by_cases hc : (acc.map (fun p2 => p2.1)).contains r.1 = true
    · rw [if_pos hc]
      exact ih acc p hp
    · rw [if_neg hc]
      refine ih _ p ?_
      rw [msetQ_of_absent (fun hex => hc (keys_contains_iff.mpr hex))]
      exact List.mem_append.mpr (Or.inl hp)

theorem pc1_fold_char : ∀ (l acc : List (Nat × ℚ)) (T : List Nat)
    (vres : List (Nat × ℚ)),
    (∀ r ∈ l, r ∈ vres) →
    (∀ t ∈ T, ∃ w, (t, w) ∈ acc) →
    (∀ p ∈ acc, (p.1 ∈ T ∧ p.2 = 2) ∨ (p.1 ∉ T ∧ p ∈ vres)) →
    ∀ p ∈ l.foldl (fun a r => if (a.map (fun p2 => p2.1)).contains r.1
      then a else msetQ a r.1 r.2) acc,
      (p.1 ∈ T ∧ p.2 = 2) ∨ (p.1 ∉ T ∧ p ∈ vres) := by
  intro l
  induction l with
  | nil => intro acc T vres _ _ hacc p hp; exact hacc p hp
  | cons r l ih =>
    intro acc T vres hl hT hacc p hp
    rw [show (r :: l).foldl (fun a r2 =>
        if (a.map (fun p2 => p2.1)).contains r2.1 then a
        else msetQ a r2.1 r2.2) acc =
      l.foldl (fun a r2 =>
        if (a.map (fun p2 => p2.1)).contains r2.1 then a
        else msetQ a r2.1 r2.2)
      (if (acc.map (fun p2 => p2.1)).contains r.1 then acc
       else msetQ acc r.1 r.2) from rfl] at hp
    by_cases hc : (acc.map (fun p2 => p2.1)).contains r.1 = true
    · rw [if_pos hc] at hp
      exact ih acc T vres (fun r2 hr2 => hl r2 (List.mem_cons_of_mem _ hr2))
        hT hacc p hp
    · rw [if_neg hc] at hp
      have habs : ¬ ∃ w, (r.1, w) ∈ acc :=
        fun hex => hc (keys_contains_iff.mpr hex)
      rw [msetQ_of_absent habs] at hp
      refine ih _ T vres (fun r2 hr2 => hl r2 (List.mem_cons_of_mem _ hr2))
        ?_ ?_ p hp
      · intro t ht
        obtain ⟨w, hw⟩ := hT t ht
        exact ⟨w, List.mem_append.mpr (Or.inl hw)⟩
      · intro p2 hp2
        rcases List.mem_append.mp hp2 with h1 | h1
        · exact hacc p2 h1
        · rw [List.mem_singleton.mp h1]
          refine Or.inr ⟨?_, ?_⟩
          · intro hrt
            obtain ⟨w, hw⟩ := hT r.1 hrt
            exact habs ⟨w, hw⟩
          · exact hl r (List.mem_cons_self _ _)

theorem pc1_fold_nodup : ∀ (l acc : List (Nat × ℚ)),
    (acc.map (fun p => p.1)).Nodup →
    ((l.foldl (fun a r => if (a.map (fun p2 => p2.1)).contains r.1
      then a else msetQ a r.1 r.2) acc).map (fun p => p.1)).Nodup := by
  intro l
  induction l with
  | nil => intro acc h; exact h
  | cons r l ih =>
    intro acc h
    rw [show (r :: l).foldl (fun a r2 =>
        if (a.map (fun p2 => p2.1)).contains r2.1 then a
        else msetQ a r2.1 r2.2) acc =
      l.foldl (fun a r2 =>
        if (a.map (fun p2 => p2.1)).contains r2.1 then a
        else msetQ a r2.1 r2.2)
      (if (acc.map (fun p2 => p2.1)).contains r.1 then acc
       else msetQ acc r.1 r.2) from rfl]
    by_cases hc : (acc.map (fun p2 => p2.1)).contains r.1 = true
    · rw [if_pos hc]
      exact ih acc h
    · rw [if_neg hc]
      exact ih _ (msetQ_keys_nodup h)

theorem pcMap1_pres {cards : List PCard} {q : String}
    {vres : List (Nat × ℚ)} {p : Nat × ℚ} (hp : p ∈ pcMap0 cards q) :
    p ∈ pcMap1 cards q vres :=
  pc1_fold_pres vres (pcMap0 cards q) p hp

theorem pcMap1_char {cards : List PCard} {q : String}
    {vres : List (Nat × ℚ)} :
    ∀ p ∈ pcMap1 cards q vres,
      (p.1 ∈ trigIds cards q ∧ p.2 = 2) ∨
      (p.1 ∉ trigIds cards q ∧ p ∈ vres) := by
  refine pc1_fold_char vres (pcMap0 cards q) (trigIds cards q) vres
    (fun r hr => hr) ?_ ?_
  · intro t ht
    obtain ⟨c, hc, hce⟩ := List.mem_map.mp ht
    refine ⟨2, ?_⟩
    rw [← hce]
    exact pcMap0_pres hc
  · intro p hp
    exact Or.inl ⟨(pcMap0_val p hp).2, (pcMap0_val p hp).1⟩

theorem pcMap1_nodup {cards : List PCard} {q : String}
    {vres : List (Nat × ℚ)} :
    ((pcMap1 cards q vres).map (fun p => p.1)).Nodup :=
  pc1_fold_nodup vres (pcMap0 cards q) pcMap0_nodup

theorem qle_trans : ∀ (a b c : Nat × ℚ), qle a b = true →
    qle b c = true → qle a c = true := by
  intro a b c h1 h2
  unfold qle at h1 h2 ⊢
  exact decide_eq_true
    (le_trans (of_decide_eq_true h2) (of_decide_eq_true h1))

theorem qle_total : ∀ (a b : Nat × ℚ), (qle a b || qle b a) = true := by
  intro a b
  unfold qle
  rcases le_total b.2 a.2 with h | h
  · rw [decide_eq_true h]
    rfl
  · rw [decide_eq_true h]
    rw [Bool.or_true]

/-- In the sorted result, every sentinel-scored entry sits within the
first `limit` positions whenever there are at most `limit` trigger ids:
all entries ranked at or above it also carry the sentinel, have
pairwise-distinct trigger ids, and so are few. -/
theorem sorted_two_prefix (cards : List PCard) (q : String)
    (vres : List (Nat × ℚ)) (limit : Nat)
    (hlt2 : ∀ r ∈ vres, r.2 < 2)
    (htle : (trigIds cards q).length ≤ limit) :
    ∀ p ∈ pcSorted cards q vres, p.2 = 2 →
      p ∈ (pcSorted cards q vres).take limit := by
  intro p hp hp2
  have hperm := List.mergeSort_perm (pcMap1 cards q vres) qle
  have hchar : ∀ r ∈ pcSorted cards q vres,
      (r.1 ∈ trigIds cards q ∧ r.2 = 2) ∨
      (r.1 ∉ trigIds cards q ∧ r ∈ vres) := by
    intro r hr
    exact pcMap1_char r (hperm.mem_iff.mp hr)
  have hsortedP : List.Pairwise (fun x y => qle x y = true)
      (pcSorted cards q vres) :=
    List.sorted_mergeSort qle_trans qle_total _
  have hnodup : ((pcSorted cards q vres).map (fun p2 => p2.1)).Nodup :=
    (List.Perm.nodup_iff (List.Perm.map _ hperm)).mpr pcMap1_nodup
  obtain ⟨⟨n, hn⟩, hne⟩ := List.get_of_mem hp
  have htake : ∀ e ∈ (pcSorted cards q vres).take (n + 1),
      e.2 = 2 ∧ e.1 ∈ trigIds cards q := by
    intro e he
    obtain ⟨i, hi, hie⟩ := List.mem_iff_getElem.mp he
    have hilen : i < (pcSorted cards q vres).length := by
      rw [List.length_take] at hi
      omega
    rw [List.getElem_take] at hie
    by_cases hlt : i < n
    · have hrel := List.pairwise_iff_get.mp hsortedP ⟨i, hilen⟩ ⟨n, hn⟩ hlt
      have hle : ((pcSorted cards q vres).get ⟨n, hn⟩).2 ≤
          ((pcSorted cards q vres).get ⟨i, hilen⟩).2 :=
        of_decide_eq_true hrel
      rw [hne, hp2] at hle
      have hmem : (pcSorted cards q vres).get ⟨i, hilen⟩ ∈
          pcSorted cards q vres := List.get_mem _ _ hilen
      have hge : (pcSorted cards q vres)[i] =
          (pcSorted cards q vres).get ⟨i, hilen⟩ := rfl
      rcases hchar _ hmem with ⟨ht, h2⟩ | ⟨_, hv⟩
      · rw [← hie, hge]
        exact ⟨h2, ht⟩
      · exfalso
        have := hlt2 _ hv
        linarith
    · have hieq : i = n := by
        rw [List.length_take] at hi
        omega
      subst hieq
      have hip : (pcSorted cards q vres)[i] = p := by
        rw [show (pcSorted cards q vres)[i] =
          (pcSorted cards q vres).get ⟨i, hilen⟩ from rfl]
        rw [show (pcSorted cards q vres).get ⟨i, hilen⟩ =
          (pcSorted cards q vres).get ⟨i, hn⟩ from rfl]
        exact hne
      rw [← hie, hip]
      rcases hchar p hp with ⟨ht, h2⟩ | ⟨_, hv⟩
      · exact ⟨hp2, ht⟩
      · exfalso
        have := hlt2 _ hv
        linarith
  have hkeysnd : (((pcSorted cards q vres).take (n + 1)).map
      (fun p2 => p2.1)).Nodup :=
    List.Nodup.sublist (List.Sublist.map _ (List.take_sublist _ _)) hnodup
  have hsub : ∀ x ∈ ((pcSorted cards q vres).take (n + 1)).map
      (fun p2 => p2.1), x ∈ trigIds cards q := by
    intro x hx
    obtain ⟨e, he, hex⟩ := List.mem_map.mp hx
    rw [← hex]
    exact (htake e he).2
  have hlen : ((pcSorted cards q vres).take (n + 1)).length = n + 1 := by
    rw [List.length_take]
    omega
  have hcount : n + 1 ≤ (trigIds cards q).length := by
    have h1 : (((pcSorted cards q vres).take (n + 1)).map
        (fun p2 => p2.1)).length = n + 1 := by
      rw [List.length_map, hlen]
    calc n + 1
        = (((pcSorted cards q vres).take (n + 1)).map
            (fun p2 => p2.1)).toFinset.card := by
          rw [List.toFinset_card_of_nodup hkeysnd, h1]
      _ ≤ (trigIds cards q).toFinset.card :=
          Finset.card_le_card (fun x hx =>
            List.mem_toFinset.mpr (hsub x (List.mem_toFinset.mp hx)))
      _ ≤ (trigIds cards q).length := List.toFinset_card_le _
  refine List.mem_iff_getElem.mpr ⟨n, ?_, ?_⟩
  · rw [List.length_take]
    omega
  · rw [List.getElem_take]
    exact hne

/-- C3: in `PlotCardManager.search(query, limit)`, every card whose
`triggerKeyword` is truthy and a case-insensitive substring of the query
gets the sentinel score 2.0, which is strictly greater than every cosine
score on unit vectors (`dot q v ≤ 1 < 2`); hence, when the triggered
cards fit in `limit`, each of them appears in the result, and no
non-triggered card ever precedes a triggered one. -/
theorem c3_plot_search (cards : List PCard) (q : String) (qv : List ℚ)
    (vres : List (Nat × ℚ)) (limit : Nat)
    (hq : dotQ qv qv = 1)
    (hvres : ∀ r ∈ vres, ∃ v : List ℚ, dotQ v v = 1 ∧ r.2 = dotQ qv v)
    (htle : (trigIds cards q).length ≤ limit) :
    (∀ r ∈ vres, r.2 < 2) ∧
    (∀ c ∈ cards, triggered q c = true →
      c.id ∈ pcSearch cards q vres limit) ∧
    (∀ i j : Nat, i ≤ j → j < (pcSearch cards q vres limit).length →
      (trigIds cards q).contains
        ((pcSearch cards q vres limit).getD j 0) = true →
      (trigIds cards q).contains
        ((pcSearch cards q vres limit).getD i 0) = true) := by
  have hlt2 : ∀ r ∈ vres, r.2 < 2 := by
    intro r hr
    obtain ⟨v, hv1, hv2⟩ := hvres r hr
    rw [hv2]
    exact dotQ_lt_two hq hv1
  have hperm := List.mergeSort_perm (pcMap1 cards q vres) qle
  have hchar : ∀ r ∈ pcSorted cards q vres,
      (r.1 ∈ trigIds cards q ∧ r.2 = 2) ∨
      (r.1 ∉ trigIds cards q ∧ r ∈ vres) := by
    intro r hr
    exact pcMap1_char r (hperm.mem_iff.mp hr)
  have hsortedP : List.Pairwise (fun x y => qle x y = true)
      (pcSorted cards q vres) :=
    List.sorted_mergeSort qle_trans qle_total _
  refine ⟨hlt2, ?_, ?_⟩
  · intro c hc htrig
    have hmem0 : (c.id, 2) ∈ pcMap0 cards q :=
      pcMap0_pres (List.mem_filter.mpr ⟨hc, htrig⟩)
    have hmems : (c.id, 2) ∈ pcSorted cards q vres :=
      hperm.mem_iff.mpr (pcMap1_pres hmem0)
    have htk := sorted_two_prefix cards q vres limit hlt2 htle
      (c.id, 2) hmems rfl
    exact List.mem_map.mpr ⟨(c.id, 2), htk, rfl⟩
  · intro i j hij hj hcj
    have hjlen : j < ((pcSorted cards q vres).take limit).length := by
      have : (pcSearch cards q vres limit).length =
          ((pcSorted cards q vres).take limit).length :=
        List.length_map _ _
      omega
    have hilen : i < ((pcSorted cards q vres).take limit).length := by
      omega
    have hjs : j < (pcSorted cards q vres).length := by
      rw [List.length_take] at hjlen
      omega
    have his : i < (pcSorted cards q vres).length := by
      rw [List.length_take] at hilen
      omega
    have hgetj : (pcSearch cards q vres limit).getD j 0 =
        (pcSorted cards q vres)[j].1 := by
      unfold pcSearch
      rw [List.getD_eq_getElem _ _ (by
        rw [List.length_map]
        exact hjlen)]
      rw [List.getElem_map, List.getElem_take]
    have hgeti : (pcSearch cards q vres limit).getD i 0 =
        (pcSorted cards q vres)[i].1 := by
      unfold pcSearch
      rw [List.getD_eq_getElem _ _ (by
        rw [List.length_map]
        exact hilen)]
      rw [List.getElem_map, List.getElem_take]
    rw [hgetj] at hcj
    rw [hgeti]
    have hjmem : (pcSorted cards q vres)[j] ∈ pcSorted cards q vres :=
      List.getElem_mem _
    have hj2 : (pcSorted cards q vres)[j].2 = 2 := by
      rcases hchar _ hjmem with ⟨_, h2⟩ | ⟨hnt, _⟩
      · exact h2
      · exact absurd (List.elem_iff.mp hcj) hnt
    by_cases hieq : i = j
    · subst hieq
      exact hcj
    · have hlt : i < j := by omega
      have hrel := List.pairwise_iff_get.mp hsortedP ⟨i, his⟩ ⟨j, hjs⟩ hlt
      have hle : ((pcSorted cards q vres).get ⟨j, hjs⟩).2 ≤
          ((pcSorted cards q vres).get ⟨i, his⟩).2 :=
        of_decide_eq_true hrel
      have hge2 : (2 : ℚ) ≤ (pcSorted cards q vres)[i].2 := by
        rw [show (pcSorted cards q vres)[i] =
          (pcSorted cards q vres).get ⟨i, his⟩ from rfl]
        rw [show ((pcSorted cards q vres).get ⟨j, hjs⟩) =
          (pcSorted cards q vres)[j] from rfl] at hle
        rw [hj2] at hle
        exact hle
      have himem : (pcSorted cards q vres)[i] ∈ pcSorted cards q vres :=
        List.getElem_mem _
      rcases hchar _ himem with ⟨ht, _⟩ | ⟨_, hv⟩
      · exact List.elem_iff.mpr ht
      · exfalso
        have := hlt2 _ hv
        linarith

/-- C3 witness: card 1 triggers on "dragon" inside the query; the only
vector result scores `4/5 < 2`; card 1's id is returned. -/
theorem c3_plot_search_witness :
    (∀ r ∈ [((2 : Nat), (4 / 5 : ℚ))], r.2 < 2) ∧
    (∀ c ∈ [(⟨1, some "dragon"⟩ : PCard), ⟨2, none⟩],
      triggered "The Dragon appears" c = true →
      c.id ∈ pcSearch [⟨1, some "dragon"⟩, ⟨2, none⟩]
        "The Dragon appears" [(2, 4 / 5)] 2) ∧
    (∀ i j : Nat, i ≤ j →
      j < (pcSearch [(⟨1, some "dragon"⟩ : PCard), ⟨2, none⟩]
        "The Dragon appears" [(2, 4 / 5)] 2).length →
      (trigIds [⟨1, some "dragon"⟩, ⟨2, none⟩]
        "The Dragon appears").contains
        ((pcSearch [⟨1, some "dragon"⟩, ⟨2, none⟩]
          "The Dragon appears" [(2, 4 / 5)] 2).getD j 0) = true →
      (trigIds [⟨1, some "dragon"⟩, ⟨2, none⟩]
        "The Dragon appears").contains
        ((pcSearch [⟨1, some "dragon"⟩, ⟨2, none⟩]
          "The Dragon appears" [(2, 4 / 5)] 2).getD i 0) = true) :=
  c3_plot_search [⟨1, some "dragon"⟩, ⟨2, none⟩] "The Dragon appears"
    [3 / 5, 4 / 5] [(2, 4 / 5)] 2 (by norm_num [dotQ])
    (by
      intro r hr
      rw [List.mem_singleton] at hr
      subst hr
      exact ⟨[0, 1], by norm_num [dotQ], by norm_num [dotQ]⟩)
    (by decide)

theorem hget_append_of_some : ∀ {mem : List (Nat × HCell)}
    {Δ : List (Nat × HCell)} {x : Nat} {c : HCell},
    hget mem x = some c → hget (mem ++ Δ) x = some c := by
  intro mem
  induction mem with
  | nil => intro Δ x c h; exact Option.noConfusion h
  | cons p ps ih =>
    intro Δ x c h
    rw [show hget (p :: ps) x =
      (if p.1 = x then some p.2 else hget ps x) from rfl] at h
    rw [List.cons_append,
        show hget (p :: (ps ++ Δ)) x =
          (if p.1 = x then some p.2 else hget (ps ++ Δ) x) from rfl]
    by_cases he : p.1 = x
    · rw [if_pos he] at h ⊢
      exact h
    · rw [if_neg he] at h ⊢
      exact ih h

theorem hget_append_fresh : ∀ {mem : List (Nat × HCell)} {n : Nat}
    {c : HCell}, heapWf mem n = true → hget (mem ++ [(n, c)]) n = some c := by
  intro mem
  induction mem with
  | nil =>
    intro n c _
    rw [List.nil_append,
        show hget [(n, c)] n = (if n = n then some c else hget [] n)
          from rfl, if_pos rfl]
  | cons p ps ih =>
    intro n c hwf
    unfold heapWf at hwf
    rw [List.all_cons, Bool.and_eq_true] at hwf
    rw [List.cons_append,
        show hget (p :: (ps ++ [(n, c)])) n =
          (if p.1 = n then some p.2 else hget (ps ++ [(n, c)]) n) from rfl]
    rw [if_neg (by
      have := of_decide_eq_true hwf.1
      omega)]
    exact ih hwf.2

theorem heapWf_mono {mem : List (Nat × HCell)} {n n2 : Nat}
    (h : heapWf mem n = true) (hle : n ≤ n2) : heapWf mem n2 = true := by
  unfold heapWf at h ⊢
  rw [List.all_eq_true] at h ⊢
  intro p hp
  have := of_decide_eq_true (h p hp)
  exact decide_eq_true (by omega)

theorem heapWf_append {mem Δ : List (Nat × HCell)} {n : Nat}
    (h1 : heapWf mem n = true) (h2 : heapWf Δ n = true) :
    heapWf (mem ++ Δ) n = true := by
  unfold heapWf at h1 h2 ⊢
  rw [List.all_eq_true] at h1 h2 ⊢
  intro p hp
  rcases List.mem_append.mp hp with h | h
  · exact h1 p h
  · exact h2 p h

theorem hset_absent : ∀ {l : List (Nat × HCell)} {a : Nat} {c : HCell},
    (∀ p ∈ l, p.1 ≠ a) → hset l a c = l := by
  intro l
  induction l with
  | nil => intro a c _; rfl
  | cons p ps ih =>
    intro a c h
    unfold hset
    rw [List.map_cons]
    rw [if_neg (h p (List.mem_cons_self _ _))]
    rw [show List.map (fun p => if p.1 = a then (p.1, c) else p) ps =
      hset ps a c from rfl]
    rw [ih (fun p2 hp2 => h p2 (List.mem_cons_of_mem _ hp2))]

theorem decodeList_param {f g : List (Nat × HCell) → Nat → Option Json}
    {mem mem2 : List (Nat × HCell)}
    (hfg : ∀ a j, f mem a = some j → g mem2 a = some j) :
    ∀ {as : List Nat} {js : List Json},
      decodeList f mem as = some js → decodeList g mem2 as = some js := by
  intro as
  induction as with
  | nil =>
    intro js h
    exact h
  | cons a as ih =>
    intro js h
    rw [show decodeList f mem (a :: as) =
      (match f mem a, decodeList f mem as with
       | some j, some js2 => some (j :: js2)
       | _, _ => none) from rfl] at h
    rw [show decodeList g mem2 (a :: as) =
      (match g mem2 a, decodeList g mem2 as with
       | some j, some js2 => some (j :: js2)
       | _, _ => none) from rfl]
    cases hfa : f mem a with
    | none => rw [hfa] at h; exact Option.noConfusion h
    | some j =>
      rw [hfa] at h
      cases hrest : decodeList f mem as with
      | none =>
        rw [hrest] at h
        exact Option.noConfusion h
      | some js2 =>
        rw [hrest] at h
        rw [hfg a j hfa, ih hrest]
        exact h

theorem decodeFields_param {f g : List (Nat × HCell) → Nat → Option Json}
    {mem mem2 : List (Nat × HCell)}
    (hfg : ∀ a j, f mem a = some j → g mem2 a = some j) :
    ∀ {fs : List (String × Nat)} {gs : List (String × Json)},
      decodeFields f mem fs = some gs →
      decodeFields g mem2 fs = some gs := by
  intro fs
  induction fs with
  | nil =>
    intro gs h
    exact h
  | cons kv fs ih =>
    intro gs h
    rw [show decodeFields f mem (kv :: fs) =
      (match f mem kv.2, decodeFields f mem fs with
       | some j, some gs2 => some ((kv.1, j) :: gs2)
       | _, _ => none) from rfl] at h
    rw [show decodeFields g mem2 (kv :: fs) =
      (match g mem2 kv.2, decodeFields g mem2 fs with
       | some j, some gs2 => some ((kv.1, j) :: gs2)
       | _, _ => none) from rfl]
    cases hfa : f mem kv.2 with
    | none => rw [hfa] at h; exact Option.noConfusion h
    | some j =>
      rw [hfa] at h
      cases hrest : decodeFields f mem fs with
      | none =>
        rw [hrest] at h
        exact Option.noConfusion h
      | some gs2 =>
        rw [hrest] at h
        rw [hfg kv.2 j hfa, ih hrest]
        exact h

theorem decode_mono : ∀ (fuel : Nat) (mem Δ : List (Nat × HCell))
    (a : Nat) (j : Json), decode fuel mem a = some j →
    decode fuel (mem ++ Δ) a = some j := by
  intro fuel
  induction fuel with
  | zero => intro mem Δ a j h; exact Option.noConfusion h
  | succ fuel ih =>
    intro mem Δ a j h
    rw [show decode (fuel + 1) mem a =
      (match hget mem a with
       | none => none
       | some (.num q) => some (Json.num q)
       | some (.str s) => some (Json.str s)
       | some (.boolv b) => some (Json.bool b)
       | some .nullv => some Json.null
       | some (.arr as) =>
         match decodeList (decode fuel) mem as with
         | some js => some (Json.arr js)
         | none => none
       | some (.obj fs) =>
         match decodeFields (decode fuel) mem fs with
         | some gs => some (Json.obj gs)
         | none => none) from rfl] at h
    rw [show decode (fuel + 1) (mem ++ Δ) a =
      (match hget (mem ++ Δ) a with
       | none => none
       | some (.num q) => some (Json.num q)
       | some (.str s) => some (Json.str s)
       | some (.boolv b) => some (Json.bool b)
       | some .nullv => some Json.null
       | some (.arr as) =>
         match decodeList (decode fuel) (mem ++ Δ) as with
         | some js => some (Json.arr js)
         | none => none
       | some (.obj fs) =>
         match decodeFields (decode fuel) (mem ++ Δ) fs with
         | some gs => some (Json.obj gs)
         | none => none) from rfl]
    cases hg : hget mem a with
    | none => rw [hg] at h; exact Option.noConfusion h
    | some cell =>
      rw [hg] at h
      rw [hget_append_of_some hg]
      cases cell with
      | num q => exact h
      | str s2 => exact h
      | boolv b => exact h
      | nullv => exact h
      | arr as =>
        dsimp only at h ⊢
        cases hdl : decodeList (decode fuel) mem as with
        | none => rw [hdl] at h; exact Option.noConfusion h
        | some js =>
          rw [hdl] at h
          rw [decodeList_param (fun a2 j2 hj2 => ih mem Δ a2 j2 hj2) hdl]
          exact h
      | obj fs =>
        dsimp only at h ⊢
        cases hdl : decodeFields (decode fuel) mem fs with
        | none => rw [hdl] at h; exact Option.noConfusion h
        | some gs =>
          rw [hdl] at h
          rw [decodeFields_param (fun a2 j2 hj2 => ih mem Δ a2 j2 hj2) hdl]
          exact h

/-- What one copying step guarantees: the heap is only extended, all new
addresses are fresh, and the copy decodes to the same document. -/
def CopySpec (dec : List (Nat × HCell) → Nat → Option Json)
    (f : List (Nat × HCell) → Nat → Nat →
      Option (List (Nat × HCell) × Nat × Nat)) : Prop :=
  ∀ mem next a mem2 next2 r, heapWf mem next = true →
    f mem next a = some (mem2, next2, r) →
    (∃ Δ, mem2 = mem ++ Δ ∧ ∀ p ∈ Δ, next ≤ p.1) ∧
    heapWf mem2 next2 = true ∧ next ≤ next2 ∧ next ≤ r ∧ r < next2 ∧
    (∀ j, dec mem a = some j → dec mem2 r = some j)

theorem heapWf_snoc {mem : List (Nat × HCell)} {n : Nat} {c : HCell}
    (h : heapWf mem n = true) : heapWf (mem ++ [(n, c)]) (n + 1) = true := by
  refine heapWf_append (heapWf_mono h (Nat.le_succ n)) ?_
  unfold heapWf
  rw [List.all_eq_true]
  intro p hp
  rw [List.mem_singleton.mp hp]
  exact decide_eq_true (Nat.lt_succ_self n)

theorem copyList_spec {dec : List (Nat × HCell) → Nat → Option Json}
    {f : List (Nat × HCell) → Nat → Nat →
      Option (List (Nat × HCell) × Nat × Nat)}
    (hf : CopySpec dec f)
    (hmono : ∀ mem Δ a j, dec mem a = some j → dec (mem ++ Δ) a = some j) :
    ∀ (as : List Nat) (mem : List (Nat × HCell)) (next : Nat)
      (mem2 : List (Nat × HCell)) (next2 : Nat) (rs : List Nat),
      heapWf mem next = true →
      copyList f mem next as = some (mem2, next2, rs) →
      (∃ Δ, mem2 = mem ++ Δ ∧ ∀ p ∈ Δ, next ≤ p.1) ∧
      heapWf mem2 next2 = true ∧ next ≤ next2 ∧
      (∀ js, decodeList dec mem as = some js →
        decodeList dec mem2 rs = some js) := by
  intro as
  induction as with
  | nil =>
    intro mem next mem2 next2 rs hwf hrun
    have he := Option.some.inj hrun
    have h1 : mem = mem2 := congrArg (fun t => t.1) he
    have h2 : next = next2 := congrArg (fun t => t.2.1) he
    have h3 : ([] : List Nat) = rs := congrArg (fun t => t.2.2) he
    subst h1
    subst h2
    subst h3
    exact ⟨⟨[], (List.append_nil mem).symm,
      fun p hp => absurd hp (List.not_mem_nil _)⟩,
      hwf, le_refl _, fun js h => h⟩
  | cons a as ih =>
    intro mem next mem2 next2 rs hwf hrun
    rw [show copyList f mem next (a :: as) =
      (match f mem next a with
       | some (mem1, next1, r) =>
         match copyList f mem1 next1 as with
         | some (m2, n2, rs2) => some (m2, n2, r :: rs2)
         | none => none
       | none => none) from rfl] at hrun
    cases hfa : f mem next a with
    | none =>
      rw [hfa] at hrun
      exact Option.noConfusion hrun
    | some t1 =>
      obtain ⟨mem1, next1, r⟩ := t1
      rw [hfa] at hrun
      dsimp only at hrun
      cases hcl : copyList f mem1 next1 as with
      | none =>
        rw [hcl] at hrun
        exact Option.noConfusion hrun
      | some t2 =>
        obtain ⟨m2, n2, rs2⟩ := t2
        rw [hcl] at hrun
        dsimp only at hrun
        have he := Option.some.inj hrun
        have h1 : m2 = mem2 := congrArg (fun t => t.1) he
        have h2 : n2 = next2 := congrArg (fun t => t.2.1) he
        have h3 : r :: rs2 = rs := congrArg (fun t => t.2.2) he
        subst h1
        subst h2
        subst h3
        obtain ⟨⟨Δ1, hΔ1, hb1⟩, hwf1, hle1, hler, hrlt, hfaith1⟩ :=
          hf mem next a mem1 next1 r hwf hfa
        obtain ⟨⟨Δ2, hΔ2, hb2⟩, hwf2, hle2, hfaith2⟩ :=
          ih mem1 next1 m2 n2 rs2 hwf1 hcl
        refine ⟨⟨Δ1 ++ Δ2, ?_, ?_⟩, hwf2, le_trans hle1 hle2, ?_⟩
        · rw [hΔ2, hΔ1, List.append_assoc]
        · intro p hp
          rcases List.mem_append.mp hp with h | h
          · exact hb1 p h
          · exact le_trans hle1 (hb2 p h)
        · intro js hjs
          rw [show decodeList dec mem (a :: as) =
            (match dec mem a, decodeList dec mem as with
             | some j, some js2 => some (j :: js2)
             | _, _ => none) from rfl] at hjs
          cases hda : dec mem a with
          | none =>
            rw [hda] at hjs
            exact Option.noConfusion hjs
          | some j =>
            rw [hda] at hjs
            cases hdas : decodeList dec mem as with
            | none =>
              rw [hdas] at hjs
              exact Option.noConfusion hjs
            | some js2 =>
              rw [hdas] at hjs
              have hjse : j :: js2 = js := Option.some.inj hjs
              subst hjse
              rw [show decodeList dec m2 (r :: rs2) =
                (match dec m2 r, decodeList dec m2 rs2 with
                 | some j2, some js3 => some (j2 :: js3)
                 | _, _ => none) from rfl]
              have hj2 : dec m2 r = some j := by
                rw [hΔ2]
                exact hmono mem1 Δ2 r j (hfaith1 j hda)
              have hjs1 : decodeList dec mem1 as = some js2 := by
                rw [hΔ1]
                exact decodeList_param
                  (fun a2 j2 hx => hmono mem Δ1 a2 j2 hx) hdas
              rw [hj2, hfaith2 js2 hjs1]

theorem copyFields_spec {dec : List (Nat × HCell) → Nat → Option Json}
    {f : List (Nat × HCell) → Nat → Nat →
      Option (List (Nat × HCell) × Nat × Nat)}
    (hf : CopySpec dec f)
    (hmono : ∀ mem Δ a j, dec mem a = some j → dec (mem ++ Δ) a = some j) :
    ∀ (fs : List (String × Nat)) (mem : List (Nat × HCell)) (next : Nat)
      (mem2 : List (Nat × HCell)) (next2 : Nat) (rs : List (String × Nat)),
      heapWf mem next = true →
      copyFields f mem next fs = some (mem2, next2, rs) →
      (∃ Δ, mem2 = mem ++ Δ ∧ ∀ p ∈ Δ, next ≤ p.1) ∧
      heapWf mem2 next2 = true ∧ next ≤ next2 ∧
      (∀ gs, decodeFields dec mem fs = some gs →
        decodeFields dec mem2 rs = some gs) := by
  intro fs
  induction fs with
  | nil =>
    intro mem next mem2 next2 rs hwf hrun
    have he := Option.some.inj hrun
    have h1 : mem = mem2 := congrArg (fun t => t.1) he
    have h2 : next = next2 := congrArg (fun t => t.2.1) he
    have h3 : ([] : List (String × Nat)) = rs := congrArg (fun t => t.2.2) he
    subst h1
    subst h2
    subst h3
    exact ⟨⟨[], (List.append_nil mem).symm,
      fun p hp => absurd hp (List.not_mem_nil _)⟩,
      hwf, le_refl _, fun gs h => h⟩
  | cons kv fs ih =>
    intro mem next mem2 next2 rs hwf hrun
    rw [show copyFields f mem next (kv :: fs) =
      (match f mem next kv.2 with
       | some (mem1, next1, r) =>
         match copyFields f mem1 next1 fs with
         | some (m2, n2, rs2) => some (m2, n2, (kv.1, r) :: rs2)
         | none => none
       | none => none) from rfl] at hrun
    cases hfa : f mem next kv.2 with
    | none =>
      rw [hfa] at hrun
      exact Option.noConfusion hrun
    | some t1 =>
      obtain ⟨mem1, next1, r⟩ := t1
      rw [hfa] at hrun
      dsimp only at hrun
      cases hcl : copyFields f mem1 next1 fs with
      | none =>
        rw [hcl] at hrun
        exact Option.noConfusion hrun
      | some t2 =>
        obtain ⟨m2, n2, rs2⟩ := t2
        rw [hcl] at hrun
        dsimp only at hrun
        have he := Option.some.inj hrun
        have h1 : m2 = mem2 := congrArg (fun t => t.1) he
        have h2 : n2 = next2 := congrArg (fun t => t.2.1) he
        have h3 : (kv.1, r) :: rs2 = rs := congrArg (fun t => t.2.2) he
        subst h1
        subst h2
        subst h3
        obtain ⟨⟨Δ1, hΔ1, hb1⟩, hwf1, hle1, hler, hrlt, hfaith1⟩ :=
          hf mem next kv.2 mem1 next1 r hwf hfa
        obtain ⟨⟨Δ2, hΔ2, hb2⟩, hwf2, hle2, hfaith2⟩ :=
          ih mem1 next1 m2 n2 rs2 hwf1 hcl
        refine ⟨⟨Δ1 ++ Δ2, ?_, ?_⟩, hwf2, le_trans hle1 hle2, ?_⟩
        · rw [hΔ2, hΔ1, List.append_assoc]
        · intro p hp
          rcases List.mem_append.mp hp with h | h
          · exact hb1 p h
          · exact le_trans hle1 (hb2 p h)
        · intro gs hgs
          rw [show decodeFields dec mem (kv :: fs) =
            (match dec mem kv.2, decodeFields dec mem fs with
             | some j, some gs2 => some ((kv.1, j) :: gs2)
             | _, _ => none) from rfl] at hgs
          cases hda : dec mem kv.2 with
          | none =>
            rw [hda] at hgs
            exact Option.noConfusion hgs
          | some j =>
            rw [hda] at hgs
            cases hdas : decodeFields dec mem fs with
            | none =>
              rw [hdas] at hgs
              exact Option.noConfusion hgs
            | some gs2 =>
              rw [hdas] at hgs
              have hgse : (kv.1, j) :: gs2 = gs := Option.some.inj hgs
              subst hgse
              rw [show decodeFields dec m2 ((kv.1, r) :: rs2) =
                (match dec m2 r, decodeFields dec m2 rs2 with
                 | some j2, some gs3 => some ((kv.1, j2) :: gs3)
                 | _, _ => none) from rfl]
              have hj2 : dec m2 r = some j := by
                rw [hΔ2]
                exact hmono mem1 Δ2 r j (hfaith1 j hda)
              have hgs1 : decodeFields dec mem1 fs = some gs2 := by
                rw [hΔ1]
                exact decodeFields_param
                  (fun a2 j2 hx => hmono mem Δ1 a2 j2 hx) hdas
              rw [hj2, hfaith2 gs2 hgs1]

theorem copyA_spec : ∀ fuel : Nat, CopySpec (decode fuel) (copyA fuel) := by
  intro fuel
  induction fuel with
  | zero =>
    intro mem next a mem2 next2 r _ hrun
    exact Option.noConfusion hrun
  | succ fuel ih =>
    intro mem next a mem2 next2 r hwf hrun
    rw [show copyA (fuel + 1) mem next a =
      (match hget mem a with
       | none => none
       | some (.num q) => some (mem ++ [(next, .num q)], next + 1, next)
       | some (.str s) => some (mem ++ [(next, .str s)], next + 1, next)
       | some (.boolv b) =>
         some (mem ++ [(next, .boolv b)], next + 1, next)
       | some .nullv => some (mem ++ [(next, .nullv)], next + 1, next)
       | some (.arr as) =>
         match copyList (copyA fuel) mem next as with
         | some (mem1, next1, rs) =>
           some (mem1 ++ [(next1, .arr rs)], next1 + 1, next1)
         | none => none
       | some (.obj fs) =>
         match copyFields (copyA fuel) mem next fs with
         | some (mem1, next1, rs) =>
           some (mem1 ++ [(next1, .obj rs)], next1 + 1, next1)
         | none => none) from rfl] at hrun
    have hdecu : ∀ (mm : List (Nat × HCell)) (x : Nat),
        decode (fuel + 1) mm x =
        (match hget mm x with
         | none => none
         | some (.num q) => some (Json.num q)
         | some (.str s) => some (Json.str s)
         | some (.boolv b) => some (Json.bool b)
         | some .nullv => some Json.null
         | some (.arr as) =>
           match decodeList (decode fuel) mm as with
           | some js => some (Json.arr js)
           | none => none
         | some (.obj fs) =>
           match decodeFields (decode fuel) mm fs with
           | some gs => some (Json.obj gs)
           | none => none) := fun mm x => rfl
    cases hg : hget mem a with
    | none =>
      rw [hg] at hrun
      exact Option.noConfusion hrun
    | some cell =>
      rw [hg] at hrun
      cases cell with
      | num q =>
        dsimp only at hrun
        have he := Option.some.inj hrun
        have h1 : mem ++ [(next, HCell.num q)] = mem2 :=
          congrArg (fun t => t.1) he
        have h2 : next + 1 = next2 := congrArg (fun t => t.2.1) he
        have h3 : next = r := congrArg (fun t => t.2.2) he
        subst h1
        subst h2
        subst h3
        refine ⟨⟨[(next, HCell.num q)], rfl, ?_⟩, heapWf_snoc hwf,
          Nat.le_succ _, le_refl _, Nat.lt_succ_self _, ?_⟩
        · intro p hp
          rw [List.mem_singleton.mp hp]
        · intro j hj
          rw [hdecu mem a, hg] at hj
          rw [hdecu _ next, hget_append_fresh hwf]
          exact hj
      | str s2 =>
        dsimp only at hrun
        have he := Option.some.inj hrun
        have h1 : mem ++ [(next, HCell.str s2)] = mem2 :=
          congrArg (fun t => t.1) he
        have h2 : next + 1 = next2 := congrArg (fun t => t.2.1) he
        have h3 : next = r := congrArg (fun t => t.2.2) he
        subst h1
        subst h2
        subst h3
        refine ⟨⟨[(next, HCell.str s2)], rfl, ?_⟩, heapWf_snoc hwf,
          Nat.le_succ _, le_refl _, Nat.lt_succ_self _, ?_⟩
        · intro p hp
          rw [List.mem_singleton.mp hp]
        · intro j hj
          rw [hdecu mem a, hg] at hj
          rw [hdecu _ next, hget_append_fresh hwf]
          exact hj
      | boolv b =>
        dsimp only at hrun
        have he := Option.some.inj hrun
        have h1 : mem ++ [(next, HCell.boolv b)] = mem2 :=
          congrArg (fun t => t.1) he
        have h2 : next + 1 = next2 := congrArg (fun t => t.2.1) he
        have h3 : next = r := congrArg (fun t => t.2.2) he
        subst h1
        subst h2
        subst h3
        refine ⟨⟨[(next, HCell.boolv b)], rfl, ?_⟩, heapWf_snoc hwf,
          Nat.le_succ _, le_refl _, Nat.lt_succ_self _, ?_⟩
        · intro p hp
          rw [List.mem_singleton.mp hp]
        · intro j hj
          rw [hdecu mem a, hg] at hj
          rw [hdecu _ next, hget_append_fresh hwf]
          exact hj
      | nullv =>
        dsimp only at hrun
        have he := Option.some.inj hrun
        have h1 : mem ++ [(next, HCell.nullv)] = mem2 :=
          congrArg (fun t => t.1) he
        have h2 : next + 1 = next2 := congrArg (fun t => t.2.1) he
        have h3 : next = r := congrArg (fun t => t.2.2) he
        subst h1
        subst h2
        subst h3
        refine ⟨⟨[(next, HCell.nullv)], rfl, ?_⟩, heapWf_snoc hwf,
          Nat.le_succ _, le_refl _, Nat.lt_succ_self _, ?_⟩
        · intro p hp
          rw [List.mem_singleton.mp hp]
        · intro j hj
          rw [hdecu mem a, hg] at hj
          rw [hdecu _ next, hget_append_fresh hwf]
          exact hj
      | arr as =>
        dsimp only at hrun
        cases hcl : copyList (copyA fuel) mem next as with
        | none =>
          rw [hcl] at hrun
          exact Option.noConfusion hrun
        | some t1 =>
          obtain ⟨mem1, next1, rs⟩ := t1
          rw [hcl] at hrun
          dsimp only at hrun
          have he := Option.some.inj hrun
          have h1 : mem1 ++ [(next1, HCell.arr rs)] = mem2 :=
            congrArg (fun t => t.1) he
          have h2 : next1 + 1 = next2 := congrArg (fun t => t.2.1) he
          have h3 : next1 = r := congrArg (fun t => t.2.2) he
          subst h1
          subst h2
          subst h3
          obtain ⟨⟨Δ, hΔ, hb⟩, hwf1, hle1, hfaithL⟩ :=
            copyList_spec ih (decode_mono fuel) as mem next mem1 next1 rs
              hwf hcl
          refine ⟨⟨Δ ++ [(next1, HCell.arr rs)], ?_, ?_⟩,
            heapWf_snoc hwf1, by omega, hle1, Nat.lt_succ_self _, ?_⟩
          · rw [hΔ, List.append_assoc]
          · intro p hp
            rcases List.mem_append.mp hp with h | h
            · exact hb p h
            · rw [List.mem_singleton.mp h]
              exact hle1
          · intro j hj
            rw [hdecu mem a, hg] at hj
            dsimp only at hj
            cases hdl : decodeList (decode fuel) mem as with
            | none =>
              rw [hdl] at hj
              exact Option.noConfusion hj
            | some js =>
              rw [hdl] at hj
              rw [hdecu _ next1, hget_append_fresh hwf1]
              dsimp only
              rw [decodeList_param
                (fun a2 j2 hx =>
                  decode_mono fuel mem1 [(next1, HCell.arr rs)] a2 j2 hx)
                (hfaithL js hdl)]
              exact hj
      | obj fs =>
        dsimp only at hrun
        cases hcl : copyFields (copyA fuel) mem next fs with
        | none =>
          rw [hcl] at hrun
          exact Option.noConfusion hrun
        | some t1 =>
          obtain ⟨mem1, next1, rs⟩ := t1
          rw [hcl] at hrun
          dsimp only at hrun
          have he := Option.some.inj hrun
          have h1 : mem1 ++ [(next1, HCell.obj rs)] = mem2 :=
            congrArg (fun t => t.1) he
          have h2 : next1 + 1 = next2 := congrArg (fun t => t.2.1) he
          have h3 : next1 = r := congrArg (fun t => t.2.2) he
          subst h1
          subst h2
          subst h3
          obtain ⟨⟨Δ, hΔ, hb⟩, hwf1, hle1, hfaithL⟩ :=
            copyFields_spec ih (decode_mono fuel) fs mem next mem1 next1 rs
              hwf hcl
          refine ⟨⟨Δ ++ [(next1, HCell.obj rs)], ?_, ?_⟩,
            heapWf_snoc hwf1, by omega, hle1, Nat.lt_succ_self _, ?_⟩
          · rw [hΔ, List.append_assoc]
          · intro p hp
            rcases List.mem_append.mp hp with h | h
            · exact hb p h
            · rw [List.mem_singleton.mp h]
              exact hle1
          · intro j hj
            rw [hdecu mem a, hg] at hj
            dsimp only at hj
            cases hdl : decodeFields (decode fuel) mem fs with
            | none =>
              rw [hdl] at hj
              exact Option.noConfusion hj
            | some gs =>
              rw [hdl] at hj
              rw [hdecu _ next1, hget_append_fresh hwf1]
              dsimp only
              rw [decodeFields_param
                (fun a2 j2 hx =>
                  decode_mono fuel mem1 [(next1, HCell.obj rs)] a2 j2 hx)
                (hfaithL gs hdl)]
              exact hj

/-- C9: `getState()`/`getPlots()` return `deepCopy`s: the copy decodes
to the same document as the internal root, every copied cell lives at a
fresh address (at or above the allocation counter), and mutating any
such fresh cell in place leaves what the internal root decodes to — and
hence every later observation built from it — unchanged. -/
theorem c9_deep_copy (fuel : Nat) (mem : List (Nat × HCell))
    (next a : Nat) (j : Json) (mem2 : List (Nat × HCell)) (next2 r : Nat)
    (hwf : heapWf mem next = true)
    (hdec : decode fuel mem a = some j)
    (hcopy : copyA fuel mem next a = some (mem2, next2, r)) :
    decode fuel mem2 r = some j ∧
    next ≤ r ∧
    (∀ p ∈ mem2, p ∈ mem ∨ next ≤ p.1) ∧
    (∀ r2 cell, next ≤ r2 →
      decode fuel (hset mem2 r2 cell) a = some j) := by
  obtain ⟨⟨Δ, hΔ, hb⟩, hwf2, hle, hler, hrlt, hfaith⟩ :=
    copyA_spec fuel mem next a mem2 next2 r hwf hcopy
  refine ⟨hfaith j hdec, hler, ?_, ?_⟩
  · intro p hp
    rw [hΔ] at hp
    rcases List.mem_append.mp hp with h | h
    · exact Or.inl h
    · exact Or.inr (hb p h)
  · intro r2 cell hr2
    rw [hΔ]
    rw [show hset (mem ++ Δ) r2 cell = hset mem r2 cell ++ hset Δ r2 cell
      from List.map_append _ _ _]
    rw [hset_absent (by
      intro p hp hpe
      unfold heapWf at hwf
      rw [List.all_eq_true] at hwf
      have := of_decide_eq_true (hwf p hp)
      omega)]
    exact decode_mono fuel mem (hset Δ r2 cell) a j hdec

/-- C9 witness: heap `{0 ↦ {"hp": ↦1}, 1 ↦ 7}`; the copy of the object
at 0 occupies fresh addresses 2–3, decodes to the same document, and
overwriting the copy's number cell leaves the original's decoding
untouched. -/
theorem c9_deep_copy_witness :
    decode 2 [(0, HCell.obj [("hp", 1)]), (1, HCell.num 7),
        (2, HCell.num 7), (3, HCell.obj [("hp", 2)])] 3 =
      some (Json.obj [("hp", Json.num 7)]) ∧
    (2 : Nat) ≤ 3 ∧
    (∀ p ∈ [(0, HCell.obj [("hp", 1)]), (1, HCell.num 7),
        (2, HCell.num 7), (3, HCell.obj [("hp", 2)])],
      p ∈ [(0, HCell.obj [("hp", 1)]), (1, HCell.num 7)] ∨ (2 : Nat) ≤ p.1) ∧
    (∀ r2 cell, 2 ≤ r2 →
      decode 2 (hset [(0, HCell.obj [("hp", 1)]), (1, HCell.num 7),
        (2, HCell.num 7), (3, HCell.obj [("hp", 2)])] r2 cell) 0 =
      some (Json.obj [("hp", Json.num 7)])) :=
  c9_deep_copy 2 [(0, HCell.obj [("hp", 1)]), (1, HCell.num 7)] 2 0
    (Json.obj [("hp", Json.num 7)])
    [(0, HCell.obj [("hp", 1)]), (1, HCell.num 7),
     (2, HCell.num 7), (3, HCell.obj [("hp", 2)])] 4 3
    (by decide) (by decide) (by decide)

theorem getD_set_self_g {α : Type} : ∀ {l : List α} {i : Nat} {a d : α},
    i < l.length → (l.set i a).getD i d = a := by
  intro l
  induction l with
  | nil => intro i a d h; simp at h
  | cons x xs ih =>
    intro i a d h
    cases i with
    | zero => rfl
    | succ i =>
      rw [show (x :: xs).set (i + 1) a = x :: xs.set i a from rfl,
          show (x :: xs.set i a).getD (i + 1) d = (xs.set i a).getD i d
            from rfl]
      exact ih (Nat.lt_of_succ_lt_succ h)

theorem getD_set_ne_g {α : Type} : ∀ {l : List α} {i j : Nat} {a d : α},
    j ≠ i → (l.set i a).getD j d = l.getD j d := by
  intro l
  induction l with
  | nil => intro i j a d _; rfl
  | cons x xs ih =>
    intro i j a d h
    cases i with
    | zero =>
      cases j with
      | zero => exact absurd rfl h
      | succ j => rfl
    | succ i =>
      cases j with
      | zero => rfl
      | succ j =>
        rw [show (x :: xs).set (i + 1) a = x :: xs.set i a from rfl,
            show (x :: xs.set i a).getD (j + 1) d = (xs.set i a).getD j d
              from rfl,
            show (x :: xs).getD (j + 1) d = xs.getD j d from rfl]
        exact ih (fun he => h (by rw [he]))

theorem getD_mem_g {α : Type} {l : List α} {i : Nat} {d : α}
    (h : i < l.length) : l.getD i d ∈ l := by
  rw [List.getD_eq_getElem _ _ h]
  exact List.getElem_mem h

theorem count_set_add {α : Type} [DecidableEq α] :
    ∀ (l : List α) (i : Nat) (a d x : α), i < l.length →
    (l.set i a).count x + (if l.getD i d = x then 1 else 0) =
    l.count x + (if a = x then 1 else 0) := by
  intro l
  induction l with
  | nil => intro i a d x h; simp at h
  | cons b t ih =>
    intro i a d x h
    cases i with
    | zero =>
      rw [show (b :: t).set 0 a = a :: t from rfl,
          show (b :: t).getD 0 d = b from rfl,
          List.count_cons, List.count_cons]
      by_cases hax : a = x <;> by_cases hbx : b = x <;>
        simp [hax, hbx]
    | succ i =>
      rw [show (b :: t).set (i + 1) a = b :: t.set i a from rfl,
          show (b :: t).getD (i + 1) d = t.getD i d from rfl,
          List.count_cons, List.count_cons]
      have hrec := ih i a d x (Nat.lt_of_succ_lt_succ h)
      omega

theorem hswap_length (l : List (Nat × ℚ)) (i j : Nat) :
    (hswap l i j).length = l.length := by
  simp [hswap]

theorem hswap_getD_fst {l : List (Nat × ℚ)} {i j : Nat} (hij : i ≠ j)
    (hi : i < l.length) :
    (hswap l i j).getD i dE = l.getD j dE := by
  unfold hswap
  rw [getD_set_ne_g hij, getD_set_self_g hi]

theorem hswap_getD_snd {l : List (Nat × ℚ)} {i j : Nat}
    (hj : j < l.length) :
    (hswap l i j).getD j dE = l.getD i dE := by
  unfold hswap
  rw [getD_set_self_g (by simpa using hj)]

theorem hswap_getD_other {l : List (Nat × ℚ)} {i j x : Nat}
    (hxi : x ≠ i) (hxj : x ≠ j) :
    (hswap l i j).getD x dE = l.getD x dE := by
  unfold hswap
  rw [getD_set_ne_g hxj, getD_set_ne_g hxi]

theorem hswap_perm {l : List (Nat × ℚ)} {i j : Nat} (hij : i ≠ j)
    (hi : i < l.length) (hj : j < l.length) :
    (hswap l i j).Perm l := by
  rw [List.perm_iff_count]
  intro x
  have hlen : (l.set i (l.getD j dE)).length = l.length := by simp
  have c1 := count_set_add l i (l.getD j dE) dE x hi
  have c2 := count_set_add (l.set i (l.getD j dE)) j (l.getD i dE) dE x
    (by rw [hlen]; exact hj)
  rw [getD_set_ne_g (Ne.symm hij)] at c2
  unfold hswap
  omega

theorem bubbleUpGo_length : ∀ (fuel : Nat) (l : List (Nat × ℚ))
    (idx : Nat), (bubbleUpGo fuel l idx).length = l.length := by
  intro fuel
  induction fuel with
  | zero => intro l idx; rfl
  | succ fuel ih =>
    intro l idx
    unfold bubbleUpGo
    by_cases h0 : idx = 0
    · rw [if_pos h0]
    · rw [if_neg h0]
      by_cases hc : (l.getD idx dE).2 < (l.getD ((idx - 1) / 2) dE).2
      · rw [if_pos hc, ih, hswap_length]
      · rw [if_neg hc]

theorem bubbleUpGo_perm : ∀ (fuel : Nat) (l : List (Nat × ℚ))
    (idx : Nat), idx < l.length → (bubbleUpGo fuel l idx).Perm l := by
  intro fuel
  induction fuel with
  | zero => intro l idx _; exact List.Perm.refl _
  | succ fuel ih =>
    intro l idx hidx
    unfold bubbleUpGo
    by_cases h0 : idx = 0
    · rw [if_pos h0]
    · rw [if_neg h0]
      by_cases hc : (l.getD idx dE).2 < (l.getD ((idx - 1) / 2) dE).2
      · rw [if_pos hc]
        have hpar : (idx - 1) / 2 < idx := by omega
        have hperm := hswap_perm (show idx ≠ (idx - 1) / 2 by omega) hidx
          (lt_trans hpar hidx)
        exact (ih _ _ (by rw [hswap_length]; exact lt_trans hpar hidx)).trans
          hperm
      · rw [if_neg hc]

theorem bubbleUpGo_inv : ∀ (fuel : Nat) (l : List (Nat × ℚ)) (idx : Nat),
    UpInv l idx → idx < l.length → idx < fuel →
    heapInvP (bubbleUpGo fuel l idx) := by
  intro fuel
  induction fuel with
  | zero => intro l idx _ _ hf; exact absurd hf (Nat.not_lt_zero idx)
  | succ fuel ih =>
    intro l idx hup hidx hf
    obtain ⟨h1, h2⟩ := hup
    unfold bubbleUpGo
    by_cases h0 : idx = 0
    · rw [if_pos h0]
      intro i hi hilen
      exact h1 i hi hilen (by omega)
    · rw [if_neg h0]
      by_cases hc : (l.getD idx dE).2 < (l.getD ((idx - 1) / 2) dE).2
      · rw [if_pos hc]
        have hidx0 : 0 < idx := Nat.pos_of_ne_zero h0
        have hpar : (idx - 1) / 2 < idx := by omega
        have hparlen : (idx - 1) / 2 < l.length := lt_trans hpar hidx
        have hne : idx ≠ (idx - 1) / 2 := by omega
        have hvi := hswap_getD_fst hne hidx
        have hvp := hswap_getD_snd (l := l) (i := idx) hparlen
        refine ih _ _ ⟨?_, ?_⟩ (by rw [hswap_length]; exact hparlen)
          (by omega)
        · -- heap shape away from the new hole
          intro i hi hilen h_ne_par
          rw [hswap_length] at hilen
          by_cases hie : i = idx
          · subst hie
            rw [hvi, hvp]
            exact le_of_lt hc
          · by_cases hpe : (i - 1) / 2 = idx
            · rw [hpe, hvi]
              have hip : idx < i := by omega
              rw [hswap_getD_other hie (by omega)]
              exact h2 i hi hilen hpe hidx0
            · by_cases hpp : (i - 1) / 2 = (idx - 1) / 2
              · rw [hpp, hvp]
                have hle1 : (l.getD ((idx - 1) / 2) dE).2 ≤ (l.getD i dE).2 := by
                  have := h1 i hi hilen hie
                  rwa [hpp] at this
                rw [hswap_getD_other hie (by omega)]
                exact le_trans (le_of_lt hc) hle1
              · rw [hswap_getD_other (by omega) hpp,
                    hswap_getD_other hie h_ne_par]
                exact h1 i hi hilen hie
        · -- grandparent slack at the new hole
          intro c hc0 hclen hcp hp0
          rw [hswap_length] at hclen
          have hgp : ((idx - 1) / 2 - 1) / 2 < (idx - 1) / 2 := by omega
          rw [hswap_getD_other (by omega) (by omega)]
          by_cases hce : c = idx
          · subst hce
            rw [hvi]
            exact h1 _ hp0 hparlen (by omega)
          · rw [hswap_getD_other hce (by omega)]
            have hc1 : (l.getD ((idx - 1) / 2) dE).2 ≤ (l.getD c dE).2 := by
              have := h1 c hc0 hclen hce
              rwa [hcp] at this
            exact le_trans (h1 _ hp0 hparlen (by omega)) hc1
      · rw [if_neg hc]
        intro i hi hilen
        by_cases hie : i = idx
        · subst hie
          exact le_of_not_lt hc
        · exact h1 i hi hilen hie

theorem heapPush_length (l : List (Nat × ℚ)) (e : Nat × ℚ) :
    (heapPush l e).length = l.length + 1 := by
  unfold heapPush
  rw [bubbleUpGo_length]
  simp

theorem heapPush_perm (l : List (Nat × ℚ)) (e : Nat × ℚ) :
    (heapPush l e).Perm (e :: l) := by
  unfold heapPush
  exact (bubbleUpGo_perm _ _ _ (by simp)).trans
    (List.perm_append_singleton e l)

theorem heapPush_inv {l : List (Nat × ℚ)} {e : Nat × ℚ}
    (hinv : heapInvP l) : heapInvP (heapPush l e) := by
  unfold heapPush
  refine bubbleUpGo_inv _ _ _ ⟨?_, ?_⟩ (by simp) (by simp)
  · intro i hi hilen hne
    rw [List.length_append, List.length_singleton] at hilen
    have hil : i < l.length := by omega
    rw [List.getD_append _ _ _ _ hil, List.getD_append _ _ _ _ (by omega)]
    exact hinv i hi hil
  · intro c hc0 hclen hcp _
    rw [List.length_append, List.length_singleton] at hclen
    exact ((by omega : False)).elim

theorem heap_root_le {l : List (Nat × ℚ)} (hinv : heapInvP l) :
    ∀ i, i < l.length → (l.getD 0 dE).2 ≤ (l.getD i dE).2 := by
  intro i
  induction i using Nat.strong_induction_on with
  | _ i ih =>
    intro hilen
    cases Nat.eq_zero_or_pos i with
    | inl h0 => subst h0; exact le_refl _
    | inr hpos =>
      have hpar : (i - 1) / 2 < i := by omega
      exact le_trans (ih _ hpar (lt_trans hpar hilen)) (hinv i hpos hilen)

theorem heap_root_le_mem {l : List (Nat × ℚ)} (hinv : heapInvP l) :
    ∀ x ∈ l, (l.getD 0 dE).2 ≤ x.2 := by
  intro x hx
  obtain ⟨i, hi, heq⟩ := List.mem_iff_getElem.mp hx
  have := heap_root_le hinv i hi
  rwa [List.getD_eq_getElem _ _ hi, heq] at this

theorem bdTarget_spec (items : List (Nat × ℚ)) (idx : Nat) :
    (bdTarget items idx = idx ∧
      (∀ c, c < items.length → (c - 1) / 2 = idx → idx < c →
        (items.getD idx dE).2 ≤ (items.getD c dE).2)) ∨
    (bdTarget items idx < items.length ∧ idx < bdTarget items idx ∧
      (bdTarget items idx - 1) / 2 = idx ∧
      (items.getD (bdTarget items idx) dE).2 < (items.getD idx dE).2 ∧
      (∀ c, c < items.length → (c - 1) / 2 = idx → idx < c →
        (items.getD (bdTarget items idx) dE).2 ≤
          (items.getD c dE).2)) := by
  unfold bdTarget bdS1
  by_cases h1 : 2 * idx + 1 < items.length ∧
      (items.getD (2 * idx + 1) dE).2 < (items.getD idx dE).2
  · rw [if_pos h1]
    by_cases h2 : 2 * idx + 2 < items.length ∧
        (items.getD (2 * idx + 2) dE).2 < (items.getD (2 * idx + 1) dE).2
    · rw [if_pos h2]
      refine Or.inr ⟨h2.1, by omega, by omega,
        lt_trans h2.2 h1.2, ?_⟩
      intro c hclen hcp hcgt
      have : c = 2 * idx + 1 ∨ c = 2 * idx + 2 := by omega
      rcases this with hc | hc <;> subst hc
      · exact le_of_lt h2.2
      · exact le_refl _
    · rw [if_neg h2]
      refine Or.inr ⟨h1.1, by omega, by omega, h1.2, ?_⟩
      intro c hclen hcp hcgt
      have : c = 2 * idx + 1 ∨ c = 2 * idx + 2 := by omega
      rcases this with hc | hc <;> subst hc
      · exact le_refl _
      · have : ¬ (items.getD (2 * idx + 2) dE).2 <
            (items.getD (2 * idx + 1) dE).2 := fun hlt => h2 ⟨hclen, hlt⟩
        exact le_of_not_lt this
  · rw [if_neg h1]
    by_cases h2 : 2 * idx + 2 < items.length ∧
        (items.getD (2 * idx + 2) dE).2 < (items.getD idx dE).2
    · rw [if_pos h2]
      refine Or.inr ⟨h2.1, by omega, by omega, h2.2, ?_⟩
      intro c hclen hcp hcgt
      have : c = 2 * idx + 1 ∨ c = 2 * idx + 2 := by omega
      rcases this with hc | hc <;> subst hc
      · have hge : ¬ (items.getD (2 * idx + 1) dE).2 <
            (items.getD idx dE).2 := fun hlt => h1 ⟨hclen, hlt⟩
        exact le_trans (le_of_lt h2.2) (le_of_not_lt hge)
      · exact le_refl _
    · rw [if_neg h2]
      refine Or.inl ⟨rfl, ?_⟩
      intro c hclen hcp hcgt
      have : c = 2 * idx + 1 ∨ c = 2 * idx + 2 := by omega
      rcases this with hc | hc <;> subst hc
      · exact le_of_not_lt (fun hlt => h1 ⟨hclen, hlt⟩)
      · exact le_of_not_lt (fun hlt => h2 ⟨hclen, hlt⟩)

theorem bubbleDownGo_length : ∀ (fuel : Nat) (l : List (Nat × ℚ))
    (idx : Nat), (bubbleDownGo fuel l idx).length = l.length := by
  intro fuel
  induction fuel with
  | zero => intro l idx; rfl
  | succ fuel ih =>
    intro l idx
    unfold bubbleDownGo
    by_cases h : bdTarget l idx = idx
    · rw [if_pos h]
    · rw [if_neg h, ih, hswap_length]

theorem bubbleDownGo_perm : ∀ (fuel : Nat) (l : List (Nat × ℚ))
    (idx : Nat), idx < l.length → (bubbleDownGo fuel l idx).Perm l := by
  intro fuel
  induction fuel with
  | zero => intro l idx _; exact List.Perm.refl _
  | succ fuel ih =>
    intro l idx hidx
    unfold bubbleDownGo
    by_cases h : bdTarget l idx = idx
    · rw [if_pos h]
    · rw [if_neg h]
      rcases bdTarget_spec l idx with ⟨he, _⟩ | ⟨htlen, htgt, _, _, _⟩
      · exact absurd he h
      · exact (ih _ _ (by rw [hswap_length]; exact htlen)).trans
          (hswap_perm (by omega) hidx htlen)

theorem bubbleDownGo_inv : ∀ (fuel : Nat) (l : List (Nat × ℚ))
    (idx : Nat), DownInv l idx → l.length ≤ fuel + idx →
    heapInvP (bubbleDownGo fuel l idx) := by
  intro fuel
  induction fuel with
  | zero =>
    intro l idx hdown hf
    obtain ⟨h1, _⟩ := hdown
    show heapInvP l
    intro i hi hilen
    refine h1 i hi hilen ?_
    intro hpe
    omega
  | succ fuel ih =>
    intro l idx hdown hf
    obtain ⟨h1, h2⟩ := hdown
    unfold bubbleDownGo
    by_cases h : bdTarget l idx = idx
    · rw [if_pos h]
      rcases bdTarget_spec l idx with ⟨_, hmin⟩ | ⟨_, htgt, _, _, _⟩
      · intro i hi hilen
        by_cases hpe : (i - 1) / 2 = idx
        · rw [hpe]
          exact hmin i hilen hpe (by omega)
        · exact h1 i hi hilen hpe
      · omega
    · rw [if_neg h]
      rcases bdTarget_spec l idx with ⟨he, _⟩ | ⟨htlen, htgt, htpar, htlt, htmin⟩
      · exact absurd he h
      · have hidx : idx < l.length := lt_trans htgt htlen
        have hne : idx ≠ bdTarget l idx := by omega
        have hvi := hswap_getD_fst hne hidx
        have hvt := hswap_getD_snd (l := l) (i := idx) htlen
        refine ih _ _ ⟨?_, ?_⟩ (by rw [hswap_length]; omega)
        · -- heap shape away from the edges out of the new hole
          intro i hi hilen hpnet
          rw [hswap_length] at hilen
          by_cases hit : i = bdTarget l idx
          · subst hit
            rw [htpar, hvi, hvt]
            exact le_of_lt htlt
          · by_cases hie : i = idx
            · subst hie
              have hp0 : 0 < i := hi
              have hparne : (i - 1) / 2 ≠ i := by omega
              rw [hswap_getD_other hparne (by omega), hvi]
              exact h2 _ (by omega) htlen htpar hi
            · by_cases hpe : (i - 1) / 2 = idx
              · rw [hpe, hvi]
                rw [hswap_getD_other hie hit]
                exact htmin i hilen hpe (by omega)
              · rw [hswap_getD_other (by omega) hpnet,
                    hswap_getD_other hie hit]
                exact h1 i hi hilen hpe
        · -- parent slack at the new hole
          intro c hc0 hclen hcp ht0
          rw [hswap_length] at hclen
          rw [htpar, hvi]
          have hcgt : bdTarget l idx < c := by omega
          rw [hswap_getD_other (by omega) (by omega)]
          have := h1 c hc0 hclen (by omega)
          rwa [hcp] at this

/-- `l.dropLast ++ [l.getD (l.length - 1) d] = l` for nonempty `l`. -/
theorem dropLast_getD_app {α : Type} : ∀ (l : List α) (x d : α),
    (x :: l).dropLast ++ [(x :: l).getD ((x :: l).length - 1) d] =
      x :: l := by
  intro l
  induction l with
  | nil => intro x d; rfl
  | cons y t ih =>
    intro x d
    rw [show (x :: y :: t).dropLast = x :: (y :: t).dropLast from rfl,
        show (x :: y :: t).length - 1 = (y :: t).length from rfl,
        show (x :: y :: t).getD ((y :: t).length) d =
          (y :: t).getD ((y :: t).length - 1 + 1 - 1) d from by
            rw [Nat.sub_add_cancel (by simp)]; rfl]
    rw [Nat.sub_add_cancel (by simp [Nat.succ_le_of_lt])]
    rw [List.cons_append, ih y d]

theorem getD_dropLast {α : Type} (l : List α) (m : Nat) (d : α)
    (h : m < l.dropLast.length) : l.dropLast.getD m d = l.getD m d := by
  cases l with
  | nil => rfl
  | cons x ls =>
    conv_rhs => rw [← dropLast_getD_app ls x d]
    rw [List.getD_append _ _ _ _ h]

theorem heapPop_spec : ∀ {l : List (Nat × ℚ)}, heapInvP l → l ≠ [] →
    ∃ rest, heapPop l = (some (l.getD 0 dE), rest) ∧
      ((l.getD 0 dE) :: rest).Perm l ∧ heapInvP rest ∧
      rest.length + 1 = l.length := by
  intro l hinv hne
  cases l with
  | nil => exact absurd rfl hne
  | cons top t =>
    cases t with
    | nil =>
      refine ⟨[], rfl, List.Perm.refl _, ?_, rfl⟩
      intro i hi hilen
      simp at hilen
    | cons b t2 =>
      have hdl : (top :: b :: t2).dropLast = top :: (b :: t2).dropLast := rfl
      have hdllen : ((top :: b :: t2).dropLast).length = t2.length + 1 := by
        rw [List.length_dropLast]
        rfl
      have hpos : 0 < ((top :: b :: t2).dropLast).length := by omega
      have hlastv : (top :: b :: t2).getD ((top :: b :: t2).length - 1) dE =
          (b :: t2).getD ((b :: t2).length - 1) dE := rfl
      have hsplit : (b :: t2).dropLast ++
          [(b :: t2).getD ((b :: t2).length - 1) dE] = b :: t2 :=
        dropLast_getD_app t2 b dE
      have hl0 : (top :: b :: t2).dropLast.set 0
            ((top :: b :: t2).getD ((top :: b :: t2).length - 1) dE) =
          (b :: t2).getD ((b :: t2).length - 1) dE :: (b :: t2).dropLast := by
        rw [hdl, hlastv]
        rfl
      have hpop : heapPop (top :: b :: t2) = (some top,
          bubbleDownGo ((top :: b :: t2).dropLast.length)
            ((top :: b :: t2).dropLast.set 0
              ((top :: b :: t2).getD ((top :: b :: t2).length - 1) dE)) 0) := by
        show (if 0 < ((top :: b :: t2).dropLast).length then
            (some top, bubbleDownGo ((top :: b :: t2).dropLast.length)
              ((top :: b :: t2).dropLast.set 0
                ((top :: b :: t2).getD ((top :: b :: t2).length - 1) dE)) 0)
          else (some top, (top :: b :: t2).dropLast)) = _
        rw [if_pos hpos]
      have hl0len : ((top :: b :: t2).dropLast.set 0
            ((top :: b :: t2).getD ((top :: b :: t2).length - 1) dE)).length =
          t2.length + 1 := by
        rw [List.length_set]
        exact hdllen
      have htop : (top :: b :: t2).getD 0 dE = top := rfl
      -- interior entries of the shifted list agree with the original
      have hmid : ∀ j, 0 < j → j < t2.length + 1 →
          ((top :: b :: t2).dropLast.set 0
              ((top :: b :: t2).getD ((top :: b :: t2).length - 1) dE)).getD
            j dE = (top :: b :: t2).getD j dE := by
        intro j hj hjlen
        rw [getD_set_ne_g (by omega)]
        rw [getD_dropLast _ _ _ (by omega)]
      refine ⟨bubbleDownGo ((top :: b :: t2).dropLast.length)
        ((top :: b :: t2).dropLast.set 0
          ((top :: b :: t2).getD ((top :: b :: t2).length - 1) dE)) 0,
        ?_, ?_, ?_, ?_⟩
      · rw [htop]
        exact hpop
      · -- permutation: top :: rest ~ original
        rw [htop]
        have hp1 := bubbleDownGo_perm ((top :: b :: t2).dropLast.length)
          ((top :: b :: t2).dropLast.set 0
            ((top :: b :: t2).getD ((top :: b :: t2).length - 1) dE)) 0
          (by rw [hl0len]; omega)
        have hp2 : ((b :: t2).getD ((b :: t2).length - 1) dE ::
            (b :: t2).dropLast).Perm
            ((b :: t2).dropLast ++
              [(b :: t2).getD ((b :: t2).length - 1) dE]) :=
          (List.perm_append_singleton _ _).symm
        have hp3 := (hp1.trans (hl0 ▸ hp2)).cons top
        rw [hsplit] at hp3
        exact hp3
      · -- heap invariant on the popped heap
        refine bubbleDownGo_inv _ _ _ ⟨?_, ?_⟩ (by rw [hl0len]; omega)
        · intro i hi hilen hpe
          rw [hl0len] at hilen
          rw [hmid i hi hilen, hmid _ (by omega) (by omega)]
          exact hinv i hi (by simp; omega)
        · intro c hc0 hclen hcp h0
          exact ((by omega : False)).elim
      · rw [bubbleDownGo_length, hl0len]
        rfl


theorem drainGo_spec : ∀ (fuel : Nat) (heap acc : List (Nat × ℚ)),
    heapInvP heap →
    List.Pairwise (fun a b => a.2 ≤ b.2) acc →
    (∀ a ∈ acc, ∀ h2 ∈ heap, a.2 ≤ h2.2) →
    List.Pairwise (fun a b => a.2 ≤ b.2) (drainGo fuel heap acc) ∧
    (drainGo fuel heap acc).length ≤ acc.length + fuel ∧
    (↑(drainGo fuel heap acc) : Multiset (Nat × ℚ)) ≤ ↑acc + ↑heap := by
  intro fuel
  induction fuel with
  | zero =>
    intro heap acc _ hacc _
    exact ⟨hacc, Nat.le_add_right _ 0, Multiset.le_add_right _ _⟩
  | succ fuel ih =>
    intro heap acc hinv hacc hcross
    cases heap with
    | nil =>
      refine ⟨hacc, ?_, Multiset.le_add_right _ _⟩
      show acc.length ≤ acc.length + (fuel + 1)
      omega
    | cons x t =>
      obtain ⟨rest, hpop, hperm, hrinv, hrlen⟩ :=
        heapPop_spec hinv (by simp)
      have htop : (x :: t).getD 0 dE = x := rfl
      rw [htop] at hpop hperm
      have hred : drainGo (fuel + 1) (x :: t) acc =
          drainGo fuel rest (acc ++ [x]) := by
        show (match heapPop (x :: t) with
          | (some top, rest) => drainGo fuel rest (acc ++ [top])
          | (none, _) => acc) = _
        rw [hpop]
      rw [hred]
      have hx_mem : x ∈ x :: t := by simp
      have hroot := heap_root_le_mem hinv
      rw [htop] at hroot
      have hrsub : ∀ y ∈ rest, y ∈ x :: t :=
        fun y hy => hperm.subset (by simp [hy])
      have hacc2 : List.Pairwise (fun a b => a.2 ≤ b.2) (acc ++ [x]) := by
        rw [List.pairwise_append]
        refine ⟨hacc, List.pairwise_singleton _ _, ?_⟩
        intro a ha b hb
        rw [List.mem_singleton] at hb
        rw [hb]
        exact hcross a ha x hx_mem
      have hcross2 : ∀ a ∈ acc ++ [x], ∀ h2 ∈ rest, a.2 ≤ h2.2 := by
        intro a ha h2 hh2
        rcases List.mem_append.mp ha with ha | ha
        · exact hcross a ha h2 (hrsub h2 hh2)
        · rw [List.mem_singleton] at ha
          rw [ha]
          exact hroot h2 (hrsub h2 hh2)
      obtain ⟨hs, hl, hm⟩ := ih rest (acc ++ [x]) hrinv hacc2 hcross2
      refine ⟨hs, ?_, ?_⟩
      · rw [List.length_append, List.length_singleton] at hl
        omega
      · refine le_trans hm (le_of_eq ?_)
        rw [show ((acc ++ [x] : List (Nat × ℚ)) : Multiset (Nat × ℚ)) =
          ↑acc + ↑[x] from rfl, add_assoc,
          show ((↑[x] : Multiset (Nat × ℚ)) + ↑rest) = ↑(x :: rest)
            from rfl,
          Multiset.coe_eq_coe.mpr hperm]

theorem queryStep_spec {k : Nat} {heap : List (Nat × ℚ)} {e : Nat × ℚ}
    (hk : 1 ≤ k) (hinv : heapInvP heap) (hlen : heap.length ≤ k) :
    heapInvP (queryStep k heap e) ∧ (queryStep k heap e).length ≤ k ∧
    ∀ (base : Multiset (Nat × ℚ)),
      (↑heap : Multiset (Nat × ℚ)) ≤ base →
      (↑(queryStep k heap e) : Multiset (Nat × ℚ)) ≤ e ::ₘ base := by
  unfold queryStep
  by_cases h1 : heap.length < k
  · rw [if_pos h1]
    refine ⟨heapPush_inv hinv, by rw [heapPush_length]; omega, ?_⟩
    intro base hb
    rw [show ((heapPush heap e : List (Nat × ℚ)) : Multiset (Nat × ℚ)) =
      ↑(e :: heap) from Multiset.coe_eq_coe.mpr (heapPush_perm heap e)]
    exact Multiset.cons_le_cons e hb
  · rw [if_neg h1]
    by_cases h2 : (heap.getD 0 dE).2 < e.2
    · rw [if_pos h2]
      have hne : heap ≠ [] := by
        intro h
        subst h
        simp at h1
        omega
      obtain ⟨rest, hpop, hperm, hrinv, hrlen⟩ := heapPop_spec hinv hne
      have hsnd : (heapPop heap).2 = rest := by rw [hpop]
      rw [hsnd]
      refine ⟨heapPush_inv hrinv, by rw [heapPush_length]; omega, ?_⟩
      intro base hb
      rw [show ((heapPush rest e : List (Nat × ℚ)) : Multiset (Nat × ℚ)) =
        ↑(e :: rest) from Multiset.coe_eq_coe.mpr (heapPush_perm rest e)]
      have hsub : (↑rest : Multiset (Nat × ℚ)) ≤ ↑heap := by
        have hla := Multiset.le_cons_self (↑rest : Multiset (Nat × ℚ))
          (heap.getD 0 dE)
        have heco : (heap.getD 0 dE ::ₘ (↑rest : Multiset (Nat × ℚ))) =
            ↑heap := Multiset.coe_eq_coe.mpr hperm
        rw [heco] at hla
        exact hla
      exact Multiset.cons_le_cons e (le_trans hsub hb)
    · rw [if_neg h2]
      exact ⟨hinv, hlen,
        fun base hb => le_trans hb (Multiset.le_cons_self _ _)⟩

theorem queryFold_spec : ∀ (es : List (Nat × ℚ))
    (heap : List (Nat × ℚ)) (k : Nat), 1 ≤ k → heapInvP heap →
    heap.length ≤ k →
    heapInvP (es.foldl (queryStep k) heap) ∧
    (es.foldl (queryStep k) heap).length ≤ k ∧
    ∀ (base : Multiset (Nat × ℚ)),
      (↑heap : Multiset (Nat × ℚ)) ≤ base →
      (↑(es.foldl (queryStep k) heap) : Multiset (Nat × ℚ)) ≤
        base + ↑es := by
  intro es
  induction es with
  | nil =>
    intro heap k _ hinv hlen
    refine ⟨hinv, hlen, ?_⟩
    intro base hb
    show (↑heap : Multiset (Nat × ℚ)) ≤ base + ↑([] : List (Nat × ℚ))
    simpa using hb
  | cons e es ih =>
    intro heap k hk hinv hlen
    obtain ⟨hinv1, hlen1, hms1⟩ := queryStep_spec (e := e) hk hinv hlen
    obtain ⟨hinv2, hlen2, hms2⟩ := ih (queryStep k heap e) k hk hinv1
      hlen1
    refine ⟨hinv2, hlen2, ?_⟩
    intro base hb
    refine le_trans (hms2 (e ::ₘ base) (hms1 base hb)) (le_of_eq ?_)
    show e ::ₘ base + ↑es = base + ↑(e :: es)
    rw [show ((e :: es : List (Nat × ℚ)) : Multiset (Nat × ℚ)) =
      e ::ₘ (↑es : Multiset (Nat × ℚ)) from rfl,
      ← Multiset.singleton_add, ← Multiset.singleton_add,
      ← add_assoc, add_comm base ({e} : Multiset (Nat × ℚ))]

/-- C6: the cache path of `LocalVectorDB.query` returns at most `k`
entries, sorted by score descending, without duplicate ids, and every
returned entry carries the id and score of one of the scanned records
(`dot q v` for cosine; for euclidean the negated squared distance,
order-equivalent to the source's negated distance). -/
theorem c6_vector_query (dist : VDist) (qv : List ℚ) (k : Nat)
    (recs : List (Nat × List ℚ)) (hk : 1 ≤ k)
    (hnd : (recs.map (fun r => r.1)).Nodup) :
    (queryCache dist qv k recs).length ≤ k ∧
    List.Pairwise (fun a b => b.2 ≤ a.2) (queryCache dist qv k recs) ∧
    ((queryCache dist qv k recs).map (fun e => e.1)).Nodup ∧
    ∀ e ∈ queryCache dist qv k recs, ∃ r, r ∈ recs ∧
      e = (r.1, scoreOf dist qv r.2) := by
  have hqc : queryCache dist qv k recs =
      (drainGo ((recs.map (fun r => (r.1, scoreOf dist qv r.2))).foldl
          (queryStep k) []).length
        ((recs.map (fun r => (r.1, scoreOf dist qv r.2))).foldl
          (queryStep k) []) []).reverse := rfl
  obtain ⟨hinv, hlen, hms⟩ := queryFold_spec
    (recs.map (fun r => (r.1, scoreOf dist qv r.2))) [] k hk
    (by intro i hi hilen; simp at hilen) (Nat.zero_le k)
  have hmsE := hms 0 (le_refl 0)
  rw [zero_add] at hmsE
  obtain ⟨hsorted, hdlen, hdms⟩ := drainGo_spec
    ((recs.map (fun r => (r.1, scoreOf dist qv r.2))).foldl
      (queryStep k) []).length
    ((recs.map (fun r => (r.1, scoreOf dist qv r.2))).foldl
      (queryStep k) []) [] hinv List.Pairwise.nil
    (by intro a ha; simp at ha)
  rw [show ((([] : List (Nat × ℚ)) : Multiset (Nat × ℚ)) = 0) from rfl,
    zero_add] at hdms
  have hDms := le_trans hdms hmsE
  refine ⟨?_, ?_, ?_, ?_⟩
  · rw [hqc, List.length_reverse]
    simp at hdlen
    omega
  · rw [hqc, List.pairwise_reverse]
    exact hsorted
  · rw [hqc, ← Multiset.coe_nodup, ← Multiset.map_coe,
      Multiset.coe_reverse]
    refine Multiset.nodup_of_le (Multiset.map_le_map hDms) ?_
    rw [Multiset.map_coe]
    rw [show (recs.map (fun r => (r.1, scoreOf dist qv r.2))).map
        (fun e => e.1) = recs.map (fun r => r.1) from by
      rw [List.map_map]
      rfl]
    rw [Multiset.coe_nodup]
    exact hnd
  · intro e he
    rw [hqc, List.mem_reverse] at he
    have hmem : e ∈ (↑(recs.map (fun r => (r.1, scoreOf dist qv r.2))) :
        Multiset (Nat × ℚ)) :=
      Multiset.mem_of_le hDms (by rw [Multiset.mem_coe]; exact he)
    rw [Multiset.mem_coe] at hmem
    obtain ⟨r, hr, hre⟩ := List.mem_map.mp hmem
    exact ⟨r, hr, hre.symm⟩

/-- C6 witness: querying `[1]` for the top 2 of records
`5 ↦ [1], 7 ↦ [3], 9 ↦ [2]` under cosine scoring satisfies all four
claimed properties. -/
theorem c6_vector_query_witness :
    (1 ≤ 2 ∧ ([(5, [(1 : ℚ)]), (7, [(3 : ℚ)]), (9, [(2 : ℚ)])].map
        (fun r => r.1)).Nodup) ∧
    ((queryCache VDist.cosine [(1 : ℚ)] 2
        [(5, [(1 : ℚ)]), (7, [(3 : ℚ)]), (9, [(2 : ℚ)])]).length ≤ 2 ∧
      List.Pairwise (fun a b => b.2 ≤ a.2)
        (queryCache VDist.cosine [(1 : ℚ)] 2
          [(5, [(1 : ℚ)]), (7, [(3 : ℚ)]), (9, [(2 : ℚ)])]) ∧
      ((queryCache VDist.cosine [(1 : ℚ)] 2
          [(5, [(1 : ℚ)]), (7, [(3 : ℚ)]), (9, [(2 : ℚ)])]).map
        (fun e => e.1)).Nodup ∧
      ∀ e ∈ queryCache VDist.cosine [(1 : ℚ)] 2
          [(5, [(1 : ℚ)]), (7, [(3 : ℚ)]), (9, [(2 : ℚ)])], ∃ r,
        r ∈ [(5, [(1 : ℚ)]), (7, [(3 : ℚ)]), (9, [(2 : ℚ)])] ∧
        e = (r.1, scoreOf VDist.cosine [(1 : ℚ)] r.2)) :=
  ⟨⟨by decide, by decide⟩,
    c6_vector_query VDist.cosine [(1 : ℚ)] 2
      [(5, [(1 : ℚ)]), (7, [(3 : ℚ)]), (9, [(2 : ℚ)])]
      (by decide) (by decide)⟩

/-- C2 counterexample: the round trip is not bit-for-bit.  On
`D = {state: {a: {y: 2, x: 1}}, plots: []}`, the successful call
`deepSet("a", {x: 1})` yields `apply = [remove /state/a/y]` and
`revert = [add /state/a/y 2]`; applying `apply` then `revert` to `D`
re-appends the key `y` after `x`, producing `{a: {x: 1, y: 2}}`, whose JSON
serialization differs from `D`'s beyond whitespace. -/
theorem c2_counterexample_key_order :
    ((wsDeepSet ⟨Json.obj [("a", Json.obj [("y", Json.num 2), ("x", Json.num 1)])], []⟩
        "a" (Json.obj [("x", Json.num 1)])).map (fun r =>
      (applyOps (WS.doc ⟨Json.obj [("a", Json.obj [("y", Json.num 2), ("x", Json.num 1)])], []⟩)
          r.2.apply).bind
        (fun X => applyOps X r.2.revert)))
      = some (.ok (WS.doc ⟨Json.obj [("a", Json.obj [("x", Json.num 1), ("y", Json.num 2)])], []⟩)) ∧
    WS.doc ⟨Json.obj [("a", Json.obj [("x", Json.num 1), ("y", Json.num 2)])], []⟩
      ≠ WS.doc ⟨Json.obj [("a", Json.obj [("y", Json.num 2), ("x", Json.num 1)])], []⟩ := by
  exact ⟨by decide, by decide⟩


end NotDungeon
